import Mathlib

/-! # GoLLuM: the packages `ringchain`, `openai` and `scrolls`

A shallow embedding of `ringchain/store.go`, `ringchain/graph.go`,
`ringchain/stack.go`, `ringchain/node.go`, `ringchain/errors.go` and
`ringchain/worker_pool.go` (graph store, cycle prevention, graph construction and
execution), followed by the chat completion options of `openai` and by
`Scroll.ParseBlocks` of `scrolls`, each in its own namespace.

Conventions of the embedding:

* A Go `map[K]V` is an association list `GoMap K V`.  Lookup reads the first
  entry of a key, assignment overwrites it or appends a new entry, `delete`
  removes every entry of the key.  The order in which `range` visits a map is
  the order of the list; Go leaves that order unspecified, and the theorems
  below that speak about every store hold for every list, hence every order.
* A Go `error` result is an `Option Error` (`none` is `nil`).
* A method that mutates its receiver returns the new receiver next to its
  results.
* The mutex of `memoryStore` is not modelled: every method is one atomic step.
* The node values stored by the graph are an arbitrary type `N` whose
  `default` element stands for the zero value (`nil`) of the `Node` interface.
-/

namespace ringchain

/-! ## Go maps -/

/-- Association list standing for a Go `map[K]V`. -/
abbrev GoMap (K V : Type) := List (K × V)

namespace GoMap

variable {K V : Type} [DecidableEq K]

/-- The two-valued index expression `v, ok := m[k]` (`none` when `ok` is false). -/
def lookup : GoMap K V → K → Option V
  | [], _ => none
  | (k', v) :: r, k => if k' = k then some v else lookup r k

/-- The test `_, ok := m[k]`. -/
def has (m : GoMap K V) (k : K) : Bool := (lookup m k).isSome

/-- The assignment `m[k] = v`. -/
def set : GoMap K V → K → V → GoMap K V
  | [], k, v => [(k, v)]
  | (k', v') :: r, k, v => if k' = k then (k, v) :: r else (k', v') :: set r k v

/-- The builtin `delete(m, k)`. -/
def delete (m : GoMap K V) (k : K) : GoMap K V :=
  m.filter (fun p => decide (p.1 ≠ k))

/-- The keys of the map in the order `range` visits them. -/
def keys (m : GoMap K V) : List K := m.map Prod.fst

/-- The builtin `len(m)`. -/
def len (m : GoMap K V) : Nat := m.length

/-- The one-valued index expression `m[k]` on a map of maps: a missing key yields
the nil map, which reads like the empty map. -/
def inner {W : Type} (m : GoMap K (GoMap K W)) (k : K) : GoMap K W :=
  (lookup m k).getD []

end GoMap

/-! ## errors.go -/

/-- The sentinel errors of `errors.go`, and `wrap msg err` for the value of
`fmt.Errorf(msg + ": %w", err)`. -/
inductive Error where
  | ErrNodeNotFound
  | ErrNodeAlreadyExists
  | ErrEdgeNotFound
  | ErrEdgeAlreadyExists
  | ErrEdgeCreatesCycle
  | ErrNodeHasEdges
  | ErrGraphNotInit
  | wrap (msg : String) (err : Error)
  deriving DecidableEq, Repr

namespace Error

/-- The method `Error()`: the message of an error. -/
def message : Error → String
  | ErrNodeNotFound => "vertex not found"
  | ErrNodeAlreadyExists => "vertex already exists"
  | ErrEdgeNotFound => "edge not found"
  | ErrEdgeAlreadyExists => "edge already exists"
  | ErrEdgeCreatesCycle => "edge would create a cycle"
  | ErrNodeHasEdges => "vertex has edges"
  | ErrGraphNotInit => "graph not Init()"
  | wrap msg err => msg ++ ": " ++ message err

/-- The chain walk of `errors.Is` on a non-nil error: the error itself, then what it wraps. -/
def isErr : Error → Error → Bool
  | wrap msg err, target => decide (wrap msg err = target) || isErr err target
  | e, target => decide (e = target)

end Error

/-- The library function `errors.Is(err, target)`; a nil `err` matches no target. -/
def errorsIs : Option Error → Error → Bool
  | none, _ => false
  | some e, target => Error.isErr e target

/-! ## node.go -/

/-- The struct `Edge`. -/
structure Edge where
  SourceHash : String
  TargetHash : String
  deriving DecidableEq, Repr

/-! ## stack.go -/

/-- The struct `stack[T]`: `elements` in slice order (the top is the last element) and the
`registry` set. -/
structure stack (T : Type) where
  elements : List T
  registry : GoMap T Unit

namespace stack

variable {T : Type} [DecidableEq T]

def newStack : stack T := { elements := [], registry := [] }

def push (s : stack T) (t : T) : stack T :=
  { elements := s.elements ++ [t], registry := GoMap.set s.registry t () }

def isEmpty (s : stack T) : Bool := s.elements.length == 0

def top [Inhabited T] (s : stack T) : T × Bool :=
  if s.isEmpty then (default, false)
  else (s.elements.getLastD default, true)

def pop [Inhabited T] (s : stack T) : stack T × T × Bool :=
  match s.top with
  | (element, false) => (s, element, false)
  | (element, true) =>
    ({ elements := s.elements.take (s.elements.length - 1),
       registry := GoMap.delete s.registry element }, element, true)

end stack

/-! ## store.go -/

/-- The struct `memoryStore` without its lock. -/
structure memoryStore (N : Type) where
  vertices : GoMap String N
  outEdges : GoMap String (GoMap String Edge)
  inEdges : GoMap String (GoMap String Edge)

def newMemoryStore {N : Type} : memoryStore N :=
  { vertices := [], outEdges := [], inEdges := [] }

namespace memoryStore

variable {N : Type}

def AddNode (s : memoryStore N) (k : String) (t : N) : memoryStore N × Option Error :=
  if GoMap.has s.vertices k then (s, some Error.ErrNodeAlreadyExists)
  else ({ s with vertices := GoMap.set s.vertices k t }, none)

def ListNodes (s : memoryStore N) : List String × Option Error :=
  (GoMap.keys s.vertices, none)

def NodeCount (s : memoryStore N) : Nat × Option Error :=
  (GoMap.len s.vertices, none)

def Node [Inhabited N] (s : memoryStore N) (k : String) : N × Option Error :=
  match GoMap.lookup s.vertices k with
  | none => (default, some Error.ErrNodeNotFound)
  | some v => (v, none)

/-- The second half of `RemoveNode`: the out-edge check and the deletion of the node. -/
def RemoveNode.outPart (s : memoryStore N) (k : String) : memoryStore N × Option Error :=
  match GoMap.lookup s.outEdges k with
  | some edges =>
    if GoMap.len edges > 0 then (s, some Error.ErrNodeHasEdges)
    else ({ s with outEdges := GoMap.delete s.outEdges k,
                   vertices := GoMap.delete s.vertices k }, none)
  | none => ({ s with vertices := GoMap.delete s.vertices k }, none)

def RemoveNode (s : memoryStore N) (k : String) : memoryStore N × Option Error :=
  if !GoMap.has s.vertices k then (s, some Error.ErrNodeNotFound)
  else
    match GoMap.lookup s.inEdges k with
    | some edges =>
      if GoMap.len edges > 0 then (s, some Error.ErrNodeHasEdges)
      else RemoveNode.outPart { s with inEdges := GoMap.delete s.inEdges k } k
    | none => RemoveNode.outPart s k

def AddEdge (s : memoryStore N) (sourceHash targetHash : String) (edge : Edge) :
    memoryStore N × Option Error :=
  let out1 := if GoMap.has s.outEdges sourceHash then s.outEdges
              else GoMap.set s.outEdges sourceHash []
  let out2 := GoMap.set out1 sourceHash (GoMap.set (GoMap.inner out1 sourceHash) targetHash edge)
  let in1 := if GoMap.has s.inEdges targetHash then s.inEdges
             else GoMap.set s.inEdges targetHash []
  let in2 := GoMap.set in1 targetHash (GoMap.set (GoMap.inner in1 targetHash) sourceHash edge)
  ({ s with outEdges := out2, inEdges := in2 }, none)

def Edge (s : memoryStore N) (sourceHash targetHash : String) : ringchain.Edge × Option Error :=
  match GoMap.lookup s.outEdges sourceHash with
  | none => ({ SourceHash := "", TargetHash := "" }, some Error.ErrEdgeNotFound)
  | some sourceEdges =>
    match GoMap.lookup sourceEdges targetHash with
    | none => ({ SourceHash := "", TargetHash := "" }, some Error.ErrEdgeNotFound)
    | some edge => (edge, none)

/-- The method `UpdateEdge`.  The result is `none` when the call panics: an assignment
`m[a][b] = e` whose inner map `m[a]` is nil is a run-time panic in Go. -/
def UpdateEdge (s : memoryStore N) (sourceHash targetHash : String) (edge : ringchain.Edge) :
    Option (memoryStore N × Option Error) :=
  match (s.Edge sourceHash targetHash).2 with
  | some err => some (s, some err)
  | none =>
    match GoMap.lookup s.outEdges sourceHash, GoMap.lookup s.inEdges targetHash with
    | some outs, some ins =>
      some ({ s with outEdges := GoMap.set s.outEdges sourceHash (GoMap.set outs targetHash edge),
                     inEdges := GoMap.set s.inEdges targetHash (GoMap.set ins sourceHash edge) },
            none)
    | _, _ => none

/-- The statement `delete(m[a], b)`: deleting from a nil inner map does nothing, and
the outer map gets no new key. -/
def deleteInner (m : GoMap String (GoMap String ringchain.Edge)) (a b : String) :
    GoMap String (GoMap String ringchain.Edge) :=
  match GoMap.lookup m a with
  | none => m
  | some edges => GoMap.set m a (GoMap.delete edges b)

def RemoveEdge (s : memoryStore N) (sourceHash targetHash : String) :
    memoryStore N × Option Error :=
  ({ s with inEdges := deleteInner s.inEdges targetHash sourceHash,
            outEdges := deleteInner s.outEdges sourceHash targetHash }, none)

def ListEdges (s : memoryStore N) : List ringchain.Edge × Option Error :=
  (s.outEdges.flatMap (fun p => p.2.map Prod.snd), none)

/-- The statement `for adjacency := range s.inEdges[currentHash] { stack.push(adjacency) }`. -/
def CreatesCycle.pushAll (st : stack String) (adjacent : List String) : stack String :=
  adjacent.foldl stack.push st

/-- The loop `for !stack.isEmpty() { ... }` of `CreatesCycle`, run for at most `fuel`
iterations: `some b` when the loop ends within them and the function returns `b`,
`none` when iterations remain. -/
def CreatesCycle.loop (inEdges : GoMap String (GoMap String ringchain.Edge)) (target : String) :
    Nat → stack String → GoMap String Unit → Option Bool
  | fuel, st, visited =>
    if st.isEmpty then some false
    else
      match fuel with
      | 0 => none
      | fuel + 1 =>
        let (st1, currentHash, _) := st.pop
        if !GoMap.has visited currentHash then
          if currentHash = target then some true
          else
            CreatesCycle.loop inEdges target fuel
              (CreatesCycle.pushAll st1 (GoMap.keys (GoMap.inner inEdges currentHash)))
              (GoMap.set visited currentHash ())
        else CreatesCycle.loop inEdges target fuel st1 visited

/-- The number of entries of the in-edge index, summed over all its keys. -/
def inEdgeCount (inEdges : GoMap String (GoMap String ringchain.Edge)) : Nat :=
  (inEdges.map (fun p => GoMap.len p.2)).sum

/-- An iteration budget that the loop of `CreatesCycle` never exhausts
(`CreatesCycle.loop_terminates`): one iteration for the start node and one for each
stored in-edge. -/
def CreatesCycle.bound (s : memoryStore N) : Nat := 1 + inEdgeCount s.inEdges

/-- The method `CreatesCycle`.  The loop is run with the budget `CreatesCycle.bound`,
which it never exhausts, so the `getD` default is never taken. -/
def CreatesCycle [Inhabited N] (s : memoryStore N) (source target : String) :
    Bool × Option Error :=
  match (s.Node source).2 with
  | some err => (false, some (Error.wrap ("could not get vertex with hash " ++ source) err))
  | none =>
    match (s.Node target).2 with
    | some err => (false, some (Error.wrap ("could not get vertex with hash " ++ target) err))
    | none =>
      if source = target then (true, none)
      else
        ((CreatesCycle.loop s.inEdges target (CreatesCycle.bound s)
            (stack.push stack.newStack source) []).getD false, none)

end memoryStore

/-! ## graph.go -/

/-- The struct `Graph`; `NewGraph` always installs a `memoryStore`. -/
structure Graph (N : Type) where
  store : memoryStore N

def NewGraph {N : Type} : Graph N := { store := newMemoryStore }

namespace Graph

variable {N : Type} [Inhabited N]

def AddNode (g : Graph N) (name : String) (node : N) : Graph N × Option Error :=
  let hash := name
  let (st, err) := g.store.AddNode hash node
  ({ store := st }, err)

def Node (g : Graph N) (hash : String) : N × Option Error :=
  g.store.Node hash

def Edge (g : Graph N) (sourceHash targetHash : String) : ringchain.Edge × Option Error :=
  match g.store.Edge sourceHash targetHash with
  | (_, some err) => ({ SourceHash := "", TargetHash := "" }, some err)
  | (edge, none) => (edge, none)

def createsCycle (g : Graph N) (source target : String) : Bool × Option Error :=
  g.store.CreatesCycle source target

def AddEdge (g : Graph N) (sourceHash targetHash : String) : Graph N × Option Error :=
  match (g.store.Node sourceHash).2 with
  | some err => (g, some (Error.wrap ("source node " ++ sourceHash) err))
  | none =>
    match (g.store.Node targetHash).2 with
    | some err => (g, some (Error.wrap ("target node " ++ targetHash) err))
    | none =>
      if !errorsIs (g.Edge sourceHash targetHash).2 Error.ErrEdgeNotFound then
        (g, some Error.ErrEdgeAlreadyExists)
      else
        match g.createsCycle sourceHash targetHash with
        | (_, some err) => (g, some (Error.wrap "check for cycles" err))
        | (true, none) => (g, some Error.ErrEdgeCreatesCycle)
        | (false, none) =>
          let edge : ringchain.Edge := { SourceHash := sourceHash, TargetHash := targetHash }
          let (st, err) := g.store.AddEdge sourceHash targetHash edge
          ({ store := st }, err)

end Graph

end ringchain

/-! ## The properties stated about stores and graphs -/

namespace ringchain

namespace memoryStore

variable {N : Type}

/-- The out-edge index holds `e` at `outEdges[s][t]`. -/
def outHolds (st : memoryStore N) (s t : String) (e : ringchain.Edge) : Prop :=
  GoMap.lookup (GoMap.inner st.outEdges s) t = some e

/-- The in-edge index holds `e` at `inEdges[t][s]`. -/
def inHolds (st : memoryStore N) (t s : String) (e : ringchain.Edge) : Prop :=
  GoMap.lookup (GoMap.inner st.inEdges t) s = some e

/-- The two adjacency indices mirror each other. -/
def Symmetric (st : memoryStore N) : Prop :=
  ∀ s t e, st.outHolds s t e ↔ st.inHolds t s e

/-- An edge from `s` to `t` is stored. -/
def HasEdge (st : memoryStore N) (s t : String) : Prop :=
  ∃ e, st.outHolds s t e

/-- A non-empty path of stored edges leads from `a` to `b`. -/
def Path (st : memoryStore N) (a b : String) : Prop :=
  Relation.TransGen st.HasEdge a b

/-- No non-empty path of stored edges leads from a node back to itself. -/
def Acyclic (st : memoryStore N) : Prop :=
  ∀ x, ¬ st.Path x x

/-- The identity `k` is in the node table. -/
def IsNode (st : memoryStore N) (k : String) : Prop :=
  GoMap.has st.vertices k = true

instance (st : memoryStore N) (s t : String) (e : ringchain.Edge) :
    Decidable (st.outHolds s t e) :=
  inferInstanceAs (Decidable (GoMap.lookup (GoMap.inner st.outEdges s) t = some e))

instance (st : memoryStore N) (t s : String) (e : ringchain.Edge) :
    Decidable (st.inHolds t s e) :=
  inferInstanceAs (Decidable (GoMap.lookup (GoMap.inner st.inEdges t) s = some e))

instance (st : memoryStore N) (k : String) : Decidable (st.IsNode k) :=
  inferInstanceAs (Decidable (GoMap.has st.vertices k = true))

instance (st : memoryStore N) (s t : String) : Decidable (st.HasEdge s t) :=
  decidable_of_iff ((GoMap.lookup (GoMap.inner st.outEdges s) t).isSome = true)
    (by simp [HasEdge, outHolds, Option.isSome_iff_exists])

/-- The predecessor relation read by `CreatesCycle`: `p` is a key of `inEdges[c]`. -/
def InE (inEdges : GoMap String (GoMap String ringchain.Edge)) (p c : String) : Prop :=
  p ∈ GoMap.keys (GoMap.inner inEdges c)

/-- The in-edges stored under keys that `CreatesCycle` has not expanded yet. -/
def CreatesCycle.pending (inEdges : GoMap String (GoMap String ringchain.Edge))
    (visited : GoMap String Unit) : Nat :=
  ((inEdges.filter (fun p => !GoMap.has visited p.1)).map (fun p => GoMap.len p.2)).sum

/-- A call of the `Store` interface on `memoryStore`. -/
inductive Call (N : Type) where
  | addNode (k : String) (t : N)
  | removeNode (k : String)
  | addEdge (sourceHash targetHash : String) (edge : ringchain.Edge)
  | updateEdge (sourceHash targetHash : String) (edge : ringchain.Edge)
  | removeEdge (sourceHash targetHash : String)

/-- The store after one call, whatever the call returned; `none` when the call panics. -/
def step (s : memoryStore N) : Call N → Option (memoryStore N)
  | Call.addNode k t => some (s.AddNode k t).1
  | Call.removeNode k => some (s.RemoveNode k).1
  | Call.addEdge a b e => some (s.AddEdge a b e).1
  | Call.updateEdge a b e => (s.UpdateEdge a b e).map Prod.fst
  | Call.removeEdge a b => some (s.RemoveEdge a b).1

/-- The store after a sequence of calls; `none` when one of them panics. -/
def run (s : memoryStore N) : List (Call N) → Option (memoryStore N)
  | [] => some s
  | c :: cs => (s.step c).bind (fun s1 => run s1 cs)

end memoryStore

namespace Graph

variable {N : Type} [Inhabited N]

/-- A call of the construction API of `Graph`. -/
inductive Call (N : Type) where
  | addNode (name : String) (node : N)
  | addEdge (sourceHash targetHash : String)

/-- The graph after one call, whatever the call returned. -/
def step (g : Graph N) : Call N → Graph N
  | Call.addNode name node => (g.AddNode name node).1
  | Call.addEdge a b => (g.AddEdge a b).1

/-- The graph after a sequence of calls. -/
def run (g : Graph N) (calls : List (Call N)) : Graph N :=
  calls.foldl step g

/-- The graph is the result of `AddNode` and `AddEdge` calls on a new graph. -/
def Built (g : Graph N) : Prop :=
  ∃ calls : List (Call N), g = run NewGraph calls

end Graph

end ringchain

namespace ringchain

/-- Node values used in examples: `some name` stands for the value `TestNode{name: name}` of
`graph_test.go`, and `none` (the `default`) for the nil interface. -/
abbrev TestNode := Option String

namespace Graph

variable {N : Type} [Inhabited N]

/-- The loop `for _, node := range nodes { err := graph.AddNode(...) }`: the graph after the
calls and the error of each call. -/
def addNodes (g : Graph N) : List (String × N) → Graph N × List (Option Error)
  | [] => (g, [])
  | (name, node) :: rest =>
    let r := g.AddNode name node
    let rs := addNodes r.1 rest
    (rs.1, r.2 :: rs.2)

end Graph

end ringchain

namespace ringchain

/-- The graph of nodes `1`, `2`, `3` with the edges `1 → 2` and `2 → 3`. -/
def chainGraph : Graph TestNode :=
  Graph.run NewGraph
    [Graph.Call.addNode "1" (some "1"), Graph.Call.addNode "2" (some "2"),
     Graph.Call.addNode "3" (some "3"), Graph.Call.addEdge "1" "2", Graph.Call.addEdge "2" "3"]

/-- The store of `chainGraph` with one more node `4`, which has no edge. -/
def chainStore : memoryStore TestNode :=
  (chainGraph.AddNode "4" (some "4")).1.store

end ringchain

/-! ## graph.go: adjacency snapshots -/

namespace ringchain

namespace Graph

variable {N : Type}

/-- The loop `for _, node := range vertices { m[node] = make(map[string]Edge) }`. -/
def emptyAdjacency (vertices : List String) : GoMap String (GoMap String ringchain.Edge) :=
  vertices.foldl (fun m node => GoMap.set m node []) []

/-- The statement `m[edge.SourceHash][edge.TargetHash] = edge` of `SuccessorMap`; `none` is
the panic of an assignment into the nil map `m[edge.SourceHash]`. -/
def SuccessorMap.insert (m : GoMap String (GoMap String ringchain.Edge)) (edge : ringchain.Edge) :
    Option (GoMap String (GoMap String ringchain.Edge)) :=
  match GoMap.lookup m edge.SourceHash with
  | none => none
  | some targets =>
    some (GoMap.set m edge.SourceHash (GoMap.set targets edge.TargetHash edge))

/-- The method `SuccessorMap`; `none` when the call panics. -/
def SuccessorMap (g : Graph N) :
    Option (GoMap String (GoMap String ringchain.Edge) × Option Error) :=
  match g.store.ListNodes with
  | (_, some err) => some ([], some (Error.wrap "failed to list vertices" err))
  | (vertices, none) =>
    match g.store.ListEdges with
    | (_, some err) => some ([], some (Error.wrap "failed to list edges" err))
    | (edges, none) =>
      (edges.foldlM SuccessorMap.insert (emptyAdjacency vertices)).map (fun m => (m, none))

/-- The body of the edge loop of `PredecessorMap`: the target key is created when it is
missing, then `m[edge.TargetHash][edge.SourceHash] = edge`. -/
def PredecessorMap.insert (m : GoMap String (GoMap String ringchain.Edge))
    (edge : ringchain.Edge) : GoMap String (GoMap String ringchain.Edge) :=
  let m1 := if GoMap.has m edge.TargetHash then m else GoMap.set m edge.TargetHash []
  GoMap.set m1 edge.TargetHash (GoMap.set (GoMap.inner m1 edge.TargetHash) edge.SourceHash edge)

/-- The method `PredecessorMap`. -/
def PredecessorMap (g : Graph N) : GoMap String (GoMap String ringchain.Edge) × Option Error :=
  match g.store.ListNodes with
  | (_, some err) => ([], some (Error.wrap "failed to list vertices" err))
  | (vertices, none) =>
    match g.store.ListEdges with
    | (_, some err) => ([], some (Error.wrap "failed to list edges" err))
    | (edges, none) => (edges.foldl PredecessorMap.insert (emptyAdjacency vertices), none)

/-- The stored maps have no repeated key, and every stored edge is filed under its own
endpoints, which are nodes. -/
def WellFormed (g : Graph N) : Prop :=
  (GoMap.keys g.store.vertices).Nodup ∧
  (GoMap.keys g.store.outEdges).Nodup ∧
  (∀ s m, (s, m) ∈ g.store.outEdges → (GoMap.keys m).Nodup) ∧
  (∀ s t e, g.store.outHolds s t e →
    e = { SourceHash := s, TargetHash := t } ∧ g.store.IsNode s ∧ g.store.IsNode t)

end Graph

end ringchain

/-! ## worker_pool.go and `Graph.Execute`

`Execute` runs one coordinator and `numWorkers` worker goroutines.  The coordinator is
sequential code; what the workers and the context do is given to the model as a schedule, a
list of steps:

* `Step.cancel`: the context passed to `Execute` is cancelled;
* `Step.take`: an idle worker receives the oldest job of the job queue not yet received;
* `Step.finish j`: the worker that holds job `j` returns from `node.Run` and blocks on its
  send, on the result channel of the job or on the error channel;
* `Step.poll c`: the coordinator runs one iteration of its loop and its `select` takes case
  `c`, which has to be ready (`Choice.default` is taken only when no case is ready);
* `Step.stop b`: the loop has ended and the coordinator calls `Stop` and `Wait`; `b` tells
  whether `Wait` returns the error of a worker that saw the cancelled context.

`node.Run` is a function `Run` of the node value and the input.  The result channel of a job
is identified by the number of the job in the order of the sends to the job queue, and the
field `jobQueue` holds every job sent so far, oldest first.  The state also keeps a `trace` of
the calls of `AddNodeJob`, the writes to the result table and the calls of `Stop` and `Wait`,
in the order in which the coordinator performs them. -/

namespace ringchain

/-- The type `map[string]any` of node inputs and outputs; `V` is the type of the values. -/
abbrev Args (V : Type) := GoMap String V

/-- The library function `maps.Copy(dst, src)`, `for k, v := range src { dst[k] = v }`: the
loop visits the keys of `src`, each with the value `src[k]`. -/
def mapsCopy {V : Type} (dst src : Args V) : Args V :=
  (GoMap.keys src).foldl
    (fun m k => match GoMap.lookup src k with
      | some v => GoMap.set m k v
      | none => m) dst

/-- What a call `node.Run(ctx, logger, args)` does: it returns a result map and a nil error,
returns a non-nil error, or panics (as a call on the nil interface does). -/
inductive RunResult (V E : Type) where
  | ok (res : Args V)
  | error (err : E)
  | panic

/-- The struct `nodeJob` without its logger; `Result` is the number of the result channel. -/
structure nodeJob (N V : Type) where
  Args : ringchain.Args V
  Node : N
  Result : Nat

/-- The struct `runningNode`; `Result` is the number of the result channel. -/
structure runningNode where
  NodeHash : String
  Result : Nat
  deriving DecidableEq, Repr

/-- The struct `workerPool`; `jobQueue` holds every job sent so far, oldest first. -/
structure workerPool (N V : Type) where
  numWorkers : Int
  queueSize : Nat
  jobQueue : List (nodeJob N V)
  runningNodes : List runningNode

namespace workerPool

variable {N V : Type}

/-- The function `newWorkerPool`; `none` is the panic of `make(chan bool, numWorkers)` on a
negative size. -/
def newWorkerPool (numWorkers : Int) (queueSize : Nat) : Option (workerPool N V) :=
  if numWorkers < 0 then none
  else some { numWorkers := numWorkers, queueSize := queueSize, jobQueue := [],
              runningNodes := [] }

def NumRunningNodes (p : workerPool N V) : Nat := p.runningNodes.length

def AppendRunningNode (p : workerPool N V) (r : runningNode) : workerPool N V :=
  { p with runningNodes := p.runningNodes ++ [r] }

/-- The method `PopRunningNode`; `none` is the index panic on an empty list. -/
def PopRunningNode (p : workerPool N V) : Option (runningNode × workerPool N V) :=
  match p.runningNodes with
  | [] => none
  | r :: rest => some (r, { p with runningNodes := rest })

def AddNodeJob (p : workerPool N V) (nodeHash : String) (node : N) (args : Args V) :
    workerPool N V :=
  let resultChan := p.jobQueue.length
  { p with jobQueue := p.jobQueue ++ [{ Args := args, Node := node, Result := resultChan }],
           runningNodes := p.runningNodes ++ [{ NodeHash := nodeHash, Result := resultChan }] }

end workerPool

/-- The struct `GraphExecuteOptions`. -/
structure GraphExecuteOptions where
  NumWorkers : Int

def WithNumWorkers (n : Int) : GraphExecuteOptions → GraphExecuteOptions :=
  fun opts => { opts with NumWorkers := n }

/-- The options of a call of `Execute`: the default `NumWorkers: 10`, then
`for _, opt := range opts { opt(&options) }`. -/
def GraphExecuteOptions.of (opts : List (GraphExecuteOptions → GraphExecuteOptions)) :
    GraphExecuteOptions :=
  opts.foldl (fun o opt => opt o) { NumWorkers := 10 }

/-- What the coordinator does that others can observe, in the order of the trace. -/
inductive Event (V : Type) where
  | submit (nodeHash : String) (job : Nat) (args : Args V)
  | result (nodeHash : String) (res : Args V)
  | stop
  | wait
  deriving DecidableEq, Repr

/-- The errors `Execute` returns: an error of the store, the error `ctx.Err()` of the
cancelled context, or the error a node returned, as it was returned. -/
inductive ExecError (E : Type) where
  | store (err : Error)
  | ctx
  | node (err : E)
  deriving DecidableEq, Repr

/-- The cases of the `select` statement of the coordinator loop. -/
inductive Choice where
  | ctxDone
  | errChan (job : Nat)
  | result
  | default
  deriving DecidableEq, Repr

/-- The steps of a schedule. -/
inductive Step where
  | cancel
  | take
  | finish (job : Nat)
  | poll (c : Choice)
  | stop (sawCancel : Bool)
  deriving DecidableEq, Repr

/-- The step is an iteration of the coordinator loop. -/
def Step.isPoll : Step → Bool
  | Step.poll _ => true
  | _ => false

/-- The local variables of `Execute`, the state of the context and of the workers
(`ctxDone`, `taken`, `busy`, `finished`), and the trace. -/
structure execState (N V : Type) where
  pool : workerPool N V
  predecessorMap : GoMap String (GoMap String Edge)
  nodeResults : GoMap String (Args V)
  nodeInputMap : GoMap String (Args V)
  ctxDone : Bool
  taken : Nat
  busy : Nat
  finished : List Nat
  trace : List (Event V)

/-- How a run of `Execute` under a schedule ends. -/
inductive Outcome (N V E : Type) where
  /-- The statement `return nodeResults, nil`. -/
  | returned (nodeResults : GoMap String (Args V)) (final : execState N V)
  /-- A statement `return nil, err`. -/
  | failed (err : ExecError E) (final : execState N V)
  /-- The schedule ends before `Execute` returns. -/
  | running (st : execState N V)
  /-- The schedule asks for a step that cannot happen in the state it is asked in. -/
  | infeasible
  /-- A panic ends the process. -/
  | panicked

namespace Outcome

variable {N V E : Type}

/-- The result table `Execute` returns, when it returns one. -/
def results? : Outcome N V E → Option (GoMap String (Args V))
  | returned nodeResults _ => some nodeResults
  | _ => none

/-- The error `Execute` returns, when it returns one. -/
def error? : Outcome N V E → Option (ExecError E)
  | failed err _ => some err
  | _ => none

/-- The state in which the run ends or stands. -/
def state? : Outcome N V E → Option (execState N V)
  | returned _ final => some final
  | failed _ final => some final
  | running st => some st
  | _ => none

/-- The state in which the run stands, when the schedule ends before `Execute` returns. -/
def running? : Outcome N V E → Option (execState N V)
  | running st => some st
  | _ => none

/-- The trace of the run up to the state in which it ends or stands. -/
def trace? (o : Outcome N V E) : Option (List (Event V)) :=
  o.state?.map (fun st => st.trace)

end Outcome

namespace Graph

variable {N V E : Type} [Inhabited N]

/-- The statements
`node, err := g.Node(nodeHash); if err != nil { return nil, err };
workerPool.AddNodeJob(logger, nodeHash, node, input); delete(predecessorMap, nodeHash)`. -/
def Execute.submit (g : Graph N) (st : execState N V) (nodeHash : String) (input : Args V) :
    Except Error (execState N V) :=
  match g.Node nodeHash with
  | (_, some err) => Except.error err
  | (node, none) =>
    Except.ok { st with
      pool := st.pool.AddNodeJob nodeHash node input,
      predecessorMap := GoMap.delete st.predecessorMap nodeHash,
      trace := st.trace ++ [Event.submit nodeHash st.pool.jobQueue.length input] }

/-- The loop `for nodeHash, predecessors := range predecessorMap` before the coordinator
loop, over the keys of the map at the start of the loop; a key deleted meanwhile is skipped. -/
def Execute.roots (g : Graph N) (args : Args V) :
    List String → execState N V → Except Error (execState N V)
  | [], st => Except.ok st
  | nodeHash :: rest, st =>
    match GoMap.lookup st.predecessorMap nodeHash with
    | none => Execute.roots g args rest st
    | some predecessors =>
      if GoMap.len predecessors == 0 then
        match Execute.submit g st nodeHash args with
        | Except.error err => Except.error err
        | Except.ok st1 => Execute.roots g args rest st1
      else Execute.roots g args rest st

/-- The statement `if _, ok := predecessors[runningNode.NodeHash]; ok { ... }` of the result
case, for the key `nodeHash` and its map `predecessors`: the result of the finished node is
copied into the input of `nodeHash` and the finished node is deleted from `predecessors`. -/
def Execute.strike (st : execState N V) (nodeHash finishedHash : String) (res : Args V)
    (predecessors : GoMap String ringchain.Edge) : execState N V :=
  if GoMap.has predecessors finishedHash then
    let nodeInputMap1 :=
      if GoMap.has st.nodeInputMap nodeHash then st.nodeInputMap
      else GoMap.set st.nodeInputMap nodeHash []
    { st with
      nodeInputMap :=
        GoMap.set nodeInputMap1 nodeHash (mapsCopy (GoMap.inner nodeInputMap1 nodeHash) res),
      predecessorMap :=
        GoMap.set st.predecessorMap nodeHash (GoMap.delete predecessors finishedHash) }
  else st

/-- The loop `for nodeHash, predecessors := range predecessorMap` of the result case, for the
finished node `finishedHash` and its result `res`. -/
def Execute.release (g : Graph N) (finishedHash : String) (res : Args V) :
    List String → execState N V → Except Error (execState N V)
  | [], st => Except.ok st
  | nodeHash :: rest, st =>
    match GoMap.lookup st.predecessorMap nodeHash with
    | none => Execute.release g finishedHash res rest st
    | some predecessors =>
      let st1 := Execute.strike st nodeHash finishedHash res predecessors
      if GoMap.len (GoMap.inner st1.predecessorMap nodeHash) == 0 then
        match Execute.submit g st1 nodeHash (GoMap.inner st1.nodeInputMap nodeHash) with
        | Except.error err => Except.error err
        | Except.ok st2 => Execute.release g finishedHash res rest st2
      else Execute.release g finishedHash res rest st1

/-- The error that the worker holding job `j` is blocked sending on the error channel. -/
def Execute.errReady (Run : N → Args V → RunResult V E) (st : execState N V) (j : Nat) :
    Option E :=
  if j ∈ st.finished then
    match st.pool.jobQueue[j]? with
    | some job =>
      match Run job.Node job.Args with
      | RunResult.error err => some err
      | _ => none
    | none => none
  else none

/-- The result that a worker is blocked sending on the result channel `c`. -/
def Execute.resultReady (Run : N → Args V → RunResult V E) (st : execState N V) (c : Nat) :
    Option (Args V) :=
  if c ∈ st.finished then
    match st.pool.jobQueue[c]? with
    | some job =>
      match Run job.Node job.Args with
      | RunResult.ok res => some res
      | _ => none
    | none => none
  else none

/-- Some worker is blocked sending on the error channel. -/
def Execute.anyErrReady (Run : N → Args V → RunResult V E) (st : execState N V) : Bool :=
  st.finished.any (fun j => (Execute.errReady Run st j).isSome)

/-- One step of a schedule: an event of the context or of a worker, one iteration of the
coordinator loop `for workerPool.NumRunningNodes() > 0 { ... }`, or the statements after the
loop.  The outcome `running st` says that the run goes on from `st`. -/
def Execute.step (Run : N → Args V → RunResult V E) (g : Graph N) (st : execState N V) :
    Step → Outcome N V E
  | Step.cancel => Outcome.running { st with ctxDone := true }
  | Step.take =>
    if st.taken < st.pool.jobQueue.length ∧ (st.busy : Int) < st.pool.numWorkers then
      Outcome.running { st with taken := st.taken + 1, busy := st.busy + 1 }
    else Outcome.infeasible
  | Step.finish j =>
    if j < st.taken ∧ j ∉ st.finished then
      match st.pool.jobQueue[j]? with
      | none => Outcome.infeasible
      | some job =>
        match Run job.Node job.Args with
        | RunResult.panic => Outcome.panicked
        | _ => Outcome.running { st with finished := st.finished ++ [j] }
    else Outcome.infeasible
  | Step.poll c =>
    if st.pool.NumRunningNodes > 0 then
      match st.pool.PopRunningNode with
      | none => Outcome.panicked
      | some (running, pool1) =>
        match c with
        | Choice.ctxDone =>
          if st.ctxDone then Outcome.failed ExecError.ctx { st with pool := pool1 }
          else Outcome.infeasible
        | Choice.errChan j =>
          match Execute.errReady Run st j with
          | some err => Outcome.failed (ExecError.node err) { st with pool := pool1 }
          | none => Outcome.infeasible
        | Choice.result =>
          match Execute.resultReady Run st running.Result with
          | none => Outcome.infeasible
          | some res =>
            let st1 : execState N V :=
              { st with
                pool := pool1,
                busy := st.busy - 1,
                nodeResults := GoMap.set st.nodeResults running.NodeHash res,
                trace := st.trace ++ [Event.result running.NodeHash res] }
            match Execute.release g running.NodeHash res (GoMap.keys st1.predecessorMap) st1 with
            | Except.error err => Outcome.failed (ExecError.store err) st1
            | Except.ok st2 => Outcome.running st2
        | Choice.default =>
          if st.ctxDone = false ∧ Execute.anyErrReady Run st = false ∧
              (Execute.resultReady Run st running.Result).isNone then
            Outcome.running { st with pool := pool1.AppendRunningNode running }
          else Outcome.infeasible
    else Outcome.infeasible
  | Step.stop sawCancel =>
    if st.pool.NumRunningNodes > 0 then Outcome.infeasible
    else
      let st1 : execState N V := { st with trace := st.trace ++ [Event.stop, Event.wait] }
      if sawCancel then
        if st.ctxDone = true ∧ 0 < st.pool.numWorkers then Outcome.failed ExecError.ctx st1
        else Outcome.infeasible
      else Outcome.returned st1.nodeResults st1

/-- The run of `Execute` from the state `st` under a schedule. -/
def Execute.loop (Run : N → Args V → RunResult V E) (g : Graph N) :
    execState N V → List Step → Outcome N V E
  | st, [] => Outcome.running st
  | st, s :: rest =>
    match Execute.step Run g st s with
    | Outcome.running st1 => Execute.loop Run g st1 rest
    | o => o

/-- The local variables and the surroundings of `Execute` before the first loop. -/
def Execute.start (pool : workerPool N V)
    (predecessorMap : GoMap String (GoMap String ringchain.Edge)) : execState N V :=
  { pool := pool, predecessorMap := predecessorMap, nodeResults := [], nodeInputMap := [],
    ctxDone := false, taken := 0, busy := 0, finished := [], trace := [] }

/-- The method `Execute` under a schedule. -/
def Execute (Run : N → Args V → RunResult V E) (g : Graph N) (args : Args V)
    (opts : List (GraphExecuteOptions → GraphExecuteOptions)) (schedule : List Step) :
    Outcome N V E :=
  let options := GraphExecuteOptions.of opts
  let noPool : workerPool N V :=
    { numWorkers := options.NumWorkers, queueSize := 0, jobQueue := [], runningNodes := [] }
  match g.PredecessorMap with
  | (_, some err) => Outcome.failed (ExecError.store err) (Execute.start noPool [])
  | (predecessorMap, none) =>
    match g.store.NodeCount with
    | (_, some err) => Outcome.failed (ExecError.store err) (Execute.start noPool [])
    | (nodeCount, none) =>
      match workerPool.newWorkerPool options.NumWorkers nodeCount with
      | none => Outcome.panicked
      | some pool =>
        match Execute.roots g args (GoMap.keys predecessorMap)
            (Execute.start pool predecessorMap) with
        | Except.error err =>
          Outcome.failed (ExecError.store err) (Execute.start pool predecessorMap)
        | Except.ok st1 => Execute.loop Run g st1 schedule

end Graph

/-! ## Example nodes -/

/-- Node values for examples of `Execute`: `test name` is `TestNode{name: name}` of
`graph_test.go`, `broken name` is `ErrorNode{name: name}`, `fixed out` is a node whose `Run`
returns the map `out` whatever its input, and `nil` is the nil interface. -/
inductive SampleNode where
  | test (name : String)
  | broken (name : String)
  | fixed (out : Args Bool)
  | nil
  deriving DecidableEq, Repr

instance : Inhabited SampleNode := ⟨SampleNode.nil⟩

/-- The methods `Run` of the example nodes, with `Bool` values and error messages. -/
def SampleNode.Run : SampleNode → Args Bool → RunResult Bool String
  | SampleNode.test name, args => RunResult.ok (GoMap.set args ("n_" ++ name) true)
  | SampleNode.broken _, _ => RunResult.error "node is broken."
  | SampleNode.fixed out, _ => RunResult.ok out
  | SampleNode.nil, _ => RunResult.panic

/-- The graph of `TestGraph_Execute/Simple`: the chain `1 → 2` of test nodes. -/
def simpleGraph : Graph SampleNode :=
  Graph.run NewGraph
    [Graph.Call.addNode "1" (SampleNode.test "1"), Graph.Call.addNode "2" (SampleNode.test "2"),
     Graph.Call.addEdge "1" "2"]

/-- The graph of `TestGraph_Execute/Parallel`: the diamond `1 → 2, 1 → 3, 2 → 4, 3 → 4` of
test nodes. -/
def diamondGraph : Graph SampleNode :=
  Graph.run NewGraph
    [Graph.Call.addNode "1" (SampleNode.test "1"), Graph.Call.addNode "2" (SampleNode.test "2"),
     Graph.Call.addNode "3" (SampleNode.test "3"), Graph.Call.addNode "4" (SampleNode.test "4"),
     Graph.Call.addEdge "1" "2", Graph.Call.addEdge "1" "3", Graph.Call.addEdge "2" "4",
     Graph.Call.addEdge "3" "4"]

/-- The field `name` of an example node. -/
def SampleNode.name : SampleNode → String
  | SampleNode.test name => name
  | SampleNode.broken name => name
  | _ => ""

/-- Whether an example node is a `TestNode`. -/
def SampleNode.isTest : SampleNode → Bool
  | SampleNode.test _ => true
  | _ => false

/-- The chain `x → y` of two nodes. -/
def Graph.chainOf {N : Type} [Inhabited N] (x y : String) (n1 n2 : N) : Graph N :=
  Graph.run NewGraph
    [Graph.Call.addNode x n1, Graph.Call.addNode y n2, Graph.Call.addEdge x y]

/-- The chain `1 → 2` in which node `1` returns the map with the one key `out` whatever its
input and node `2` is a test node. -/
def fixedChain : Graph SampleNode :=
  Graph.chainOf "1" "2" (SampleNode.fixed [("out", true)]) (SampleNode.test "2")

/-- The graph of `TestGraph_Execute/Error`, cut down to the one node of it that fails. -/
def brokenGraph : Graph SampleNode :=
  Graph.run NewGraph [Graph.Call.addNode "1" (SampleNode.broken "1")]

/-- The diamond `1 → 2, 1 → 3, 2 → 4, 3 → 4` in which the nodes `2` and `3` write different
values to the same key `x` and node `4` is a test node. -/
def collideGraph : Graph SampleNode :=
  Graph.run NewGraph
    [Graph.Call.addNode "1" (SampleNode.test "1"),
     Graph.Call.addNode "2" (SampleNode.fixed [("x", true)]),
     Graph.Call.addNode "3" (SampleNode.fixed [("x", false)]),
     Graph.Call.addNode "4" (SampleNode.test "4"),
     Graph.Call.addEdge "1" "2", Graph.Call.addEdge "1" "3", Graph.Call.addEdge "2" "4",
     Graph.Call.addEdge "3" "4"]

/-- A schedule for a chain of two nodes: each job is taken by a worker and finishes, and the
coordinator receives its result; then the loop ends. -/
def chainSchedule : List Step :=
  [Step.take, Step.finish 0, Step.poll Choice.result,
   Step.take, Step.finish 1, Step.poll Choice.result, Step.stop false]

/-- A schedule for a diamond in which the two middle jobs finish before the coordinator polls
again, so that their results are received in the order of submission. -/
def diamondSchedule : List Step :=
  [Step.take, Step.finish 0, Step.poll Choice.result,
   Step.take, Step.take, Step.finish 1, Step.finish 2,
   Step.poll Choice.result, Step.poll Choice.result,
   Step.take, Step.finish 3, Step.poll Choice.result, Step.stop false]

/-- A schedule for a diamond in which the middle job submitted second finishes first: the
coordinator finds no result for the job submitted first, puts it back, and receives the two
results in the other order. -/
def diamondScheduleSwapped : List Step :=
  [Step.take, Step.finish 0, Step.poll Choice.result,
   Step.take, Step.take, Step.finish 2,
   Step.poll Choice.default, Step.poll Choice.result,
   Step.finish 1, Step.poll Choice.result,
   Step.take, Step.finish 3, Step.poll Choice.result, Step.stop false]

/-- A schedule for one failing node: the job is taken and fails, the context is cancelled,
and the coordinator loop polls with both the cancellation and the error ready. -/
def raceSchedule : List Step :=
  [Step.take, Step.finish 0, Step.cancel]

/-- The graph of the two nodes `1`, a test node, and `2`, a failing node, without an edge. -/
def raceGraph : Graph SampleNode :=
  Graph.run NewGraph
    [Graph.Call.addNode "1" (SampleNode.test "1"), Graph.Call.addNode "2" (SampleNode.broken "2")]

/-- A schedule for two jobs: both are taken and finish, and then the context is cancelled, so
that the next iteration of the coordinator loop finds the cancellation, the error of the
second job and the result of the first job ready. -/
def twoJobsRaceSchedule : List Step :=
  [Step.take, Step.take, Step.finish 0, Step.finish 1, Step.cancel]

/-- A schedule in which the context is cancelled before a worker takes a job and the
`select` of the first iteration of the coordinator loop takes the context case. -/
def cancelSchedule : List Step :=
  [Step.cancel, Step.poll Choice.ctxDone]

/-- Calls of the `Store` interface after which node `k` has an edge to `b` and an empty
entry in the in-edge index, left there by `RemoveEdge`. -/
def staleEntryCalls : List (memoryStore.Call TestNode) :=
  [memoryStore.Call.addNode "a" (some "a"), memoryStore.Call.addNode "b" (some "b"),
   memoryStore.Call.addNode "k" (some "k"),
   memoryStore.Call.addEdge "a" "k" { SourceHash := "a", TargetHash := "k" },
   memoryStore.Call.removeEdge "a" "k",
   memoryStore.Call.addEdge "k" "b" { SourceHash := "k", TargetHash := "b" }]

end ringchain

/-! ## The properties stated about `Execute` -/

namespace ringchain

namespace Event

variable {V : Type}

/-- The results the coordinator has written to the result table, oldest first. -/
def recs : List (Event V) → List (String × Args V)
  | [] => []
  | result nodeHash res :: t => (nodeHash, res) :: recs t
  | _ :: t => recs t

/-- The jobs the coordinator has submitted, oldest first. -/
def subs : List (Event V) → List (String × Nat × Args V)
  | [] => []
  | submit nodeHash job args :: t => (nodeHash, job, args) :: subs t
  | _ :: t => subs t

end Event

/-- The merge of a list of output maps, oldest first, read at the key `k`: the value of the
last map of the list that has the key (last writer wins). -/
def lastWriter {V : Type} (outs : List (String × Args V)) (k : String) : Option V :=
  outs.foldl (fun acc p => match GoMap.lookup p.2 k with
    | some v => some v
    | none => acc) none

namespace Graph

variable {N V E : Type} [Inhabited N]

/-- The invariant of the coordinator of `Execute` on the graph `g` with the initial input
`args`.  Inside one of the two loops over the predecessor map, `rest` lists the keys still to
visit and `cur` is the key being visited, between the update of its predecessors and the test
`len(predecessors) == 0`; inside the loop of the result case `h` is the node that finished and
`res` its result.  Between the iterations of the coordinator loop `cur` is `none` and `rest` is
empty. -/
structure Execute.Inv (Run : N → Args V → RunResult V E) (g : Graph N) (args : Args V)
    (cur : Option String) (rest : List String) (h : String) (res : Args V)
    (st : execState N V) : Prop where
  results : st.nodeResults = Event.recs st.trace
  recNodup : (GoMap.keys (Event.recs st.trace)).Nodup
  pmNodup : (GoMap.keys st.predecessorMap).Nodup
  subNodup : ((Event.subs st.trace).map Prod.fst).Nodup
  cover : ∀ u, g.store.IsNode u ↔
    (GoMap.has st.predecessorMap u = true ∨ u ∈ (Event.subs st.trace).map Prod.fst)
  disj : ∀ u, GoMap.has st.predecessorMap u = true → u ∉ (Event.subs st.trace).map Prod.fst
  preds : ∀ u p, GoMap.has (GoMap.inner st.predecessorMap u) p = true ↔
    (GoMap.has st.predecessorMap u = true ∧ g.store.HasEdge p u ∧
      (p ∉ GoMap.keys (Event.recs st.trace) ∨ (p = h ∧ u ∈ rest)))
  nonempty : ∀ u, GoMap.has st.predecessorMap u = true → cur ≠ some u →
    (∃ p, GoMap.has (GoMap.inner st.predecessorMap u) p = true) ∨
      (u ∈ rest ∧ Event.recs st.trace = [])
  jobs : st.pool.jobQueue = (Event.subs st.trace).map
    (fun s => { Args := s.2.2, Node := (g.Node s.1).1, Result := s.2.1 })
  ids : (Event.subs st.trace).map (fun s => s.2.1) = List.range (Event.subs st.trace).length
  runNodup : st.pool.runningNodes.Nodup
  running : ∀ r, r ∈ st.pool.runningNodes ↔
    ((∃ a, (r.NodeHash, r.Result, a) ∈ Event.subs st.trace) ∧
      r.NodeHash ∉ GoMap.keys (Event.recs st.trace))
  recorded : ∀ u r, (u, r) ∈ Event.recs st.trace →
    ∃ j a, (u, j, a) ∈ Event.subs st.trace ∧ Run (g.Node u).1 a = RunResult.ok r
  inputs : ∀ u k, GoMap.lookup (GoMap.inner st.nodeInputMap u) k =
    lastWriter ((Event.recs st.trace).filter
      (fun r => decide (g.store.HasEdge r.1 u ∧ ¬ (r.1 = h ∧ u ∈ rest)))) k
  order : ∀ pre post u j a, st.trace = pre ++ Event.submit u j a :: post →
    (∀ p, g.store.HasEdge p u → p ∈ GoMap.keys (Event.recs pre)) ∧
    ((∀ p, ¬ g.store.HasEdge p u) → a = args) ∧
    ((∃ p, g.store.HasEdge p u) → ∀ k, GoMap.lookup a k =
      lastWriter ((Event.recs pre).filter (fun r => decide (g.store.HasEdge r.1 u))) k)
  restNodup : rest.Nodup
  restPending : ∀ u ∈ rest, GoMap.has st.predecessorMap u = true
  last : rest ≠ [] → Event.recs st.trace = [] ∨ ∃ R, Event.recs st.trace = R ++ [(h, res)]

end Graph

end ringchain

namespace ringchain

namespace Graph

variable {N V E : Type} [Inhabited N]

/-- The invariant between the iterations of the coordinator loop. -/
def Execute.Good (Run : N → Args V → RunResult V E) (g : Graph N) (args : Args V)
    (st : execState N V) : Prop :=
  Execute.Inv Run g args none [] "" [] st

/-- What the two loops over the predecessor map leave as it is: the state of the context and
of the workers, the size of the pool, the result table and the jobs already sent. -/
def Execute.Frame (st st1 : execState N V) : Prop :=
  st1.ctxDone = st.ctxDone ∧ st1.taken = st.taken ∧ st1.busy = st.busy ∧
    st1.finished = st.finished ∧ st1.pool.numWorkers = st.pool.numWorkers ∧
    st1.pool.queueSize = st.pool.queueSize ∧ st1.nodeResults = st.nodeResults ∧
    ∃ l, st1.pool.jobQueue = st.pool.jobQueue ++ l

end Graph

end ringchain

/-! # openai: chat completion options and request body

A shallow embedding of `openai/chat_completion_request.go`, `openai/message.go` and
`openai/tool.go`.  A pointer `*T` is an `Option T` (`none` is nil), a slice is a list, a map
is a `GoMap`, `int` is `Int` and `float64` is `Float`; the values are stored and copied,
never computed with.  Of `ChatCompletionCreate` the construction of the request body is
embedded; sending it is the work of the HTTP client.
-/

namespace openai

abbrev RoleType := String

def SystemRoleType : RoleType := "system"

def UserRoleType : RoleType := "user"

def AssistantRoleType : RoleType := "assistant"

def ToolRoleType : RoleType := "tool"

abbrev ToolType := String

abbrev ParameterType := String

abbrev PropertyType := String

abbrev ResponseFormatType := String

/-- The struct `FunctionCall`. -/
structure FunctionCall where
  Name : String
  Arguments : String
  deriving DecidableEq, Repr

/-- The struct `ToolCall`; the field `Type` is written `Type_`. -/
structure ToolCall where
  Id : String
  Type_ : ToolType
  Function : FunctionCall
  deriving DecidableEq, Repr

/-- The struct `Message`. -/
structure Message where
  Content : Option String
  Role : RoleType
  Name : Option String
  ToolCalls : List ToolCall
  ToolCallId : String
  deriving DecidableEq, Repr

/-- The struct `Items`. -/
structure Items where
  Type_ : PropertyType
  deriving DecidableEq, Repr

/-- The struct `Property`. -/
structure Property where
  Type_ : PropertyType
  Description : String
  Enum : List String
  Items : Option Items
  deriving DecidableEq, Repr

/-- The struct `Parameters`. -/
structure Parameters where
  Type_ : ParameterType
  Properties : ringchain.GoMap String Property
  Required : List String
  deriving DecidableEq, Repr

/-- The struct `Function`. -/
structure Function where
  Description : Option String
  Name : String
  Parameters : Parameters
  deriving DecidableEq, Repr

/-- The struct `Tool`. -/
structure Tool where
  Type_ : ToolType
  Function : Function
  deriving DecidableEq, Repr

/-- The struct `ResponseFormat`. -/
structure ResponseFormat where
  Type_ : ResponseFormatType
  deriving DecidableEq, Repr

/-- The struct `ChatCompletionOptions`. -/
structure ChatCompletionOptions where
  frequencyPenalty : Option Float
  logitBias : Option (ringchain.GoMap String Float)
  maxToken : Option Int
  n : Option Int
  presencyPenalty : Option Float
  responseFormat : Option ResponseFormat
  stop : Option (List String)
  stream : Option Bool
  temperature : Option Float
  topP : Option Float
  tools : Option (List Tool)
  toolChoice : Option String
  user : Option String

/-- The composite literal `ChatCompletionOptions{}`: every field is nil. -/
def ChatCompletionOptions.zero : ChatCompletionOptions :=
  { frequencyPenalty := none, logitBias := none, maxToken := none, n := none,
    presencyPenalty := none, responseFormat := none, stop := none, stream := none,
    temperature := none, topP := none, tools := none, toolChoice := none, user := none }

def WithFrequencyPenalty (frequencyPenalty : Float) (opts : ChatCompletionOptions) :
    ChatCompletionOptions :=
  { opts with frequencyPenalty := some frequencyPenalty }

def WithLogitBias (logitBias : ringchain.GoMap String Float) (opts : ChatCompletionOptions) :
    ChatCompletionOptions :=
  { opts with logitBias := some logitBias }

def WithMaxToken (maxToken : Int) (opts : ChatCompletionOptions) : ChatCompletionOptions :=
  { opts with maxToken := some maxToken }

def WithN (n : Int) (opts : ChatCompletionOptions) : ChatCompletionOptions :=
  { opts with n := some n }

def WithPresencyPenalty (presencyPenalty : Float) (opts : ChatCompletionOptions) :
    ChatCompletionOptions :=
  { opts with presencyPenalty := some presencyPenalty }

def WithResponseFormat (responseFormat : ResponseFormat) (opts : ChatCompletionOptions) :
    ChatCompletionOptions :=
  { opts with responseFormat := some responseFormat }

def WithStop (stop : List String) (opts : ChatCompletionOptions) : ChatCompletionOptions :=
  { opts with stop := some stop }

def WithStream (stream : Bool) (opts : ChatCompletionOptions) : ChatCompletionOptions :=
  { opts with stream := some stream }

def WithTemperature (temperature : Float) (opts : ChatCompletionOptions) :
    ChatCompletionOptions :=
  { opts with temperature := some temperature }

def WithTopP (topP : Float) (opts : ChatCompletionOptions) : ChatCompletionOptions :=
  { opts with topP := some topP }

def WithTools (tools : List Tool) (opts : ChatCompletionOptions) : ChatCompletionOptions :=
  { opts with tools := some tools }

def WithToolChoice (toolChoice : String) (opts : ChatCompletionOptions) :
    ChatCompletionOptions :=
  { opts with toolChoice := some toolChoice }

def WithUser (user : String) (opts : ChatCompletionOptions) : ChatCompletionOptions :=
  { opts with user := some user }

/-- The struct `ChatCompletionRequestBody`. -/
structure ChatCompletionRequestBody where
  Messages : List Message
  Model : String
  FrequencyPenalty : Option Float
  LogitBias : Option (ringchain.GoMap String Float)
  MaxToken : Option Int
  N : Option Int
  PresencyPenalty : Option Float
  ResponseFormat : Option ResponseFormat
  Seed : Option Int
  Stop : Option (List String)
  Stream : Option Bool
  Temperature : Option Float
  TopP : Option Float
  Tools : Option (List Tool)
  ToolChoice : Option String
  User : Option String

/-- The fields of `OpenAiImpl` that the request body and its headers are built from. -/
structure OpenAiImpl where
  gptModel : String
  apiKey : String

/-- The loop `for _, o := range opts { o(&options) }` of `ChatCompletionCreate` on
`options := ChatCompletionOptions{}`. -/
def ChatCompletionCreate.options (opts : List (ChatCompletionOptions → ChatCompletionOptions)) :
    ChatCompletionOptions :=
  opts.foldl (fun options o => o options) ChatCompletionOptions.zero

/-- The value `reqBody` that `ChatCompletionCreate` builds and hands to `request`; the field
`Seed`, which the composite literal does not name, is nil. -/
def OpenAiImpl.ChatCompletionCreate.reqBody (o : OpenAiImpl) (messages : List Message)
    (opts : List (ChatCompletionOptions → ChatCompletionOptions)) : ChatCompletionRequestBody :=
  let options := ChatCompletionCreate.options opts
  { Messages := messages,
    Model := o.gptModel,
    FrequencyPenalty := options.frequencyPenalty,
    LogitBias := options.logitBias,
    MaxToken := options.maxToken,
    N := options.n,
    PresencyPenalty := options.presencyPenalty,
    ResponseFormat := options.responseFormat,
    Seed := none,
    Stop := options.stop,
    Stream := options.stream,
    Temperature := options.temperature,
    TopP := options.topP,
    Tools := options.tools,
    ToolChoice := options.toolChoice,
    User := options.user }

end openai

/-! # scrolls: `ParseBlocks`

A shallow embedding of `Scroll.ParseBlocks` of `scrolls/scrolls.go`.  The template engine
`text/template` is a parameter: a function that parses the text of a scroll with its function
map, and a function that executes the parsed template on the arguments.  The call
`re.FindAllStringSubmatch(parsedText, -1)` on the pattern
`(?s)\[\[#(system|user|assistant)~\]\](.*?)\[\[~/(system|user|assistant)\]\]` is embedded as
a scan of the characters of the text: a match starts at the leftmost position at which an
opening tag stands that is followed, anywhere behind it, by a closing tag; the lazy `(.*?)`
ends at the first closing tag behind the opening tag; and the search for the next match goes
on behind the match.
-/

namespace scrolls

/-- The alternatives `(system|user|assistant)` of the pattern, in its order. -/
def roles : List String := ["system", "user", "assistant"]

/-- The text `[[#role~]]`. -/
def openTag (role : String) : List Char :=
  ['[', '[', '#'] ++ role.toList ++ ['~', ']', ']']

/-- The text `[[~/role]]`. -/
def closeTag (role : String) : List Char :=
  ['[', '[', '~', '/'] ++ role.toList ++ [']', ']']

/-- What follows `tag` in `s`, when `s` starts with `tag`. -/
def dropTag : List Char → List Char → Option (List Char)
  | [], s => some s
  | _ :: _, [] => none
  | c :: tag, d :: s => if c = d then dropTag tag s else none

/-- The sub-pattern `\[\[#(system|user|assistant)~\]\]` at the start of `s`: the role and
what follows the tag. -/
def matchOpen (s : List Char) : Option (String × List Char) :=
  roles.findSome? (fun role => (dropTag (openTag role) s).map (fun rest => (role, rest)))

/-- The sub-pattern `\[\[~/(system|user|assistant)\]\]` at the start of `s`: what follows
the tag. -/
def matchClose (s : List Char) : Option (List Char) :=
  roles.findSome? (fun role => dropTag (closeTag role) s)

/-- The sub-pattern `(.*?)\[\[~/(system|user|assistant)\]\]` at the start of `s`: the
shortest content that a closing tag follows, and what follows that tag. -/
def findClose : List Char → Option (List Char × List Char)
  | [] => none
  | c :: s =>
    match matchClose (c :: s) with
    | some rest => some ([], rest)
    | none => (findClose s).map (fun p => (c :: p.1, p.2))

/-- The leftmost match of the pattern in `s`: the role of the opening tag (submatch 1), the
content (submatch 2) and what follows the match. -/
def findMatch : List Char → Option (String × List Char × List Char)
  | [] => none
  | c :: s =>
    match matchOpen (c :: s) with
    | some (role, rest) =>
      match findClose rest with
      | some (content, rest1) => some (role, content, rest1)
      | none => findMatch s
    | none => findMatch s

/-- The successive matches of the pattern, at most `fuel` of them. -/
def findAll : Nat → List Char → List (String × List Char)
  | 0, _ => []
  | fuel + 1, s =>
    match findMatch s with
    | none => []
    | some (role, content, rest) => (role, content) :: findAll fuel rest

/-- The call `re.FindAllStringSubmatch(parsedText, -1)`, with the submatches 1 and 2 of each
match.  A match has at least one character, so a text has no more matches than
characters. -/
def FindAllStringSubmatch (parsedText : String) : List (String × List Char) :=
  findAll parsedText.toList.length parsedText.toList

/-- The call `strings.Trim(content, "\n")`. -/
def trimNewlines (content : List Char) : List Char :=
  ((content.dropWhile (fun c => c == '\n')).reverse.dropWhile (fun c => c == '\n')).reverse

/-- The fields `text` and `funcMap` of the struct `Scroll`. -/
structure Scroll (F : Type) where
  text : String
  funcMap : F

/-- The errors of `ParseBlocks`: `parse err` is
`fmt.Errorf("could not parse template text: %w", err)`, `execute err` is
`fmt.Errorf("could not execute template: %w", err)`, and `noMatches` is
`fmt.Errorf("could not find any message container matches")`. -/
inductive Error (E : Type) where
  | parse (err : E)
  | execute (err : E)
  | noMatches
  deriving DecidableEq, Repr

/-- The message `openai.Message{Role: openai.RoleType(role), Content: &content}`. -/
def blockMessage (role : String) (content : List Char) : openai.Message :=
  { Content := some (String.mk (trimNewlines content)), Role := role, Name := none,
    ToolCalls := [], ToolCallId := "" }

/-- The method `ParseBlocks`. -/
def ParseBlocks {F T A E : Type} (tmplParse : F → String → Except E T)
    (tmplExecute : T → A → Except E String) (s : Scroll F) (args : A) :
    Except (Error E) (List openai.Message) :=
  match tmplParse s.funcMap s.text with
  | Except.error err => Except.error (Error.parse err)
  | Except.ok tmpl =>
    match tmplExecute tmpl args with
    | Except.error err => Except.error (Error.execute err)
    | Except.ok parsedText =>
      let found := FindAllStringSubmatch parsedText
      if found.length < 1 then Except.error Error.noMatches
      else Except.ok (found.map (fun m => blockMessage m.1 m.2))

/-- A template engine for texts without template actions: parsing and executing such a text
yields the text itself. -/
def plainParse (_ : Unit) (text : String) : Except String String := Except.ok text

def plainExecute (tmpl : String) (_ : Unit) : Except String String := Except.ok tmpl

/-- A part of a rendered text as the pattern reads it: the text `gap` in front of an opening
tag, the role of the opening tag, the content, and the role of the closing tag. -/
structure Block where
  gap : List Char
  role : String
  content : List Char
  closeRole : String

/-- The characters of a block. -/
def Block.text (b : Block) : List Char :=
  b.gap ++ openTag b.role ++ b.content ++ closeTag b.closeRole

/-- The two roles of the block are roles of the pattern, no opening tag stands in the gap
and no closing tag stands in the content. -/
def Block.Proper (b : Block) : Prop :=
  b.role ∈ roles ∧ b.closeRole ∈ roles ∧
    (∀ r ∈ roles, ¬ List.IsInfix (openTag r) b.gap) ∧
    (∀ r ∈ roles, ¬ List.IsInfix (closeTag r) b.content)

/-- In `s` no opening tag is followed by a closing tag. -/
def NoBlock (s : List Char) : Prop :=
  ¬ ∃ a r c r1 b, r ∈ roles ∧ r1 ∈ roles ∧ s = a ++ openTag r ++ c ++ closeTag r1 ++ b

end scrolls

/-! ## Lemmas on Go maps -/

namespace ringchain

namespace GoMap

variable {K V : Type} [DecidableEq K]

theorem lookup_set_self (m : GoMap K V) (k : K) (v : V) : lookup (set m k v) k = some v := by
  induction m with
  | nil => simp [set, lookup]
  | cons p r ih =>
    obtain ⟨k', v'⟩ := p
    by_cases h : k' = k
    · simp [set, lookup, h]
    · simp [set, lookup, h, ih]

theorem lookup_set_ne (m : GoMap K V) (k k' : K) (v : V) (h : k' ≠ k) :
    lookup (set m k v) k' = lookup m k' := by
  induction m with
  | nil => simp [set, lookup, Ne.symm h]
  | cons p r ih =>
    obtain ⟨k1, v1⟩ := p
    by_cases h1 : k1 = k
    · subst h1
      simp [set, lookup, Ne.symm h]
    · simp [set, lookup, h1, ih]

theorem lookup_set (m : GoMap K V) (k k' : K) (v : V) :
    lookup (set m k v) k' = if k' = k then some v else lookup m k' := by
  by_cases h : k' = k
  · subst h
    simp [lookup_set_self]
  · simp [h, lookup_set_ne m k k' v h]

theorem lookup_delete_self (m : GoMap K V) (k : K) : lookup (delete m k) k = none := by
  induction m with
  | nil => simp [delete, lookup]
  | cons p r ih =>
    obtain ⟨k1, v1⟩ := p
    by_cases h1 : k1 = k
    · simpa [delete, h1] using ih
    · simpa [delete, h1, lookup] using ih

theorem lookup_delete_ne (m : GoMap K V) (k k' : K) (h : k' ≠ k) :
    lookup (delete m k) k' = lookup m k' := by
  induction m with
  | nil => simp [delete, lookup]
  | cons p r ih =>
    obtain ⟨k1, v1⟩ := p
    by_cases h1 : k1 = k
    · subst h1
      simpa [delete, lookup, Ne.symm h] using ih
    · by_cases h2 : k1 = k'
      · subst h2
        simp [delete, List.filter_cons, h1, lookup]
      · simpa [delete, h1, lookup, h2] using ih

theorem lookup_delete (m : GoMap K V) (k k' : K) :
    lookup (delete m k) k' = if k' = k then none else lookup m k' := by
  by_cases h : k' = k
  · subst h
    simp [lookup_delete_self]
  · simp [h, lookup_delete_ne m k k' h]

theorem mem_keys_iff (m : GoMap K V) (k : K) : k ∈ keys m ↔ has m k = true := by
  induction m with
  | nil => simp [keys, has, lookup]
  | cons p r ih =>
    obtain ⟨k1, v1⟩ := p
    by_cases h1 : k1 = k
    · simp [keys, has, lookup, h1]
    · have ih' : k ∈ List.map Prod.fst r ↔ (lookup r k).isSome = true := ih
      simp [keys, has, lookup, h1, ih', Ne.symm h1]

theorem has_iff_exists (m : GoMap K V) (k : K) : has m k = true ↔ ∃ v, lookup m k = some v := by
  simp [has, Option.isSome_iff_exists]

theorem has_set (m : GoMap K V) (k k' : K) (v : V) :
    has (set m k v) k' = (decide (k' = k) || has m k') := by
  unfold has
  rw [lookup_set]
  by_cases h : k' = k <;> simp [h]

theorem not_mem_keys_delete (m : GoMap K V) (k : K) : k ∉ keys (delete m k) := by
  rw [mem_keys_iff, has, lookup_delete_self]
  simp

theorem keys_set (m : GoMap K V) (k : K) (v : V) :
    keys (set m k v) = if has m k then keys m else keys m ++ [k] := by
  induction m with
  | nil => simp [set, keys, has, lookup]
  | cons p r ih =>
    obtain ⟨k1, v1⟩ := p
    by_cases h1 : k1 = k
    · simp [set, keys, has, lookup, h1]
    · have ih' : List.map Prod.fst (set r k v)
          = if (lookup r k).isSome = true then List.map Prod.fst r
            else List.map Prod.fst r ++ [k] := ih
      simp only [set, keys, has, lookup, h1, if_false, List.map_cons, ih']
      split <;> simp

theorem len_pos_iff (m : GoMap K V) : 0 < len m ↔ ∃ k v, lookup m k = some v := by
  cases m with
  | nil => simp [len, lookup]
  | cons p r =>
    obtain ⟨k1, v1⟩ := p
    simp only [len, List.length_cons, Nat.zero_lt_succ, true_iff]
    exact ⟨k1, v1, by simp [lookup]⟩

omit [DecidableEq K] in
theorem len_eq_zero (m : GoMap K V) (h : ¬ 0 < len m) : m = [] := by
  cases m with
  | nil => rfl
  | cons p r => simp [len] at h

end GoMap

end ringchain

/-! ## Lemmas on the stack -/

namespace ringchain

namespace stack

theorem push_elements {T : Type} [DecidableEq T] (s : stack T) (t : T) :
    (s.push t).elements = s.elements ++ [t] := rfl

theorem pop_of_not_isEmpty {T : Type} [DecidableEq T] [Inhabited T] (s : stack T)
    (h : s.isEmpty = false) :
    ∃ x, s.elements = s.pop.1.elements ++ [x] ∧ s.pop.2 = (x, true) := by
  obtain ⟨els, reg⟩ := s
  have hne : els ≠ [] := by
    intro h0
    simp [isEmpty, h0] at h
  obtain ⟨rest, x, rfl⟩ : ∃ rest x, els = rest ++ [x] :=
    ⟨els.dropLast, els.getLast hne, (List.dropLast_append_getLast hne).symm⟩
  refine ⟨x, ?_⟩
  simp [pop, top, isEmpty]

end stack

namespace memoryStore

theorem pushAll_elements (st : stack String) (l : List String) :
    (CreatesCycle.pushAll st l).elements = st.elements ++ l := by
  induction l generalizing st with
  | nil => simp [CreatesCycle.pushAll]
  | cons a r ih =>
    have h := ih (st.push a)
    simp only [CreatesCycle.pushAll, List.foldl_cons] at h ⊢
    rw [h, stack.push_elements]
    simp

end memoryStore

end ringchain

/-! ## The traversal of `CreatesCycle` -/

namespace ringchain

namespace memoryStore

open Relation

theorem pending_cons (k : String) (m : GoMap String ringchain.Edge)
    (r : GoMap String (GoMap String ringchain.Edge)) (visited : GoMap String Unit) :
    CreatesCycle.pending ((k, m) :: r) visited
      = (if GoMap.has visited k then 0 else GoMap.len m) + CreatesCycle.pending r visited := by
  unfold CreatesCycle.pending
  by_cases h : GoMap.has visited k = true
  · simp [List.filter_cons, h]
  · simp [List.filter_cons, h]

theorem pending_set_le (inEdges : GoMap String (GoMap String ringchain.Edge))
    (visited : GoMap String Unit) (k : String) :
    CreatesCycle.pending inEdges (GoMap.set visited k ()) ≤ CreatesCycle.pending inEdges visited := by
  induction inEdges with
  | nil => simp [CreatesCycle.pending]
  | cons p r ih =>
    obtain ⟨k1, m1⟩ := p
    rw [pending_cons, pending_cons, GoMap.has_set]
    by_cases h1 : k1 = k
    · simp only [h1, decide_True, Bool.true_or, if_true]
      omega
    · by_cases h2 : GoMap.has visited k1 = true
      · simp only [h1, h2, decide_False, Bool.false_or, if_true]
        omega
      · simp only [h1, h2, decide_False, Bool.false_or]
        simp only [Bool.false_eq_true, if_false]
        omega

theorem pending_expand (inEdges : GoMap String (GoMap String ringchain.Edge))
    (visited : GoMap String Unit) (k : String) (hk : GoMap.has visited k = false) :
    GoMap.len (GoMap.inner inEdges k) + CreatesCycle.pending inEdges (GoMap.set visited k ())
      ≤ CreatesCycle.pending inEdges visited := by
  induction inEdges with
  | nil => simp [CreatesCycle.pending, GoMap.inner, GoMap.lookup, GoMap.len]
  | cons p r ih =>
    obtain ⟨k1, m1⟩ := p
    rw [pending_cons, pending_cons, GoMap.has_set]
    by_cases h1 : k1 = k
    · subst h1
      have hmono := pending_set_le r visited k1
      simp only [GoMap.inner, GoMap.lookup, if_true, Option.getD_some, decide_True, Bool.true_or,
        hk, Bool.false_eq_true, if_false]
      omega
    · have hin : GoMap.inner ((k1, m1) :: r) k = GoMap.inner r k := by
        simp [GoMap.inner, GoMap.lookup, h1]
      rw [hin]
      simp only [h1, decide_False, Bool.false_or]
      omega

theorem pending_nil (inEdges : GoMap String (GoMap String ringchain.Edge)) :
    CreatesCycle.pending inEdges [] = inEdgeCount inEdges := by
  induction inEdges with
  | nil => rfl
  | cons p r ih =>
    obtain ⟨k1, m1⟩ := p
    rw [pending_cons, ih]
    simp [inEdgeCount, GoMap.has, GoMap.lookup]

/-- A visited set that is closed under predecessors and misses the target holds no node
that the target reaches. -/
theorem closed_of_reach (inEdges : GoMap String (GoMap String ringchain.Edge))
    (visited : GoMap String Unit) (target x : String)
    (hclosed : ∀ v p, GoMap.has visited v = true → InE inEdges p v → GoMap.has visited p = true)
    (hreach : ReflTransGen (InE inEdges) target x) (hx : GoMap.has visited x = true) :
    GoMap.has visited target = true := by
  induction hreach with
  | refl => exact hx
  | tail _ hbc ih => exact ih (hclosed _ _ hx hbc)

theorem loop_unfold (inEdges : GoMap String (GoMap String ringchain.Edge)) (target : String)
    (fuel : Nat) (st st1 : stack String) (cur : String) (visited : GoMap String Unit)
    (hne : st.isEmpty = false) (hpop : st.pop = (st1, cur, true)) :
    CreatesCycle.loop inEdges target (fuel + 1) st visited =
      if !GoMap.has visited cur then
        if cur = target then some true
        else CreatesCycle.loop inEdges target fuel
          (CreatesCycle.pushAll st1 (GoMap.keys (GoMap.inner inEdges cur)))
          (GoMap.set visited cur ())
      else CreatesCycle.loop inEdges target fuel st1 visited := by
  rw [CreatesCycle.loop]
  simp [hne, hpop]

theorem loop_empty (inEdges : GoMap String (GoMap String ringchain.Edge)) (target : String)
    (fuel : Nat) (st : stack String) (visited : GoMap String Unit)
    (he : st.isEmpty = true) :
    CreatesCycle.loop inEdges target fuel st visited = some false := by
  cases fuel <;> simp [CreatesCycle.loop, he]

/-- The loop, started with enough iterations for the stack and the in-edges not yet
expanded, ends and returns `true` exactly when the target reaches, along in-edges, a node
that is on the stack or visited. -/
theorem loop_spec (inEdges : GoMap String (GoMap String ringchain.Edge)) (target : String) :
    ∀ (fuel : Nat) (st : stack String) (visited : GoMap String Unit),
      GoMap.has visited target = false →
      (∀ v p, GoMap.has visited v = true → InE inEdges p v →
        GoMap.has visited p = true ∨ p ∈ st.elements) →
      st.elements.length + CreatesCycle.pending inEdges visited ≤ fuel →
      ∃ b, CreatesCycle.loop inEdges target fuel st visited = some b ∧
        (b = true ↔ ∃ x, (x ∈ st.elements ∨ GoMap.has visited x = true) ∧
          ReflTransGen (InE inEdges) target x) := by
  intro fuel
  induction fuel with
  | zero =>
    intro st visited htv hcl hfuel
    have hel : st.elements = [] := by
      have : st.elements.length = 0 := by omega
      exact List.length_eq_zero.mp this
    have he : st.isEmpty = true := by simp [stack.isEmpty, hel]
    refine ⟨false, loop_empty _ _ _ _ _ he, ?_⟩
    simp only [Bool.false_eq_true, false_iff, not_exists, not_and]
    intro x hx hreach
    rcases hx with hx | hx
    · simp [hel] at hx
    · have hc := closed_of_reach inEdges visited target x
        (fun v p hv hp => by
          rcases hcl v p hv hp with h | h
          · exact h
          · simp [hel] at h) hreach hx
      simp [htv] at hc
  | succ n ih =>
    intro st visited htv hcl hfuel
    by_cases he : st.isEmpty = true
    · have hel : st.elements = [] := by
        simpa [stack.isEmpty] using he
      refine ⟨false, loop_empty _ _ _ _ _ he, ?_⟩
      simp only [Bool.false_eq_true, false_iff, not_exists, not_and]
      intro x hx hreach
      rcases hx with hx | hx
      · simp [hel] at hx
      · have hc := closed_of_reach inEdges visited target x
          (fun v p hv hp => by
            rcases hcl v p hv hp with h | h
            · exact h
            · simp [hel] at h) hreach hx
        simp [htv] at hc
    · have hne : st.isEmpty = false := by simpa using he
      obtain ⟨cur, hels, hpop2⟩ := stack.pop_of_not_isEmpty st hne
      have hpop : st.pop = (st.pop.1, cur, true) := by
        rw [← hpop2]
      rw [loop_unfold inEdges target n st st.pop.1 cur visited hne hpop]
      have hlen : st.elements.length = st.pop.1.elements.length + 1 := by
        rw [hels]
        simp
      by_cases hv : GoMap.has visited cur = true
      · -- already visited: the node is dropped
        simp only [hv, Bool.not_true, Bool.false_eq_true, if_false]
        obtain ⟨b, hb, hiff⟩ := ih st.pop.1 visited htv
          (fun v p hvv hp => by
            rcases hcl v p hvv hp with h | h
            · exact Or.inl h
            · rw [hels] at h
              rcases List.mem_append.mp h with h | h
              · exact Or.inr h
              · simp only [List.mem_singleton] at h
                subst h
                exact Or.inl hv) (by omega)
        refine ⟨b, hb, hiff.trans ?_⟩
        constructor
        · rintro ⟨x, hx, hr⟩
          refine ⟨x, ?_, hr⟩
          rcases hx with hx | hx
          · left
            rw [hels]
            exact List.mem_append_left _ hx
          · exact Or.inr hx
        · rintro ⟨x, hx, hr⟩
          refine ⟨x, ?_, hr⟩
          rcases hx with hx | hx
          · rw [hels] at hx
            rcases List.mem_append.mp hx with h | h
            · exact Or.inl h
            · simp only [List.mem_singleton] at h
              subst h
              exact Or.inr hv
          · exact Or.inr hx
      · have hvf : GoMap.has visited cur = false := by simpa using hv
        simp only [hvf, Bool.not_false, if_true]
        by_cases hct : cur = target
        · -- the target is found
          simp only [hct, if_true]
          refine ⟨true, rfl, ?_⟩
          simp only [true_iff]
          refine ⟨target, Or.inl ?_, ReflTransGen.refl⟩
          rw [hels, hct]
          simp
        · -- the node is expanded
          simp only [hct, if_false]
          have hexp := pending_expand inEdges visited cur hvf
          have hklen : (GoMap.keys (GoMap.inner inEdges cur)).length
              = GoMap.len (GoMap.inner inEdges cur) := by
            simp [GoMap.keys, GoMap.len]
          obtain ⟨b, hb, hiff⟩ := ih
            (CreatesCycle.pushAll st.pop.1 (GoMap.keys (GoMap.inner inEdges cur)))
            (GoMap.set visited cur ())
            (by
              rw [GoMap.has_set]
              simp [htv, Ne.symm hct])
            (fun v p hvv hp => by
              rw [GoMap.has_set] at hvv
              rw [GoMap.has_set, pushAll_elements]
              by_cases hvc : v = cur
              · subst hvc
                right
                exact List.mem_append_right _ hp
              · simp only [hvc, decide_False, Bool.false_or] at hvv
                rcases hcl v p hvv hp with h | h
                · left
                  simp [h]
                · rw [hels] at h
                  rcases List.mem_append.mp h with h | h
                  · right
                    exact List.mem_append_left _ h
                  · simp only [List.mem_singleton] at h
                    left
                    simp [h])
            (by
              rw [pushAll_elements, List.length_append, hklen]
              omega)
          refine ⟨b, hb, hiff.trans ?_⟩
          rw [pushAll_elements]
          constructor
          · rintro ⟨x, hx, hr⟩
            rcases hx with hx | hx
            · rcases List.mem_append.mp hx with h | h
              · refine ⟨x, Or.inl ?_, hr⟩
                rw [hels]
                exact List.mem_append_left _ h
              · refine ⟨cur, Or.inl ?_, ReflTransGen.tail hr h⟩
                rw [hels]
                simp
            · rw [GoMap.has_set] at hx
              by_cases hxc : x = cur
              · refine ⟨x, Or.inl ?_, hr⟩
                rw [hels, hxc]
                simp
              · simp only [hxc, decide_False, Bool.false_or] at hx
                exact ⟨x, Or.inr hx, hr⟩
          · rintro ⟨x, hx, hr⟩
            refine ⟨x, ?_, hr⟩
            rcases hx with hx | hx
            · rw [hels] at hx
              rcases List.mem_append.mp hx with h | h
              · exact Or.inl (List.mem_append_left _ h)
              · simp only [List.mem_singleton] at h
                right
                rw [GoMap.has_set]
                simp [h]
            · right
              rw [GoMap.has_set]
              simp [hx]

end memoryStore

end ringchain

/-! ## Accessors -/

namespace ringchain

namespace memoryStore

open Relation

variable {N : Type}

theorem Node_of_isNode [Inhabited N] (s : memoryStore N) (k : String) (h : s.IsNode k) :
    ∃ v, GoMap.lookup s.vertices k = some v ∧ s.Node k = (v, none) := by
  obtain ⟨v, hv⟩ := (GoMap.has_iff_exists _ _).mp h
  exact ⟨v, hv, by simp [Node, hv]⟩

theorem Node_of_not_isNode [Inhabited N] (s : memoryStore N) (k : String) (h : ¬ s.IsNode k) :
    s.Node k = (default, some Error.ErrNodeNotFound) := by
  have hnone : GoMap.lookup s.vertices k = none := by
    cases hl : GoMap.lookup s.vertices k with
    | none => rfl
    | some v => exact absurd ((GoMap.has_iff_exists _ _).mpr ⟨v, hl⟩) h
  simp [Node, hnone]

theorem Node_err_eq [Inhabited N] (s : memoryStore N) (k : String) :
    (s.Node k).2 = if GoMap.has s.vertices k then none else some Error.ErrNodeNotFound := by
  by_cases h : s.IsNode k
  · obtain ⟨v, _, hv⟩ := Node_of_isNode s k h
    have h' : GoMap.has s.vertices k = true := h
    simp [hv, h']
  · have h' : GoMap.has s.vertices k = false := by simpa [IsNode] using h
    simp [Node_of_not_isNode s k h, h']

/-- The accessor `Edge` reads `outEdges[s][t]`. -/
theorem Edge_eq (s : memoryStore N) (a b : String) :
    s.Edge a b = match GoMap.lookup (GoMap.inner s.outEdges a) b with
      | none => ({ SourceHash := "", TargetHash := "" }, some Error.ErrEdgeNotFound)
      | some e => (e, none) := by
  unfold Edge GoMap.inner
  cases h : GoMap.lookup s.outEdges a with
  | none => simp [GoMap.lookup]
  | some m => simp

theorem Edge_of_outHolds (s : memoryStore N) (a b : String) (e : ringchain.Edge)
    (h : s.outHolds a b e) : s.Edge a b = (e, none) := by
  rw [Edge_eq]
  unfold outHolds at h
  simp [h]

theorem Edge_of_not_hasEdge (s : memoryStore N) (a b : String) (h : ¬ s.HasEdge a b) :
    s.Edge a b = ({ SourceHash := "", TargetHash := "" }, some Error.ErrEdgeNotFound) := by
  rw [Edge_eq]
  cases hl : GoMap.lookup (GoMap.inner s.outEdges a) b with
  | none => rfl
  | some e => exact absurd ⟨e, hl⟩ h

theorem Edge_err_none_iff (s : memoryStore N) (a b : String) :
    (s.Edge a b).2 = none ↔ s.HasEdge a b := by
  constructor
  · intro h
    by_contra hne
    rw [Edge_of_not_hasEdge s a b hne] at h
    simp at h
  · rintro ⟨e, he⟩
    rw [Edge_of_outHolds s a b e he]

theorem inE_iff_inHolds (s : memoryStore N) (p c : String) :
    InE s.inEdges p c ↔ ∃ e, s.inHolds c p e := by
  unfold InE inHolds
  rw [GoMap.mem_keys_iff, GoMap.has_iff_exists]

theorem inE_iff_hasEdge (s : memoryStore N) (hs : s.Symmetric) (p c : String) :
    InE s.inEdges p c ↔ s.HasEdge p c := by
  rw [inE_iff_inHolds]
  constructor
  · rintro ⟨e, he⟩
    exact ⟨e, (hs p c e).mpr he⟩
  · rintro ⟨e, he⟩
    exact ⟨e, (hs p c e).mp he⟩

theorem inE_eq_hasEdge (s : memoryStore N) (hs : s.Symmetric) :
    InE s.inEdges = s.HasEdge := by
  funext p c
  exact propext (inE_iff_hasEdge s hs p c)

/-- The loop of `CreatesCycle` ends within `CreatesCycle.bound` iterations and tells whether
the target reaches the source along in-edges. -/
theorem loop_from_source (s : memoryStore N) (source target : String) :
    ∃ b, CreatesCycle.loop s.inEdges target (CreatesCycle.bound s)
        (stack.push stack.newStack source) [] = some b ∧
      (b = true ↔ ReflTransGen (InE s.inEdges) target source) := by
  obtain ⟨b, hb, hiff⟩ := loop_spec s.inEdges target (CreatesCycle.bound s)
    (stack.push stack.newStack source) []
    (by simp [GoMap.has, GoMap.lookup])
    (by
      intro v p hv
      simp [GoMap.has, GoMap.lookup] at hv)
    (by
      rw [pending_nil]
      simp [stack.push, stack.newStack, CreatesCycle.bound])
  refine ⟨b, hb, hiff.trans ?_⟩
  constructor
  · rintro ⟨x, hx, hr⟩
    rcases hx with hx | hx
    · simp [stack.push, stack.newStack] at hx
      rw [hx] at hr
      exact hr
    · simp [GoMap.has, GoMap.lookup] at hx
  · intro hr
    exact ⟨source, Or.inl (by simp [stack.push, stack.newStack]), hr⟩

/-- What `CreatesCycle` returns on two existing nodes, in terms of the in-edge index. -/
theorem CreatesCycle_of_nodes [Inhabited N] (s : memoryStore N) (source target : String)
    (hs : s.IsNode source) (ht : s.IsNode target) :
    ∃ b, s.CreatesCycle source target = (b, none) ∧
      (b = true ↔ source = target ∨ ReflTransGen (InE s.inEdges) target source) := by
  have h1 : (s.Node source).2 = none := by
    rw [Node_err_eq]
    simp [show GoMap.has s.vertices source = true from hs]
  have h2 : (s.Node target).2 = none := by
    rw [Node_err_eq]
    simp [show GoMap.has s.vertices target = true from ht]
  by_cases hst : source = target
  · refine ⟨true, ?_, by simp [hst]⟩
    simp [CreatesCycle, h1, h2, hst]
  · obtain ⟨b, hb, hiff⟩ := loop_from_source s source target
    refine ⟨b, ?_, ?_⟩
    · simp [CreatesCycle, h1, h2, hst, hb]
    · rw [hiff]
      simp [hst]

end memoryStore

end ringchain

/-! ## The effect of the mutating methods on the indices -/

namespace ringchain

namespace GoMap

variable {K W : Type} [DecidableEq K]

theorem inner_set (m : GoMap K (GoMap K W)) (a x : K) (v : GoMap K W) :
    inner (set m a v) x = if x = a then v else inner m x := by
  unfold inner
  rw [lookup_set]
  by_cases h : x = a <;> simp [h]

theorem inner_delete (m : GoMap K (GoMap K W)) (a x : K) :
    inner (delete m a) x = if x = a then [] else inner m x := by
  unfold inner
  rw [lookup_delete]
  by_cases h : x = a <;> simp [h]

theorem inner_of_lookup_none (m : GoMap K (GoMap K W)) (a : K) (h : lookup m a = none) :
    inner m a = [] := by
  simp [inner, h]

theorem inner_of_lookup_some (m : GoMap K (GoMap K W)) (a : K) (v : GoMap K W)
    (h : lookup m a = some v) : inner m a = v := by
  simp [inner, h]

/-- The pair of statements `if _, ok := m[a]; !ok { m[a] = make(...) }; m[a][b] = e`. -/
theorem lookup_inner_ensure_set (m : GoMap K (GoMap K W)) (a b x y : K) (e : W) :
    lookup (inner (set (if has m a then m else set m a []) a
        (set (inner (if has m a then m else set m a []) a) b e)) x) y
      = if x = a ∧ y = b then some e else lookup (inner m x) y := by
  have hin : inner (if has m a then m else set m a []) a = inner m a := by
    by_cases h : has m a = true
    · simp [h]
    · have hnone : lookup m a = none := by
        simpa [has] using h
      simp [h, inner_set, inner_of_lookup_none m a hnone]
  rw [hin, inner_set]
  by_cases hx : x = a
  · subst hx
    simp only [if_true, true_and]
    rw [lookup_set]
  · have hin2 : inner (if has m a then m else set m a []) x = inner m x := by
      by_cases h : has m a = true
      · simp [h]
      · simp [h, inner_set, hx]
    simp [hx, hin2]

end GoMap

namespace memoryStore

variable {N : Type}

theorem AddEdge_vertices (s : memoryStore N) (a b : String) (e : ringchain.Edge) :
    (s.AddEdge a b e).1.vertices = s.vertices := rfl

theorem AddEdge_err (s : memoryStore N) (a b : String) (e : ringchain.Edge) :
    (s.AddEdge a b e).2 = none := rfl

theorem AddEdge_out (s : memoryStore N) (a b x y : String) (e : ringchain.Edge) :
    GoMap.lookup (GoMap.inner (s.AddEdge a b e).1.outEdges x) y
      = if x = a ∧ y = b then some e else GoMap.lookup (GoMap.inner s.outEdges x) y := by
  simp only [AddEdge]
  exact GoMap.lookup_inner_ensure_set s.outEdges a b x y e

theorem AddEdge_in (s : memoryStore N) (a b x y : String) (e : ringchain.Edge) :
    GoMap.lookup (GoMap.inner (s.AddEdge a b e).1.inEdges y) x
      = if x = a ∧ y = b then some e else GoMap.lookup (GoMap.inner s.inEdges y) x := by
  simp only [AddEdge]
  rw [GoMap.lookup_inner_ensure_set s.inEdges b a y x e]
  by_cases h : x = a ∧ y = b
  · simp [h]
  · have h' : ¬ (y = b ∧ x = a) := fun hh => h ⟨hh.2, hh.1⟩
    simp [h, h']

theorem deleteInner_lookup (m : GoMap String (GoMap String ringchain.Edge)) (a b x y : String) :
    GoMap.lookup (GoMap.inner (deleteInner m a b) x) y
      = if x = a ∧ y = b then none else GoMap.lookup (GoMap.inner m x) y := by
  unfold deleteInner
  cases h : GoMap.lookup m a with
  | none =>
    by_cases hx : x = a ∧ y = b
    · obtain ⟨hx1, hx2⟩ := hx
      subst hx1
      simp [hx2, GoMap.inner_of_lookup_none m x h, GoMap.lookup]
    · simp [hx]
  | some edges =>
    simp only [GoMap.inner_set]
    by_cases hx : x = a
    · subst hx
      simp only [if_true, true_and, GoMap.lookup_delete, GoMap.inner_of_lookup_some m x edges h]
    · simp [hx]

theorem RemoveEdge_out (s : memoryStore N) (a b x y : String) :
    GoMap.lookup (GoMap.inner (s.RemoveEdge a b).1.outEdges x) y
      = if x = a ∧ y = b then none else GoMap.lookup (GoMap.inner s.outEdges x) y := by
  simp only [RemoveEdge]
  exact deleteInner_lookup s.outEdges a b x y

theorem RemoveEdge_in (s : memoryStore N) (a b x y : String) :
    GoMap.lookup (GoMap.inner (s.RemoveEdge a b).1.inEdges y) x
      = if x = a ∧ y = b then none else GoMap.lookup (GoMap.inner s.inEdges y) x := by
  simp only [RemoveEdge]
  rw [deleteInner_lookup s.inEdges b a y x]
  by_cases h : x = a ∧ y = b
  · simp [h]
  · have h' : ¬ (y = b ∧ x = a) := fun hh => h ⟨hh.2, hh.1⟩
    simp [h, h']

/-- Deleting a key whose inner map is empty changes no entry of a map of maps. -/
theorem lookup_inner_delete_empty (m : GoMap String (GoMap String ringchain.Edge))
    (k x y : String) (h : GoMap.inner m k = []) :
    GoMap.lookup (GoMap.inner (GoMap.delete m k) x) y = GoMap.lookup (GoMap.inner m x) y := by
  rw [GoMap.inner_delete]
  by_cases hx : x = k
  · subst hx
    simp [h]
  · simp [hx]

end memoryStore

end ringchain

/-! ## `RemoveNode` and `UpdateEdge` -/

namespace ringchain

namespace memoryStore

variable {N : Type}

theorem inner_eq_nil_of_len (m : GoMap String (GoMap String ringchain.Edge)) (k : String)
    (edges : GoMap String ringchain.Edge) (h : GoMap.lookup m k = some edges)
    (hlen : ¬ GoMap.len edges > 0) : GoMap.inner m k = [] := by
  rw [GoMap.inner_of_lookup_some m k edges h]
  exact GoMap.len_eq_zero edges hlen

theorem outPart_out (s : memoryStore N) (k x y : String) :
    GoMap.lookup (GoMap.inner (RemoveNode.outPart s k).1.outEdges x) y
      = GoMap.lookup (GoMap.inner s.outEdges x) y := by
  unfold RemoveNode.outPart
  cases h : GoMap.lookup s.outEdges k with
  | none => rfl
  | some edges =>
    by_cases hlen : GoMap.len edges > 0
    · simp [hlen]
    · simp only [hlen, if_false]
      exact lookup_inner_delete_empty s.outEdges k x y (inner_eq_nil_of_len _ _ _ h hlen)

theorem outPart_in (s : memoryStore N) (k : String) :
    (RemoveNode.outPart s k).1.inEdges = s.inEdges := by
  unfold RemoveNode.outPart
  cases h : GoMap.lookup s.outEdges k with
  | none => rfl
  | some edges =>
    by_cases hlen : GoMap.len edges > 0 <;> simp [hlen]

theorem RemoveNode_out (s : memoryStore N) (k x y : String) :
    GoMap.lookup (GoMap.inner (s.RemoveNode k).1.outEdges x) y
      = GoMap.lookup (GoMap.inner s.outEdges x) y := by
  unfold RemoveNode
  by_cases hv : GoMap.has s.vertices k = true
  · simp only [hv, Bool.not_true, Bool.false_eq_true, if_false]
    cases h : GoMap.lookup s.inEdges k with
    | none => exact outPart_out s k x y
    | some edges =>
      by_cases hlen : GoMap.len edges > 0
      · simp [hlen]
      · simp only [hlen, if_false]
        rw [outPart_out]
  · simp [hv]

theorem RemoveNode_in (s : memoryStore N) (k x y : String) :
    GoMap.lookup (GoMap.inner (s.RemoveNode k).1.inEdges x) y
      = GoMap.lookup (GoMap.inner s.inEdges x) y := by
  unfold RemoveNode
  by_cases hv : GoMap.has s.vertices k = true
  · simp only [hv, Bool.not_true, Bool.false_eq_true, if_false]
    cases h : GoMap.lookup s.inEdges k with
    | none =>
      simp only []
      rw [outPart_in]
    | some edges =>
      by_cases hlen : GoMap.len edges > 0
      · simp [hlen]
      · simp only [hlen, if_false]
        rw [outPart_in]
        exact lookup_inner_delete_empty s.inEdges k x y (inner_eq_nil_of_len _ _ _ h hlen)
  · simp [hv]

/-- In a store with mirrored indices `UpdateEdge` does not panic, and a successful call
overwrites the entry of the edge in both indices. -/
theorem UpdateEdge_of_symmetric (s : memoryStore N) (hs : s.Symmetric) (a b : String)
    (e : ringchain.Edge) :
    ∃ s1 err, s.UpdateEdge a b e = some (s1, err) ∧
      ((err ≠ none ∧ s1 = s) ∨
        (err = none ∧
          (∀ x y, GoMap.lookup (GoMap.inner s1.outEdges x) y
            = if x = a ∧ y = b then some e else GoMap.lookup (GoMap.inner s.outEdges x) y) ∧
          (∀ x y, GoMap.lookup (GoMap.inner s1.inEdges y) x
            = if x = a ∧ y = b then some e else GoMap.lookup (GoMap.inner s.inEdges y) x))) := by
  by_cases hedge : s.HasEdge a b
  · obtain ⟨e0, he0⟩ := hedge
    have hin0 : s.inHolds b a e0 := (hs a b e0).mp he0
    have herr : (s.Edge a b).2 = none := by rw [Edge_of_outHolds s a b e0 he0]
    obtain ⟨outs, houts⟩ : ∃ outs, GoMap.lookup s.outEdges a = some outs := by
      cases h : GoMap.lookup s.outEdges a with
      | none =>
        unfold outHolds at he0
        rw [GoMap.inner_of_lookup_none _ _ h] at he0
        simp [GoMap.lookup] at he0
      | some outs => exact ⟨outs, rfl⟩
    obtain ⟨ins, hins⟩ : ∃ ins, GoMap.lookup s.inEdges b = some ins := by
      cases h : GoMap.lookup s.inEdges b with
      | none =>
        unfold inHolds at hin0
        rw [GoMap.inner_of_lookup_none _ _ h] at hin0
        simp [GoMap.lookup] at hin0
      | some ins => exact ⟨ins, rfl⟩
    refine ⟨{ s with outEdges := GoMap.set s.outEdges a (GoMap.set outs b e),
                     inEdges := GoMap.set s.inEdges b (GoMap.set ins a e) }, none,
      by simp only [UpdateEdge, herr, houts, hins], Or.inr ⟨rfl, ?_, ?_⟩⟩
    · intro x y
      simp only [GoMap.inner_set]
      by_cases hx : x = a
      · subst hx
        simp only [if_true, true_and, GoMap.lookup_set,
          GoMap.inner_of_lookup_some s.outEdges x outs houts]
      · simp [hx]
    · intro x y
      simp only [GoMap.inner_set]
      by_cases hy : y = b
      · subst hy
        simp only [if_true, and_true, GoMap.lookup_set,
          GoMap.inner_of_lookup_some s.inEdges y ins hins]
      · simp [hy]
  · have herr := Edge_of_not_hasEdge s a b hedge
    refine ⟨s, some Error.ErrEdgeNotFound, ?_, Or.inl ⟨by simp, rfl⟩⟩
    simp [UpdateEdge, herr]

/-- Every method keeps the two indices mirrored, and none panics on mirrored indices. -/
theorem step_symmetric (s : memoryStore N) (hs : s.Symmetric) (c : Call N) :
    ∃ s1, s.step c = some s1 ∧ s1.Symmetric := by
  cases c with
  | addNode k t =>
    refine ⟨_, rfl, ?_⟩
    intro x y e
    have h1 : (s.AddNode k t).1.outEdges = s.outEdges := by
      unfold AddNode
      split <;> rfl
    have h2 : (s.AddNode k t).1.inEdges = s.inEdges := by
      unfold AddNode
      split <;> rfl
    unfold outHolds inHolds
    rw [h1, h2]
    exact hs x y e
  | removeNode k =>
    refine ⟨_, rfl, ?_⟩
    intro x y e
    unfold outHolds inHolds
    rw [RemoveNode_out, RemoveNode_in]
    exact hs x y e
  | addEdge a b e0 =>
    refine ⟨_, rfl, ?_⟩
    intro x y e
    unfold outHolds inHolds
    rw [AddEdge_out, AddEdge_in]
    by_cases h : x = a ∧ y = b
    · simp [h]
    · simp only [h, if_false]
      exact hs x y e
  | updateEdge a b e0 =>
    obtain ⟨s1, err, hcall, hres⟩ := UpdateEdge_of_symmetric s hs a b e0
    refine ⟨s1, by simp [step, hcall], ?_⟩
    rcases hres with ⟨_, rfl⟩ | ⟨_, hout, hin⟩
    · exact hs
    · intro x y e
      unfold outHolds inHolds
      rw [hout, hin]
      by_cases h : x = a ∧ y = b
      · simp [h]
      · simp only [h, if_false]
        exact hs x y e
  | removeEdge a b =>
    refine ⟨_, rfl, ?_⟩
    intro x y e
    unfold outHolds inHolds
    rw [RemoveEdge_out, RemoveEdge_in]
    by_cases h : x = a ∧ y = b
    · simp [h]
    · simp only [h, if_false]
      exact hs x y e

theorem run_symmetric (calls : List (Call N)) :
    ∀ s : memoryStore N, s.Symmetric → ∃ s1, s.run calls = some s1 ∧ s1.Symmetric := by
  induction calls with
  | nil =>
    intro s hs
    exact ⟨s, rfl, hs⟩
  | cons c cs ih =>
    intro s hs
    obtain ⟨s1, h1, hs1⟩ := step_symmetric s hs c
    obtain ⟨s2, h2, hs2⟩ := ih s1 hs1
    exact ⟨s2, by simp [run, h1, h2], hs2⟩

theorem newMemoryStore_symmetric : (newMemoryStore : memoryStore N).Symmetric := by
  intro x y e
  simp [outHolds, inHolds, newMemoryStore, GoMap.inner, GoMap.lookup]

end memoryStore

end ringchain

/-! ## `Graph.AddEdge` case by case -/

namespace ringchain

namespace Graph

open Relation

variable {N : Type} [Inhabited N]

omit [Inhabited N] in
theorem Edge_snd (g : Graph N) (a b : String) : (g.Edge a b).2 = (g.store.Edge a b).2 := by
  unfold Edge
  split <;> simp_all

omit [Inhabited N] in
theorem Edge_eq_store (g : Graph N) (a b : String) : g.Edge a b = g.store.Edge a b := by
  by_cases h : g.store.HasEdge a b
  · obtain ⟨e, he⟩ := h
    simp [Edge, memoryStore.Edge_of_outHolds g.store a b e he]
  · simp [Edge, memoryStore.Edge_of_not_hasEdge g.store a b h]

theorem AddEdge_source_missing (g : Graph N) (a b : String) (ha : ¬ g.store.IsNode a) :
    g.AddEdge a b = (g, some (Error.wrap ("source node " ++ a) Error.ErrNodeNotFound)) := by
  simp [AddEdge, memoryStore.Node_of_not_isNode g.store a ha]

theorem AddEdge_target_missing (g : Graph N) (a b : String) (ha : g.store.IsNode a)
    (hb : ¬ g.store.IsNode b) :
    g.AddEdge a b = (g, some (Error.wrap ("target node " ++ b) Error.ErrNodeNotFound)) := by
  obtain ⟨v, _, hv⟩ := memoryStore.Node_of_isNode g.store a ha
  simp [AddEdge, hv, memoryStore.Node_of_not_isNode g.store b hb]

theorem AddEdge_duplicate (g : Graph N) (a b : String) (ha : g.store.IsNode a)
    (hb : g.store.IsNode b) (he : g.store.HasEdge a b) :
    g.AddEdge a b = (g, some Error.ErrEdgeAlreadyExists) := by
  obtain ⟨v, _, hv⟩ := memoryStore.Node_of_isNode g.store a ha
  obtain ⟨w, _, hw⟩ := memoryStore.Node_of_isNode g.store b hb
  have h2 : (g.Edge a b).2 = none := by
    rw [Edge_snd]
    exact (memoryStore.Edge_err_none_iff g.store a b).mpr he
  simp [AddEdge, hv, hw, h2, errorsIs]

theorem AddEdge_checked (g : Graph N) (a b : String) (ha : g.store.IsNode a)
    (hb : g.store.IsNode b) (he : ¬ g.store.HasEdge a b) (c : Bool)
    (hc : g.store.CreatesCycle a b = (c, none)) :
    g.AddEdge a b =
      if c then (g, some Error.ErrEdgeCreatesCycle)
      else ({ store := (g.store.AddEdge a b { SourceHash := a, TargetHash := b }).1 }, none) := by
  obtain ⟨v, _, hv⟩ := memoryStore.Node_of_isNode g.store a ha
  obtain ⟨w, _, hw⟩ := memoryStore.Node_of_isNode g.store b hb
  have h2 : (g.Edge a b).2 = some Error.ErrEdgeNotFound := by
    rw [Edge_snd, memoryStore.Edge_of_not_hasEdge g.store a b he]
  cases c with
  | true =>
    simp [AddEdge, hv, hw, h2, errorsIs, Error.isErr, createsCycle, hc]
  | false =>
    simp [AddEdge, hv, hw, h2, errorsIs, Error.isErr, createsCycle, hc, memoryStore.AddEdge_err]

/-- Either the call fails and returns the graph it was given, or it passed the four checks
and committed the edge. -/
theorem AddEdge_result (g : Graph N) (a b : String) :
    ((g.AddEdge a b).1 = g ∧ (g.AddEdge a b).2 ≠ none) ∨
    (g.AddEdge a b
        = ({ store := (g.store.AddEdge a b { SourceHash := a, TargetHash := b }).1 }, none) ∧
      g.store.IsNode a ∧ g.store.IsNode b ∧ ¬ g.store.HasEdge a b ∧
      g.store.CreatesCycle a b = (false, none)) := by
  by_cases ha : g.store.IsNode a
  · by_cases hb : g.store.IsNode b
    · by_cases he : g.store.HasEdge a b
      · left
        simp [AddEdge_duplicate g a b ha hb he]
      · obtain ⟨c, hc, _⟩ := memoryStore.CreatesCycle_of_nodes g.store a b ha hb
        have h := AddEdge_checked g a b ha hb he c hc
        cases c with
        | true =>
          left
          simp [h]
        | false =>
          right
          exact ⟨by simpa using h, ha, hb, he, hc⟩
    · left
      simp [AddEdge_target_missing g a b ha hb]
  · left
    simp [AddEdge_source_missing g a b ha]

end Graph

/-! ## Acyclicity -/

/-- A path in a relation extended by one pair either avoids the new pair or passes
through it. -/
theorem transGen_extend {α : Type} (R R1 : α → α → Prop) (a b : α)
    (hR1 : ∀ x y, R1 x y → R x y ∨ (x = a ∧ y = b))
    (hno : ¬ Relation.ReflTransGen R b a) (x y : α) (h : Relation.TransGen R1 x y) :
    Relation.TransGen R x y ∨ (Relation.ReflTransGen R x a ∧ Relation.ReflTransGen R b y) := by
  induction h with
  | single hxy =>
    rcases hR1 _ _ hxy with h | ⟨h1, h2⟩
    · exact Or.inl (Relation.TransGen.single h)
    · subst h1
      subst h2
      exact Or.inr ⟨Relation.ReflTransGen.refl, Relation.ReflTransGen.refl⟩
  | tail hxy hyz ih =>
    rcases hR1 _ _ hyz with h | ⟨h1, h2⟩
    · rcases ih with ih | ⟨ih1, ih2⟩
      · exact Or.inl (Relation.TransGen.tail ih h)
      · exact Or.inr ⟨ih1, Relation.ReflTransGen.tail ih2 h⟩
    · subst h1
      subst h2
      rcases ih with ih | ⟨_, ih2⟩
      · exact Or.inr ⟨ih.to_reflTransGen, Relation.ReflTransGen.refl⟩
      · exact absurd ih2 hno

theorem acyclic_extend {α : Type} (R R1 : α → α → Prop) (a b : α)
    (hR1 : ∀ x y, R1 x y → R x y ∨ (x = a ∧ y = b))
    (hacyc : ∀ x, ¬ Relation.TransGen R x x)
    (hno : ¬ Relation.ReflTransGen R b a) : ∀ x, ¬ Relation.TransGen R1 x x := by
  intro x hx
  rcases transGen_extend R R1 a b hR1 hno x x hx with h | ⟨h1, h2⟩
  · exact hacyc x h
  · exact hno (h2.trans h1)

end ringchain

/-! ## Invariants of graphs built through the construction API -/

namespace ringchain

namespace Graph

open Relation

variable {N : Type} [Inhabited N]

omit [Inhabited N] in
theorem AddNode_eq (g : Graph N) (name : String) (node : N) :
    g.AddNode name node
      = ({ store := (g.store.AddNode name node).1 }, (g.store.AddNode name node).2) := rfl

omit [Inhabited N] in
theorem AddNode_outEdges (g : Graph N) (name : String) (node : N) :
    (g.AddNode name node).1.store.outEdges = g.store.outEdges := by
  rw [AddNode_eq]
  unfold memoryStore.AddNode
  split <;> rfl

omit [Inhabited N] in
theorem AddNode_inEdges (g : Graph N) (name : String) (node : N) :
    (g.AddNode name node).1.store.inEdges = g.store.inEdges := by
  rw [AddNode_eq]
  unfold memoryStore.AddNode
  split <;> rfl

omit [Inhabited N] in
/-- A committed edge is the only new pair of the edge relation. -/
theorem hasEdge_of_AddEdge (s : memoryStore N) (a b x y : String) (e : ringchain.Edge)
    (h : (s.AddEdge a b e).1.HasEdge x y) : s.HasEdge x y ∨ (x = a ∧ y = b) := by
  obtain ⟨e1, he1⟩ := h
  unfold memoryStore.outHolds at he1
  rw [memoryStore.AddEdge_out] at he1
  by_cases hxy : x = a ∧ y = b
  · exact Or.inr hxy
  · simp only [hxy, if_false] at he1
    exact Or.inl ⟨e1, he1⟩

/-- A refused cycle check on mirrored indices: the endpoints differ and the target does not
reach the source. -/
theorem no_back_path_of_check (s : memoryStore N) (hs : s.Symmetric) (a b : String)
    (ha : s.IsNode a) (hb : s.IsNode b) (hc : s.CreatesCycle a b = (false, none)) :
    ¬ ReflTransGen s.HasEdge b a := by
  obtain ⟨c, hc1, hiff⟩ := memoryStore.CreatesCycle_of_nodes s a b ha hb
  rw [hc] at hc1
  have hcf : c = false := by
    have := congrArg Prod.fst hc1
    simpa using this.symm
  subst hcf
  rw [memoryStore.inE_eq_hasEdge s hs] at hiff
  intro hr
  have := hiff.mpr (Or.inr hr)
  simp at this

theorem step_invariant (g : Graph N) (hs : g.store.Symmetric) (hacyc : g.store.Acyclic)
    (c : Call N) : (g.step c).store.Symmetric ∧ (g.step c).store.Acyclic := by
  cases c with
  | addNode name node =>
    have h1 := AddNode_outEdges g name node
    have h2 := AddNode_inEdges g name node
    have hE : (g.AddNode name node).1.store.HasEdge = g.store.HasEdge := by
      funext x y
      simp only [memoryStore.HasEdge, memoryStore.outHolds, h1]
    refine ⟨?_, ?_⟩
    · intro x y e
      simp only [step, memoryStore.outHolds, memoryStore.inHolds, h1, h2]
      exact hs x y e
    · intro x
      simp only [step, memoryStore.Path, hE]
      exact hacyc x
  | addEdge a b =>
    rcases AddEdge_result g a b with ⟨h, _⟩ | ⟨h, ha, hb, _, hc⟩
    · simp only [step, h]
      exact ⟨hs, hacyc⟩
    · simp only [step, h]
      refine ⟨?_, ?_⟩
      · obtain ⟨s1, h1, hs1⟩ := memoryStore.step_symmetric g.store hs
          (memoryStore.Call.addEdge a b { SourceHash := a, TargetHash := b })
        simp only [memoryStore.step, Option.some.injEq] at h1
        rw [h1]
        exact hs1
      · exact acyclic_extend g.store.HasEdge _ a b
          (fun x y hxy => hasEdge_of_AddEdge g.store a b x y _ hxy) hacyc
          (no_back_path_of_check g.store hs a b ha hb hc)

theorem run_invariant (calls : List (Call N)) :
    ∀ g : Graph N, g.store.Symmetric → g.store.Acyclic →
      (g.run calls).store.Symmetric ∧ (g.run calls).store.Acyclic := by
  induction calls with
  | nil =>
    intro g hs ha
    exact ⟨hs, ha⟩
  | cons c cs ih =>
    intro g hs ha
    obtain ⟨hs1, ha1⟩ := step_invariant g hs ha c
    exact ih (g.step c) hs1 ha1

omit [Inhabited N] in
theorem newGraph_acyclic : (NewGraph : Graph N).store.Acyclic := by
  intro x hx
  have hno : ∀ a b, ¬ (NewGraph : Graph N).store.HasEdge a b := by
    rintro a b ⟨e, he⟩
    simp [memoryStore.outHolds, NewGraph, newMemoryStore, GoMap.inner, GoMap.lookup] at he
  cases hx with
  | single h => exact hno _ _ h
  | tail _ h => exact hno _ _ h

theorem built_invariant (g : Graph N) (hg : g.Built) :
    g.store.Symmetric ∧ g.store.Acyclic := by
  obtain ⟨calls, rfl⟩ := hg
  exact run_invariant calls NewGraph memoryStore.newMemoryStore_symmetric newGraph_acyclic

end Graph

end ringchain

/-! ## Further lemmas used by the claims -/

namespace ringchain

namespace memoryStore

variable {N : Type}

theorem Node_err_none_iff [Inhabited N] (s : memoryStore N) (k : String) :
    (s.Node k).2 = none ↔ s.IsNode k := by
  rw [Node_err_eq]
  unfold IsNode
  by_cases h : GoMap.has s.vertices k = true <;> simp [h]

theorem Edge_err_of_not_none (s : memoryStore N) (a b : String) (h : (s.Edge a b).2 ≠ none) :
    ¬ s.HasEdge a b := fun he => h ((Edge_err_none_iff s a b).mpr he)

/-- A successful `Graph.AddEdge` is the commit of `Edge{a, b}` to the store. -/
theorem AddEdge_Edge_self (s : memoryStore N) (a b : String) (e : ringchain.Edge) :
    (s.AddEdge a b e).1.Edge a b = (e, none) := by
  apply Edge_of_outHolds
  unfold outHolds
  rw [AddEdge_out]
  simp

theorem AddEdge_Edge_other (s : memoryStore N) (a b x y : String) (e : ringchain.Edge)
    (h : ¬ (x = a ∧ y = b)) : (s.AddEdge a b e).1.Edge x y = s.Edge x y := by
  rw [Edge_eq, Edge_eq, AddEdge_out]
  simp [h]

end memoryStore

namespace Graph

variable {N : Type} [Inhabited N]

theorem AddEdge_ok_iff (g : Graph N) (hs : g.store.Symmetric) (a b : String) :
    (g.AddEdge a b).2 = none ↔
      (g.store.IsNode a ∧ g.store.IsNode b ∧ ¬ g.store.HasEdge a b ∧ a ≠ b ∧
        ¬ g.store.Path b a) := by
  constructor
  · intro h
    rcases AddEdge_result g a b with ⟨_, h2⟩ | ⟨_, ha, hb, he, hc⟩
    · exact absurd h h2
    · have hno := no_back_path_of_check g.store hs a b ha hb hc
      refine ⟨ha, hb, he, ?_, ?_⟩
      · intro hab
        subst hab
        exact hno Relation.ReflTransGen.refl
      · intro hp
        exact hno hp.to_reflTransGen
  · rintro ⟨ha, hb, he, hab, hp⟩
    obtain ⟨c, hc, hiff⟩ := memoryStore.CreatesCycle_of_nodes g.store a b ha hb
    rw [memoryStore.inE_eq_hasEdge g.store hs] at hiff
    have hcf : c = false := by
      cases c with
      | false => rfl
      | true =>
        rcases hiff.mp rfl with h | h
        · exact absurd h hab
        · rcases Relation.reflTransGen_iff_eq_or_transGen.mp h with h1 | h1
          · exact absurd h1 hab
          · exact absurd h1 hp
    subst hcf
    rw [AddEdge_checked g a b ha hb he false hc]
    simp

end Graph

end ringchain

/-! ## Node table lemmas -/

namespace ringchain

namespace GoMap

variable {K V : Type} [DecidableEq K]

theorem set_of_not_has (m : GoMap K V) (k : K) (v : V) (h : has m k = false) :
    set m k v = m ++ [(k, v)] := by
  induction m with
  | nil => rfl
  | cons p r ih =>
    obtain ⟨k1, v1⟩ := p
    by_cases h1 : k1 = k
    · simp [has, lookup, h1] at h
    · have hr : has r k = false := by
        simpa [has, lookup, h1] using h
      simp [set, h1, ih hr]

theorem lookup_append (m r : GoMap K V) (k : K) :
    lookup (m ++ r) k = (lookup m k).orElse (fun _ => lookup r k) := by
  induction m with
  | nil => simp [lookup]
  | cons p t ih =>
    obtain ⟨k1, v1⟩ := p
    by_cases h1 : k1 = k
    · simp [lookup, h1]
    · simpa [lookup, h1] using ih

theorem lookup_of_mem_nodup (m : GoMap K V) (k : K) (v : V) (hd : (keys m).Nodup)
    (hm : (k, v) ∈ m) : lookup m k = some v := by
  induction m with
  | nil => simp at hm
  | cons p r ih =>
    obtain ⟨k1, v1⟩ := p
    simp only [keys, List.map_cons, List.nodup_cons] at hd
    rcases List.mem_cons.mp hm with h | h
    · simp only [Prod.mk.injEq] at h
      simp [lookup, h.1, h.2]
    · have hk : k1 ≠ k := by
        intro hk
        apply hd.1
        rw [hk]
        exact List.mem_map.mpr ⟨(k, v), h, rfl⟩
      simp only [lookup, hk, if_false]
      exact ih hd.2 h

theorem lookup_eq_none_of_not_mem (m : GoMap K V) (k : K) (h : k ∉ keys m) :
    lookup m k = none := by
  rw [mem_keys_iff, has] at h
  simpa using h

end GoMap

namespace Graph

variable {N : Type} [Inhabited N]

omit [Inhabited N] in
theorem addNodes_fresh (l : List (String × N)) :
    ∀ g : Graph N, (∀ k ∈ GoMap.keys l, GoMap.has g.store.vertices k = false) →
      (GoMap.keys l).Nodup →
      (g.addNodes l).2 = List.replicate l.length none ∧
        (g.addNodes l).1.store.vertices = g.store.vertices ++ l := by
  induction l with
  | nil =>
    intro g _ _
    simp [addNodes]
  | cons p r ih =>
    intro g hfresh hd
    obtain ⟨k, v⟩ := p
    simp only [GoMap.keys, List.map_cons, List.nodup_cons] at hd
    have hk : GoMap.has g.store.vertices k = false :=
      hfresh k (by simp [GoMap.keys])
    have hadd : g.AddNode k v
        = ({ store := { g.store with vertices := g.store.vertices ++ [(k, v)] } }, none) := by
      rw [AddNode_eq]
      simp [memoryStore.AddNode, hk, GoMap.set_of_not_has _ _ _ hk]
    have hrest := ih (g.AddNode k v).1
      (by
        intro k1 hk1
        rw [hadd]
        have h1 : GoMap.has g.store.vertices k1 = false :=
          hfresh k1 (by
            simp only [GoMap.keys, List.map_cons, List.mem_cons]
            exact Or.inr hk1)
        have hne : k ≠ k1 := by
          intro h
          apply hd.1
          rw [h]
          exact hk1
        have h2 : GoMap.lookup g.store.vertices k1 = none := by
          simpa [GoMap.has] using h1
        simp [GoMap.has, GoMap.lookup_append, h2, GoMap.lookup, hne])
      hd.2
    refine ⟨?_, ?_⟩
    · simp only [addNodes, hrest.1, List.length_cons, List.replicate_succ]
      rw [hadd]
    · simp only [addNodes, hrest.2]
      rw [hadd]
      simp

end Graph

end ringchain

/-! ## `RemoveNode` case by case -/

namespace ringchain

namespace memoryStore

variable {N : Type}

/-- The node has an entry in the index `m`: some `m[id][o]` is present. -/
theorem exists_entry_iff (m : GoMap String (GoMap String ringchain.Edge)) (id : String) :
    (∃ o e, GoMap.lookup (GoMap.inner m id) o = some e) ↔ 0 < GoMap.len (GoMap.inner m id) :=
  (GoMap.len_pos_iff _).symm

theorem outPart_err (s : memoryStore N) (k : String) :
    (RemoveNode.outPart s k).2
      = if 0 < GoMap.len (GoMap.inner s.outEdges k) then some Error.ErrNodeHasEdges
        else none := by
  unfold RemoveNode.outPart
  cases h : GoMap.lookup s.outEdges k with
  | none => simp [GoMap.inner, h, GoMap.len]
  | some edges =>
    rw [GoMap.inner_of_lookup_some _ _ _ h]
    by_cases hlen : GoMap.len edges > 0
    · simp [hlen]
    · have h' : ¬ 0 < GoMap.len edges := hlen
      simp [h']

theorem outPart_ok (s : memoryStore N) (k : String)
    (h : ¬ 0 < GoMap.len (GoMap.inner s.outEdges k)) :
    (RemoveNode.outPart s k).1.vertices = GoMap.delete s.vertices k ∧
      GoMap.has (RemoveNode.outPart s k).1.outEdges k = false := by
  unfold RemoveNode.outPart
  cases hl : GoMap.lookup s.outEdges k with
  | none => simp [GoMap.has, hl]
  | some edges =>
    rw [GoMap.inner_of_lookup_some _ _ _ hl] at h
    have h' : ¬ GoMap.len edges > 0 := h
    simp [h', GoMap.has, GoMap.lookup_delete_self]

theorem RemoveNode_err (s : memoryStore N) (k : String) :
    (s.RemoveNode k).2
      = if GoMap.has s.vertices k = false then some Error.ErrNodeNotFound
        else if 0 < GoMap.len (GoMap.inner s.inEdges k) then some Error.ErrNodeHasEdges
        else if 0 < GoMap.len (GoMap.inner s.outEdges k) then some Error.ErrNodeHasEdges
        else none := by
  unfold RemoveNode
  by_cases hv : GoMap.has s.vertices k = true
  · simp only [hv, Bool.not_true, Bool.false_eq_true, if_false]
    cases h : GoMap.lookup s.inEdges k with
    | none =>
      simp only [GoMap.inner_of_lookup_none _ _ h, GoMap.len, List.length_nil, lt_self_iff_false,
        if_false]
      exact outPart_err s k
    | some edges =>
      rw [GoMap.inner_of_lookup_some _ _ _ h]
      by_cases hlen : GoMap.len edges > 0
      · have h' : 0 < GoMap.len edges := hlen
        simp [h']
      · have h' : ¬ 0 < GoMap.len edges := hlen
        simp only [hlen, h', if_false]
        exact outPart_err _ k
  · have hv' : GoMap.has s.vertices k = false := by simpa using hv
    simp [hv']

theorem RemoveNode_ok (s : memoryStore N) (k : String)
    (hin : ¬ 0 < GoMap.len (GoMap.inner s.inEdges k))
    (hout : ¬ 0 < GoMap.len (GoMap.inner s.outEdges k))
    (hv : GoMap.has s.vertices k = true) :
    (s.RemoveNode k).1.vertices = GoMap.delete s.vertices k ∧
      GoMap.has (s.RemoveNode k).1.inEdges k = false ∧
      GoMap.has (s.RemoveNode k).1.outEdges k = false := by
  unfold RemoveNode
  simp only [hv, Bool.not_true, Bool.false_eq_true, if_false]
  cases h : GoMap.lookup s.inEdges k with
  | none =>
    obtain ⟨h1, h2⟩ := outPart_ok s k hout
    refine ⟨h1, ?_, h2⟩
    simp only []
    rw [outPart_in]
    simp [GoMap.has, h]
  | some edges =>
    rw [GoMap.inner_of_lookup_some _ _ _ h] at hin
    have hin' : ¬ GoMap.len edges > 0 := hin
    simp only [hin', if_false]
    obtain ⟨h1, h2⟩ := outPart_ok { s with inEdges := GoMap.delete s.inEdges k } k hout
    refine ⟨h1, ?_, h2⟩
    rw [outPart_in]
    simp [GoMap.has, GoMap.lookup_delete_self]

end memoryStore

end ringchain

/-! ## Well-formed graphs -/

namespace ringchain

namespace GoMap

variable {K V : Type} [DecidableEq K]

theorem lookup_some_mem (m : GoMap K V) (k : K) (v : V) (h : lookup m k = some v) :
    (k, v) ∈ m := by
  induction m with
  | nil => simp [lookup] at h
  | cons p r ih =>
    obtain ⟨k1, v1⟩ := p
    by_cases h1 : k1 = k
    · simp only [lookup, h1, if_true, Option.some.injEq] at h
      simp [h1, h]
    · simp only [lookup, h1, if_false] at h
      exact List.mem_cons_of_mem _ (ih h)

theorem mem_iff_lookup (m : GoMap K V) (hd : (keys m).Nodup) (k : K) (v : V) :
    (k, v) ∈ m ↔ lookup m k = some v :=
  ⟨lookup_of_mem_nodup m k v hd, lookup_some_mem m k v⟩

theorem mem_set (m : GoMap K V) (k : K) (v : V) (p : K × V) (h : p ∈ set m k v) :
    p = (k, v) ∨ p ∈ m := by
  induction m with
  | nil =>
    simp only [set, List.mem_singleton] at h
    exact Or.inl h
  | cons q r ih =>
    obtain ⟨k1, v1⟩ := q
    by_cases h1 : k1 = k
    · simp only [set, h1, if_true, List.mem_cons] at h
      rcases h with h | h
      · exact Or.inl h
      · exact Or.inr (List.mem_cons_of_mem _ h)
    · simp only [set, h1, if_false, List.mem_cons] at h
      rcases h with h | h
      · exact Or.inr (by simp [h])
      · rcases ih h with h2 | h2
        · exact Or.inl h2
        · exact Or.inr (List.mem_cons_of_mem _ h2)

theorem keys_set_nodup (m : GoMap K V) (k : K) (v : V) (hd : (keys m).Nodup) :
    (keys (set m k v)).Nodup := by
  rw [keys_set]
  by_cases h : has m k = true
  · simpa [h] using hd
  · simp only [h, if_false]
    have hk : k ∉ keys m := fun hmem => h ((mem_keys_iff m k).mp hmem)
    exact List.Nodup.append hd (List.nodup_singleton k) (by
      intro a ha hb
      simp only [List.mem_singleton] at hb
      exact hk (hb ▸ ha))

theorem keys_delete_nodup (m : GoMap K V) (k : K) (hd : (keys m).Nodup) :
    (keys (delete m k)).Nodup := by
  unfold keys delete at *
  exact List.Nodup.sublist (List.Sublist.map _ (List.filter_sublist _)) hd

theorem inner_ensure (m : GoMap K (GoMap K V)) (a x : K) :
    inner (if has m a then m else set m a []) x = inner m x := by
  by_cases h : has m a = true
  · simp [h]
  · have hnone : lookup m a = none := by
      simpa [has] using h
    have hf : has m a = false := by simpa using h
    rw [hf]
    simp only [Bool.false_eq_true, if_false, inner_set]
    by_cases hx : x = a
    · subst hx
      simp [inner_of_lookup_none m x hnone]
    · simp [hx]

theorem has_ensure (m : GoMap K (GoMap K V)) (a x : K) :
    has (if has m a then m else set m a []) x = (decide (x = a) || has m x) := by
  by_cases h : has m a = true
  · by_cases hx : x = a
    · subst hx
      simp [h]
    · simp [h, hx]
  · have hf : has m a = false := by simpa using h
    rw [hf]
    simp only [Bool.false_eq_true, if_false, has_set, hf]

theorem keys_ensure_nodup (m : GoMap K (GoMap K V)) (a : K) (hd : (keys m).Nodup) :
    (keys (if has m a then m else set m a [])).Nodup := by
  by_cases h : has m a = true
  · simpa [h] using hd
  · simp only [h, if_false]
    exact keys_set_nodup m a [] hd

theorem inner_keys_nodup (m : GoMap K (GoMap K V))
    (hin : ∀ s i, (s, i) ∈ m → (keys i).Nodup) (a : K) : (keys (inner m a)).Nodup := by
  unfold inner
  cases h : lookup m a with
  | none => simp [keys]
  | some i => exact hin a i (lookup_some_mem m a i h)

end GoMap

namespace Graph

variable {N : Type} [Inhabited N]

omit [Inhabited N] in
theorem newGraph_wellFormed : (NewGraph : Graph N).WellFormed := by
  refine ⟨by simp [NewGraph, newMemoryStore, GoMap.keys],
    by simp [NewGraph, newMemoryStore, GoMap.keys], ?_, ?_⟩
  · intro s m h
    simp [NewGraph, newMemoryStore] at h
  · intro s t e h
    simp [memoryStore.outHolds, NewGraph, newMemoryStore, GoMap.inner, GoMap.lookup] at h

omit [Inhabited N] in
theorem AddNode_wellFormed (g : Graph N) (hw : g.WellFormed) (name : String) (node : N) :
    (g.AddNode name node).1.WellFormed := by
  obtain ⟨h1, h2, h3, h4⟩ := hw
  rw [AddNode_eq]
  unfold memoryStore.AddNode
  by_cases hk : GoMap.has g.store.vertices name = true
  · simp only [hk, if_true]
    exact ⟨h1, h2, h3, h4⟩
  · simp only [hk, if_false]
    refine ⟨GoMap.keys_set_nodup _ _ _ h1, h2, h3, ?_⟩
    intro s t e he
    obtain ⟨he1, he2, he3⟩ := h4 s t e he
    refine ⟨he1, ?_, ?_⟩
    · show GoMap.has (GoMap.set g.store.vertices name node) s = true
      rw [GoMap.has_set]
      simp [show GoMap.has g.store.vertices s = true from he2]
    · show GoMap.has (GoMap.set g.store.vertices name node) t = true
      rw [GoMap.has_set]
      simp [show GoMap.has g.store.vertices t = true from he3]

omit [Inhabited N] in
theorem store_AddEdge_wellFormed (g : Graph N) (hw : g.WellFormed) (a b : String)
    (ha : g.store.IsNode a) (hb : g.store.IsNode b) :
    (Graph.mk (g.store.AddEdge a b { SourceHash := a, TargetHash := b }).1).WellFormed := by
  obtain ⟨h1, h2, h3, h4⟩ := hw
  refine ⟨h1, ?_, ?_, ?_⟩
  · simp only [memoryStore.AddEdge]
    exact GoMap.keys_set_nodup _ _ _ (GoMap.keys_ensure_nodup _ _ h2)
  · intro s m hm
    simp only [memoryStore.AddEdge] at hm
    rcases GoMap.mem_set _ _ _ _ hm with h | h
    · simp only [Prod.mk.injEq] at h
      rw [h.2]
      apply GoMap.keys_set_nodup
      rw [GoMap.inner_ensure]
      exact GoMap.inner_keys_nodup _ h3 a
    · by_cases hk : GoMap.has g.store.outEdges a = true
      · simp only [hk, if_true] at h
        exact h3 s m h
      · simp only [hk, if_false] at h
        rcases GoMap.mem_set _ _ _ _ h with h' | h'
        · simp only [Prod.mk.injEq] at h'
          rw [h'.2]
          simp [GoMap.keys]
        · exact h3 s m h'
  · intro s t e he
    unfold memoryStore.outHolds at he
    rw [memoryStore.AddEdge_out] at he
    by_cases hst : s = a ∧ t = b
    · simp only [hst, and_self, if_true, Option.some.injEq] at he
      obtain ⟨hs, ht⟩ := hst
      subst hs
      subst ht
      exact ⟨he.symm, ha, hb⟩
    · simp only [hst, if_false] at he
      exact h4 s t e he

theorem step_wellFormed (g : Graph N) (hw : g.WellFormed) (c : Call N) :
    (g.step c).WellFormed := by
  cases c with
  | addNode name node => exact AddNode_wellFormed g hw name node
  | addEdge a b =>
    rcases AddEdge_result g a b with ⟨h, _⟩ | ⟨h, ha, hb, _, _⟩
    · simp only [step, h]
      exact hw
    · simp only [step, h]
      exact store_AddEdge_wellFormed g hw a b ha hb

theorem run_wellFormed (calls : List (Call N)) :
    ∀ g : Graph N, g.WellFormed → (g.run calls).WellFormed := by
  induction calls with
  | nil =>
    intro g hw
    exact hw
  | cons c cs ih =>
    intro g hw
    exact ih (g.step c) (step_wellFormed g hw c)

theorem built_wellFormed (g : Graph N) (hg : g.Built) : g.WellFormed := by
  obtain ⟨calls, rfl⟩ := hg
  exact run_wellFormed calls NewGraph newGraph_wellFormed

end Graph

end ringchain

/-! ## The adjacency snapshots -/

namespace ringchain

namespace Graph

variable {N : Type}

theorem emptyFold_lookup (vs : List String) :
    ∀ (m : GoMap String (GoMap String ringchain.Edge)) (k : String),
      GoMap.lookup (vs.foldl (fun m node => GoMap.set m node []) m) k
        = if k ∈ vs then some [] else GoMap.lookup m k := by
  induction vs with
  | nil =>
    intro m k
    simp
  | cons v r ih =>
    intro m k
    rw [List.foldl_cons, ih, GoMap.lookup_set]
    by_cases h1 : k ∈ r
    · simp [h1]
    · by_cases h2 : k = v
      · simp [h2]
      · simp [h1, h2]

theorem emptyFold_keys (vs : List String) :
    ∀ (m : GoMap String (GoMap String ringchain.Edge)),
      (∀ k ∈ vs, GoMap.has m k = false) → vs.Nodup →
      GoMap.keys (vs.foldl (fun m node => GoMap.set m node []) m) = GoMap.keys m ++ vs := by
  induction vs with
  | nil =>
    intro m _ _
    simp
  | cons v r ih =>
    intro m hfresh hd
    have hv : GoMap.has m v = false := hfresh v (by simp)
    rw [List.foldl_cons, ih]
    · rw [GoMap.keys_set, hv]
      simp
    · intro k hk
      rw [GoMap.has_set]
      have hne : k ≠ v := by
        intro h
        subst h
        exact (List.nodup_cons.mp hd).1 hk
      simp [hne, hfresh k (List.mem_cons_of_mem _ hk)]
    · exact (List.nodup_cons.mp hd).2

theorem emptyAdjacency_lookup (vs : List String) (k : String) :
    GoMap.lookup (emptyAdjacency vs) k = if k ∈ vs then some [] else none := by
  unfold emptyAdjacency
  rw [emptyFold_lookup]
  simp [GoMap.lookup]

theorem emptyAdjacency_keys (vs : List String) (hd : vs.Nodup) :
    GoMap.keys (emptyAdjacency vs) = vs := by
  unfold emptyAdjacency
  rw [emptyFold_keys vs [] (by simp [GoMap.has, GoMap.lookup]) hd]
  simp [GoMap.keys]

theorem emptyAdjacency_inner (vs : List String) (x y : String) :
    GoMap.lookup (GoMap.inner (emptyAdjacency vs) x) y = none := by
  unfold GoMap.inner
  rw [emptyAdjacency_lookup]
  by_cases h : x ∈ vs <;> simp [h, GoMap.lookup]

theorem edge_eta (e : ringchain.Edge) (s t : String) (hs : e.SourceHash = s)
    (ht : e.TargetHash = t) : e = { SourceHash := s, TargetHash := t } := by
  cases e
  simp_all

theorem PredecessorMap_insert_lookup (m : GoMap String (GoMap String ringchain.Edge))
    (e : ringchain.Edge) (x y : String) :
    GoMap.lookup (GoMap.inner (PredecessorMap.insert m e) x) y
      = if e = { SourceHash := y, TargetHash := x } then some e
        else GoMap.lookup (GoMap.inner m x) y := by
  unfold PredecessorMap.insert
  simp only []
  rw [GoMap.lookup_inner_ensure_set]
  by_cases h : x = e.TargetHash ∧ y = e.SourceHash
  · have he : e = { SourceHash := y, TargetHash := x } := edge_eta e y x h.2.symm h.1.symm
    simp [h, ← he]
  · have he : ¬ e = { SourceHash := y, TargetHash := x } := by
      intro he
      apply h
      rw [he]
      exact ⟨rfl, rfl⟩
    simp [h, he]

theorem PredecessorMap_fold_lookup (es : List ringchain.Edge) :
    ∀ (m : GoMap String (GoMap String ringchain.Edge)) (x y : String),
      GoMap.lookup (GoMap.inner (es.foldl PredecessorMap.insert m) x) y
        = if ({ SourceHash := y, TargetHash := x } : ringchain.Edge) ∈ es
          then some { SourceHash := y, TargetHash := x }
          else GoMap.lookup (GoMap.inner m x) y := by
  induction es with
  | nil =>
    intro m x y
    simp
  | cons e r ih =>
    intro m x y
    rw [List.foldl_cons, ih, PredecessorMap_insert_lookup]
    by_cases h1 : ({ SourceHash := y, TargetHash := x } : ringchain.Edge) ∈ r
    · simp [h1]
    · by_cases h2 : e = { SourceHash := y, TargetHash := x }
      · simp [h2]
      · have h3 : ¬ ({ SourceHash := y, TargetHash := x } : ringchain.Edge) = e :=
          fun h => h2 h.symm
        simp [h1, h2, h3]

theorem PredecessorMap_insert_keys (m : GoMap String (GoMap String ringchain.Edge))
    (e : ringchain.Edge) (h : GoMap.has m e.TargetHash = true) :
    GoMap.keys (PredecessorMap.insert m e) = GoMap.keys m ∧
      ∀ k, GoMap.has (PredecessorMap.insert m e) k = GoMap.has m k := by
  unfold PredecessorMap.insert
  simp only [h, if_true]
  refine ⟨by rw [GoMap.keys_set, h]; simp, ?_⟩
  intro k
  rw [GoMap.has_set]
  by_cases hk : k = e.TargetHash
  · simp [hk, h]
  · simp [hk]

theorem PredecessorMap_fold_keys (es : List ringchain.Edge) :
    ∀ (m : GoMap String (GoMap String ringchain.Edge)),
      (∀ e ∈ es, GoMap.has m e.TargetHash = true) →
      GoMap.keys (es.foldl PredecessorMap.insert m) = GoMap.keys m := by
  induction es with
  | nil =>
    intro m _
    rfl
  | cons e r ih =>
    intro m h
    have he := PredecessorMap_insert_keys m e (h e (by simp))
    rw [List.foldl_cons, ih, he.1]
    intro e1 h1
    rw [he.2]
    exact h e1 (List.mem_cons_of_mem _ h1)

theorem SuccessorMap_insert_some (m : GoMap String (GoMap String ringchain.Edge))
    (e : ringchain.Edge) (h : GoMap.has m e.SourceHash = true) :
    ∃ m1, SuccessorMap.insert m e = some m1 ∧ GoMap.keys m1 = GoMap.keys m ∧
      (∀ k, GoMap.has m1 k = GoMap.has m k) ∧
      ∀ x y, GoMap.lookup (GoMap.inner m1 x) y
        = if e = { SourceHash := x, TargetHash := y } then some e
          else GoMap.lookup (GoMap.inner m x) y := by
  obtain ⟨targets, ht⟩ := (GoMap.has_iff_exists _ _).mp h
  refine ⟨GoMap.set m e.SourceHash (GoMap.set targets e.TargetHash e),
    by simp [SuccessorMap.insert, ht], by rw [GoMap.keys_set, h]; simp, ?_, ?_⟩
  · intro k
    rw [GoMap.has_set]
    by_cases hk : k = e.SourceHash
    · simp [hk, h]
    · simp [hk]
  · intro x y
    have hl := GoMap.lookup_inner_ensure_set m e.SourceHash e.TargetHash x y e
    simp only [h, if_true, GoMap.inner_of_lookup_some m _ _ ht] at hl
    rw [hl]
    by_cases hxy : x = e.SourceHash ∧ y = e.TargetHash
    · have he : e = { SourceHash := x, TargetHash := y } := edge_eta e x y hxy.1.symm hxy.2.symm
      simp [hxy, ← he]
    · have he : ¬ e = { SourceHash := x, TargetHash := y } := by
        intro he
        apply hxy
        rw [he]
        exact ⟨rfl, rfl⟩
      simp [hxy, he]

theorem SuccessorMap_fold (es : List ringchain.Edge) :
    ∀ (m : GoMap String (GoMap String ringchain.Edge)),
      (∀ e ∈ es, GoMap.has m e.SourceHash = true) →
      ∃ m1, es.foldlM SuccessorMap.insert m = some m1 ∧ GoMap.keys m1 = GoMap.keys m ∧
        ∀ x y, GoMap.lookup (GoMap.inner m1 x) y
          = if ({ SourceHash := x, TargetHash := y } : ringchain.Edge) ∈ es
            then some { SourceHash := x, TargetHash := y }
            else GoMap.lookup (GoMap.inner m x) y := by
  induction es with
  | nil =>
    intro m _
    exact ⟨m, rfl, rfl, by simp⟩
  | cons e r ih =>
    intro m h
    obtain ⟨m1, h1, hk1, hh1, hl1⟩ := SuccessorMap_insert_some m e (h e (by simp))
    obtain ⟨m2, h2, hk2, hl2⟩ := ih m1 (by
      intro e1 he1
      rw [hh1]
      exact h e1 (List.mem_cons_of_mem _ he1))
    refine ⟨m2, by simp [List.foldlM, h1, h2], by rw [hk2, hk1], ?_⟩
    intro x y
    rw [hl2, hl1]
    by_cases g1 : ({ SourceHash := x, TargetHash := y } : ringchain.Edge) ∈ r
    · simp [g1]
    · by_cases g2 : e = { SourceHash := x, TargetHash := y }
      · simp [g2]
      · have g3 : ¬ ({ SourceHash := x, TargetHash := y } : ringchain.Edge) = e :=
          fun hh => g2 hh.symm
        simp [g1, g2, g3]

/-- In a well-formed graph `ListEdges` lists exactly the stored edges. -/
theorem mem_ListEdges (g : Graph N) (hw : g.WellFormed) (s t : String) :
    ({ SourceHash := s, TargetHash := t } : ringchain.Edge) ∈ g.store.ListEdges.1
      ↔ g.store.HasEdge s t := by
  obtain ⟨_, h2, h3, h4⟩ := hw
  simp only [memoryStore.ListEdges, List.mem_flatMap, List.mem_map]
  constructor
  · rintro ⟨⟨a, m⟩, ham, ⟨b, e⟩, hbe, heq⟩
    simp only at hbe heq
    have hl1 : GoMap.lookup g.store.outEdges a = some m := (GoMap.mem_iff_lookup _ h2 a m).mp ham
    have hl2 : GoMap.lookup m b = some e := (GoMap.mem_iff_lookup _ (h3 a m ham) b e).mp hbe
    have hout : g.store.outHolds a b e := by
      unfold memoryStore.outHolds
      rw [GoMap.inner_of_lookup_some _ _ _ hl1]
      exact hl2
    obtain ⟨he, _, _⟩ := h4 a b e hout
    rw [heq] at he
    simp only [Edge.mk.injEq] at he
    rw [he.1, he.2]
    exact ⟨_, heq ▸ hout⟩
  · rintro ⟨e, he⟩
    obtain ⟨heq, _, _⟩ := h4 s t e he
    unfold memoryStore.outHolds GoMap.inner at he
    cases hl : GoMap.lookup g.store.outEdges s with
    | none => simp [hl, GoMap.lookup] at he
    | some m =>
      simp only [hl, Option.getD_some] at he
      exact ⟨(s, m), GoMap.lookup_some_mem _ _ _ hl, (t, e), GoMap.lookup_some_mem _ _ _ he, heq⟩

end Graph

end ringchain

namespace ringchain

namespace Graph

variable {N : Type}

theorem stored_edge_eq (g : Graph N) (hw : g.WellFormed) (s t : String) (e : ringchain.Edge) :
    g.store.outHolds s t e ↔ (g.store.HasEdge s t ∧ e = { SourceHash := s, TargetHash := t }) := by
  constructor
  · intro h
    exact ⟨⟨e, h⟩, (hw.2.2.2 s t e h).1⟩
  · rintro ⟨⟨e1, h1⟩, he⟩
    rw [he, ← (hw.2.2.2 s t e1 h1).1]
    exact h1

theorem PredecessorMap_spec (g : Graph N) (hw : g.WellFormed) :
    ∃ pred, g.PredecessorMap = (pred, none) ∧
      GoMap.keys pred = GoMap.keys g.store.vertices ∧
      ∀ t s, GoMap.lookup (GoMap.inner pred t) s
        = if g.store.HasEdge s t then some { SourceHash := s, TargetHash := t } else none := by
  refine ⟨g.store.ListEdges.1.foldl PredecessorMap.insert (emptyAdjacency g.store.ListNodes.1),
    rfl, ?_, ?_⟩
  · rw [PredecessorMap_fold_keys]
    · exact emptyAdjacency_keys _ hw.1
    · intro e he
      have hmem : ({ SourceHash := e.SourceHash, TargetHash := e.TargetHash } : ringchain.Edge)
          ∈ g.store.ListEdges.1 := he
      obtain ⟨e1, he1⟩ := (mem_ListEdges g hw _ _).mp hmem
      have hn := (hw.2.2.2 _ _ e1 he1).2.2
      unfold GoMap.has
      rw [emptyAdjacency_lookup]
      have hk : e.TargetHash ∈ g.store.ListNodes.1 := (GoMap.mem_keys_iff _ _).mpr hn
      rw [if_pos hk]
      rfl
  · intro t s
    rw [PredecessorMap_fold_lookup, emptyAdjacency_inner]
    by_cases h : g.store.HasEdge s t
    · rw [if_pos h, if_pos ((mem_ListEdges g hw s t).mpr h)]
    · rw [if_neg h, if_neg (fun hm => h ((mem_ListEdges g hw s t).mp hm))]

theorem SuccessorMap_spec (g : Graph N) (hw : g.WellFormed) :
    ∃ succ, g.SuccessorMap = some (succ, none) ∧
      GoMap.keys succ = GoMap.keys g.store.vertices ∧
      ∀ s t, GoMap.lookup (GoMap.inner succ s) t
        = if g.store.HasEdge s t then some { SourceHash := s, TargetHash := t } else none := by
  obtain ⟨m1, h1, hk, hl⟩ := SuccessorMap_fold g.store.ListEdges.1
    (emptyAdjacency g.store.ListNodes.1) (by
      intro e he
      have hmem : ({ SourceHash := e.SourceHash, TargetHash := e.TargetHash } : ringchain.Edge)
          ∈ g.store.ListEdges.1 := he
      obtain ⟨e1, he1⟩ := (mem_ListEdges g hw _ _).mp hmem
      have hn := (hw.2.2.2 _ _ e1 he1).2.1
      unfold GoMap.has
      rw [emptyAdjacency_lookup]
      have hk : e.SourceHash ∈ g.store.ListNodes.1 := (GoMap.mem_keys_iff _ _).mpr hn
      rw [if_pos hk]
      rfl)
  refine ⟨m1, ?_, ?_, ?_⟩
  · show (Option.map (fun m => (m, none))
      (List.foldlM SuccessorMap.insert (emptyAdjacency g.store.ListNodes.1)
        g.store.ListEdges.1)) = some (m1, none)
    rw [h1]
    rfl
  · rw [hk]
    exact emptyAdjacency_keys _ hw.1
  · intro s t
    rw [hl, emptyAdjacency_inner]
    by_cases h : g.store.HasEdge s t
    · rw [if_pos h, if_pos ((mem_ListEdges g hw s t).mpr h)]
    · rw [if_neg h, if_neg (fun hm => h ((mem_ListEdges g hw s t).mp hm))]

/-- A key of a map of maps whose inner map has no entry maps to the empty map. -/
theorem lookup_eq_nil_of_no_entry (m : GoMap String (GoMap String ringchain.Edge)) (k : String)
    (hk : GoMap.has m k = true) (hno : ∀ y, GoMap.lookup (GoMap.inner m k) y = none) :
    GoMap.lookup m k = some [] := by
  obtain ⟨i, hi⟩ := (GoMap.has_iff_exists _ _).mp hk
  rw [GoMap.inner_of_lookup_some _ _ _ hi] at hno
  cases i with
  | nil => exact hi
  | cons p r =>
    have := hno p.1
    simp [GoMap.lookup] at this

end Graph

end ringchain

/-! ## Traces, merges and `maps.Copy` -/

namespace ringchain

namespace Event

variable {V : Type}

theorem recs_append (t1 t2 : List (Event V)) : recs (t1 ++ t2) = recs t1 ++ recs t2 := by
  induction t1 with
  | nil => rfl
  | cons e r ih =>
    cases e <;> simp [recs, ih]

theorem subs_append (t1 t2 : List (Event V)) : subs (t1 ++ t2) = subs t1 ++ subs t2 := by
  induction t1 with
  | nil => rfl
  | cons e r ih =>
    cases e <;> simp [subs, ih]

theorem recs_snoc_submit (t : List (Event V)) (u : String) (j : Nat) (a : Args V) :
    recs (t ++ [submit u j a]) = recs t := by
  rw [recs_append]
  simp [recs]

theorem subs_snoc_submit (t : List (Event V)) (u : String) (j : Nat) (a : Args V) :
    subs (t ++ [submit u j a]) = subs t ++ [(u, j, a)] := by
  rw [subs_append]
  simp [subs]

theorem recs_snoc_result (t : List (Event V)) (u : String) (r : Args V) :
    recs (t ++ [result u r]) = recs t ++ [(u, r)] := by
  rw [recs_append]
  simp [recs]

theorem subs_snoc_result (t : List (Event V)) (u : String) (r : Args V) :
    subs (t ++ [result u r]) = subs t := by
  rw [subs_append]
  simp [subs]

theorem recs_snoc_stop (t : List (Event V)) : recs (t ++ [stop, wait]) = recs t := by
  rw [recs_append]
  simp [recs]

theorem subs_snoc_stop (t : List (Event V)) : subs (t ++ [stop, wait]) = subs t := by
  rw [subs_append]
  simp [subs]

end Event

theorem lastWriter_snoc {V : Type} (outs : List (String × Args V)) (p : String × Args V)
    (k : String) :
    lastWriter (outs ++ [p]) k = match GoMap.lookup p.2 k with
      | some v => some v
      | none => lastWriter outs k := by
  unfold lastWriter
  rw [List.foldl_append]
  rfl

theorem lastWriter_nil {V : Type} (k : String) : lastWriter ([] : List (String × Args V)) k = none :=
  rfl

theorem mapsCopy_fold_lookup {V : Type} (src : Args V) (ks : List String) :
    ∀ (dst : Args V) (k : String),
      GoMap.lookup (ks.foldl (fun m k => match GoMap.lookup src k with
        | some v => GoMap.set m k v
        | none => m) dst) k
      = if k ∈ ks then (match GoMap.lookup src k with
          | some v => some v
          | none => GoMap.lookup dst k) else GoMap.lookup dst k := by
  induction ks with
  | nil =>
    intro dst k
    simp
  | cons a r ih =>
    intro dst k
    rw [List.foldl_cons, ih]
    by_cases hk : k ∈ r
    · simp only [hk, if_true, List.mem_cons, or_true]
      cases hs : GoMap.lookup src k with
      | some v => rfl
      | none =>
        simp only []
        cases ha : GoMap.lookup src a with
        | none => rfl
        | some w =>
          simp only []
          rw [GoMap.lookup_set]
          by_cases hka : k = a
          · subst hka
            rw [hs] at ha
            exact absurd ha (by simp)
          · simp [hka]
    · simp only [hk, if_false, List.mem_cons, or_false]
      by_cases hka : k = a
      · subst hka
        simp only [if_true]
        cases ha : GoMap.lookup src k with
        | none => rfl
        | some w =>
          simp only []
          rw [GoMap.lookup_set_self]
      · simp only [hka, if_false]
        cases ha : GoMap.lookup src a with
        | none => rfl
        | some w =>
          simp only []
          rw [GoMap.lookup_set_ne _ _ _ _ hka]

/-- After `maps.Copy(dst, src)` a key holds its value in `src`, or else its value in `dst`. -/
theorem mapsCopy_lookup {V : Type} (dst src : Args V) (k : String) :
    GoMap.lookup (mapsCopy dst src) k = match GoMap.lookup src k with
      | some v => some v
      | none => GoMap.lookup dst k := by
  unfold mapsCopy
  rw [mapsCopy_fold_lookup]
  by_cases hk : k ∈ GoMap.keys src
  · simp [hk]
  · simp only [hk, if_false]
    rw [GoMap.lookup_eq_none_of_not_mem src k hk]

end ringchain

/-! ## The coordinator of `Execute`: submitting a node -/

namespace ringchain

namespace GoMap

variable {K V : Type} [DecidableEq K]

theorem has_delete (m : GoMap K V) (k k' : K) :
    has (delete m k) k' = (!decide (k' = k) && has m k') := by
  unfold has
  rw [lookup_delete]
  by_cases h : k' = k <;> simp [h]

theorem has_nil (k : K) : has ([] : GoMap K V) k = false := rfl

theorem no_entry_of_len (m : GoMap K V) (h : (len m == 0) = true) (k : K) : has m k = false := by
  have : m = [] := by
    cases m with
    | nil => rfl
    | cons p r => simp [len] at h
  rw [this]
  rfl

theorem exists_entry_of_len (m : GoMap K V) (h : ¬ (len m == 0) = true) : ∃ k, has m k = true := by
  cases m with
  | nil => simp [len] at h
  | cons p r => exact ⟨p.1, by simp [has, lookup]⟩

end GoMap

/-- A list that ends in `e` and is split at an element `x`: the element is `e`, or it lies in
the part before `e`. -/
theorem split_snoc {α : Type} (t pre post : List α) (e x : α) (h : t ++ [e] = pre ++ x :: post) :
    (pre = t ∧ x = e ∧ post = []) ∨ ∃ post1, post = post1 ++ [e] ∧ t = pre ++ x :: post1 := by
  rcases List.eq_nil_or_concat post with hp | ⟨post1, y, hp⟩
  · subst hp
    have h1 : t ++ [e] = pre ++ [x] := h
    have h2 := List.append_inj' h1 rfl
    exact Or.inl ⟨h2.1.symm, (List.singleton_inj.mp h2.2).symm, rfl⟩
  · subst hp
    right
    have h1 : t ++ [e] = (pre ++ x :: post1) ++ [y] := by
      rw [h]
      simp
    have h2 := List.append_inj' h1 rfl
    have hy : e = y := List.singleton_inj.mp h2.2
    exact ⟨post1, by rw [hy]; simp, h2.1⟩

end ringchain

/-! ## The coordinator of `Execute`: submitting the node under visit -/

namespace ringchain

namespace Graph

variable {N V E : Type} [Inhabited N]

theorem Execute.submit_eq (g : Graph N) (st : execState N V) (u : String) (a : Args V)
    (hu : g.store.IsNode u) :
    Execute.submit g st u a = Except.ok
      { st with
        pool := st.pool.AddNodeJob u (g.Node u).1 a,
        predecessorMap := GoMap.delete st.predecessorMap u,
        trace := st.trace ++ [Event.submit u st.pool.jobQueue.length a] } := by
  obtain ⟨v, _, hv⟩ := memoryStore.Node_of_isNode g.store u hu
  have hn : g.Node u = (v, none) := hv
  simp [Execute.submit, hn]

/-- Submitting the node under visit, whose remaining predecessors are none, keeps the
invariant. -/
theorem Execute.Inv_submit (Run : N → Args V → RunResult V E) (g : Graph N) (args : Args V)
    (rest : List String) (h : String) (res : Args V) (st : execState N V) (u : String)
    (a : Args V)
    (hinv : Execute.Inv Run g args (some u) rest h res st)
    (hu : GoMap.has st.predecessorMap u = true)
    (hempty : ∀ p, GoMap.has (GoMap.inner st.predecessorMap u) p = false)
    (hur : u ∉ rest)
    (ha2 : (∀ p, ¬ g.store.HasEdge p u) → a = args)
    (ha3 : (∃ p, g.store.HasEdge p u) →
      ∀ k, GoMap.lookup a k = GoMap.lookup (GoMap.inner st.nodeInputMap u) k) :
    Execute.Inv Run g args none rest h res
      { st with
        pool := st.pool.AddNodeJob u (g.Node u).1 a,
        predecessorMap := GoMap.delete st.predecessorMap u,
        trace := st.trace ++ [Event.submit u st.pool.jobQueue.length a] } := by
  have hlen : st.pool.jobQueue.length = (Event.subs st.trace).length := by
    rw [hinv.jobs, List.length_map]
  have husub : u ∉ (Event.subs st.trace).map Prod.fst := hinv.disj u hu
  have hurec : u ∉ GoMap.keys (Event.recs st.trace) := by
    intro hmem
    obtain ⟨⟨u1, r⟩, hr, hfst⟩ := List.mem_map.mp hmem
    simp only at hfst
    subst hfst
    obtain ⟨j, b, hjb, _⟩ := hinv.recorded u1 r hr
    exact husub (List.mem_map.mpr ⟨(u1, j, b), hjb, rfl⟩)
  refine
    { results := ?_, recNodup := ?_, pmNodup := ?_, subNodup := ?_, cover := ?_, disj := ?_,
      preds := ?_, nonempty := ?_, jobs := ?_, ids := ?_, runNodup := ?_, running := ?_,
      recorded := ?_, inputs := ?_, order := ?_, restNodup := hinv.restNodup,
      restPending := ?_, last := ?_ }
  · simp only [Event.recs_snoc_submit]
    exact hinv.results
  · simp only [Event.recs_snoc_submit]
    exact hinv.recNodup
  · exact GoMap.keys_delete_nodup _ _ hinv.pmNodup
  · simp only [Event.subs_snoc_submit, List.map_append, List.map_cons, List.map_nil]
    exact List.Nodup.append hinv.subNodup (List.nodup_singleton u) (by
      intro x hx hx2
      simp only [List.mem_singleton] at hx2
      subst hx2
      exact husub hx)
  · intro x
    simp only [Event.subs_snoc_submit, List.map_append, List.map_cons, List.map_nil,
      List.mem_append, List.mem_singleton, GoMap.has_delete]
    rw [hinv.cover x]
    by_cases hxu : x = u
    · subst hxu
      simp [hu]
    · simp [hxu]
  · intro x hx
    simp only [GoMap.has_delete, Bool.and_eq_true, Bool.not_eq_true', decide_eq_false_iff_not]
      at hx
    simp only [Event.subs_snoc_submit, List.map_append, List.map_cons, List.map_nil,
      List.mem_append, List.mem_singleton, not_or]
    exact ⟨hinv.disj x hx.2, hx.1⟩
  · intro x p
    simp only [Event.recs_snoc_submit, GoMap.inner_delete, GoMap.has_delete]
    by_cases hxu : x = u
    · subst hxu
      simp [GoMap.has_nil]
    · simp only [hxu, if_false, decide_False, Bool.not_false, Bool.true_and]
      exact hinv.preds x p
  · intro x hx _
    simp only [GoMap.has_delete, Bool.and_eq_true, Bool.not_eq_true', decide_eq_false_iff_not]
      at hx
    simp only [Event.recs_snoc_submit, GoMap.inner_delete, hx.1, if_false]
    exact hinv.nonempty x hx.2 (by
      intro hc
      exact hx.1 (Option.some.inj hc).symm)
  · simp only [workerPool.AddNodeJob, Event.subs_snoc_submit, List.map_append, List.map_cons,
      List.map_nil]
    rw [← hinv.jobs]
  · simp only [Event.subs_snoc_submit, List.map_append, List.map_cons, List.map_nil,
      List.length_append, List.length_singleton, List.range_succ, hinv.ids, hlen]
  · simp only [workerPool.AddNodeJob]
    exact List.Nodup.append hinv.runNodup (List.nodup_singleton _) (by
      intro r hr hr2
      simp only [List.mem_singleton] at hr2
      subst hr2
      obtain ⟨⟨b, hb⟩, _⟩ := (hinv.running _).mp hr
      exact husub (List.mem_map.mpr ⟨_, hb, rfl⟩))
  · intro r
    simp only [workerPool.AddNodeJob, List.mem_append, List.mem_singleton,
      Event.subs_snoc_submit, Event.recs_snoc_submit, Prod.mk.injEq]
    constructor
    · rintro (hr | hr)
      · obtain ⟨⟨b, hb⟩, hnr⟩ := (hinv.running r).mp hr
        exact ⟨⟨b, Or.inl hb⟩, hnr⟩
      · subst hr
        exact ⟨⟨a, Or.inr ⟨rfl, rfl, rfl⟩⟩, hurec⟩
    · rintro ⟨⟨b, hb | ⟨h1, h2, _⟩⟩, hnr⟩
      · exact Or.inl ((hinv.running r).mpr ⟨⟨b, hb⟩, hnr⟩)
      · right
        cases r
        simp_all
  · intro x r hr
    simp only [Event.recs_snoc_submit] at hr
    obtain ⟨j, b, hjb, hrun⟩ := hinv.recorded x r hr
    refine ⟨j, b, ?_, hrun⟩
    simp only [Event.subs_snoc_submit, List.mem_append]
    exact Or.inl hjb
  · intro x k
    simp only [Event.recs_snoc_submit]
    exact hinv.inputs x k
  · intro pre post x j b hsplit
    rcases split_snoc _ _ _ _ _ hsplit with ⟨hpre, hev, _⟩ | ⟨post1, _, hold⟩
    · simp only [Event.submit.injEq] at hev
      obtain ⟨hx, _, hb⟩ := hev
      subst hx
      subst hb
      subst hpre
      have hall : ∀ p, g.store.HasEdge p x → p ∈ GoMap.keys (Event.recs st.trace) := by
        intro p hp
        by_contra hnot
        have := (hinv.preds x p).mpr ⟨hu, hp, Or.inl hnot⟩
        rw [hempty p] at this
        exact absurd this (by simp)
      refine ⟨hall, ha2, ?_⟩
      intro hex k
      rw [ha3 hex k, hinv.inputs x k]
      congr 1
      apply List.filter_congr
      intro r _
      simp [hur]
    · exact hinv.order pre post1 x j b hold
  · intro x hx
    rw [GoMap.has_delete]
    have hne : x ≠ u := fun hxu => hur (hxu ▸ hx)
    simp [hne, hinv.restPending x hx]
  · intro hne
    simp only [Event.recs_snoc_submit]
    exact hinv.last hne

end Graph

end ringchain

/-! ## The coordinator of `Execute`: visiting a key of the predecessor map -/

namespace ringchain

namespace Graph

variable {N V E : Type} [Inhabited N]

/-- The visit of the key `u` begins; the finished node is not among its remaining
predecessors, or nothing has been recorded yet. -/
theorem Execute.Inv_visit (Run : N → Args V → RunResult V E) (g : Graph N) (args : Args V)
    (rest : List String) (h : String) (res : Args V) (st : execState N V) (u : String)
    (hinv : Execute.Inv Run g args none (u :: rest) h res st)
    (hnm : GoMap.has (GoMap.inner st.predecessorMap u) h = false ∨ Event.recs st.trace = []) :
    Execute.Inv Run g args (some u) rest h res st := by
  have hur : u ∉ rest := (List.nodup_cons.mp hinv.restNodup).1
  have hu : GoMap.has st.predecessorMap u = true := hinv.restPending u (by simp)
  have hkey : ∀ r : String × Args V, r ∈ Event.recs st.trace → r.1 = h →
      ¬ g.store.HasEdge r.1 u := by
    intro r hr hrh hedge
    rcases hnm with hnm | hnm
    · have := (hinv.preds u h).mpr ⟨hu, hrh ▸ hedge, Or.inr ⟨rfl, by simp⟩⟩
      rw [hnm] at this
      exact absurd this (by simp)
    · rw [hnm] at hr
      simp at hr
  refine
    { results := hinv.results, recNodup := hinv.recNodup, pmNodup := hinv.pmNodup,
      subNodup := hinv.subNodup, cover := hinv.cover, disj := hinv.disj,
      preds := ?_, nonempty := ?_, jobs := hinv.jobs, ids := hinv.ids,
      runNodup := hinv.runNodup, running := hinv.running, recorded := hinv.recorded,
      inputs := ?_, order := hinv.order, restNodup := (List.nodup_cons.mp hinv.restNodup).2,
      restPending := fun x hx => hinv.restPending x (List.mem_cons_of_mem _ hx), last := ?_ }
  · intro x p
    rw [hinv.preds x p]
    by_cases hxu : x = u
    · subst hxu
      constructor
      · rintro ⟨h1, h2, h3 | ⟨h3, _⟩⟩
        · exact ⟨h1, h2, Or.inl h3⟩
        · subst h3
          refine ⟨h1, h2, Or.inl ?_⟩
          intro hmem
          obtain ⟨r, hr, hfst⟩ := List.mem_map.mp hmem
          exact hkey r hr hfst (hfst ▸ h2)
      · rintro ⟨h1, h2, h3 | ⟨_, h4⟩⟩
        · exact ⟨h1, h2, Or.inl h3⟩
        · exact absurd h4 hur
    · simp [hxu]
  · intro x hx hc
    have hxu : x ≠ u := fun hxu => hc (by rw [hxu])
    rcases hinv.nonempty x hx (by simp) with hp | ⟨hmem, hrec⟩
    · exact Or.inl hp
    · right
      simp only [List.mem_cons, hxu, false_or] at hmem
      exact ⟨hmem, hrec⟩
  · intro x k
    rw [hinv.inputs x k]
    congr 1
    apply List.filter_congr
    intro r hr
    by_cases hxu : x = u
    · subst hxu
      by_cases hrh : r.1 = h
      · have := hkey r hr hrh
        simp [this]
      · simp [hrh]
    · simp [hxu]
  · intro hne
    exact hinv.last (by simp)

/-- The visit of the key `u` ends without a submission: predecessors of `u` remain. -/
theorem Execute.Inv_keep (Run : N → Args V → RunResult V E) (g : Graph N) (args : Args V)
    (rest : List String) (h : String) (res : Args V) (st : execState N V) (u : String)
    (hinv : Execute.Inv Run g args (some u) rest h res st)
    (hp : ∃ p, GoMap.has (GoMap.inner st.predecessorMap u) p = true) :
    Execute.Inv Run g args none rest h res st :=
  { results := hinv.results, recNodup := hinv.recNodup, pmNodup := hinv.pmNodup,
    subNodup := hinv.subNodup, cover := hinv.cover, disj := hinv.disj,
    preds := hinv.preds,
    nonempty := fun x hx _ => by
      by_cases hxu : x = u
      · subst hxu
        exact Or.inl hp
      · exact hinv.nonempty x hx (by
          intro hc
          exact hxu (Option.some.inj hc).symm),
    jobs := hinv.jobs, ids := hinv.ids,
    runNodup := hinv.runNodup, running := hinv.running, recorded := hinv.recorded,
    inputs := hinv.inputs, order := hinv.order, restNodup := hinv.restNodup,
    restPending := hinv.restPending, last := hinv.last }

/-- The visit of the key `u` begins and the finished node `h` is among its remaining
predecessors: the result of `h` is merged into the input of `u` and `h` is struck off. -/
theorem Execute.Inv_merge (Run : N → Args V → RunResult V E) (g : Graph N) (args : Args V)
    (rest : List String) (h : String) (res : Args V) (st : execState N V) (u : String)
    (predecessors : GoMap String ringchain.Edge)
    (hinv : Execute.Inv Run g args none (u :: rest) h res st)
    (hlast : ∃ R, Event.recs st.trace = R ++ [(h, res)])
    (hl : GoMap.lookup st.predecessorMap u = some predecessors)
    (hm : GoMap.has predecessors h = true) :
    Execute.Inv Run g args (some u) rest h res
      { st with
        nodeInputMap :=
          GoMap.set
            (if GoMap.has st.nodeInputMap u then st.nodeInputMap
              else GoMap.set st.nodeInputMap u []) u
            (mapsCopy (GoMap.inner
              (if GoMap.has st.nodeInputMap u then st.nodeInputMap
                else GoMap.set st.nodeInputMap u []) u) res),
        predecessorMap := GoMap.set st.predecessorMap u (GoMap.delete predecessors h) } := by
  obtain ⟨R, hR⟩ := hlast
  have hur : u ∉ rest := (List.nodup_cons.mp hinv.restNodup).1
  have hu : GoMap.has st.predecessorMap u = true := hinv.restPending u (by simp)
  have hin : GoMap.inner st.predecessorMap u = predecessors :=
    GoMap.inner_of_lookup_some _ _ _ hl
  have hhrec : h ∈ GoMap.keys (Event.recs st.trace) := by
    rw [hR]
    simp [GoMap.keys]
  have hnd : (GoMap.keys (R ++ [(h, res)])).Nodup := hR ▸ hinv.recNodup
  have hhR : ∀ r ∈ R, r.1 ≠ h := by
    intro r hr hrh
    simp only [GoMap.keys, List.map_append, List.map_cons, List.map_nil] at hnd
    have := (List.nodup_append.mp hnd).2.2
    exact this (List.mem_map.mpr ⟨r, hr, hrh⟩) (by simp)
  have hedge : g.store.HasEdge h u := by
    have := (hinv.preds u h).mp (by rw [hin]; exact hm)
    exact this.2.1
  have hhas : ∀ x, GoMap.has (GoMap.set st.predecessorMap u (GoMap.delete predecessors h)) x
      = GoMap.has st.predecessorMap x := by
    intro x
    rw [GoMap.has_set]
    by_cases hxu : x = u
    · subst hxu
      simp [hu]
    · simp [hxu]
  refine
    { results := hinv.results, recNodup := hinv.recNodup,
      pmNodup := GoMap.keys_set_nodup _ _ _ hinv.pmNodup,
      subNodup := hinv.subNodup, cover := ?_, disj := ?_,
      preds := ?_, nonempty := ?_, jobs := hinv.jobs, ids := hinv.ids,
      runNodup := hinv.runNodup, running := hinv.running, recorded := hinv.recorded,
      inputs := ?_, order := hinv.order, restNodup := (List.nodup_cons.mp hinv.restNodup).2,
      restPending := ?_, last := ?_ }
  · intro x
    simp only [hhas]
    exact hinv.cover x
  · intro x
    simp only [hhas]
    exact hinv.disj x
  · intro x p
    simp only [hhas, GoMap.inner_set]
    by_cases hxu : x = u
    · subst hxu
      simp only [if_true, GoMap.has_delete, Bool.and_eq_true, Bool.not_eq_true',
        decide_eq_false_iff_not]
      rw [← hin, hinv.preds x p]
      constructor
      · rintro ⟨hne, h1, h2, h3 | ⟨h3, _⟩⟩
        · exact ⟨h1, h2, Or.inl h3⟩
        · exact absurd h3 hne
      · rintro ⟨h1, h2, h3 | ⟨_, h4⟩⟩
        · refine ⟨?_, h1, h2, Or.inl h3⟩
          intro hph
          exact h3 (hph ▸ hhrec)
        · exact absurd h4 hur
    · simp only [hxu, if_false]
      rw [hinv.preds x p]
      simp [hxu]
  · intro x hx hc
    have hxu : x ≠ u := fun hxu => hc (by rw [hxu])
    simp only [hhas] at hx
    simp only [GoMap.inner_set, hxu, if_false]
    rcases hinv.nonempty x hx (by simp) with hp | ⟨hmem, hrec⟩
    · exact Or.inl hp
    · right
      simp only [List.mem_cons, hxu, false_or] at hmem
      exact ⟨hmem, hrec⟩
  · intro x k
    simp only [GoMap.inner_set]
    by_cases hxu : x = u
    · subst hxu
      simp only [if_true]
      rw [mapsCopy_lookup, GoMap.inner_ensure, hinv.inputs x k, hR]
      have e1 : List.filter
          (fun r : String × Args V =>
            decide (g.store.HasEdge r.1 x ∧ ¬ (r.1 = h ∧ x ∈ x :: rest))) (R ++ [(h, res)])
          = List.filter (fun r : String × Args V => decide (g.store.HasEdge r.1 x)) R := by
        rw [List.filter_append]
        have : List.filter
            (fun r : String × Args V =>
              decide (g.store.HasEdge r.1 x ∧ ¬ (r.1 = h ∧ x ∈ x :: rest))) [(h, res)] = [] := by
          simp
        rw [this, List.append_nil]
        apply List.filter_congr
        intro r hr
        simp [hhR r hr]
      have e2 : List.filter
          (fun r : String × Args V =>
            decide (g.store.HasEdge r.1 x ∧ ¬ (r.1 = h ∧ x ∈ rest))) (R ++ [(h, res)])
          = List.filter (fun r : String × Args V => decide (g.store.HasEdge r.1 x)) R
            ++ [(h, res)] := by
        rw [List.filter_append]
        congr 1
        · apply List.filter_congr
          intro r hr
          simp [hhR r hr]
        · simp [hedge, hur]
      rw [e1, e2, lastWriter_snoc]
    · simp only [hxu, if_false]
      rw [GoMap.inner_ensure, hinv.inputs x k]
      congr 1
      apply List.filter_congr
      intro r _
      simp [hxu]
  · intro x hx
    rw [hhas]
    exact hinv.restPending x (List.mem_cons_of_mem _ hx)
  · intro _
    exact hinv.last (by simp)

end Graph

end ringchain

/-! ## The coordinator of `Execute`: the two loops over the predecessor map -/

namespace ringchain

namespace Graph

variable {N V E : Type} [Inhabited N]

theorem Execute.release_cons (Run : N → Args V → RunResult V E) (g : Graph N) (args : Args V)
    (rest : List String) (h : String) (res : Args V) (st : execState N V) (u : String)
    (hinv : Execute.Inv Run g args none (u :: rest) h res st)
    (hlast : ∃ R, Event.recs st.trace = R ++ [(h, res)]) :
    ∃ st1, Execute.release g h res (u :: rest) st = Execute.release g h res rest st1 ∧
      Execute.Inv Run g args none rest h res st1 ∧
      Event.recs st1.trace = Event.recs st.trace := by
  have hur : u ∉ rest := (List.nodup_cons.mp hinv.restNodup).1
  have hu : GoMap.has st.predecessorMap u = true := hinv.restPending u (by simp)
  have hnode : g.store.IsNode u := (hinv.cover u).mpr (Or.inl hu)
  obtain ⟨predecessors, hl⟩ := (GoMap.has_iff_exists _ _).mp hu
  have hin : GoMap.inner st.predecessorMap u = predecessors :=
    GoMap.inner_of_lookup_some _ _ _ hl
  rw [Execute.release]
  simp only [hl]
  by_cases hm : GoMap.has predecessors h = true
  · have hmerge := Execute.Inv_merge Run g args rest h res st u predecessors hinv hlast hl hm
    have hedge : g.store.HasEdge h u := by
      have := (hinv.preds u h).mp (by rw [hin]; exact hm)
      exact this.2.1
    simp only [Execute.strike, hm, if_true, GoMap.inner_set]
    by_cases hlen : (GoMap.len (GoMap.delete predecessors h) == 0) = true
    · simp only [hlen, if_true]
      rw [Execute.submit_eq g _ u _ hnode]
      simp only []
      refine ⟨_, rfl, ?_, ?_⟩
      · apply Execute.Inv_submit Run g args rest h res _ u _ hmerge
        · simp only [GoMap.has_set]
          simp
        · intro p
          simp only [GoMap.inner_set, if_true]
          exact GoMap.no_entry_of_len _ hlen p
        · exact hur
        · intro hno
          exact absurd hedge (hno h)
        · intro _ k
          simp only [GoMap.inner_set, if_true]
      · simp only [Event.recs_snoc_submit]
    · simp only [hlen, if_false]
      refine ⟨_, rfl, ?_, rfl⟩
      apply Execute.Inv_keep Run g args rest h res _ u hmerge
      obtain ⟨p, hp⟩ := GoMap.exists_entry_of_len _ hlen
      exact ⟨p, by simp only [GoMap.inner_set, if_true]; exact hp⟩
  · have hmf : GoMap.has predecessors h = false := by simpa using hm
    have hvisit := Execute.Inv_visit Run g args rest h res st u hinv (Or.inl (by rw [hin]; exact hmf))
    simp only [Execute.strike, hmf, Bool.false_eq_true, if_false]
    have hne : ∃ p, GoMap.has (GoMap.inner st.predecessorMap u) p = true := by
      rcases hinv.nonempty u hu (by simp) with hp | ⟨_, hrec⟩
      · exact hp
      · obtain ⟨R, hR⟩ := hlast
        rw [hR] at hrec
        simp at hrec
    have hlen : ¬ (GoMap.len (GoMap.inner st.predecessorMap u) == 0) = true := by
      intro hlen
      obtain ⟨p, hp⟩ := hne
      rw [GoMap.no_entry_of_len _ hlen p] at hp
      exact absurd hp (by simp)
    simp only [hlen, if_false]
    exact ⟨st, rfl, Execute.Inv_keep Run g args rest h res st u hvisit hne, rfl⟩

theorem Execute.release_all (Run : N → Args V → RunResult V E) (g : Graph N) (args : Args V)
    (h : String) (res : Args V) (rest : List String) :
    ∀ st : execState N V, Execute.Inv Run g args none rest h res st →
      (∃ R, Event.recs st.trace = R ++ [(h, res)]) →
      ∃ st1, Execute.release g h res rest st = Except.ok st1 ∧
        Execute.Inv Run g args none [] h res st1 ∧
        Event.recs st1.trace = Event.recs st.trace := by
  induction rest with
  | nil =>
    intro st hinv _
    exact ⟨st, rfl, hinv, rfl⟩
  | cons u rest ih =>
    intro st hinv hlast
    obtain ⟨st1, heq, hinv1, hrec⟩ := Execute.release_cons Run g args rest h res st u hinv hlast
    rw [heq]
    obtain ⟨st2, h1, h2, h3⟩ := ih st1 hinv1 (by rw [hrec]; exact hlast)
    exact ⟨st2, h1, h2, h3.trans hrec⟩

theorem Execute.roots_cons (Run : N → Args V → RunResult V E) (g : Graph N) (args : Args V)
    (rest : List String) (h : String) (res : Args V) (st : execState N V) (u : String)
    (hinv : Execute.Inv Run g args none (u :: rest) h res st)
    (hrec : Event.recs st.trace = []) :
    ∃ st1, Execute.roots g args (u :: rest) st = Execute.roots g args rest st1 ∧
      Execute.Inv Run g args none rest h res st1 ∧
      Event.recs st1.trace = [] := by
  have hur : u ∉ rest := (List.nodup_cons.mp hinv.restNodup).1
  have hu : GoMap.has st.predecessorMap u = true := hinv.restPending u (by simp)
  have hnode : g.store.IsNode u := (hinv.cover u).mpr (Or.inl hu)
  obtain ⟨predecessors, hl⟩ := (GoMap.has_iff_exists _ _).mp hu
  have hin : GoMap.inner st.predecessorMap u = predecessors :=
    GoMap.inner_of_lookup_some _ _ _ hl
  have hvisit := Execute.Inv_visit Run g args rest h res st u hinv (Or.inr hrec)
  rw [Execute.roots]
  simp only [hl]
  by_cases hlen : (GoMap.len predecessors == 0) = true
  · simp only [hlen, if_true]
    rw [Execute.submit_eq g _ u _ hnode]
    simp only []
    have hempty : ∀ p, GoMap.has (GoMap.inner st.predecessorMap u) p = false := by
      intro p
      rw [hin]
      exact GoMap.no_entry_of_len _ hlen p
    refine ⟨_, rfl, ?_, ?_⟩
    · apply Execute.Inv_submit Run g args rest h res _ u _ hvisit hu hempty hur
      · intro _
        rfl
      · rintro ⟨p, hp⟩
        have := (hvisit.preds u p).mpr ⟨hu, hp, Or.inl (by rw [hrec]; simp [GoMap.keys])⟩
        rw [hempty p] at this
        exact absurd this (by simp)
    · simp only [Event.recs_snoc_submit]
      exact hrec
  · simp only [hlen, if_false]
    refine ⟨st, rfl, ?_, hrec⟩
    apply Execute.Inv_keep Run g args rest h res st u hvisit
    obtain ⟨p, hp⟩ := GoMap.exists_entry_of_len _ hlen
    exact ⟨p, by rw [hin]; exact hp⟩

theorem Execute.roots_all (Run : N → Args V → RunResult V E) (g : Graph N) (args : Args V)
    (h : String) (res : Args V) (rest : List String) :
    ∀ st : execState N V, Execute.Inv Run g args none rest h res st →
      Event.recs st.trace = [] →
      ∃ st1, Execute.roots g args rest st = Except.ok st1 ∧
        Execute.Inv Run g args none [] h res st1 ∧ Event.recs st1.trace = [] := by
  induction rest with
  | nil =>
    intro st hinv hrec
    exact ⟨st, rfl, hinv, hrec⟩
  | cons u rest ih =>
    intro st hinv hrec
    obtain ⟨st1, heq, hinv1, hrec1⟩ := Execute.roots_cons Run g args rest h res st u hinv hrec
    rw [heq]
    exact ih st1 hinv1 hrec1

end Graph

end ringchain

/-! ## The coordinator of `Execute`: one iteration of the loop -/

namespace ringchain

namespace Event

variable {V : Type}

theorem mem_subs_split (t : List (Event V)) (u : String) (j : Nat) (a : Args V)
    (h : (u, j, a) ∈ subs t) : ∃ pre post, t = pre ++ submit u j a :: post := by
  induction t with
  | nil => simp [subs] at h
  | cons e r ih =>
    cases e with
    | submit u1 j1 a1 =>
      simp only [subs, List.mem_cons, Prod.mk.injEq] at h
      rcases h with ⟨h1, h2, h3⟩ | h
      · subst h1
        subst h2
        subst h3
        exact ⟨[], r, rfl⟩
      · obtain ⟨pre, post, hp⟩ := ih h
        exact ⟨submit u1 j1 a1 :: pre, post, by rw [hp]; rfl⟩
    | result u1 r1 =>
      simp only [subs] at h
      obtain ⟨pre, post, hp⟩ := ih h
      exact ⟨result u1 r1 :: pre, post, by rw [hp]; rfl⟩
    | stop =>
      simp only [subs] at h
      obtain ⟨pre, post, hp⟩ := ih h
      exact ⟨stop :: pre, post, by rw [hp]; rfl⟩
    | wait =>
      simp only [subs] at h
      obtain ⟨pre, post, hp⟩ := ih h
      exact ⟨wait :: pre, post, by rw [hp]; rfl⟩

end Event

namespace Graph

variable {N V E : Type} [Inhabited N]

/-- Between the iterations of the coordinator loop the invariant does not depend on the
finished node it names. -/
theorem Execute.Inv_rename (Run : N → Args V → RunResult V E) (g : Graph N) (args : Args V)
    (h h1 : String) (res res1 : Args V) (st : execState N V)
    (hinv : Execute.Inv Run g args none [] h res st) :
    Execute.Inv Run g args none [] h1 res1 st :=
  { results := hinv.results, recNodup := hinv.recNodup, pmNodup := hinv.pmNodup,
    subNodup := hinv.subNodup, cover := hinv.cover, disj := hinv.disj,
    preds := fun u p => by
      rw [hinv.preds u p]
      simp,
    nonempty := fun u hu hc => by
      rcases hinv.nonempty u hu hc with hp | ⟨hmem, _⟩
      · exact Or.inl hp
      · simp at hmem,
    jobs := hinv.jobs, ids := hinv.ids,
    runNodup := hinv.runNodup, running := hinv.running, recorded := hinv.recorded,
    inputs := fun u k => by
      rw [hinv.inputs u k]
      congr 1
      apply List.filter_congr
      intro r _
      simp,
    order := hinv.order, restNodup := List.nodup_nil,
    restPending := fun x hx => by simp at hx,
    last := fun hne => absurd rfl hne }

/-- Every predecessor of a submitted node has been recorded. -/
theorem Execute.Inv_submitted_preds (Run : N → Args V → RunResult V E) (g : Graph N)
    (args : Args V) (cur : Option String) (rest : List String) (h : String) (res : Args V)
    (st : execState N V) (hinv : Execute.Inv Run g args cur rest h res st)
    (u : String) (hu : u ∈ (Event.subs st.trace).map Prod.fst) (p : String)
    (hp : g.store.HasEdge p u) : p ∈ GoMap.keys (Event.recs st.trace) := by
  obtain ⟨⟨u1, j, a⟩, hmem, hfst⟩ := List.mem_map.mp hu
  simp only at hfst
  subst hfst
  obtain ⟨pre, post, hsplit⟩ := Event.mem_subs_split _ _ _ _ hmem
  have := (hinv.order pre post u1 j a hsplit).1 p hp
  rw [hsplit, Event.recs_append]
  simp only [GoMap.keys, List.map_append, List.mem_append]
  exact Or.inl this

/-- The job behind a running record is the job submitted for its node. -/
theorem Execute.Inv_job (Run : N → Args V → RunResult V E) (g : Graph N)
    (args : Args V) (cur : Option String) (rest : List String) (h : String) (res : Args V)
    (st : execState N V) (hinv : Execute.Inv Run g args cur rest h res st)
    (u : String) (c : Nat) (a : Args V) (hmem : (u, c, a) ∈ Event.subs st.trace)
    (job : nodeJob N V) (hjob : st.pool.jobQueue[c]? = some job) :
    job.Node = (g.Node u).1 ∧ job.Args = a := by
  rw [hinv.jobs, List.getElem?_map] at hjob
  cases hs : (Event.subs st.trace)[c]? with
  | none => simp [hs] at hjob
  | some s =>
    simp only [hs, Option.map_some', Option.some.injEq] at hjob
    have hsmem : s ∈ Event.subs st.trace := List.getElem?_mem hs
    have hid : s.2.1 = c := by
      have h1 : ((Event.subs st.trace).map (fun s => s.2.1))[c]? = some s.2.1 := by
        rw [List.getElem?_map, hs]
        rfl
      rw [hinv.ids] at h1
      obtain ⟨hlt, hget⟩ := List.getElem?_eq_some.mp h1
      rw [List.getElem_range] at hget
      exact hget.symm
    have hnd : ((Event.subs st.trace).map (fun s => s.2.1)).Nodup := by
      rw [hinv.ids]
      exact List.nodup_range _
    have heq : s = (u, c, a) :=
      List.inj_on_of_nodup_map hnd hsmem hmem (by simp [hid])
    subst heq
    rw [← hjob]
    exact ⟨rfl, rfl⟩

/-- The result case of the coordinator loop, up to the loop over the predecessor map: the
result `res` of the polled running node is written to the result table. -/
theorem Execute.Inv_record (Run : N → Args V → RunResult V E) (g : Graph N)
    (hw : g.WellFormed) (args : Args V) (h0 : String) (res0 : Args V) (st : execState N V)
    (hinv : Execute.Inv Run g args none [] h0 res0 st)
    (r : runningNode) (tl : List runningNode) (hrun : st.pool.runningNodes = r :: tl)
    (res : Args V) (hready : Execute.resultReady Run st r.Result = some res) :
    Execute.Inv Run g args none (GoMap.keys st.predecessorMap) r.NodeHash res
      { st with
        pool := { st.pool with runningNodes := tl },
        busy := st.busy - 1,
        nodeResults := GoMap.set st.nodeResults r.NodeHash res,
        trace := st.trace ++ [Event.result r.NodeHash res] } := by
  have hr : r ∈ st.pool.runningNodes := by rw [hrun]; simp
  obtain ⟨⟨a, ha⟩, hnrec⟩ := (hinv.running r).mp hr
  have hnd : (r :: tl).Nodup := hrun ▸ hinv.runNodup
  have hrtl : r ∉ tl := (List.nodup_cons.mp hnd).1
  have hhas : GoMap.has (Event.recs st.trace) r.NodeHash = false := by
    cases hc : GoMap.has (Event.recs st.trace) r.NodeHash with
    | false => rfl
    | true => exact absurd ((GoMap.mem_keys_iff _ _).mpr hc) hnrec
  have hkeys : GoMap.keys (Event.recs st.trace ++ [(r.NodeHash, res)])
      = GoMap.keys (Event.recs st.trace) ++ [r.NodeHash] := by
    simp [GoMap.keys]
  have hrunres : Run (g.Node r.NodeHash).1 a = RunResult.ok res := by
    unfold Execute.resultReady at hready
    by_cases hfin : r.Result ∈ st.finished
    · simp only [hfin, if_true] at hready
      cases hjob : st.pool.jobQueue[r.Result]? with
      | none => simp [hjob] at hready
      | some job =>
        simp only [hjob] at hready
        obtain ⟨h1, h2⟩ := Execute.Inv_job Run g args none [] h0 res0 st hinv _ _ _ ha job hjob
        rw [h1, h2] at hready
        cases hR : Run (g.Node r.NodeHash).1 a with
        | ok res1 =>
          simp only [hR, Option.some.injEq] at hready
          rw [hready]
        | error e => simp [hR] at hready
        | panic => simp [hR] at hready
    · simp [hfin] at hready
  refine
    { results := ?_, recNodup := ?_, pmNodup := hinv.pmNodup, subNodup := ?_, cover := ?_,
      disj := ?_, preds := ?_, nonempty := ?_, jobs := ?_, ids := ?_, runNodup := ?_,
      running := ?_, recorded := ?_, inputs := ?_, order := ?_, restNodup := hinv.pmNodup,
      restPending := ?_, last := ?_ }
  · simp only [Event.recs_snoc_result]
    rw [hinv.results, GoMap.set_of_not_has _ _ _ hhas]
  · simp only [Event.recs_snoc_result, hkeys]
    exact List.Nodup.append hinv.recNodup (List.nodup_singleton _) (by
      intro x hx hx2
      simp only [List.mem_singleton] at hx2
      subst hx2
      exact hnrec hx)
  · simp only [Event.subs_snoc_result]
    exact hinv.subNodup
  · intro x
    simp only [Event.subs_snoc_result]
    exact hinv.cover x
  · intro x
    simp only [Event.subs_snoc_result]
    exact hinv.disj x
  · intro x p
    simp only [Event.recs_snoc_result, hkeys, List.mem_append, List.mem_singleton, not_or]
    rw [hinv.preds x p]
    constructor
    · rintro ⟨h1, h2, h3 | ⟨_, h4⟩⟩
      · refine ⟨h1, h2, ?_⟩
        by_cases hph : p = r.NodeHash
        · exact Or.inr ⟨hph, (GoMap.mem_keys_iff _ _).mpr h1⟩
        · exact Or.inl ⟨h3, hph⟩
      · simp at h4
    · rintro ⟨h1, h2, ⟨h3, _⟩ | ⟨h3, _⟩⟩
      · exact ⟨h1, h2, Or.inl h3⟩
      · exact ⟨h1, h2, Or.inl (h3 ▸ hnrec)⟩
  · intro x hx hc
    rcases hinv.nonempty x hx hc with hp | ⟨hmem, _⟩
    · exact Or.inl hp
    · simp at hmem
  · simp only [Event.subs_snoc_result]
    exact hinv.jobs
  · simp only [Event.subs_snoc_result]
    exact hinv.ids
  · exact (List.nodup_cons.mp hnd).2
  · intro r1
    simp only [Event.subs_snoc_result, Event.recs_snoc_result, hkeys, List.mem_append,
      List.mem_singleton, not_or]
    constructor
    · intro hr1
      have hr1' : r1 ∈ st.pool.runningNodes := by rw [hrun]; exact List.mem_cons_of_mem _ hr1
      obtain ⟨⟨b, hb⟩, hn1⟩ := (hinv.running r1).mp hr1'
      refine ⟨⟨b, hb⟩, hn1, ?_⟩
      intro hsame
      have heq : (r1.NodeHash, r1.Result, b) = (r.NodeHash, r.Result, a) :=
        List.inj_on_of_nodup_map hinv.subNodup hb ha hsame
      simp only [Prod.mk.injEq] at heq
      have : r1 = r := by
        cases r1
        cases r
        simp_all
      exact hrtl (this ▸ hr1)
    · rintro ⟨⟨b, hb⟩, hn1, hne⟩
      have := (hinv.running r1).mpr ⟨⟨b, hb⟩, hn1⟩
      rw [hrun] at this
      rcases List.mem_cons.mp this with h1 | h1
      · exact absurd (by rw [h1]) hne
      · exact h1
  · intro x r0 hx
    simp only [Event.recs_snoc_result, List.mem_append, List.mem_singleton, Prod.mk.injEq] at hx
    simp only [Event.subs_snoc_result]
    rcases hx with hx | ⟨hx1, hx2⟩
    · exact hinv.recorded x r0 hx
    · subst hx1
      subst hx2
      exact ⟨r.Result, a, ha, hrunres⟩
  · intro x k
    simp only [Event.recs_snoc_result]
    rw [hinv.inputs x k, List.filter_append]
    have hnew : List.filter
        (fun r1 : String × Args V =>
          decide (g.store.HasEdge r1.1 x ∧
            ¬ (r1.1 = r.NodeHash ∧ x ∈ GoMap.keys st.predecessorMap)))
        [(r.NodeHash, res)] = [] := by
      simp only [List.filter_cons, List.filter_nil]
      have : ¬ (g.store.HasEdge r.NodeHash x ∧
          ¬ (r.NodeHash = r.NodeHash ∧ x ∈ GoMap.keys st.predecessorMap)) := by
        rintro ⟨hedge, hnot⟩
        obtain ⟨e, he⟩ := hedge
        have hxnode : g.store.IsNode x := (hw.2.2.2 _ _ e he).2.2
        rcases (hinv.cover x).mp hxnode with hpm | hsub
        · exact hnot ⟨rfl, (GoMap.mem_keys_iff _ _).mpr hpm⟩
        · exact hnrec (Execute.Inv_submitted_preds Run g args none [] h0 res0 st hinv x hsub
            r.NodeHash ⟨e, he⟩)
      rw [if_neg (by simpa using this)]
    rw [hnew, List.append_nil]
    congr 1
    apply List.filter_congr
    intro r1 hr1
    have hne : r1.1 ≠ r.NodeHash := by
      intro hsame
      exact hnrec (hsame ▸ List.mem_map.mpr ⟨r1, hr1, rfl⟩)
    simp [hne]
  · intro pre post x j b hsplit
    rcases split_snoc _ _ _ _ _ hsplit with ⟨_, hev, _⟩ | ⟨post1, _, hold⟩
    · exact absurd hev (by simp)
    · exact hinv.order pre post1 x j b hold
  · intro x hx
    exact (GoMap.mem_keys_iff _ _).mp hx
  · intro _
    right
    exact ⟨Event.recs st.trace, by simp only [Event.recs_snoc_result]⟩

end Graph

end ringchain

/-! ## The coordinator of `Execute`: steps and runs -/

namespace ringchain

namespace Graph

variable {N V E : Type} [Inhabited N]

/-- The invariant does not read the state of the context and of the workers. -/
theorem Execute.Inv_env (Run : N → Args V → RunResult V E) (g : Graph N) (args : Args V)
    (cur : Option String) (rest : List String) (h : String) (res : Args V)
    (st : execState N V) (hinv : Execute.Inv Run g args cur rest h res st)
    (c : Bool) (t b : Nat) (f : List Nat) :
    Execute.Inv Run g args cur rest h res
      { st with ctxDone := c, taken := t, busy := b, finished := f } :=
  { results := hinv.results, recNodup := hinv.recNodup, pmNodup := hinv.pmNodup,
    subNodup := hinv.subNodup, cover := hinv.cover, disj := hinv.disj,
    preds := hinv.preds, nonempty := hinv.nonempty, jobs := hinv.jobs, ids := hinv.ids,
    runNodup := hinv.runNodup, running := hinv.running, recorded := hinv.recorded,
    inputs := hinv.inputs, order := hinv.order, restNodup := hinv.restNodup,
    restPending := hinv.restPending, last := hinv.last }

/-- The default case of the coordinator loop puts the polled record at the back. -/
theorem Execute.Inv_rotate (Run : N → Args V → RunResult V E) (g : Graph N) (args : Args V)
    (cur : Option String) (rest : List String) (h : String) (res : Args V)
    (st : execState N V) (hinv : Execute.Inv Run g args cur rest h res st)
    (r : runningNode) (tl : List runningNode) (hrun : st.pool.runningNodes = r :: tl) :
    Execute.Inv Run g args cur rest h res
      { st with pool := { st.pool with runningNodes := tl ++ [r] } } :=
  { results := hinv.results, recNodup := hinv.recNodup, pmNodup := hinv.pmNodup,
    subNodup := hinv.subNodup, cover := hinv.cover, disj := hinv.disj,
    preds := hinv.preds, nonempty := hinv.nonempty, jobs := hinv.jobs, ids := hinv.ids,
    runNodup := by
      have hnd : (r :: tl).Nodup := hrun ▸ hinv.runNodup
      have hperm : List.Perm (tl ++ [r]) (r :: tl) := List.perm_append_singleton r tl
      exact hperm.nodup_iff.mpr hnd,
    running := fun r1 => by
      rw [← hinv.running r1, hrun]
      simp only [List.mem_append, List.mem_singleton, List.mem_cons, List.not_mem_nil,
        or_false]
      constructor
      · rintro (h1 | h1)
        · exact Or.inr h1
        · exact Or.inl h1
      · rintro (h1 | h1)
        · exact Or.inr h1
        · exact Or.inl h1,
    recorded := hinv.recorded,
    inputs := hinv.inputs, order := hinv.order, restNodup := hinv.restNodup,
    restPending := hinv.restPending, last := hinv.last }

/-- The calls of `Stop` and `Wait` add no submission and no result to the trace. -/
theorem Execute.Inv_stop (Run : N → Args V → RunResult V E) (g : Graph N) (args : Args V)
    (cur : Option String) (rest : List String) (h : String) (res : Args V)
    (st : execState N V) (hinv : Execute.Inv Run g args cur rest h res st) :
    Execute.Inv Run g args cur rest h res
      { st with trace := st.trace ++ [Event.stop, Event.wait] } :=
  { results := by
      simp only [Event.recs_snoc_stop]
      exact hinv.results,
    recNodup := by
      simp only [Event.recs_snoc_stop]
      exact hinv.recNodup,
    pmNodup := hinv.pmNodup,
    subNodup := by
      simp only [Event.subs_snoc_stop]
      exact hinv.subNodup,
    cover := by
      simp only [Event.subs_snoc_stop]
      exact hinv.cover,
    disj := by
      simp only [Event.subs_snoc_stop]
      exact hinv.disj,
    preds := by
      simp only [Event.recs_snoc_stop]
      exact hinv.preds,
    nonempty := by
      simp only [Event.recs_snoc_stop]
      exact hinv.nonempty,
    jobs := by
      simp only [Event.subs_snoc_stop]
      exact hinv.jobs,
    ids := by
      simp only [Event.subs_snoc_stop]
      exact hinv.ids,
    runNodup := hinv.runNodup,
    running := by
      simp only [Event.subs_snoc_stop, Event.recs_snoc_stop]
      exact hinv.running,
    recorded := by
      simp only [Event.subs_snoc_stop, Event.recs_snoc_stop]
      exact hinv.recorded,
    inputs := by
      simp only [Event.recs_snoc_stop]
      exact hinv.inputs,
    order := by
      intro pre post x j b hsplit
      have h1 : (st.trace ++ [Event.stop]) ++ [Event.wait] = pre ++ Event.submit x j b :: post := by
        rw [← hsplit]
        simp
      rcases split_snoc _ _ _ _ _ h1 with ⟨_, hev, _⟩ | ⟨post1, _, hold⟩
      · exact absurd hev (by simp)
      · rcases split_snoc _ _ _ _ _ hold with ⟨_, hev, _⟩ | ⟨post2, _, hold2⟩
        · exact absurd hev (by simp)
        · exact hinv.order pre post2 x j b hold2,
    restNodup := hinv.restNodup,
    restPending := hinv.restPending,
    last := by
      simp only [Event.recs_snoc_stop]
      exact hinv.last }

omit [Inhabited N] in
theorem Execute.pop_eq (st : execState N V) (hpos : st.pool.NumRunningNodes > 0) :
    ∃ r tl, st.pool.runningNodes = r :: tl ∧
      st.pool.PopRunningNode = some (r, { st.pool with runningNodes := tl }) := by
  unfold workerPool.NumRunningNodes at hpos
  cases hrun : st.pool.runningNodes with
  | nil => simp [hrun] at hpos
  | cons r tl => exact ⟨r, tl, rfl, by simp [workerPool.PopRunningNode, hrun]⟩

/-- A step from a good state that lets the run go on leads to a good state. -/
theorem Execute.step_good (Run : N → Args V → RunResult V E) (g : Graph N)
    (hw : g.WellFormed) (args : Args V) (st st1 : execState N V)
    (hgood : Execute.Good Run g args st) (s : Step)
    (hstep : Execute.step Run g st s = Outcome.running st1) :
    Execute.Good Run g args st1 := by
  unfold Execute.Good at hgood ⊢
  cases s with
  | cancel =>
    simp only [Execute.step, Outcome.running.injEq] at hstep
    rw [← hstep]
    exact Execute.Inv_env Run g args none [] "" [] st hgood true st.taken st.busy st.finished
  | take =>
    simp only [Execute.step] at hstep
    split at hstep
    · simp only [Outcome.running.injEq] at hstep
      rw [← hstep]
      exact Execute.Inv_env Run g args none [] "" [] st hgood st.ctxDone _ _ st.finished
    · exact absurd hstep (by simp)
  | finish j =>
    simp only [Execute.step] at hstep
    split at hstep
    · split at hstep
      · exact absurd hstep (by simp)
      · split at hstep
        · exact absurd hstep (by simp)
        · simp only [Outcome.running.injEq] at hstep
          rw [← hstep]
          exact Execute.Inv_env Run g args none [] "" [] st hgood st.ctxDone st.taken st.busy _
    · exact absurd hstep (by simp)
  | poll c =>
    simp only [Execute.step] at hstep
    by_cases hpos : st.pool.NumRunningNodes > 0
    · obtain ⟨r, tl, hrun, hpop⟩ := Execute.pop_eq st hpos
      simp only [hpos, if_true, hpop] at hstep
      cases c with
      | ctxDone =>
        simp only at hstep
        split at hstep <;> exact absurd hstep (by simp)
      | errChan j =>
        simp only at hstep
        split at hstep <;> exact absurd hstep (by simp)
      | result =>
        simp only at hstep
        cases hready : Execute.resultReady Run st r.Result with
        | none =>
          rw [hready] at hstep
          exact absurd hstep (by simp)
        | some res =>
          rw [hready] at hstep
          simp only at hstep
          have hrec := Execute.Inv_record Run g hw args "" [] st hgood r tl hrun res hready
          obtain ⟨st2, hrel, hinv2, _⟩ := Execute.release_all Run g args r.NodeHash res _ _ hrec
            ⟨Event.recs st.trace, by simp only [Event.recs_snoc_result]⟩
          rw [hrel] at hstep
          simp only [Outcome.running.injEq] at hstep
          rw [← hstep]
          exact Execute.Inv_rename Run g args _ _ _ _ st2 hinv2
      | default =>
        simp only at hstep
        split at hstep
        · simp only [Outcome.running.injEq] at hstep
          rw [← hstep]
          exact Execute.Inv_rotate Run g args none [] "" [] st hgood r tl hrun
        · exact absurd hstep (by simp)
    · simp only [hpos, if_false] at hstep
      exact absurd hstep (by simp)
  | stop b =>
    simp only [Execute.step] at hstep
    split at hstep
    · exact absurd hstep (by simp)
    · split at hstep
      · split at hstep <;> exact absurd hstep (by simp)
      · exact absurd hstep (by simp)

end Graph

end ringchain

/-! ## The coordinator of `Execute`: the first state, runs, and the end of the loop -/

namespace ringchain

/-- In a finite acyclic edge relation no set of nodes has, for each of its members, a
predecessor in the set. -/
theorem memoryStore.no_closed_set {N : Type} (s : memoryStore N) (hacyc : s.Acyclic)
    (S : String → Prop) (hnode : ∀ u, S u → s.IsNode u)
    (hpred : ∀ u, S u → ∃ p, S p ∧ s.HasEdge p u) : ∀ u, ¬ S u := by
  let r : { x : String // x ∈ GoMap.keys s.vertices } →
      { x : String // x ∈ GoMap.keys s.vertices } → Prop :=
    fun a b => Relation.TransGen s.HasEdge a.1 b.1
  haveI : IsTrans _ r := ⟨fun _ _ _ h1 h2 => Relation.TransGen.trans h1 h2⟩
  haveI : IsIrrefl _ r := ⟨fun a h => hacyc a.1 h⟩
  have wf : WellFounded r := Finite.wellFounded_of_trans_of_irrefl r
  have key : ∀ a : { x : String // x ∈ GoMap.keys s.vertices }, S a.1 → False := by
    intro a
    induction a using wf.induction with
    | _ a ih =>
      intro hS
      obtain ⟨p, hSp, hedge⟩ := hpred a.1 hS
      exact ih ⟨p, (GoMap.mem_keys_iff _ _).mpr (hnode p hSp)⟩ (Relation.TransGen.single hedge) hSp
  intro u hu
  exact key ⟨u, (GoMap.mem_keys_iff _ _).mpr (hnode u hu)⟩ hu

namespace Graph

variable {N V E : Type} [Inhabited N]

theorem Execute.loop_nil (Run : N → Args V → RunResult V E) (g : Graph N)
    (st : execState N V) : Execute.loop Run g st [] = Outcome.running st := rfl

theorem Execute.loop_cons_running (Run : N → Args V → RunResult V E) (g : Graph N)
    (st st1 : execState N V) (s : Step) (rest : List Step)
    (h : Execute.step Run g st s = Outcome.running st1) :
    Execute.loop Run g st (s :: rest) = Execute.loop Run g st1 rest := by
  simp [Execute.loop, h]

theorem Execute.loop_cons_stop (Run : N → Args V → RunResult V E) (g : Graph N)
    (st : execState N V) (s : Step) (rest : List Step)
    (h : ∀ st1, Execute.step Run g st s ≠ Outcome.running st1) :
    Execute.loop Run g st (s :: rest) = Execute.step Run g st s := by
  cases hs : Execute.step Run g st s with
  | running st1 => exact absurd hs (h st1)
  | returned t f => simp [Execute.loop, hs]
  | failed e f => simp [Execute.loop, hs]
  | infeasible => simp [Execute.loop, hs]
  | panicked => simp [Execute.loop, hs]

/-- A property of states that every step of the schedule keeps holds in the state in which
the run stands, and the outcome that ends a run is the outcome of one step of the schedule
from a state with the property. -/
theorem Execute.loop_reach (Run : N → Args V → RunResult V E) (g : Graph N)
    (P : execState N V → Prop) (sched : List Step) :
    (∀ st s st1, s ∈ sched → P st → Execute.step Run g st s = Outcome.running st1 → P st1) →
    ∀ st, P st →
      (∀ st1, Execute.loop Run g st sched = Outcome.running st1 → P st1) ∧
      ((∀ st1, Execute.loop Run g st sched ≠ Outcome.running st1) →
        ∃ st0 s, s ∈ sched ∧ P st0 ∧
          Execute.step Run g st0 s = Execute.loop Run g st sched) := by
  induction sched with
  | nil =>
    intro _ st hP
    refine ⟨?_, ?_⟩
    · intro st1 h
      rw [Execute.loop_nil] at h
      simp only [Outcome.running.injEq] at h
      exact h ▸ hP
    · intro h
      exact absurd (Execute.loop_nil Run g st) (h st)
  | cons s rest ih =>
    intro hstep st hP
    by_cases hrun : ∃ st1, Execute.step Run g st s = Outcome.running st1
    · obtain ⟨st1, hs⟩ := hrun
      rw [Execute.loop_cons_running Run g st st1 s rest hs]
      obtain ⟨h1, h2⟩ := ih (fun st s1 st1 hmem => hstep st s1 st1 (List.mem_cons_of_mem _ hmem))
        st1 (hstep st s st1 (by simp) hP hs)
      refine ⟨h1, fun hno => ?_⟩
      obtain ⟨st0, s0, hmem, hP0, hs0⟩ := h2 hno
      exact ⟨st0, s0, List.mem_cons_of_mem _ hmem, hP0, hs0⟩
    · have hno : ∀ st1, Execute.step Run g st s ≠ Outcome.running st1 :=
        fun st1 h => hrun ⟨st1, h⟩
      rw [Execute.loop_cons_stop Run g st s rest hno]
      exact ⟨fun st1 h => absurd h (hno st1), fun _ => ⟨st, s, by simp, hP, rfl⟩⟩

/-- A run over a schedule in two parts is the run over the second part from the state in
which the run over the first part stands. -/
theorem Execute.loop_append (Run : N → Args V → RunResult V E) (g : Graph N)
    (s1 s2 : List Step) :
    ∀ st st1, Execute.loop Run g st s1 = Outcome.running st1 →
      Execute.loop Run g st (s1 ++ s2) = Execute.loop Run g st1 s2 := by
  induction s1 with
  | nil =>
    intro st st1 h
    rw [Execute.loop_nil] at h
    simp only [Outcome.running.injEq] at h
    rw [h]
    rfl
  | cons s rest ih =>
    intro st st1 h
    by_cases hrun : ∃ st2, Execute.step Run g st s = Outcome.running st2
    · obtain ⟨st2, hs⟩ := hrun
      rw [Execute.loop_cons_running Run g st st2 s rest hs] at h
      rw [List.cons_append, Execute.loop_cons_running Run g st st2 s _ hs]
      exact ih st2 st1 h
    · have hno : ∀ st2, Execute.step Run g st s ≠ Outcome.running st2 :=
        fun st2 h => hrun ⟨st2, h⟩
      rw [Execute.loop_cons_stop Run g st s rest hno] at h
      exact absurd h (hno st1)

/-- The state before the first loop satisfies the invariant of that loop. -/
theorem Execute.Inv_start (Run : N → Args V → RunResult V E) (g : Graph N)
    (hw : g.WellFormed) (args : Args V) (numWorkers : Int) (queueSize : Nat)
    (pred : GoMap String (GoMap String ringchain.Edge))
    (hk : GoMap.keys pred = GoMap.keys g.store.vertices)
    (hl : ∀ t s, GoMap.lookup (GoMap.inner pred t) s
      = if g.store.HasEdge s t then some { SourceHash := s, TargetHash := t } else none) :
    Execute.Inv Run g args none (GoMap.keys pred) "" []
      (Execute.start
        { numWorkers := numWorkers, queueSize := queueSize, jobQueue := [], runningNodes := [] }
        pred) := by
  have hhas : ∀ u, GoMap.has pred u = true ↔ g.store.IsNode u := by
    intro u
    rw [← GoMap.mem_keys_iff, hk, GoMap.mem_keys_iff]
    rfl
  refine
    { results := rfl, recNodup := List.nodup_nil, pmNodup := hk ▸ hw.1,
      subNodup := List.nodup_nil, cover := ?_, disj := ?_, preds := ?_, nonempty := ?_,
      jobs := rfl, ids := rfl, runNodup := List.nodup_nil, running := ?_, recorded := ?_,
      inputs := ?_, order := ?_, restNodup := hk ▸ hw.1, restPending := ?_, last := ?_ }
  · intro u
    simp only [Execute.start, Event.subs, List.map_nil, List.not_mem_nil, or_false]
    exact (hhas u).symm
  · intro u _
    simp [Execute.start, Event.subs]
  · intro u p
    simp only [Execute.start, Event.recs, GoMap.keys, List.map_nil, List.not_mem_nil,
      not_false_eq_true, true_or, and_true]
    unfold GoMap.has
    rw [hl u p]
    by_cases hedge : g.store.HasEdge p u
    · obtain ⟨e, he⟩ := hedge
      have hnode : g.store.IsNode u := (hw.2.2.2 _ _ e he).2.2
      have := (hhas u).mpr hnode
      unfold GoMap.has at this
      simp [this, (⟨e, he⟩ : g.store.HasEdge p u)]
    · simp [hedge]
  · intro u hu _
    right
    exact ⟨(GoMap.mem_keys_iff _ _).mpr hu, rfl⟩
  · intro r
    simp [Execute.start, Event.subs]
  · intro u r hr
    simp [Execute.start, Event.recs] at hr
  · intro u k
    simp [Execute.start, Event.recs, GoMap.inner, GoMap.lookup, lastWriter_nil]
  · intro pre post x j b hsplit
    simp [Execute.start] at hsplit
  · intro u hu
    exact (GoMap.mem_keys_iff _ _).mp hu
  · intro _
    exact Or.inl rfl

omit [Inhabited N] in
theorem Execute.Frame_refl (st : execState N V) : Execute.Frame st st :=
  ⟨rfl, rfl, rfl, rfl, rfl, rfl, rfl, [], by simp⟩

omit [Inhabited N] in
theorem Execute.Frame_trans (st st1 st2 : execState N V) (h1 : Execute.Frame st st1)
    (h2 : Execute.Frame st1 st2) : Execute.Frame st st2 := by
  obtain ⟨a1, a2, a3, a4, a5, a6, a7, l1, a8⟩ := h1
  obtain ⟨b1, b2, b3, b4, b5, b6, b7, l2, b8⟩ := h2
  exact ⟨b1.trans a1, b2.trans a2, b3.trans a3, b4.trans a4, b5.trans a5, b6.trans a6,
    b7.trans a7, l1 ++ l2, by rw [b8, a8, List.append_assoc]⟩

theorem Execute.submit_frame (g : Graph N) (st st1 : execState N V) (u : String) (a : Args V)
    (h : Execute.submit g st u a = Except.ok st1) : Execute.Frame st st1 := by
  unfold Execute.submit at h
  split at h
  · exact absurd h (by simp)
  · simp only [Except.ok.injEq] at h
    rw [← h]
    exact ⟨rfl, rfl, rfl, rfl, rfl, rfl, rfl, _, rfl⟩

theorem Execute.roots_frame (g : Graph N) (args : Args V) (rest : List String) :
    ∀ st st1 : execState N V, Execute.roots g args rest st = Except.ok st1 →
      Execute.Frame st st1 := by
  induction rest with
  | nil =>
    intro st st1 h
    simp only [Execute.roots, Except.ok.injEq] at h
    rw [← h]
    exact Execute.Frame_refl st
  | cons u rest ih =>
    intro st st1 h
    rw [Execute.roots] at h
    split at h
    · exact ih st st1 h
    · split at h
      · split at h
        · exact absurd h (by simp)
        · rename_i st2 hsub
          exact Execute.Frame_trans _ _ _ (Execute.submit_frame g st st2 u args hsub)
            (ih st2 st1 h)
      · exact ih st st1 h

omit [Inhabited N] in
theorem Execute.strike_frame (st : execState N V) (u h : String) (res : Args V)
    (predecessors : GoMap String ringchain.Edge) :
    Execute.Frame st (Execute.strike st u h res predecessors) ∧
      (Execute.strike st u h res predecessors).trace = st.trace ∧
      (Execute.strike st u h res predecessors).pool = st.pool := by
  unfold Execute.strike
  split
  · exact ⟨⟨rfl, rfl, rfl, rfl, rfl, rfl, rfl, [], by simp⟩, rfl, rfl⟩
  · exact ⟨Execute.Frame_refl st, rfl, rfl⟩

theorem Execute.release_frame (g : Graph N) (h : String) (res : Args V) (rest : List String) :
    ∀ st st1 : execState N V, Execute.release g h res rest st = Except.ok st1 →
      Execute.Frame st st1 := by
  induction rest with
  | nil =>
    intro st st1 hr
    simp only [Execute.release, Except.ok.injEq] at hr
    rw [← hr]
    exact Execute.Frame_refl st
  | cons u rest ih =>
    intro st st1 hr
    rw [Execute.release] at hr
    split at hr
    · exact ih st st1 hr
    · rename_i predecessors hl
      simp only at hr
      have hf1 := (Execute.strike_frame st u h res predecessors).1
      generalize Execute.strike st u h res predecessors = stm at hr hf1
      split at hr
      · split at hr
        · exact absurd hr (by simp)
        · rename_i st2 hsub
          exact Execute.Frame_trans _ _ _ hf1
            (Execute.Frame_trans _ _ _ (Execute.submit_frame g _ st2 u _ hsub) (ih st2 st1 hr))
      · exact Execute.Frame_trans _ _ _ hf1 (ih _ st1 hr)

/-- On a well-formed graph `Execute` panics on a negative number of workers and otherwise
enters its coordinator loop in a good state, with nothing recorded and no worker at work. -/
theorem Execute.enter (Run : N → Args V → RunResult V E) (g : Graph N)
    (hw : g.WellFormed) (args : Args V)
    (opts : List (GraphExecuteOptions → GraphExecuteOptions)) :
    ((GraphExecuteOptions.of opts).NumWorkers < 0 ∧
      ∀ sched, g.Execute Run args opts sched = Outcome.panicked) ∨
    ∃ st1 : execState N V, Execute.Good Run g args st1 ∧
      Event.recs st1.trace = [] ∧ st1.ctxDone = false ∧ st1.finished = [] ∧ st1.taken = 0 ∧
      st1.pool.queueSize = GoMap.len g.store.vertices ∧
      st1.pool.numWorkers = (GraphExecuteOptions.of opts).NumWorkers ∧
      ∀ sched, g.Execute Run args opts sched = Execute.loop Run g st1 sched := by
  obtain ⟨pred, hp, hk, hl⟩ := PredecessorMap_spec g hw
  by_cases hneg : (GraphExecuteOptions.of opts).NumWorkers < 0
  · left
    refine ⟨hneg, ?_⟩
    intro sched
    simp [Execute, hp, memoryStore.NodeCount, workerPool.newWorkerPool, hneg]
  · right
    have hinv := Execute.Inv_start Run g hw args (GraphExecuteOptions.of opts).NumWorkers
      (GoMap.len g.store.vertices) pred hk hl
    obtain ⟨st1, hroots, hinv1, hrec1⟩ := Execute.roots_all Run g args "" [] _ _ hinv rfl
    obtain ⟨f1, f2, f3, f4, f5, f6, f7, _⟩ := Execute.roots_frame g args _ _ _ hroots
    refine ⟨st1, hinv1, hrec1, f1, f4, f2, f6, f5, ?_⟩
    intro sched
    simp [Execute, hp, memoryStore.NodeCount, workerPool.newWorkerPool, hneg, hroots]

end Graph

end ringchain

/-! ## The coordinator of `Execute`: what a step does -/

namespace ringchain

namespace Graph

variable {N V E : Type} [Inhabited N]

/-- A step returns the result table only as the step `stop false` with no running node. -/
theorem Execute.step_returned (Run : N → Args V → RunResult V E) (g : Graph N)
    (st fin : execState N V) (s : Step) (tbl : GoMap String (Args V))
    (hstep : Execute.step Run g st s = Outcome.returned tbl fin) :
    s = Step.stop false ∧ st.pool.runningNodes = [] ∧ tbl = st.nodeResults ∧
      fin = { st with trace := st.trace ++ [Event.stop, Event.wait] } := by
  cases s with
  | cancel => simp [Execute.step] at hstep
  | take =>
    simp only [Execute.step] at hstep
    split at hstep <;> exact absurd hstep (by simp)
  | finish j =>
    simp only [Execute.step] at hstep
    split at hstep
    · split at hstep
      · exact absurd hstep (by simp)
      · split at hstep <;> exact absurd hstep (by simp)
    · exact absurd hstep (by simp)
  | poll c =>
    simp only [Execute.step] at hstep
    split at hstep
    · split at hstep
      · exact absurd hstep (by simp)
      · cases c with
        | ctxDone =>
          simp only at hstep
          split at hstep <;> exact absurd hstep (by simp)
        | errChan j =>
          simp only at hstep
          split at hstep <;> exact absurd hstep (by simp)
        | result =>
          simp only at hstep
          split at hstep
          · exact absurd hstep (by simp)
          · split at hstep <;> exact absurd hstep (by simp)
        | default =>
          simp only at hstep
          split at hstep <;> exact absurd hstep (by simp)
    · exact absurd hstep (by simp)
  | stop b =>
    simp only [Execute.step] at hstep
    split at hstep
    · exact absurd hstep (by simp)
    · rename_i hpos
      have hnil : st.pool.runningNodes = [] := by
        unfold workerPool.NumRunningNodes at hpos
        exact List.length_eq_zero.mp (by omega)
      cases b with
      | true =>
        simp only [if_true] at hstep
        split at hstep <;> exact absurd hstep (by simp)
      | false =>
        simp only [Bool.false_eq_true, if_false, Outcome.returned.injEq] at hstep
        exact ⟨rfl, hnil, hstep.1.symm, hstep.2.symm⟩

/-- A step from a good state fails with the error of the cancelled context, the context
being cancelled, or with the error that a finished job is sending on the error channel. -/
theorem Execute.step_failed (Run : N → Args V → RunResult V E) (g : Graph N)
    (hw : g.WellFormed) (args : Args V)
    (st fin : execState N V) (hgood : Execute.Good Run g args st) (s : Step)
    (err : ExecError E) (hstep : Execute.step Run g st s = Outcome.failed err fin) :
    fin.pool.jobQueue = st.pool.jobQueue ∧
    ((err = ExecError.ctx ∧ st.ctxDone = true ∧
      ((s = Step.poll Choice.ctxDone ∧ fin.trace = st.trace ∧ st.pool.runningNodes ≠ []) ∨
        (s = Step.stop true ∧ fin.trace = st.trace ++ [Event.stop, Event.wait] ∧
          st.pool.runningNodes = []))) ∨
    (∃ j e, s = Step.poll (Choice.errChan j) ∧ Execute.errReady Run st j = some e ∧
      err = ExecError.node e ∧ fin.trace = st.trace ∧ st.pool.runningNodes ≠ [])) := by
  cases s with
  | cancel => simp [Execute.step] at hstep
  | take =>
    simp only [Execute.step] at hstep
    split at hstep <;> exact absurd hstep (by simp)
  | finish j =>
    simp only [Execute.step] at hstep
    split at hstep
    · split at hstep
      · exact absurd hstep (by simp)
      · split at hstep <;> exact absurd hstep (by simp)
    · exact absurd hstep (by simp)
  | poll c =>
    simp only [Execute.step] at hstep
    by_cases hpos : st.pool.NumRunningNodes > 0
    · obtain ⟨r, tl, hrun, hpop⟩ := Execute.pop_eq st hpos
      have hne : st.pool.runningNodes ≠ [] := by rw [hrun]; simp
      simp only [hpos, if_true, hpop] at hstep
      cases c with
      | ctxDone =>
        simp only at hstep
        split at hstep
        · rename_i hc
          simp only [Outcome.failed.injEq] at hstep
          refine ⟨by rw [← hstep.2], Or.inl ?_⟩
          exact ⟨hstep.1.symm, hc, Or.inl ⟨rfl, by rw [← hstep.2], hne⟩⟩
        · exact absurd hstep (by simp)
      | errChan j =>
        simp only at hstep
        split at hstep
        · rename_i e he
          simp only [Outcome.failed.injEq] at hstep
          refine ⟨by rw [← hstep.2], Or.inr ?_⟩
          exact ⟨j, e, rfl, he, hstep.1.symm, by rw [← hstep.2], hne⟩
        · exact absurd hstep (by simp)
      | result =>
        simp only at hstep
        cases hready : Execute.resultReady Run st r.Result with
        | none =>
          rw [hready] at hstep
          exact absurd hstep (by simp)
        | some res =>
          rw [hready] at hstep
          simp only at hstep
          have hrec := Execute.Inv_record Run g hw args "" [] st hgood r tl hrun res hready
          obtain ⟨st2, hrel, _, _⟩ := Execute.release_all Run g args r.NodeHash res _ _ hrec
            ⟨Event.recs st.trace, by simp only [Event.recs_snoc_result]⟩
          rw [hrel] at hstep
          exact absurd hstep (by simp)
      | default =>
        simp only at hstep
        split at hstep <;> exact absurd hstep (by simp)
    · simp only [hpos, if_false] at hstep
      exact absurd hstep (by simp)
  | stop b =>
    simp only [Execute.step] at hstep
    split at hstep
    · exact absurd hstep (by simp)
    · rename_i hpos
      have hnil : st.pool.runningNodes = [] := by
        unfold workerPool.NumRunningNodes at hpos
        exact List.length_eq_zero.mp (by omega)
      cases b with
      | true =>
        simp only [if_true] at hstep
        split at hstep
        · rename_i hc
          simp only [Outcome.failed.injEq] at hstep
          refine ⟨by rw [← hstep.2], Or.inl ?_⟩
          exact ⟨hstep.1.symm, hc.1, Or.inr ⟨rfl, by rw [← hstep.2], hnil⟩⟩
        · exact absurd hstep (by simp)
      | false =>
        simp only [Bool.false_eq_true, if_false] at hstep
        exact absurd hstep (by simp)

/-- A step from a good state that lets the run go on: the steps of the context and of the
workers and the default case leave the coordinator's maps and the trace as they are; the
result case records the result of the polled node, computed by `Run` on the input the node
was submitted with, and then only submits. -/
theorem Execute.step_running (Run : N → Args V → RunResult V E) (g : Graph N)
    (hw : g.WellFormed) (args : Args V)
    (st st1 : execState N V) (hgood : Execute.Good Run g args st) (s : Step)
    (hstep : Execute.step Run g st s = Outcome.running st1) :
    (s ≠ Step.poll Choice.result ∧ st1.trace = st.trace ∧ st1.nodeResults = st.nodeResults ∧
      st1.pool.jobQueue = st.pool.jobQueue ∧ st1.pool.numWorkers = st.pool.numWorkers ∧
      st1.pool.queueSize = st.pool.queueSize ∧
      (s = Step.cancel ∨ st1.ctxDone = st.ctxDone) ∧
      (∀ j, j ∈ st.finished → j ∈ st1.finished)) ∨
    (s = Step.poll Choice.result ∧
      ∃ r tl res a, st.pool.runningNodes = r :: tl ∧
        (r.NodeHash, r.Result, a) ∈ Event.subs st.trace ∧
        Run (g.Node r.NodeHash).1 a = RunResult.ok res ∧
        Event.recs st1.trace = Event.recs st.trace ++ [(r.NodeHash, res)] ∧
        Execute.Frame { st with nodeResults := GoMap.set st.nodeResults r.NodeHash res,
                                busy := st.busy - 1 } st1) := by
  cases s with
  | cancel =>
    simp only [Execute.step, Outcome.running.injEq] at hstep
    rw [← hstep]
    exact Or.inl ⟨by simp, rfl, rfl, rfl, rfl, rfl, Or.inl rfl, fun j hj => hj⟩
  | take =>
    simp only [Execute.step] at hstep
    split at hstep
    · simp only [Outcome.running.injEq] at hstep
      rw [← hstep]
      exact Or.inl ⟨by simp, rfl, rfl, rfl, rfl, rfl, Or.inr rfl, fun j hj => hj⟩
    · exact absurd hstep (by simp)
  | finish j =>
    simp only [Execute.step] at hstep
    split at hstep
    · split at hstep
      · exact absurd hstep (by simp)
      · split at hstep
        · exact absurd hstep (by simp)
        · simp only [Outcome.running.injEq] at hstep
          rw [← hstep]
          exact Or.inl ⟨by simp, rfl, rfl, rfl, rfl, rfl, Or.inr rfl,
            fun j hj => List.mem_append_left _ hj⟩
    · exact absurd hstep (by simp)
  | poll c =>
    simp only [Execute.step] at hstep
    by_cases hpos : st.pool.NumRunningNodes > 0
    · obtain ⟨r, tl, hrun, hpop⟩ := Execute.pop_eq st hpos
      simp only [hpos, if_true, hpop] at hstep
      cases c with
      | ctxDone =>
        simp only at hstep
        split at hstep <;> exact absurd hstep (by simp)
      | errChan j =>
        simp only at hstep
        split at hstep <;> exact absurd hstep (by simp)
      | result =>
        simp only at hstep
        cases hready : Execute.resultReady Run st r.Result with
        | none =>
          rw [hready] at hstep
          exact absurd hstep (by simp)
        | some res =>
          rw [hready] at hstep
          simp only at hstep
          have hrec := Execute.Inv_record Run g hw args "" [] st hgood r tl hrun res hready
          obtain ⟨st2, hrel, _, hrecs⟩ := Execute.release_all Run g args r.NodeHash res _ _ hrec
            ⟨Event.recs st.trace, by simp only [Event.recs_snoc_result]⟩
          have hframe := Execute.release_frame g r.NodeHash res _ _ _ hrel
          rw [hrel] at hstep
          simp only [Outcome.running.injEq] at hstep
          subst hstep
          have hr : r ∈ st.pool.runningNodes := by rw [hrun]; simp
          obtain ⟨⟨a, ha⟩, _⟩ := (hgood.running r).mp hr
          obtain ⟨j, b, hjb, hrun2⟩ := hrec.recorded r.NodeHash res (by
            simp only [Event.recs_snoc_result]
            simp)
          simp only [Event.subs_snoc_result] at hjb
          right
          refine ⟨rfl, r, tl, res, b, hrun, ?_, hrun2, ?_, ?_⟩
          · have heq : (r.NodeHash, j, b) = (r.NodeHash, r.Result, a) :=
              List.inj_on_of_nodup_map hgood.subNodup hjb ha rfl
            simp only [Prod.mk.injEq, true_and] at heq
            rw [heq.2]
            exact ha
          · rw [hrecs]
            simp only [Event.recs_snoc_result]
          · obtain ⟨f1, f2, f3, f4, f5, f6, f7, l, f8⟩ := hframe
            exact ⟨f1, f2, f3, f4, f5, f6, f7, l, f8⟩
      | default =>
        simp only at hstep
        split at hstep
        · simp only [Outcome.running.injEq] at hstep
          rw [← hstep]
          exact Or.inl ⟨by simp, rfl, rfl, rfl, rfl, rfl, Or.inr rfl, fun j hj => hj⟩
        · exact absurd hstep (by simp)
    · simp only [hpos, if_false] at hstep
      exact absurd hstep (by simp)
  | stop b =>
    simp only [Execute.step] at hstep
    split at hstep
    · exact absurd hstep (by simp)
    · split at hstep
      · split at hstep <;> exact absurd hstep (by simp)
      · exact absurd hstep (by simp)

end Graph

end ringchain

/-! ## The coordinator of `Execute`: every run from a built graph -/

namespace ringchain

namespace Graph

variable {N V E : Type} [Inhabited N]

/-- Every run of `Execute` on a built graph: a property that holds when the coordinator loop
is entered and that every step of the schedule keeps, from good states, holds together with
the invariant in the state in which the run stands; and a run that has ended has panicked on a
negative number of workers or ended with one step of the schedule from such a state. -/
theorem Execute.run_reach (Run : N → Args V → RunResult V E) (g : Graph N) (hg : g.Built)
    (args : Args V) (opts : List (GraphExecuteOptions → GraphExecuteOptions))
    (P : execState N V → Prop) (sched : List Step)
    (hstart : ∀ st, Execute.Good Run g args st → Event.recs st.trace = [] →
      st.ctxDone = false → st.finished = [] → st.taken = 0 →
      st.pool.queueSize = GoMap.len g.store.vertices →
      st.pool.numWorkers = (GraphExecuteOptions.of opts).NumWorkers → P st)
    (hstep : ∀ st s st1, s ∈ sched → Execute.Good Run g args st → P st →
      Execute.step Run g st s = Outcome.running st1 → P st1) :
    (∀ st1, g.Execute Run args opts sched = Outcome.running st1 →
      Execute.Good Run g args st1 ∧ P st1) ∧
    ((∀ st1, g.Execute Run args opts sched ≠ Outcome.running st1) →
      g.Execute Run args opts sched = Outcome.panicked ∨
      ∃ st0 s, s ∈ sched ∧ Execute.Good Run g args st0 ∧ P st0 ∧
        Execute.step Run g st0 s = g.Execute Run args opts sched) := by
  have hw := built_wellFormed g hg
  rcases Execute.enter Run g hw args opts with ⟨_, hpanic⟩ | ⟨st1, hgood, h1, h2, h3, h4, h5, h6, heq⟩
  · rw [hpanic sched]
    exact ⟨fun st1 h => absurd h (by simp), fun _ => Or.inl rfl⟩
  · rw [heq sched]
    obtain ⟨r1, r2⟩ := Execute.loop_reach Run g
      (fun st => Execute.Good Run g args st ∧ P st) sched
      (fun st s st2 hmem hP hs =>
        ⟨Execute.step_good Run g hw args st st2 hP.1 s hs, hstep st s st2 hmem hP.1 hP.2 hs⟩)
      st1 ⟨hgood, hstart st1 hgood h1 h2 h3 h4 h5 h6⟩
    refine ⟨r1, fun hno => Or.inr ?_⟩
    obtain ⟨st0, s, hmem, hP, hs⟩ := r2 hno
    exact ⟨st0, s, hmem, hP.1, hP.2, hs⟩

/-- When no node is running in a good state, no node is pending: every node has been
submitted once and its result recorded once. -/
theorem Execute.Good_exit (Run : N → Args V → RunResult V E) (g : Graph N) (hg : g.Built)
    (args : Args V) (st : execState N V) (hgood : Execute.Good Run g args st)
    (hrun : st.pool.runningNodes = []) :
    (∀ u, GoMap.has st.predecessorMap u = false) ∧
      List.Perm ((Event.subs st.trace).map Prod.fst) g.store.ListNodes.1 ∧
      List.Perm (GoMap.keys (Event.recs st.trace)) g.store.ListNodes.1 := by
  have hw := built_wellFormed g hg
  have hacyc := (built_invariant g hg).2
  have hsubrec : ∀ u, u ∈ (Event.subs st.trace).map Prod.fst →
      u ∈ GoMap.keys (Event.recs st.trace) := by
    intro u hu
    obtain ⟨⟨u1, j, a⟩, hmem, hfst⟩ := List.mem_map.mp hu
    simp only at hfst
    subst hfst
    by_contra hnot
    have := (hgood.running { NodeHash := u1, Result := j }).mpr ⟨⟨a, hmem⟩, hnot⟩
    rw [hrun] at this
    simp at this
  have hnone : ∀ u, ¬ (GoMap.has st.predecessorMap u = true) := by
    apply memoryStore.no_closed_set g.store hacyc
    · intro u hu
      exact (hgood.cover u).mpr (Or.inl hu)
    · intro u hu
      rcases hgood.nonempty u hu (by simp) with ⟨p, hp⟩ | ⟨hmem, _⟩
      · obtain ⟨_, hedge, hrec⟩ := (hgood.preds u p).mp hp
        refine ⟨p, ?_, hedge⟩
        obtain ⟨e, he⟩ := hedge
        have hpnode : g.store.IsNode p := (hw.2.2.2 _ _ e he).2.1
        rcases (hgood.cover p).mp hpnode with hpm | hsub
        · exact hpm
        · rcases hrec with hrec | ⟨_, hmem⟩
          · exact absurd (hsubrec p hsub) hrec
          · simp at hmem
      · simp at hmem
  have hnone' : ∀ u, GoMap.has st.predecessorMap u = false := by
    intro u
    cases hc : GoMap.has st.predecessorMap u with
    | false => rfl
    | true => exact absurd hc (hnone u)
  have hsubs : List.Perm ((Event.subs st.trace).map Prod.fst) g.store.ListNodes.1 := by
    apply (List.perm_ext_iff_of_nodup hgood.subNodup hw.1).mpr
    intro u
    have hc := hgood.cover u
    simp only [hnone' u, Bool.false_eq_true, false_or] at hc
    rw [← hc]
    exact ((GoMap.mem_keys_iff _ _).trans Iff.rfl).symm
  refine ⟨hnone', hsubs, ?_⟩
  refine List.Perm.trans ?_ hsubs
  apply (List.perm_ext_iff_of_nodup hgood.recNodup hgood.subNodup).mpr
  intro u
  constructor
  · intro hu
    obtain ⟨⟨u1, r⟩, hmem, hfst⟩ := List.mem_map.mp hu
    simp only at hfst
    subst hfst
    obtain ⟨j, a, hja, _⟩ := hgood.recorded u1 r hmem
    exact List.mem_map.mpr ⟨(u1, j, a), hja, rfl⟩
  · exact hsubrec u

end Graph

end ringchain

/-! ## Traces of runs and the last writer -/

namespace ringchain

/-- The merge has a value at `k` exactly when it is the value at `k` of a map of the list
after which no map of the list has the key. -/
theorem lastWriter_eq_some_iff {V : Type} (outs : List (String × Args V)) (k : String) (v : V) :
    lastWriter outs k = some v ↔
      ∃ l1 p l2, outs = l1 ++ p :: l2 ∧ GoMap.lookup p.2 k = some v ∧
        ∀ q ∈ l2, GoMap.lookup q.2 k = none := by
  induction outs using List.reverseRecOn with
  | nil =>
    simp [lastWriter_nil]
  | append_singleton l p ih =>
    rw [lastWriter_snoc]
    cases hp : GoMap.lookup p.2 k with
    | some w =>
      simp only [Option.some.injEq]
      constructor
      · intro hw
        exact ⟨l, p, [], by simp, by rw [hp, hw], by simp⟩
      · rintro ⟨l1, q, l2, heq, hq, hall⟩
        rcases List.eq_nil_or_concat l2 with h2 | ⟨l3, y, h2⟩
        · subst h2
          have := List.append_inj' (show l ++ [p] = l1 ++ [q] from heq) rfl
          have hpq : p = q := List.singleton_inj.mp this.2
          rw [← hpq, hp] at hq
          exact Option.some.inj hq
        · subst h2
          have heq2 : l ++ [p] = (l1 ++ q :: l3) ++ [y] := by
            rw [heq]
            simp
          have := List.append_inj' heq2 rfl
          have hpy : p = y := List.singleton_inj.mp this.2
          have := hall y (by simp)
          rw [← hpy, hp] at this
          exact absurd this (by simp)
    | none =>
      simp only []
      rw [ih]
      constructor
      · rintro ⟨l1, q, l2, heq, hq, hall⟩
        refine ⟨l1, q, l2 ++ [p], by rw [heq]; simp, hq, ?_⟩
        intro x hx
        rcases List.mem_append.mp hx with hx | hx
        · exact hall x hx
        · simp only [List.mem_singleton] at hx
          rw [hx]
          exact hp
      · rintro ⟨l1, q, l2, heq, hq, hall⟩
        rcases List.eq_nil_or_concat l2 with h2 | ⟨l3, y, h2⟩
        · subst h2
          have := List.append_inj' (show l ++ [p] = l1 ++ [q] from heq) rfl
          have hpq : p = q := List.singleton_inj.mp this.2
          rw [← hpq, hp] at hq
          exact absurd hq (by simp)
        · subst h2
          have heq2 : l ++ [p] = (l1 ++ q :: l3) ++ [y] := by
            rw [heq]
            simp
          have := List.append_inj' heq2 rfl
          refine ⟨l1, q, l3, this.1, hq, ?_⟩
          intro x hx
          exact hall x (by rw [List.concat_eq_append]; exact List.mem_append_left _ hx)

/-- The merge has the key `k` exactly when a map of the list has it. -/
theorem lastWriter_isSome_iff {V : Type} (outs : List (String × Args V)) (k : String) :
    (lastWriter outs k).isSome = true ↔ ∃ p ∈ outs, GoMap.has p.2 k = true := by
  induction outs using List.reverseRecOn with
  | nil => simp [lastWriter_nil]
  | append_singleton l p ih =>
    rw [lastWriter_snoc]
    cases hp : GoMap.lookup p.2 k with
    | some w =>
      simp only [Option.isSome_some, true_iff]
      exact ⟨p, by simp, by simp [GoMap.has, hp]⟩
    | none =>
      simp only []
      rw [ih]
      constructor
      · rintro ⟨q, hq, hk⟩
        exact ⟨q, List.mem_append_left _ hq, hk⟩
      · rintro ⟨q, hq, hk⟩
        rcases List.mem_append.mp hq with hq | hq
        · exact ⟨q, hq, hk⟩
        · simp only [List.mem_singleton] at hq
          rw [hq, GoMap.has, hp] at hk
          exact absurd hk (by simp)

namespace Event

variable {V : Type}

theorem mem_recs_iff (t : List (Event V)) (u : String) (r : Args V) :
    (u, r) ∈ recs t ↔ result u r ∈ t := by
  induction t with
  | nil => simp [recs]
  | cons e l ih =>
    cases e with
    | submit u1 j1 a1 => simp [recs, ih]
    | result u1 r1 => simp [recs, ih]
    | stop => simp [recs, ih]
    | wait => simp [recs, ih]

theorem mem_subs_iff (t : List (Event V)) (u : String) (j : Nat) (a : Args V) :
    (u, j, a) ∈ subs t ↔ submit u j a ∈ t := by
  induction t with
  | nil => simp [subs]
  | cons e l ih =>
    cases e with
    | submit u1 j1 a1 => simp [subs, ih]
    | result u1 r1 => simp [subs, ih]
    | stop => simp [subs, ih]
    | wait => simp [subs, ih]

end Event

namespace Graph

variable {N V E : Type} [Inhabited N]

/-- The trace of the state in which a run on a built graph ends or stands is the trace of a
good state. -/
theorem Execute.trace_good (Run : N → Args V → RunResult V E) (g : Graph N) (hg : g.Built)
    (args : Args V) (opts : List (GraphExecuteOptions → GraphExecuteOptions))
    (sched : List Step) (fin : execState N V)
    (h : (g.Execute Run args opts sched).state? = some fin) :
    ∃ st0, Execute.Good Run g args st0 ∧ fin.trace = st0.trace ∧
      fin.pool.jobQueue = st0.pool.jobQueue := by
  have hw := built_wellFormed g hg
  obtain ⟨r1, r2⟩ := Execute.run_reach Run g hg args opts (fun _ => True) sched
    (fun _ _ _ _ _ _ _ _ => trivial) (fun _ _ _ _ _ _ _ => trivial)
  cases ho : g.Execute Run args opts sched with
  | running st1 =>
    rw [ho] at h
    simp only [Outcome.state?, Option.some.injEq] at h
    exact ⟨st1, (r1 st1 ho).1, by rw [h], by rw [h]⟩
  | returned tbl f =>
    rw [ho] at h
    simp only [Outcome.state?, Option.some.injEq] at h
    rcases r2 (by rw [ho]; simp) with hp | ⟨st0, s, _, hgood, _, hs⟩
    · rw [ho] at hp
      exact absurd hp (by simp)
    · rw [ho] at hs
      obtain ⟨_, _, _, hf⟩ := Execute.step_returned Run g st0 f s tbl hs
      refine ⟨_, Execute.Inv_stop Run g args none [] "" [] st0 hgood, ?_, ?_⟩
      · rw [← h, hf]
      · rw [← h, hf]
  | failed err f =>
    rw [ho] at h
    simp only [Outcome.state?, Option.some.injEq] at h
    rcases r2 (by rw [ho]; simp) with hp | ⟨st0, s, _, hgood, _, hs⟩
    · rw [ho] at hp
      exact absurd hp (by simp)
    · rw [ho] at hs
      obtain ⟨hjq, hcases⟩ := Execute.step_failed Run g hw args st0 f hgood s err hs
      rcases hcases with ⟨_, _, ⟨_, ht, _⟩ | ⟨_, ht, _⟩⟩ | ⟨j, e, _, _, _, ht, _⟩
      · exact ⟨st0, hgood, by rw [← h, ht], by rw [← h, hjq]⟩
      · exact ⟨_, Execute.Inv_stop Run g args none [] "" [] st0 hgood, by rw [← h, ht],
          by rw [← h, hjq]⟩
      · exact ⟨st0, hgood, by rw [← h, ht], by rw [← h, hjq]⟩
  | infeasible =>
    rw [ho] at h
    simp [Outcome.state?] at h
  | panicked =>
    rw [ho] at h
    simp [Outcome.state?] at h

end Graph

end ringchain

namespace ringchain

namespace Graph

variable {N V E : Type} [Inhabited N]

/-- The job submitted for a node lies in the job queue at the number of its result
channel. -/
theorem Execute.Inv_job_at (Run : N → Args V → RunResult V E) (g : Graph N)
    (args : Args V) (cur : Option String) (rest : List String) (h : String) (res : Args V)
    (st : execState N V) (hinv : Execute.Inv Run g args cur rest h res st)
    (u : String) (c : Nat) (a : Args V) (hmem : (u, c, a) ∈ Event.subs st.trace) :
    st.pool.jobQueue[c]? = some { Args := a, Node := (g.Node u).1, Result := c } := by
  obtain ⟨i, hi⟩ := List.mem_iff_getElem?.mp hmem
  have hid : ((Event.subs st.trace).map (fun s => s.2.1))[i]? = some c := by
    rw [List.getElem?_map, hi]
    rfl
  rw [hinv.ids] at hid
  obtain ⟨hlt, hget⟩ := List.getElem?_eq_some.mp hid
  rw [List.getElem_range] at hget
  subst hget
  rw [hinv.jobs, List.getElem?_map, hi]
  rfl

end Graph

end ringchain

/-! ## Runs of graphs of marker nodes -/

namespace ringchain

namespace Graph

variable {N V E : Type} [Inhabited N]

omit [Inhabited N] in
/-- A path into `u` ends with an edge from a direct predecessor of `u`. -/
theorem path_last_edge (s : memoryStore N) (x u : String) (h : s.Path x u) :
    ∃ p, (x = p ∨ s.Path x p) ∧ s.HasEdge p u := by
  obtain ⟨p, hxp, hpu⟩ := Relation.TransGen.tail'_iff.mp h
  refine ⟨p, ?_, hpu⟩
  rcases Relation.reflTransGen_iff_eq_or_transGen.mp hxp with h1 | h1
  · exact Or.inl h1.symm
  · exact Or.inr h1

/-- On a built graph whose nodes all return a copy of their input with their own marker set,
the result recorded for a node has the markers of the node and of its ancestors, and every
key of it is such a marker or a key of the initial input. -/
theorem Execute.marker_step (Run : N → Args V → RunResult V E) (g : Graph N)
    (hg : g.Built) (args : Args V) (mark : String → String) (val : String → V)
    (hmark : ∀ u n, GoMap.lookup g.store.vertices u = some n →
      ∀ a, Run n a = RunResult.ok (GoMap.set a (mark u) (val u)))
    (st st1 : execState N V) (s : Step) (hgood : Execute.Good Run g args st)
    (hP : ∀ u res, (u, res) ∈ Event.recs st.trace →
      (∀ x, (x = u ∨ g.store.Path x u) → GoMap.has res (mark x) = true) ∧
      (∀ k, GoMap.has res k = true →
        GoMap.has args k = true ∨ ∃ x, (x = u ∨ g.store.Path x u) ∧ k = mark x))
    (hstep : Execute.step Run g st s = Outcome.running st1) :
    ∀ u res, (u, res) ∈ Event.recs st1.trace →
      (∀ x, (x = u ∨ g.store.Path x u) → GoMap.has res (mark x) = true) ∧
      (∀ k, GoMap.has res k = true →
        GoMap.has args k = true ∨ ∃ x, (x = u ∨ g.store.Path x u) ∧ k = mark x) := by
  have hw := built_wellFormed g hg
  rcases Execute.step_running Run g hw args st st1 hgood s hstep with
    ⟨_, ht, _⟩ | ⟨_, r, tl, res, a, hrun, hsub, hrunres, hrecs, _⟩
  · rw [ht]
    exact hP
  · intro u res1 hmem
    rw [hrecs] at hmem
    rcases List.mem_append.mp hmem with hmem | hmem
    · exact hP u res1 hmem
    · simp only [List.mem_singleton, Prod.mk.injEq] at hmem
      obtain ⟨hu, hres⟩ := hmem
      subst hu
      subst hres
      have hnode : g.store.IsNode r.NodeHash :=
        (hgood.cover r.NodeHash).mpr (Or.inr (List.mem_map.mpr ⟨_, hsub, rfl⟩))
      obtain ⟨n, hn, hN⟩ := memoryStore.Node_of_isNode g.store r.NodeHash hnode
      have hN' : (g.Node r.NodeHash).1 = n := by
        show (g.store.Node r.NodeHash).1 = n
        rw [hN]
      rw [hN', hmark r.NodeHash n hn a] at hrunres
      simp only [RunResult.ok.injEq] at hrunres
      subst hrunres
      obtain ⟨pre, post, hsplit⟩ := Event.mem_subs_split _ _ _ _ hsub
      obtain ⟨hall, hroot, hmerge⟩ := hgood.order pre post r.NodeHash r.Result a hsplit
      have hpre : ∀ q, q ∈ Event.recs pre → q ∈ Event.recs st.trace := by
        intro q hq
        rw [hsplit, Event.recs_append]
        exact List.mem_append_left _ hq
      have hin : ∀ k, (∃ p, g.store.HasEdge p r.NodeHash) →
          (GoMap.has a k = true ↔ ∃ q, q ∈ Event.recs pre ∧ g.store.HasEdge q.1 r.NodeHash ∧
            GoMap.has q.2 k = true) := by
        intro k hex
        unfold GoMap.has
        rw [hmerge hex k, lastWriter_isSome_iff]
        constructor
        · rintro ⟨q, hq, hk⟩
          obtain ⟨hq1, hq2⟩ := List.mem_filter.mp hq
          exact ⟨q, hq1, by simpa using hq2, hk⟩
        · rintro ⟨q, hq1, hq2, hk⟩
          exact ⟨q, List.mem_filter.mpr ⟨hq1, by simpa using hq2⟩, hk⟩
      refine ⟨?_, ?_⟩
      · intro x hx
        rw [GoMap.has_set]
        rcases hx with hx | hx
        · simp [hx]
        · obtain ⟨p, hxp, hedge⟩ := path_last_edge g.store x r.NodeHash hx
          have hprec := hall p hedge
          obtain ⟨⟨p1, rp⟩, hq, hfst⟩ := List.mem_map.mp hprec
          simp only at hfst
          subst hfst
          have hm := (hP p1 rp (hpre _ hq)).1 x hxp
          have := (hin (mark x) ⟨p1, hedge⟩).mpr ⟨(p1, rp), hq, hedge, hm⟩
          simp [this]
      · intro k hk
        rw [GoMap.has_set] at hk
        simp only [Bool.or_eq_true, decide_eq_true_eq] at hk
        rcases hk with hk | hk
        · exact Or.inr ⟨r.NodeHash, Or.inl rfl, hk⟩
        · by_cases hex : ∃ p, g.store.HasEdge p r.NodeHash
          · obtain ⟨⟨p, rp⟩, hq, hedge, hkq⟩ := (hin k hex).mp hk
            rcases (hP p rp (hpre _ hq)).2 k hkq with h1 | ⟨x, hx, hkx⟩
            · exact Or.inl h1
            · right
              refine ⟨x, Or.inr ?_, hkx⟩
              rcases hx with hx | hx
              · rw [hx]
                exact Relation.TransGen.single hedge
              · exact Relation.TransGen.tail hx hedge
          · have ha : a = args := hroot (fun p hp => hex ⟨p, hp⟩)
            rw [ha] at hk
            exact Or.inl hk

end Graph

end ringchain

/-! ## Returned tables, and the chain of two nodes -/

namespace ringchain

theorem lastWriter_all_none {V : Type} (outs : List (String × Args V)) (k : String)
    (h : ∀ q ∈ outs, GoMap.lookup q.2 k = none) : lastWriter outs k = none := by
  cases hl : lastWriter outs k with
  | none => rfl
  | some v =>
    obtain ⟨l1, p, l2, heq, hk, _⟩ := (lastWriter_eq_some_iff outs k v).mp hl
    have := h p (by rw [heq]; simp)
    rw [hk] at this
    exact absurd this (by simp)

/-- The merge of a non-empty list of copies of one output is that output. -/
theorem lastWriter_const {V : Type} (outs : List (String × Args V)) (res : Args V) (k : String)
    (hne : outs ≠ []) (h : ∀ q ∈ outs, q.2 = res) :
    lastWriter outs k = GoMap.lookup res k := by
  obtain ⟨l1, p, heq⟩ : ∃ l1 p, outs = l1 ++ [p] := by
    rcases List.eq_nil_or_concat outs with h1 | ⟨l1, p, h1⟩
    · exact absurd h1 hne
    · exact ⟨l1, p, by rw [h1, List.concat_eq_append]⟩
  subst heq
  rw [lastWriter_snoc]
  have hp : p.2 = res := h p (by simp)
  rw [hp]
  cases hk : GoMap.lookup res k with
  | some v => rfl
  | none =>
    simp only
    apply lastWriter_all_none
    intro q hq
    rw [h q (List.mem_append_left _ hq)]
    exact hk

namespace Graph

variable {N V E : Type} [Inhabited N]

/-- A run that returns a table left the coordinator loop in a good state in which no node
is running; the table is the list of the results recorded in the trace. -/
theorem Execute.returned_good (Run : N → Args V → RunResult V E) (g : Graph N)
    (hg : g.Built) (args : Args V) (opts : List (GraphExecuteOptions → GraphExecuteOptions))
    (sched : List Step) (tbl : GoMap String (Args V)) (fin : execState N V)
    (h : g.Execute Run args opts sched = Outcome.returned tbl fin) :
    ∃ st0, Execute.Good Run g args st0 ∧ st0.pool.runningNodes = [] ∧
      tbl = Event.recs st0.trace ∧
      fin = { st0 with trace := st0.trace ++ [Event.stop, Event.wait] } := by
  obtain ⟨_, r2⟩ := Execute.run_reach Run g hg args opts (fun _ => True) sched
    (fun _ _ _ _ _ _ _ _ => trivial) (fun _ _ _ _ _ _ _ => trivial)
  rcases r2 (by rw [h]; simp) with hp | ⟨st0, s, _, hgood0, _, hs⟩
  · rw [h] at hp
    exact absurd hp (by simp)
  · rw [h] at hs
    obtain ⟨_, hrun, htbl, hfin⟩ := Execute.step_returned Run g st0 fin s tbl hs
    exact ⟨st0, hgood0, hrun, by rw [htbl, hgood0.results], hfin⟩

/-- The result recorded for a node into which no edge leads is what its `Run` returned on
the initial input. -/
theorem Execute.Good_root_value (Run : N → Args V → RunResult V E) (g : Graph N)
    (args : Args V) (st : execState N V) (hgood : Execute.Good Run g args st)
    (u : String) (res : Args V) (hmem : (u, res) ∈ Event.recs st.trace)
    (hroot : ∀ p, ¬ g.store.HasEdge p u) :
    Run (g.Node u).1 args = RunResult.ok res := by
  obtain ⟨j, a, hsub, hrun⟩ := hgood.recorded u res hmem
  obtain ⟨pre, post, hsplit⟩ := Event.mem_subs_split _ _ _ _ hsub
  have ha : a = args := (hgood.order pre post u j a hsplit).2.1 hroot
  rw [← ha]
  exact hrun

theorem chainOf_built (x y : String) (n1 n2 : N) : (chainOf x y n1 n2).Built := ⟨_, rfl⟩

theorem chainOf_store (x y : String) (n1 n2 : N) (hxy : x ≠ y) :
    (chainOf x y n1 n2).store
      = ((⟨[(x, n1), (y, n2)], [], []⟩ : memoryStore N).AddEdge x y
          { SourceHash := x, TargetHash := y }).1 := by
  have h2 : ((NewGraph.AddNode x n1).1.AddNode y n2).1.store
      = (⟨[(x, n1), (y, n2)], [], []⟩ : memoryStore N) := by
    simp [AddNode_eq, memoryStore.AddNode, NewGraph, newMemoryStore, GoMap.has, GoMap.lookup,
      GoMap.set, hxy]
  have hb : (((NewGraph : Graph N).AddNode x n1).1.AddNode y n2).1.Built :=
    ⟨[Call.addNode x n1, Call.addNode y n2], rfl⟩
  have hsym := (built_invariant _ hb).1
  have hnoedge : ∀ p u, ¬ ((NewGraph.AddNode x n1).1.AddNode y n2).1.store.HasEdge p u := by
    intro p u
    rw [h2]
    rintro ⟨e, he⟩
    simp [memoryStore.outHolds, GoMap.inner, GoMap.lookup] at he
  have hok : (((NewGraph.AddNode x n1).1.AddNode y n2).1.AddEdge x y).2 = none := by
    rw [AddEdge_ok_iff _ hsym]
    refine ⟨?_, ?_, hnoedge x y, hxy, ?_⟩
    · rw [h2]
      simp [memoryStore.IsNode, GoMap.has, GoMap.lookup]
    · rw [h2]
      simp [memoryStore.IsNode, GoMap.has, GoMap.lookup, hxy]
    · intro hp
      obtain ⟨c, hc, _⟩ := Relation.TransGen.head'_iff.mp hp
      exact hnoedge _ _ hc
  rcases AddEdge_result (((NewGraph : Graph N).AddNode x n1).1.AddNode y n2).1 x y with
    ⟨_, hne⟩ | ⟨heq, _⟩
  · exact absurd hok hne
  · show (((NewGraph.AddNode x n1).1.AddNode y n2).1.AddEdge x y).1.store = _
    rw [heq, h2]

theorem chainOf_hasEdge (x y : String) (n1 n2 : N) (hxy : x ≠ y) (p u : String) :
    (chainOf x y n1 n2).store.HasEdge p u ↔ p = x ∧ u = y := by
  rw [chainOf_store x y n1 n2 hxy]
  unfold memoryStore.HasEdge memoryStore.outHolds
  simp only [memoryStore.AddEdge_out]
  by_cases h : p = x ∧ u = y
  · simp [h]
  · simp [h, GoMap.inner, GoMap.lookup]

theorem chainOf_node (x y : String) (n1 n2 : N) (hxy : x ≠ y) :
    ((chainOf x y n1 n2).Node x).1 = n1 ∧ ((chainOf x y n1 n2).Node y).1 = n2 := by
  unfold Node
  rw [chainOf_store x y n1 n2 hxy]
  simp [memoryStore.Node, memoryStore.AddEdge, GoMap.lookup, hxy]

/-- In a run on the chain `x → y`, the input submitted with `y` is the output of `x` on the
initial input. -/
theorem Execute.chain_input (Run : N → Args V → RunResult V E) (x y : String) (n1 n2 : N)
    (hxy : x ≠ y) (args : Args V) (st : execState N V)
    (hgood : Execute.Good Run (chainOf x y n1 n2) args st)
    (j : Nat) (a : Args V) (hsub : (y, j, a) ∈ Event.subs st.trace) :
    ∃ res, Run n1 args = RunResult.ok res ∧ ∀ k, GoMap.lookup a k = GoMap.lookup res k := by
  obtain ⟨pre, post, hsplit⟩ := Event.mem_subs_split _ _ _ _ hsub
  obtain ⟨hall, _, hmerge⟩ := hgood.order pre post y j a hsplit
  have hedge : (chainOf x y n1 n2).store.HasEdge x y :=
    (chainOf_hasEdge x y n1 n2 hxy x y).mpr ⟨rfl, rfl⟩
  obtain ⟨⟨x1, res⟩, hres, hfst⟩ := List.mem_map.mp (hall x hedge)
  simp only at hfst
  subst hfst
  have hres1 : (x1, res) ∈ Event.recs st.trace := by
    rw [hsplit, Event.recs_append]
    exact List.mem_append_left _ hres
  have hrun := Execute.Good_root_value Run _ args st hgood x1 res hres1
    (fun p hp => hxy ((chainOf_hasEdge x1 y n1 n2 hxy p x1).mp hp).2)
  rw [(chainOf_node x1 y n1 n2 hxy).1] at hrun
  refine ⟨res, hrun, fun k => ?_⟩
  rw [hmerge ⟨x1, hedge⟩ k]
  apply lastWriter_const
  · intro hnil
    have : (x1, res) ∈ (Event.recs pre).filter
        (fun r => decide ((chainOf x1 y n1 n2).store.HasEdge r.1 y)) :=
      List.mem_filter.mpr ⟨hres, by simpa using hedge⟩
    rw [hnil] at this
    exact absurd this (by simp)
  · intro q hq
    obtain ⟨hq1, hq2⟩ := List.mem_filter.mp hq
    have hqx : q.1 = x1 := ((chainOf_hasEdge x1 y n1 n2 hxy q.1 y).mp (by simpa using hq2)).1
    have hq3 : (q.1, q.2) ∈ Event.recs st.trace := by
      rw [hsplit, Event.recs_append]
      exact List.mem_append_left _ hq1
    have h1 := (GoMap.mem_iff_lookup _ hgood.recNodup q.1 q.2).mp hq3
    have h2 := (GoMap.mem_iff_lookup _ hgood.recNodup x1 res).mp hres1
    rw [hqx, h2] at h1
    exact (Option.some.inj h1).symm

end Graph

end ringchain

/-! ## Pending node errors -/

namespace ringchain

namespace Outcome

variable {N V E : Type}

theorem running?_map_eq_some {α : Type} (o : Outcome N V E) (f : execState N V → α) (x : α)
    (h : o.running?.map f = some x) : ∃ st, o = Outcome.running st ∧ f st = x := by
  cases o with
  | running st => exact ⟨st, rfl, by simpa [running?] using h⟩
  | returned t f1 => simp [running?] at h
  | failed e f1 => simp [running?] at h
  | infeasible => simp [running?] at h
  | panicked => simp [running?] at h

theorem results?_eq_some (o : Outcome N V E) (t : GoMap String (Args V))
    (h : o.results? = some t) : ∃ fin, o = Outcome.returned t fin := by
  cases o with
  | returned t1 f1 =>
    simp only [results?, Option.some.injEq] at h
    exact ⟨f1, by rw [h]⟩
  | running st => simp [results?] at h
  | failed e f1 => simp [results?] at h
  | infeasible => simp [results?] at h
  | panicked => simp [results?] at h

theorem trace?_eq_some (o : Outcome N V E) (t : List (Event V))
    (h : o.trace? = some t) : ∃ fin, o.state? = some fin ∧ fin.trace = t := by
  unfold trace? at h
  cases hs : o.state? with
  | none => simp [hs] at h
  | some fin =>
    rw [hs] at h
    exact ⟨fin, rfl, by simpa using h⟩

end Outcome

namespace Graph

variable {N V E : Type} [Inhabited N]

omit [Inhabited N] in
theorem Execute.errReady_iff (Run : N → Args V → RunResult V E) (st : execState N V)
    (j : Nat) (e : E) :
    Execute.errReady Run st j = some e ↔
      (j ∈ st.finished ∧ ∃ job, st.pool.jobQueue[j]? = some job ∧
        Run job.Node job.Args = RunResult.error e) := by
  unfold Execute.errReady
  by_cases hj : j ∈ st.finished
  · rw [if_pos hj]
    cases hq : st.pool.jobQueue[j]? with
    | none => simp [hj]
    | some job =>
      cases hr : Run job.Node job.Args with
      | ok res => simp [hj, hr]
      | error err => simp [hj, hr]
      | panic => simp [hj, hr]
  · rw [if_neg hj]
    simp [hj]

/-- In a good state the node of a job whose `Run` returned an error is still running: its
result is never recorded. -/
theorem Execute.err_running (Run : N → Args V → RunResult V E) (g : Graph N)
    (args : Args V) (st : execState N V) (hgood : Execute.Good Run g args st)
    (j : Nat) (job : nodeJob N V) (e : E) (hq : st.pool.jobQueue[j]? = some job)
    (hr : Run job.Node job.Args = RunResult.error e) :
    ∃ u, ({ NodeHash := u, Result := j } : runningNode) ∈ st.pool.runningNodes := by
  rw [hgood.jobs, List.getElem?_map] at hq
  cases hs : (Event.subs st.trace)[j]? with
  | none => simp [hs] at hq
  | some s =>
    rw [hs] at hq
    simp only [Option.map_some', Option.some.injEq] at hq
    obtain ⟨u, j1, a⟩ := s
    have hmem : (u, j1, a) ∈ Event.subs st.trace := List.getElem?_mem hs
    have hj1 : j1 = j := by
      have h1 : ((Event.subs st.trace).map (fun s => s.2.1))[j]? = some j1 := by
        rw [List.getElem?_map, hs]
        rfl
      rw [hgood.ids] at h1
      have hlt : j < (Event.subs st.trace).length := by
        by_contra hge
        rw [List.getElem?_eq_none (by simpa using hge)] at hs
        exact absurd hs (by simp)
      rw [List.getElem?_range hlt] at h1
      exact (Option.some.inj h1).symm
    subst hj1
    refine ⟨u, (hgood.running _).mpr ⟨⟨a, hmem⟩, ?_⟩⟩
    intro hrec
    obtain ⟨⟨u1, r⟩, hres, hfst⟩ := List.mem_map.mp hrec
    simp only at hfst
    subst hfst
    obtain ⟨j2, a2, hsub2, hrun2⟩ := hgood.recorded u1 r hres
    have heq : (u1, j2, a2) = (u1, j1, a) :=
      List.inj_on_of_nodup_map hgood.subNodup hsub2 hmem rfl
    simp only [Prod.mk.injEq, true_and] at heq
    rw [heq.2] at hrun2
    rw [← hq] at hr
    simp only at hr
    rw [hrun2] at hr
    exact absurd hr (by simp)

theorem Execute.pending_running (Run : N → Args V → RunResult V E) (g : Graph N)
    (args : Args V) (st : execState N V) (hgood : Execute.Good Run g args st)
    (j : Nat) (e : E) (he : Execute.errReady Run st j = some e) :
    st.pool.NumRunningNodes > 0 := by
  obtain ⟨_, job, hq, hr⟩ := (Execute.errReady_iff Run st j e).mp he
  obtain ⟨u, hu⟩ := Execute.err_running Run g args st hgood j job e hq hr
  unfold workerPool.NumRunningNodes
  exact List.length_pos_of_mem hu

omit [Inhabited N] in
theorem Execute.anyErrReady_of (Run : N → Args V → RunResult V E) (st : execState N V)
    (j : Nat) (e : E) (he : Execute.errReady Run st j = some e) :
    Execute.anyErrReady Run st = true := by
  unfold Execute.anyErrReady
  rw [List.any_eq_true]
  exact ⟨j, ((Execute.errReady_iff Run st j e).mp he).1, by rw [he]; rfl⟩

/-- With the error of a node pending, the `select` of the coordinator loop returns that error
when it takes the error case. -/
theorem Execute.step_poll_err (Run : N → Args V → RunResult V E) (g : Graph N)
    (args : Args V) (st : execState N V) (hgood : Execute.Good Run g args st)
    (j : Nat) (e : E) (he : Execute.errReady Run st j = some e) :
    ∃ fin, Execute.step Run g st (Step.poll (Choice.errChan j))
      = Outcome.failed (ExecError.node e) fin := by
  have hpos := Execute.pending_running Run g args st hgood j e he
  obtain ⟨r, tl, _, hpop⟩ := Execute.pop_eq st hpos
  exact ⟨{ st with pool := { st.pool with runningNodes := tl } },
    by simp only [Execute.step, if_pos hpos, hpop, he]⟩

/-- With the context cancelled and a node running, the `select` of the coordinator loop
returns the cancellation error when it takes the context case. -/
theorem Execute.step_poll_ctx (Run : N → Args V → RunResult V E) (g : Graph N)
    (st : execState N V) (hpos : st.pool.NumRunningNodes > 0) (hc : st.ctxDone = true) :
    ∃ fin, Execute.step Run g st (Step.poll Choice.ctxDone)
      = Outcome.failed ExecError.ctx fin := by
  obtain ⟨r, tl, _, hpop⟩ := Execute.pop_eq st hpos
  exact ⟨{ st with pool := { st.pool with runningNodes := tl } },
    by simp only [Execute.step, if_pos hpos, hpop, hc, if_true]⟩

/-- With the error of a node pending, the `select` of the coordinator loop cannot take the
default case. -/
theorem Execute.step_poll_default (Run : N → Args V → RunResult V E) (g : Graph N)
    (st : execState N V) (j : Nat) (e : E) (he : Execute.errReady Run st j = some e) :
    Execute.step Run g st (Step.poll Choice.default) = Outcome.infeasible := by
  have hany := Execute.anyErrReady_of Run st j e he
  by_cases hpos : st.pool.NumRunningNodes > 0
  · obtain ⟨r, tl, _, hpop⟩ := Execute.pop_eq st hpos
    simp only [Execute.step, if_pos hpos, hpop, hany]
    simp
  · simp only [Execute.step, if_neg hpos]

/-- With the error of a node pending and the context not cancelled, the only iteration of
the coordinator loop after which `Execute` goes on is one that receives a result. -/
theorem Execute.step_poll_pending (Run : N → Args V → RunResult V E) (g : Graph N)
    (st st1 : execState N V) (j : Nat) (e : E) (he : Execute.errReady Run st j = some e)
    (hc : st.ctxDone = false) (c : Choice)
    (hstep : Execute.step Run g st (Step.poll c) = Outcome.running st1) :
    c = Choice.result := by
  cases c with
  | result => rfl
  | default =>
    rw [Execute.step_poll_default Run g st j e he] at hstep
    exact absurd hstep (by simp)
  | ctxDone =>
    simp only [Execute.step] at hstep
    split at hstep
    · split at hstep
      · exact absurd hstep (by simp)
      · rw [hc] at hstep
        simp at hstep
    · exact absurd hstep (by simp)
  | errChan j1 =>
    simp only [Execute.step] at hstep
    split at hstep
    · split at hstep
      · exact absurd hstep (by simp)
      · split at hstep <;> exact absurd hstep (by simp)
    · exact absurd hstep (by simp)

/-- The results recorded in a good state are results of different nodes of the graph. -/
theorem Execute.Good_recs_le (Run : N → Args V → RunResult V E) (g : Graph N)
    (args : Args V) (st : execState N V) (hgood : Execute.Good Run g args st) :
    (Event.recs st.trace).length ≤ GoMap.len g.store.vertices := by
  have hsub : GoMap.keys (Event.recs st.trace) ⊆ GoMap.keys g.store.vertices := by
    intro u hu
    obtain ⟨⟨u1, r⟩, hres, hfst⟩ := List.mem_map.mp hu
    simp only at hfst
    subst hfst
    obtain ⟨j, a, hs, _⟩ := hgood.recorded u1 r hres
    exact (GoMap.mem_keys_iff _ _).mpr
      ((hgood.cover u1).mpr (Or.inr (List.mem_map.mpr ⟨_, hs, rfl⟩)))
  have := (hgood.recNodup.subperm hsub).length_le
  simpa [GoMap.keys, GoMap.len] using this

/-- A step other than a cancellation, taken with the error of a node pending and the context
not cancelled, keeps both; an iteration of the coordinator loop among them records a
result. -/
theorem Execute.pending_step (Run : N → Args V → RunResult V E) (g : Graph N)
    (hw : g.WellFormed) (args : Args V) (st st1 : execState N V)
    (hgood : Execute.Good Run g args st) (j : Nat) (e : E)
    (he : Execute.errReady Run st j = some e) (hc : st.ctxDone = false)
    (s : Step) (hs : s ≠ Step.cancel)
    (hstep : Execute.step Run g st s = Outcome.running st1) :
    Execute.errReady Run st1 j = some e ∧ st1.ctxDone = false ∧
      (Event.recs st1.trace).length
        = (Event.recs st.trace).length + (if s.isPoll then 1 else 0) := by
  obtain ⟨hj, job, hq, hr⟩ := (Execute.errReady_iff Run st j e).mp he
  rcases Execute.step_running Run g hw args st st1 hgood s hstep with
    ⟨hne, ht, _, hjq, _, _, hctx, hfin⟩ | ⟨hres, r, tl, res, a, _, _, _, hrecs, hframe⟩
  · refine ⟨?_, ?_, ?_⟩
    · rw [Execute.errReady_iff]
      exact ⟨hfin j hj, job, by rw [hjq]; exact hq, hr⟩
    · rcases hctx with h1 | h1
      · exact absurd h1 hs
      · rw [h1]
        exact hc
    · rw [ht]
      cases s with
      | poll c =>
        have := Execute.step_poll_pending Run g st st1 j e he hc c hstep
        rw [this] at hne
        exact absurd rfl hne
      | cancel => simp [Step.isPoll]
      | take => simp [Step.isPoll]
      | finish j1 => simp [Step.isPoll]
      | stop b => simp [Step.isPoll]
  · obtain ⟨f1, _, _, f4, _, _, _, l, f8⟩ := hframe
    refine ⟨?_, ?_, ?_⟩
    · rw [Execute.errReady_iff]
      refine ⟨by rw [f4]; exact hj, job, ?_, hr⟩
      rw [f8]
      have hlt : j < st.pool.jobQueue.length := by
        by_contra hge
        rw [List.getElem?_eq_none (by simpa using hge)] at hq
        exact absurd hq (by simp)
      simp only at hlt ⊢
      rw [List.getElem?_append_left hlt]
      exact hq
    · rw [f1]
      exact hc
    · rw [hrecs, hres]
      simp [Step.isPoll]

/-- While the error of a node is pending and the context is not cancelled, every iteration
of the coordinator loop after which `Execute` goes on records a result. -/
theorem Execute.pending_loop (Run : N → Args V → RunResult V E) (g : Graph N)
    (hw : g.WellFormed) (args : Args V) (j : Nat) (e : E) (more : List Step)
    (hnc : Step.cancel ∉ more) :
    ∀ st st2, Execute.Good Run g args st → Execute.errReady Run st j = some e →
      st.ctxDone = false → Execute.loop Run g st more = Outcome.running st2 →
      Execute.Good Run g args st2 ∧
        (Event.recs st2.trace).length
          = (Event.recs st.trace).length + more.countP Step.isPoll := by
  induction more with
  | nil =>
    intro st st2 hgood _ _ hloop
    rw [Execute.loop_nil] at hloop
    simp only [Outcome.running.injEq] at hloop
    rw [← hloop]
    exact ⟨hgood, by simp⟩
  | cons s rest ih =>
    intro st st2 hgood he hc hloop
    have hs : s ≠ Step.cancel := fun h => hnc (by rw [h]; simp)
    have hrest : Step.cancel ∉ rest := fun h => hnc (List.mem_cons_of_mem _ h)
    cases hstep : Execute.step Run g st s with
    | running st1 =>
      rw [Execute.loop_cons_running Run g st st1 s rest hstep] at hloop
      obtain ⟨he1, hc1, hlen⟩ := Execute.pending_step Run g hw args st st1 hgood j e he hc s hs hstep
      have hgood1 := Execute.step_good Run g hw args st st1 hgood s hstep
      obtain ⟨hg2, hlen2⟩ := ih hrest st1 st2 hgood1 he1 hc1 hloop
      refine ⟨hg2, ?_⟩
      rw [hlen2, hlen, List.countP_cons]
      omega
    | returned t f =>
      rw [Execute.loop_cons_stop Run g st s rest (by rw [hstep]; simp), hstep] at hloop
      exact absurd hloop (by simp)
    | failed e1 f =>
      rw [Execute.loop_cons_stop Run g st s rest (by rw [hstep]; simp), hstep] at hloop
      exact absurd hloop (by simp)
    | infeasible =>
      rw [Execute.loop_cons_stop Run g st s rest (by rw [hstep]; simp), hstep] at hloop
      exact absurd hloop (by simp)
    | panicked =>
      rw [Execute.loop_cons_stop Run g st s rest (by rw [hstep]; simp), hstep] at hloop
      exact absurd hloop (by simp)

/-- A run that stands in a state goes on from that state under a longer schedule. -/
theorem Execute.run_append (Run : N → Args V → RunResult V E) (g : Graph N) (hg : g.Built)
    (args : Args V) (opts : List (GraphExecuteOptions → GraphExecuteOptions))
    (sched : List Step) (st : execState N V)
    (h : g.Execute Run args opts sched = Outcome.running st) (more : List Step) :
    g.Execute Run args opts (sched ++ more) = Execute.loop Run g st more := by
  have hw := built_wellFormed g hg
  rcases Execute.enter Run g hw args opts with ⟨_, hpanic⟩ | ⟨st1, _, _, _, _, _, _, _, heq⟩
  · rw [hpanic sched] at h
    exact absurd h (by simp)
  · rw [heq sched] at h
    rw [heq (sched ++ more)]
    exact Execute.loop_append Run g sched more st1 st h

theorem Execute.loop_single (Run : N → Args V → RunResult V E) (g : Graph N)
    (st : execState N V) (s : Step) (h : ∀ st1, Execute.step Run g st s ≠ Outcome.running st1) :
    Execute.loop Run g st [s] = Execute.step Run g st s :=
  Execute.loop_cons_stop Run g st s [] h

end Graph

end ringchain

namespace ringchain

namespace Graph

variable {N V E : Type} [Inhabited N]

/-- When no node is running in a good state, the `Run` of every job sent to the job queue
returned a result. -/
theorem Execute.exit_jobs_ok (Run : N → Args V → RunResult V E) (g : Graph N) (hg : g.Built)
    (args : Args V) (st : execState N V) (hgood : Execute.Good Run g args st)
    (hrun : st.pool.runningNodes = []) :
    ∀ job ∈ st.pool.jobQueue, ∃ res, Run job.Node job.Args = RunResult.ok res := by
  obtain ⟨_, hsubs, hrecs⟩ := Execute.Good_exit Run g hg args st hgood hrun
  intro job hjob
  rw [hgood.jobs] at hjob
  obtain ⟨⟨u, j, a⟩, hsub, hf⟩ := List.mem_map.mp hjob
  have hu : u ∈ GoMap.keys (Event.recs st.trace) := by
    apply hrecs.mem_iff.mpr
    apply hsubs.mem_iff.mp
    exact List.mem_map.mpr ⟨(u, j, a), hsub, rfl⟩
  obtain ⟨⟨u1, res⟩, hres, hfst⟩ := List.mem_map.mp hu
  simp only at hfst
  subst hfst
  obtain ⟨j1, a1, hja, hrun1⟩ := hgood.recorded u1 res hres
  have heq : (u1, j1, a1) = (u1, j, a) :=
    List.inj_on_of_nodup_map hgood.subNodup hja hsub rfl
  simp only [Prod.mk.injEq, true_and] at heq
  refine ⟨res, ?_⟩
  rw [← hf, ← heq.2]
  exact hrun1

/-- Under a schedule without a cancellation, the context is not cancelled in any state of
the run, and a run that ends ends by a step from such a state. -/
theorem Execute.run_uncancelled (Run : N → Args V → RunResult V E) (g : Graph N)
    (hg : g.Built) (args : Args V) (opts : List (GraphExecuteOptions → GraphExecuteOptions))
    (sched : List Step) (hnc : Step.cancel ∉ sched) :
    (∀ st1, g.Execute Run args opts sched = Outcome.running st1 →
      Execute.Good Run g args st1 ∧ st1.ctxDone = false) ∧
    ((∀ st1, g.Execute Run args opts sched ≠ Outcome.running st1) →
      g.Execute Run args opts sched = Outcome.panicked ∨
      ∃ st0 s, s ∈ sched ∧ Execute.Good Run g args st0 ∧ st0.ctxDone = false ∧
        Execute.step Run g st0 s = g.Execute Run args opts sched) := by
  have hw := built_wellFormed g hg
  apply Execute.run_reach Run g hg args opts (fun st => st.ctxDone = false) sched
  · intro st _ _ hc _ _ _ _
    exact hc
  · intro st s st1 hs hgood hc hstep
    rcases Execute.step_running Run g hw args st st1 hgood s hstep with
      ⟨_, _, _, _, _, _, hctx, _⟩ | ⟨_, r, tl, res, a, _, _, _, _, hframe⟩
    · rcases hctx with h1 | h1
      · rw [h1] at hs
        exact absurd hs hnc
      · show st1.ctxDone = false
        rw [h1]
        exact hc
    · show st1.ctxDone = false
      rw [hframe.1]
      exact hc

end Graph

end ringchain

namespace ringchain

namespace Graph

variable {N : Type} [Inhabited N]

/-- No edge leads into a node of a built graph whose entry in the in-edge index is empty. -/
theorem root_of_inner_nil (g : Graph N) (hg : g.Built) (u : String)
    (h : GoMap.inner g.store.inEdges u = []) : ∀ p, ¬ g.store.HasEdge p u := by
  rintro p ⟨e, he⟩
  have hin := ((built_invariant g hg).1 p u e).mp he
  unfold memoryStore.inHolds at hin
  rw [h] at hin
  simp [GoMap.lookup] at hin

end Graph

/-- The `Run` of a test node returns its input with the marker of the node set. -/
theorem SampleNode.run_test (n : SampleNode) (h : n.isTest = true) (a : Args Bool) :
    SampleNode.Run n a = RunResult.ok (GoMap.set a ("n_" ++ n.name) true) := by
  cases n with
  | test s => rfl
  | broken s => simp [SampleNode.isTest] at h
  | fixed out => simp [SampleNode.isTest] at h
  | nil => simp [SampleNode.isTest] at h

end ringchain

/-! ## The capacity of the job queue -/

namespace ringchain

namespace Graph

variable {N V E : Type} [Inhabited N]

/-- A step that ends the run with an error leaves the capacity of the job queue as it is. -/
theorem Execute.step_failed_size (Run : N → Args V → RunResult V E) (g : Graph N)
    (hw : g.WellFormed) (args : Args V)
    (st fin : execState N V) (hgood : Execute.Good Run g args st) (s : Step)
    (err : ExecError E) (hstep : Execute.step Run g st s = Outcome.failed err fin) :
    fin.pool.queueSize = st.pool.queueSize := by
  cases s with
  | cancel => simp [Execute.step] at hstep
  | take =>
    simp only [Execute.step] at hstep
    split at hstep <;> exact absurd hstep (by simp)
  | finish j =>
    simp only [Execute.step] at hstep
    split at hstep
    · split at hstep
      · exact absurd hstep (by simp)
      · split at hstep <;> exact absurd hstep (by simp)
    · exact absurd hstep (by simp)
  | poll c =>
    simp only [Execute.step] at hstep
    by_cases hpos : st.pool.NumRunningNodes > 0
    · obtain ⟨r, tl, hrun, hpop⟩ := Execute.pop_eq st hpos
      simp only [hpos, if_true, hpop] at hstep
      cases c with
      | ctxDone =>
        simp only at hstep
        split at hstep
        · simp only [Outcome.failed.injEq] at hstep
          rw [← hstep.2]
        · exact absurd hstep (by simp)
      | errChan j =>
        simp only at hstep
        split at hstep
        · simp only [Outcome.failed.injEq] at hstep
          rw [← hstep.2]
        · exact absurd hstep (by simp)
      | result =>
        simp only at hstep
        cases hready : Execute.resultReady Run st r.Result with
        | none =>
          rw [hready] at hstep
          exact absurd hstep (by simp)
        | some res =>
          rw [hready] at hstep
          simp only at hstep
          have hrec := Execute.Inv_record Run g hw args "" [] st hgood r tl hrun res hready
          obtain ⟨st2, hrel, _, _⟩ := Execute.release_all Run g args r.NodeHash res _ _ hrec
            ⟨Event.recs st.trace, by simp only [Event.recs_snoc_result]⟩
          rw [hrel] at hstep
          exact absurd hstep (by simp)
      | default =>
        simp only at hstep
        split at hstep <;> exact absurd hstep (by simp)
    · simp only [hpos, if_false] at hstep
      exact absurd hstep (by simp)
  | stop b =>
    simp only [Execute.step] at hstep
    split at hstep
    · exact absurd hstep (by simp)
    · cases b with
      | true =>
        simp only [if_true] at hstep
        split at hstep
        · simp only [Outcome.failed.injEq] at hstep
          rw [← hstep.2]
        · exact absurd hstep (by simp)
      | false =>
        simp only [Bool.false_eq_true, if_false] at hstep
        exact absurd hstep (by simp)

/-- In every state of a run the capacity of the job queue is the number of nodes. -/
theorem Execute.state_capacity (Run : N → Args V → RunResult V E) (g : Graph N)
    (hg : g.Built) (args : Args V) (opts : List (GraphExecuteOptions → GraphExecuteOptions))
    (sched : List Step) (fin : execState N V)
    (h : (g.Execute Run args opts sched).state? = some fin) :
    fin.pool.queueSize = GoMap.len g.store.vertices := by
  have hw := built_wellFormed g hg
  obtain ⟨r1, r2⟩ := Execute.run_reach Run g hg args opts
    (fun st => st.pool.queueSize = GoMap.len g.store.vertices) sched
    (fun _ _ _ _ _ _ hq _ => hq)
    (fun st s st1 _ hgood hP hstep => by
      rcases Execute.step_running Run g hw args st st1 hgood s hstep with
        ⟨_, _, _, _, _, hq, _⟩ | ⟨_, r, tl, res, a, _, _, _, _, hframe⟩
      · show st1.pool.queueSize = _
        rw [hq]
        exact hP
      · show st1.pool.queueSize = _
        rw [hframe.2.2.2.2.2.1]
        exact hP)
  cases ho : g.Execute Run args opts sched with
  | running st1 =>
    rw [ho] at h
    simp only [Outcome.state?, Option.some.injEq] at h
    rw [← h]
    exact (r1 st1 ho).2
  | returned tbl f =>
    rw [ho] at h
    simp only [Outcome.state?, Option.some.injEq] at h
    rcases r2 (by rw [ho]; simp) with hp | ⟨st0, s, _, hgood, hP, hs⟩
    · rw [ho] at hp
      exact absurd hp (by simp)
    · rw [ho] at hs
      obtain ⟨_, _, _, hf⟩ := Execute.step_returned Run g st0 f s tbl hs
      rw [← h, hf]
      exact hP
  | failed err f =>
    rw [ho] at h
    simp only [Outcome.state?, Option.some.injEq] at h
    rcases r2 (by rw [ho]; simp) with hp | ⟨st0, s, _, hgood, hP, hs⟩
    · rw [ho] at hp
      exact absurd hp (by simp)
    · rw [ho] at hs
      rw [← h, Execute.step_failed_size Run g hw args st0 f hgood s err hs]
      exact hP
  | infeasible =>
    rw [ho] at h
    simp [Outcome.state?] at h
  | panicked =>
    rw [ho] at h
    simp [Outcome.state?] at h

/-- The submissions recorded in a good state are submissions of different nodes of the
graph, numbered in the order of the trace. -/
theorem Execute.Good_subs_le (Run : N → Args V → RunResult V E) (g : Graph N)
    (args : Args V) (st : execState N V) (hgood : Execute.Good Run g args st) :
    (Event.subs st.trace).length ≤ GoMap.len g.store.vertices ∧
      st.pool.jobQueue.length = (Event.subs st.trace).length ∧
      ∀ u j a, (u, j, a) ∈ Event.subs st.trace → j < (Event.subs st.trace).length := by
  refine ⟨?_, ?_, ?_⟩
  · have hsub : (Event.subs st.trace).map Prod.fst ⊆ GoMap.keys g.store.vertices := by
      intro u hu
      exact (GoMap.mem_keys_iff _ _).mpr ((hgood.cover u).mpr (Or.inr hu))
    have := (hgood.subNodup.subperm hsub).length_le
    simpa [GoMap.keys, GoMap.len] using this
  · rw [hgood.jobs, List.length_map]
  · intro u j a hmem
    have hj : j ∈ (Event.subs st.trace).map (fun s => s.2.1) :=
      List.mem_map.mpr ⟨(u, j, a), hmem, rfl⟩
    rw [hgood.ids] at hj
    exact List.mem_range.mp hj

end Graph

end ringchain

/-! ## The scan for blocks -/

namespace scrolls

theorem dropTag_iff (tag s rest : List Char) :
    dropTag tag s = some rest ↔ s = tag ++ rest := by
  induction tag generalizing s with
  | nil =>
    cases s <;> simp [dropTag, eq_comm]
  | cons c tag ih =>
    cases s with
    | nil => simp [dropTag]
    | cons d s =>
      by_cases h : c = d
      · subst h
        simp [dropTag, ih]
      · have h' : ¬ d = c := fun e => h e.symm
        simp [dropTag, h, h']

theorem dropTag_append (tag rest : List Char) : dropTag tag (tag ++ rest) = some rest :=
  (dropTag_iff tag _ rest).mpr rfl

theorem mem_roles (r : String) : r ∈ roles ↔ r = "system" ∨ r = "user" ∨ r = "assistant" := by
  simp [roles]

/-- Tags of different roles differ in the character behind `[[#` or `[[~/`. -/
theorem tags_differ :
    ∀ r ∈ roles, ∀ r1 ∈ roles, r ≠ r1 →
      (openTag r).take 4 ≠ (openTag r1).take 4 ∧ (closeTag r).take 5 ≠ (closeTag r1).take 5 := by
  decide

theorem tag_lengths : ∀ r ∈ roles, 4 ≤ (openTag r).length ∧ 5 ≤ (closeTag r).length := by
  decide

theorem openTag_inj (r r1 : String) (hr : r ∈ roles) (hr1 : r1 ∈ roles) (x y : List Char)
    (h : openTag r ++ x = openTag r1 ++ y) : r = r1 := by
  by_contra hne
  have hd := (tags_differ r hr r1 hr1 hne).1
  have h1 := (tag_lengths r hr).1
  have h2 := (tag_lengths r1 hr1).1
  apply hd
  have := congrArg (List.take 4) h
  rw [List.take_append_of_le_length h1, List.take_append_of_le_length h2] at this
  exact this

theorem closeTag_inj (r r1 : String) (hr : r ∈ roles) (hr1 : r1 ∈ roles) (x y : List Char)
    (h : closeTag r ++ x = closeTag r1 ++ y) : r = r1 := by
  by_contra hne
  have hd := (tags_differ r hr r1 hr1 hne).2
  have h1 := (tag_lengths r hr).2
  have h2 := (tag_lengths r1 hr1).2
  apply hd
  have := congrArg (List.take 5) h
  rw [List.take_append_of_le_length h1, List.take_append_of_le_length h2] at this
  exact this

theorem matchOpen_iff (s : List Char) (r : String) (rest : List Char) :
    matchOpen s = some (r, rest) ↔ r ∈ roles ∧ s = openTag r ++ rest := by
  constructor
  · intro h
    obtain ⟨role, hrole, hf⟩ := List.exists_of_findSome?_eq_some h
    cases hd : dropTag (openTag role) s with
    | none => simp [hd] at hf
    | some rest1 =>
      simp only [hd, Option.map_some', Option.some.injEq, Prod.mk.injEq] at hf
      obtain ⟨h1, h2⟩ := hf
      subst h1
      subst h2
      exact ⟨hrole, (dropTag_iff _ _ _).mp hd⟩
  · rintro ⟨hr, hs⟩
    cases hm : matchOpen s with
    | none =>
      have := (List.findSome?_eq_none_iff.mp hm) r hr
      rw [hs, dropTag_append] at this
      simp at this
    | some p =>
      obtain ⟨r1, rest1⟩ := p
      obtain ⟨role, hrole, hf⟩ := List.exists_of_findSome?_eq_some hm
      cases hd : dropTag (openTag role) s with
      | none => simp [hd] at hf
      | some rest2 =>
        simp only [hd, Option.map_some', Option.some.injEq, Prod.mk.injEq] at hf
        obtain ⟨h1, h2⟩ := hf
        subst h1
        subst h2
        have hs2 := (dropTag_iff _ _ _).mp hd
        rw [hs] at hs2
        have hrr := openTag_inj r role hr hrole _ _ hs2
        subst hrr
        have := List.append_cancel_left hs2
        rw [this]

theorem matchClose_some (s rest : List Char) (h : matchClose s = some rest) :
    ∃ r, r ∈ roles ∧ s = closeTag r ++ rest := by
  obtain ⟨role, hrole, hf⟩ := List.exists_of_findSome?_eq_some h
  exact ⟨role, hrole, (dropTag_iff _ _ _).mp hf⟩

theorem matchClose_tag (r : String) (hr : r ∈ roles) (rest : List Char) :
    matchClose (closeTag r ++ rest) = some rest := by
  cases hm : matchClose (closeTag r ++ rest) with
  | none =>
    have := (List.findSome?_eq_none_iff.mp hm) r hr
    rw [dropTag_append] at this
    simp at this
  | some rest1 =>
    obtain ⟨r1, hr1, hs⟩ := matchClose_some _ _ hm
    have hrr := closeTag_inj r r1 hr hr1 _ _ hs
    subst hrr
    rw [List.append_cancel_left hs]

/-- In a tag the character `[` stands at the first two places only. -/
theorem tags_solid :
    ∀ r ∈ roles, ∀ tag ∈ [openTag r, closeTag r], ∀ c ∈ tag.tails,
      c = [] ∨ c = tag ∨ c.head? ≠ some '[' ∨ (c.tail ≠ [] ∧ c.tail.head? ≠ some '[') := by
  decide

/-- A tag that starts in a text `u` in front of `[[` ends in `u`. -/
theorem tag_in_front (r : String) (hr : r ∈ roles) (tag : List Char)
    (htag : tag ∈ [openTag r, closeTag r]) (u x rest : List Char) (hu : u ≠ [])
    (h : u ++ '[' :: '[' :: x = tag ++ rest) : ∃ y, u = tag ++ y := by
  rcases List.append_eq_append_iff.mp h with ⟨c, hc, hx⟩ | ⟨a, ha, _⟩
  · have hmem : c ∈ tag.tails := by
      rw [List.mem_tails]
      exact ⟨u, hc.symm⟩
    rcases tags_solid r hr tag htag c hmem with h1 | h1 | h1 | ⟨h1, h2⟩
    · subst h1
      exact ⟨[], by simpa using hc.symm⟩
    · rw [h1] at hc
      have : u = [] := by
        have hl := congrArg List.length hc
        simp only [List.length_append] at hl
        exact List.length_eq_zero.mp (by omega)
      exact absurd this hu
    · cases c with
      | nil => exact ⟨[], by simpa using hc.symm⟩
      | cons d c1 =>
        simp only [List.cons_append, List.cons.injEq] at hx
        simp [← hx.1] at h1
    · cases c with
      | nil => simp at h1
      | cons d c1 =>
        simp only [List.cons_append, List.cons.injEq] at hx
        simp only [List.tail_cons] at h1 h2
        cases c1 with
        | nil => exact absurd rfl h1
        | cons d1 c2 =>
          have := hx.2
          simp only [List.cons_append, List.cons.injEq] at this
          simp [← this.1] at h2
  · exact ⟨a, ha⟩

theorem findClose_cons_some (d : Char) (s rest : List Char)
    (h : matchClose (d :: s) = some rest) : findClose (d :: s) = some ([], rest) := by
  simp only [findClose, h]

theorem findClose_cons_none (d : Char) (s : List Char) (h : matchClose (d :: s) = none) :
    findClose (d :: s) = (findClose s).map (fun p => (d :: p.1, p.2)) := by
  simp only [findClose, h]

theorem findMatch_cons_hit (d : Char) (s : List Char) (role : String)
    (rest0 c rest1 : List Char) (hm : matchOpen (d :: s) = some (role, rest0))
    (hf : findClose rest0 = some (c, rest1)) :
    findMatch (d :: s) = some (role, c, rest1) := by
  simp only [findMatch, hm, hf]

theorem findMatch_cons_open (d : Char) (s : List Char) (role : String) (rest0 : List Char)
    (hm : matchOpen (d :: s) = some (role, rest0)) (hf : findClose rest0 = none) :
    findMatch (d :: s) = findMatch s := by
  simp only [findMatch, hm, hf]

theorem findMatch_cons_miss (d : Char) (s : List Char) (hm : matchOpen (d :: s) = none) :
    findMatch (d :: s) = findMatch s := by
  simp only [findMatch, hm]

theorem closeTag_cons (r : String) (rest : List Char) :
    closeTag r ++ rest = '[' :: '[' :: ('~' :: '/' :: (r.toList ++ [']', ']'] ++ rest)) := by
  simp [closeTag]

theorem openTag_cons (r : String) (rest : List Char) :
    openTag r ++ rest = '[' :: '[' :: ('#' :: (r.toList ++ ['~', ']', ']'] ++ rest)) := by
  simp [openTag]

theorem findClose_some (s c rest : List Char) (h : findClose s = some (c, rest)) :
    ∃ r, r ∈ roles ∧ s = c ++ (closeTag r ++ rest) := by
  induction s generalizing c with
  | nil => simp [findClose] at h
  | cons d s ih =>
    cases hm : matchClose (d :: s) with
    | some rest1 =>
      rw [findClose_cons_some d s rest1 hm] at h
      simp only [Option.some.injEq, Prod.mk.injEq] at h
      obtain ⟨r, hr, hs⟩ := matchClose_some _ _ hm
      exact ⟨r, hr, by rw [hs, ← h.1, ← h.2]; simp⟩
    | none =>
      rw [findClose_cons_none d s hm] at h
      cases hf : findClose s with
      | none => simp [hf] at h
      | some p =>
        obtain ⟨c1, rest1⟩ := p
        simp only [hf, Option.map_some', Option.some.injEq, Prod.mk.injEq] at h
        obtain ⟨h1, h2⟩ := h
        subst h1
        subst h2
        obtain ⟨r, hr, hs⟩ := ih c1 hf
        exact ⟨r, hr, by rw [hs]; simp⟩

theorem findClose_isSome (c : List Char) (r : String) (hr : r ∈ roles) (rest : List Char) :
    (findClose (c ++ (closeTag r ++ rest))).isSome = true := by
  induction c with
  | nil =>
    have hm := matchClose_tag r hr rest
    rw [closeTag_cons] at hm
    rw [List.nil_append, closeTag_cons, findClose_cons_some _ _ _ hm]
    rfl
  | cons d c ih =>
    rw [List.cons_append]
    cases hm : matchClose (d :: (c ++ (closeTag r ++ rest))) with
    | some rest1 =>
      rw [findClose_cons_some _ _ _ hm]
      rfl
    | none =>
      rw [findClose_cons_none _ _ hm, Option.isSome_map']
      exact ih

/-- The lazy content ends at the first closing tag. -/
theorem findClose_exact (c : List Char) (r : String) (hr : r ∈ roles) (rest : List Char)
    (hc : ∀ r1 ∈ roles, ¬ List.IsInfix (closeTag r1) c) :
    findClose (c ++ (closeTag r ++ rest)) = some (c, rest) := by
  induction c with
  | nil =>
    have hm := matchClose_tag r hr rest
    rw [closeTag_cons] at hm
    rw [List.nil_append, closeTag_cons, findClose_cons_some _ _ _ hm]
  | cons d c ih =>
    have hnone : matchClose (d :: (c ++ (closeTag r ++ rest))) = none := by
      cases hm : matchClose (d :: (c ++ (closeTag r ++ rest))) with
      | none => rfl
      | some rest1 =>
        exfalso
        obtain ⟨r1, hr1, hs⟩ := matchClose_some _ _ hm
        rw [closeTag_cons r rest, ← List.cons_append] at hs
        obtain ⟨y, hy⟩ := tag_in_front r1 hr1 (closeTag r1) (by simp) (d :: c) _ rest1
          (by simp) hs
        exact hc r1 hr1 ⟨[], y, by simpa using hy.symm⟩
    have hc1 : ∀ r1 ∈ roles, ¬ List.IsInfix (closeTag r1) c := by
      intro r1 hr1 hinf
      exact hc r1 hr1 (hinf.trans (List.suffix_cons d c).isInfix)
    rw [List.cons_append, findClose_cons_none _ _ hnone, ih hc1]
    rfl

theorem findMatch_some (s : List Char) (r : String) (c rest : List Char)
    (h : findMatch s = some (r, c, rest)) :
    ∃ a r1, r ∈ roles ∧ r1 ∈ roles ∧ s = a ++ openTag r ++ c ++ closeTag r1 ++ rest := by
  induction s with
  | nil => simp [findMatch] at h
  | cons d s ih =>
    have hstep : (∃ rest0, matchOpen (d :: s) = some (r, rest0) ∧
        findClose rest0 = some (c, rest)) ∨ findMatch s = some (r, c, rest) := by
      cases hm : matchOpen (d :: s) with
      | none =>
        rw [findMatch_cons_miss d s hm] at h
        exact Or.inr h
      | some p =>
        obtain ⟨role, rest0⟩ := p
        cases hf : findClose rest0 with
        | none =>
          rw [findMatch_cons_open d s role rest0 hm hf] at h
          exact Or.inr h
        | some q =>
          obtain ⟨c1, rest1⟩ := q
          rw [findMatch_cons_hit d s role rest0 c1 rest1 hm hf] at h
          simp only [Option.some.injEq, Prod.mk.injEq] at h
          obtain ⟨h1, h2, h3⟩ := h
          subst h1
          subst h2
          subst h3
          exact Or.inl ⟨rest0, rfl, hf⟩
    rcases hstep with ⟨rest0, hm, hf⟩ | hrec
    · obtain ⟨hr, hs⟩ := (matchOpen_iff _ _ _).mp hm
      obtain ⟨r1, hr1, hs1⟩ := findClose_some _ _ _ hf
      exact ⟨[], r1, hr, hr1, by rw [hs, hs1]; simp⟩
    · obtain ⟨a, r1, hr, hr1, hs⟩ := ih hrec
      exact ⟨d :: a, r1, hr, hr1, by rw [hs]; simp⟩

theorem findMatch_isSome (a : List Char) (r : String) (c : List Char) (r1 : String)
    (rest : List Char) (hr : r ∈ roles) (hr1 : r1 ∈ roles) :
    (findMatch (a ++ (openTag r ++ (c ++ (closeTag r1 ++ rest))))).isSome = true := by
  induction a with
  | nil =>
    have hm : matchOpen (openTag r ++ (c ++ (closeTag r1 ++ rest)))
        = some (r, c ++ (closeTag r1 ++ rest)) := (matchOpen_iff _ _ _).mpr ⟨hr, rfl⟩
    rw [openTag_cons] at hm
    have hf := findClose_isSome c r1 hr1 rest
    cases hfc : findClose (c ++ (closeTag r1 ++ rest)) with
    | none =>
      rw [hfc] at hf
      exact absurd hf (by simp)
    | some q =>
      obtain ⟨c1, rest1⟩ := q
      rw [List.nil_append, openTag_cons, findMatch_cons_hit _ _ _ _ _ _ hm hfc]
      rfl
  | cons d a ih =>
    rw [List.cons_append]
    cases hm : matchOpen (d :: (a ++ (openTag r ++ (c ++ (closeTag r1 ++ rest))))) with
    | none =>
      rw [findMatch_cons_miss _ _ hm]
      exact ih
    | some p =>
      obtain ⟨role, rest0⟩ := p
      cases hfc : findClose rest0 with
      | none =>
        rw [findMatch_cons_open _ _ _ _ hm hfc]
        exact ih
      | some q =>
        obtain ⟨c1, rest1⟩ := q
        rw [findMatch_cons_hit _ _ _ _ _ _ hm hfc]
        rfl

theorem findMatch_none_iff (s : List Char) : findMatch s = none ↔ NoBlock s := by
  unfold NoBlock
  constructor
  · rintro h ⟨a, r, c, r1, b, hr, hr1, hs⟩
    have := findMatch_isSome a r c r1 b hr hr1
    rw [show a ++ (openTag r ++ (c ++ (closeTag r1 ++ b)))
        = a ++ openTag r ++ c ++ closeTag r1 ++ b by simp, ← hs, h] at this
    simp at this
  · intro h
    cases hm : findMatch s with
    | none => rfl
    | some p =>
      obtain ⟨r, c, rest⟩ := p
      obtain ⟨a, r1, hr, hr1, hs⟩ := findMatch_some s r c rest hm
      exact absurd ⟨a, r, c, r1, rest, hr, hr1, hs⟩ h

/-- The leftmost match is the block whose gap holds no opening tag. -/
theorem findMatch_gap (gap : List Char) (role : String) (content : List Char)
    (closeRole : String) (rest : List Char) (hr : role ∈ roles) (hr1 : closeRole ∈ roles)
    (hgap : ∀ r ∈ roles, ¬ List.IsInfix (openTag r) gap)
    (hcontent : ∀ r ∈ roles, ¬ List.IsInfix (closeTag r) content) :
    findMatch (gap ++ (openTag role ++ (content ++ (closeTag closeRole ++ rest))))
      = some (role, content, rest) := by
  induction gap with
  | nil =>
    have hm : matchOpen (openTag role ++ (content ++ (closeTag closeRole ++ rest)))
        = some (role, content ++ (closeTag closeRole ++ rest)) :=
      (matchOpen_iff _ _ _).mpr ⟨hr, rfl⟩
    rw [openTag_cons] at hm
    rw [List.nil_append, openTag_cons,
      findMatch_cons_hit _ _ _ _ _ _ hm (findClose_exact content closeRole hr1 rest hcontent)]
  | cons d gap ih =>
    have hnone : matchOpen (d :: (gap ++ (openTag role ++ (content ++ (closeTag closeRole ++ rest)))))
        = none := by
      cases hm : matchOpen
          (d :: (gap ++ (openTag role ++ (content ++ (closeTag closeRole ++ rest))))) with
      | none => rfl
      | some p =>
        exfalso
        obtain ⟨r1, rest1⟩ := p
        obtain ⟨hr2, hs⟩ := (matchOpen_iff _ _ _).mp hm
        rw [openTag_cons role, ← List.cons_append] at hs
        obtain ⟨y, hy⟩ := tag_in_front r1 hr2 (openTag r1) (by simp) (d :: gap) _ rest1
          (by simp) hs
        exact hgap r1 hr2 ⟨[], y, by simpa using hy.symm⟩
    have hgap1 : ∀ r ∈ roles, ¬ List.IsInfix (openTag r) gap := by
      intro r1 hr2 hinf
      exact hgap r1 hr2 (hinf.trans (List.suffix_cons d gap).isInfix)
    rw [List.cons_append, findMatch_cons_miss _ _ hnone]
    exact ih hgap1

theorem findMatch_block (b : Block) (hb : b.Proper) (rest : List Char) :
    findMatch (b.text ++ rest) = some (b.role, b.content, rest) := by
  obtain ⟨hr, hr1, hgap, hcontent⟩ := hb
  have := findMatch_gap b.gap b.role b.content b.closeRole rest hr hr1 hgap hcontent
  rw [← this]
  simp [Block.text]

theorem Block.text_length_pos (b : Block) : 0 < b.text.length := by
  simp [Block.text, openTag]

/-- The successive matches in a text made of proper blocks and a rest without a block are
the blocks. -/
theorem findAll_blocks (blocks : List Block) (rest : List Char)
    (hb : ∀ b ∈ blocks, b.Proper) (hrest : NoBlock rest) :
    ∀ fuel, blocks.length ≤ fuel →
      findAll fuel (blocks.flatMap Block.text ++ rest)
        = blocks.map (fun b => (b.role, b.content)) := by
  induction blocks with
  | nil =>
    intro fuel _
    cases fuel with
    | zero => rfl
    | succ f =>
      simp only [List.flatMap_nil, List.nil_append, findAll,
        (findMatch_none_iff rest).mpr hrest, List.map_nil]
  | cons b bs ih =>
    intro fuel hfuel
    cases fuel with
    | zero => simp at hfuel
    | succ f =>
      have hm := findMatch_block b (hb b (by simp)) (bs.flatMap Block.text ++ rest)
      simp only [List.flatMap_cons, List.append_assoc] at hm ⊢
      simp only [findAll, hm, List.map_cons]
      rw [ih (fun b1 h1 => hb b1 (List.mem_cons_of_mem _ h1)) f (by simpa using hfuel)]

theorem blocks_length_le (blocks : List Block) (rest : List Char) :
    blocks.length ≤ (blocks.flatMap Block.text ++ rest).length := by
  induction blocks with
  | nil => simp
  | cons b bs ih =>
    have := Block.text_length_pos b
    simp only [List.flatMap_cons, List.append_assoc, List.length_append, List.length_cons] at ih ⊢
    omega

theorem FindAllStringSubmatch_nil_iff (parsedText : String) :
    FindAllStringSubmatch parsedText = [] ↔ NoBlock parsedText.toList := by
  unfold FindAllStringSubmatch
  rw [← findMatch_none_iff]
  cases hl : parsedText.toList with
  | nil => simp [findAll, findMatch]
  | cons d s =>
    simp only [List.length_cons, findAll]
    cases hm : findMatch (d :: s) with
    | none => simp
    | some p => simp

end scrolls

/-! ## Every text reads as a sequence of blocks -/

namespace scrolls

theorem tag_ne_nil (r : String) : openTag r ≠ [] ∧ closeTag r ≠ [] := by
  simp [openTag, closeTag]

/-- The content that `findClose` returns holds no closing tag. -/
theorem findClose_content (s c rest : List Char) (h : findClose s = some (c, rest)) :
    ∀ r ∈ roles, ¬ List.IsInfix (closeTag r) c := by
  induction s generalizing c with
  | nil => simp [findClose] at h
  | cons d s ih =>
    cases hm : matchClose (d :: s) with
    | some rest1 =>
      rw [findClose_cons_some d s rest1 hm] at h
      simp only [Option.some.injEq, Prod.mk.injEq] at h
      intro r _ hinf
      rw [← h.1] at hinf
      exact (tag_ne_nil r).2 (List.infix_nil.mp hinf)
    | none =>
      rw [findClose_cons_none d s hm] at h
      cases hf : findClose s with
      | none => simp [hf] at h
      | some p =>
        obtain ⟨c1, rest1⟩ := p
        simp only [hf, Option.map_some', Option.some.injEq, Prod.mk.injEq] at h
        obtain ⟨h1, h2⟩ := h
        subst h1
        subst h2
        intro r hr hinf
        rcases List.infix_cons_iff.mp hinf with hpre | hin
        · obtain ⟨r1, _, hs⟩ := findClose_some s c1 rest1 hf
          obtain ⟨y, hy⟩ := hpre
          have hds : d :: s = closeTag r ++ (y ++ (closeTag r1 ++ rest1)) := by
            rw [hs, ← List.cons_append, ← hy]
            simp
          rw [hds, matchClose_tag r hr] at hm
          exact absurd hm (by simp)
        · exact ih c1 hf r hr hin

/-- The leftmost match: no opening tag stands in front of it, and its content holds no
closing tag. -/
theorem findMatch_leftmost (s : List Char) (r : String) (c rest : List Char)
    (h : findMatch s = some (r, c, rest)) :
    ∃ gap r1, r ∈ roles ∧ r1 ∈ roles ∧
      s = gap ++ (openTag r ++ (c ++ (closeTag r1 ++ rest))) ∧
      (∀ r2 ∈ roles, ¬ List.IsInfix (openTag r2) gap) ∧
      (∀ r2 ∈ roles, ¬ List.IsInfix (closeTag r2) c) := by
  induction s with
  | nil => simp [findMatch] at h
  | cons d s ih =>
    have hstep : (∃ rest0, matchOpen (d :: s) = some (r, rest0) ∧
        findClose rest0 = some (c, rest)) ∨
        (findMatch s = some (r, c, rest) ∧
          ∀ r2 rest0, matchOpen (d :: s) = some (r2, rest0) → findClose rest0 = none) := by
      cases hm : matchOpen (d :: s) with
      | none =>
        rw [findMatch_cons_miss d s hm] at h
        exact Or.inr ⟨h, fun r2 rest0 h2 => absurd h2 (by simp)⟩
      | some p =>
        obtain ⟨role, rest0⟩ := p
        cases hf : findClose rest0 with
        | none =>
          rw [findMatch_cons_open d s role rest0 hm hf] at h
          refine Or.inr ⟨h, fun r2 rest2 h2 => ?_⟩
          simp only [Option.some.injEq, Prod.mk.injEq] at h2
          rw [← h2.2]
          exact hf
        | some q =>
          obtain ⟨c1, rest1⟩ := q
          rw [findMatch_cons_hit d s role rest0 c1 rest1 hm hf] at h
          simp only [Option.some.injEq, Prod.mk.injEq] at h
          obtain ⟨h1, h2, h3⟩ := h
          subst h1
          subst h2
          subst h3
          exact Or.inl ⟨rest0, rfl, hf⟩
    rcases hstep with ⟨rest0, hm, hf⟩ | ⟨hrec, hmiss⟩
    · obtain ⟨hr, hs⟩ := (matchOpen_iff _ _ _).mp hm
      obtain ⟨r1, hr1, hs1⟩ := findClose_some _ _ _ hf
      refine ⟨[], r1, hr, hr1, by rw [hs, hs1]; simp, ?_, findClose_content _ _ _ hf⟩
      intro r2 _ hinf
      exact (tag_ne_nil r2).1 (List.infix_nil.mp hinf)
    · obtain ⟨gap, r1, hr, hr1, hs, hgap, hcontent⟩ := ih hrec
      refine ⟨d :: gap, r1, hr, hr1, by rw [hs]; simp, ?_, hcontent⟩
      intro r2 hr2 hinf
      rcases List.infix_cons_iff.mp hinf with hpre | hin
      · obtain ⟨y, hy⟩ := hpre
        have hds : d :: s = openTag r2 ++ (y ++ (openTag r ++ (c ++ (closeTag r1 ++ rest)))) := by
          rw [hs, ← List.cons_append, ← hy]
          simp
        have hm : matchOpen (d :: s)
            = some (r2, y ++ (openTag r ++ (c ++ (closeTag r1 ++ rest)))) :=
          (matchOpen_iff _ _ _).mpr ⟨hr2, hds⟩
        have hnone := hmiss _ _ hm
        have hsome := findClose_isSome (y ++ (openTag r ++ c)) r1 hr1 rest
        simp only [List.append_assoc] at hsome
        rw [hnone] at hsome
        exact absurd hsome (by simp)
      · exact hgap r2 hr2 hin

/-- Every text is a sequence of proper blocks followed by a text without a block. -/
theorem blocks_exist (s : List Char) :
    ∃ (blocks : List Block) (rest : List Char), (∀ b ∈ blocks, b.Proper) ∧ NoBlock rest ∧
      s = blocks.flatMap Block.text ++ rest := by
  have hmain : ∀ n (s : List Char), s.length ≤ n →
      ∃ (blocks : List Block) (rest : List Char), (∀ b ∈ blocks, b.Proper) ∧ NoBlock rest ∧
        s = blocks.flatMap Block.text ++ rest := by
    intro n
    induction n with
    | zero =>
      intro s hs
      have : s = [] := List.length_eq_zero.mp (by omega)
      subst this
      exact ⟨[], [], by simp, (findMatch_none_iff []).mp rfl, rfl⟩
    | succ n ih =>
      intro s hs
      cases hm : findMatch s with
      | none => exact ⟨[], s, by simp, (findMatch_none_iff s).mp hm, rfl⟩
      | some p =>
        obtain ⟨r, c, rest1⟩ := p
        obtain ⟨gap, r1, hr, hr1, hdec, hgap, hcontent⟩ := findMatch_leftmost s r c rest1 hm
        have hlen : rest1.length ≤ n := by
          have hl := congrArg List.length hdec
          have hpos : 0 < (openTag r).length := by simp [openTag]
          simp only [List.length_append] at hl
          omega
        obtain ⟨bs, rest, hb, hrest, hs1⟩ := ih rest1 hlen
        refine ⟨{ gap := gap, role := r, content := c, closeRole := r1 } :: bs, rest, ?_,
          hrest, ?_⟩
        · intro b hbm
          rcases List.mem_cons.mp hbm with hb1 | hb1
          · subst hb1
            exact ⟨hr, hr1, hgap, hcontent⟩
          · exact hb b hb1
        · rw [hdec, hs1]
          simp [Block.text]
  exact hmain s.length s (le_refl _)

end scrolls

/-! ## A pending error next to a cancelled context -/

namespace ringchain

namespace Graph

variable {N V E : Type} [Inhabited N]

/-- With the error of a node pending, the only iteration of the coordinator loop after which
`Execute` goes on is one that receives a result, whatever the state of the context. -/
theorem Execute.step_poll_running (Run : N → Args V → RunResult V E) (g : Graph N)
    (st st1 : execState N V) (j : Nat) (e : E) (he : Execute.errReady Run st j = some e)
    (c : Choice) (hstep : Execute.step Run g st (Step.poll c) = Outcome.running st1) :
    c = Choice.result := by
  cases c with
  | result => rfl
  | default =>
    rw [Execute.step_poll_default Run g st j e he] at hstep
    exact absurd hstep (by simp)
  | ctxDone =>
    simp only [Execute.step] at hstep
    split at hstep
    · split at hstep
      · exact absurd hstep (by simp)
      · split at hstep <;> exact absurd hstep (by simp)
    · exact absurd hstep (by simp)
  | errChan j1 =>
    simp only [Execute.step] at hstep
    split at hstep
    · split at hstep
      · exact absurd hstep (by simp)
      · split at hstep <;> exact absurd hstep (by simp)
    · exact absurd hstep (by simp)

/-- A step after which the run goes on keeps a pending error pending and a cancelled context
cancelled; an iteration of the coordinator loop among them records a result. -/
theorem Execute.race_step (Run : N → Args V → RunResult V E) (g : Graph N)
    (hw : g.WellFormed) (args : Args V) (st st1 : execState N V)
    (hgood : Execute.Good Run g args st) (j : Nat) (e : E)
    (he : Execute.errReady Run st j = some e) (hc : st.ctxDone = true)
    (s : Step) (hstep : Execute.step Run g st s = Outcome.running st1) :
    Execute.errReady Run st1 j = some e ∧ st1.ctxDone = true ∧
      (Event.recs st1.trace).length
        = (Event.recs st.trace).length + (if s.isPoll then 1 else 0) := by
  obtain ⟨hj, job, hq, hr⟩ := (Execute.errReady_iff Run st j e).mp he
  rcases Execute.step_running Run g hw args st st1 hgood s hstep with
    ⟨hne, ht, _, hjq, _, _, hctx, hfin⟩ | ⟨hres, r, tl, res, a, _, _, _, hrecs, hframe⟩
  · refine ⟨?_, ?_, ?_⟩
    · rw [Execute.errReady_iff]
      exact ⟨hfin j hj, job, by rw [hjq]; exact hq, hr⟩
    · rcases hctx with h1 | h1
      · rw [h1] at hstep
        simp only [Execute.step, Outcome.running.injEq] at hstep
        rw [← hstep]
      · rw [h1]
        exact hc
    · rw [ht]
      cases s with
      | poll c =>
        have := Execute.step_poll_running Run g st st1 j e he c hstep
        rw [this] at hne
        exact absurd rfl hne
      | cancel => simp [Step.isPoll]
      | take => simp [Step.isPoll]
      | finish j1 => simp [Step.isPoll]
      | stop b => simp [Step.isPoll]
  · obtain ⟨f1, _, _, f4, _, _, _, l, f8⟩ := hframe
    refine ⟨?_, ?_, ?_⟩
    · rw [Execute.errReady_iff]
      refine ⟨by rw [f4]; exact hj, job, ?_, hr⟩
      rw [f8]
      have hlt : j < st.pool.jobQueue.length := by
        by_contra hge
        rw [List.getElem?_eq_none (by simpa using hge)] at hq
        exact absurd hq (by simp)
      simp only at hlt ⊢
      rw [List.getElem?_append_left hlt]
      exact hq
    · rw [f1]
      exact hc
    · rw [hrecs, hres]
      simp [Step.isPoll]

/-- From a state in which the error of a node is pending and the context is cancelled, a run
that goes on keeps both and has recorded one result for each iteration of the coordinator
loop; a run that ends does not return a table, and the error it returns is the cancellation
error or the error of a node. -/
theorem Execute.race_loop (Run : N → Args V → RunResult V E) (g : Graph N)
    (hw : g.WellFormed) (args : Args V) (j : Nat) (e : E) (more : List Step) :
    ∀ st, Execute.Good Run g args st → Execute.errReady Run st j = some e →
      st.ctxDone = true →
      (∀ st2, Execute.loop Run g st more = Outcome.running st2 →
        Execute.Good Run g args st2 ∧ Execute.errReady Run st2 j = some e ∧
          st2.ctxDone = true ∧
          (Event.recs st2.trace).length
            = (Event.recs st.trace).length + more.countP Step.isPoll) ∧
      (∀ tbl fin, Execute.loop Run g st more ≠ Outcome.returned tbl fin) ∧
      (∀ err fin, Execute.loop Run g st more = Outcome.failed err fin →
        err = ExecError.ctx ∨ ∃ (j1 : Nat) (e1 : E), err = ExecError.node e1 ∧
          ∃ job : nodeJob N V, fin.pool.jobQueue[j1]? = some job ∧
            Run job.Node job.Args = RunResult.error e1) := by
  induction more with
  | nil =>
    intro st hgood he hc
    refine ⟨?_, ?_, ?_⟩
    · intro st2 hloop
      rw [Execute.loop_nil] at hloop
      simp only [Outcome.running.injEq] at hloop
      rw [← hloop]
      exact ⟨hgood, he, hc, by simp⟩
    · intro tbl fin hloop
      rw [Execute.loop_nil] at hloop
      exact absurd hloop (by simp)
    · intro err fin hloop
      rw [Execute.loop_nil] at hloop
      exact absurd hloop (by simp)
  | cons s rest ih =>
    intro st hgood he hc
    cases hstep : Execute.step Run g st s with
    | running st1 =>
      rw [Execute.loop_cons_running Run g st st1 s rest hstep]
      obtain ⟨he1, hc1, hlen⟩ := Execute.race_step Run g hw args st st1 hgood j e he hc s hstep
      have hgood1 := Execute.step_good Run g hw args st st1 hgood s hstep
      obtain ⟨i1, i2, i3⟩ := ih st1 hgood1 he1 hc1
      refine ⟨?_, i2, i3⟩
      intro st2 hloop
      obtain ⟨g2, e2, c2, l2⟩ := i1 st2 hloop
      refine ⟨g2, e2, c2, ?_⟩
      rw [l2, hlen, List.countP_cons]
      omega
    | returned t f =>
      rw [Execute.loop_cons_stop Run g st s rest (by rw [hstep]; simp), hstep]
      obtain ⟨_, hrun, _, _⟩ := Execute.step_returned Run g st f s t hstep
      have hpos := Execute.pending_running Run g args st hgood j e he
      unfold workerPool.NumRunningNodes at hpos
      rw [hrun] at hpos
      exact absurd hpos (by simp)
    | failed e1 f =>
      rw [Execute.loop_cons_stop Run g st s rest (by rw [hstep]; simp), hstep]
      refine ⟨fun st2 h => absurd h (by simp), fun tbl fin h => Outcome.noConfusion h, ?_⟩
      intro err fin hf
      simp only [Outcome.failed.injEq] at hf
      obtain ⟨hjq, hcase⟩ := Execute.step_failed Run g hw args st f hgood s e1 hstep
      rcases hcase with ⟨herr, _⟩ | ⟨j1, e2, _, he2, herr, _, _⟩
      · left
        rw [← hf.1]
        exact herr
      · right
        obtain ⟨_, job, hq, hr⟩ := (Execute.errReady_iff Run st j1 e2).mp he2
        exact ⟨j1, e2, by rw [← hf.1]; exact herr, job, by rw [← hf.2, hjq]; exact hq, hr⟩
    | infeasible =>
      rw [Execute.loop_cons_stop Run g st s rest (by rw [hstep]; simp), hstep]
      exact ⟨fun st2 h => absurd h (by simp), fun tbl fin h => Outcome.noConfusion h,
        fun err fin h => absurd h (by simp)⟩
    | panicked =>
      rw [Execute.loop_cons_stop Run g st s rest (by rw [hstep]; simp), hstep]
      exact ⟨fun st2 h => absurd h (by simp), fun tbl fin h => Outcome.noConfusion h,
        fun err fin h => absurd h (by simp)⟩

/-- With the error of a node pending, an iteration of the coordinator loop whose `select`
takes the result case either is not possible, when the polled node has no result ready, or
records the result and lets the run go on. -/
theorem Execute.step_poll_result (Run : N → Args V → RunResult V E) (g : Graph N)
    (hw : g.WellFormed) (args : Args V) (st : execState N V)
    (hgood : Execute.Good Run g args st) (j : Nat) (e : E)
    (he : Execute.errReady Run st j = some e) :
    Execute.step Run g st (Step.poll Choice.result) = Outcome.infeasible ∨
      ∃ st1, Execute.step Run g st (Step.poll Choice.result) = Outcome.running st1 := by
  cases hstep : Execute.step Run g st (Step.poll Choice.result) with
  | running st1 => exact Or.inr ⟨st1, rfl⟩
  | infeasible => exact Or.inl rfl
  | returned t f =>
    obtain ⟨hs, _⟩ := Execute.step_returned Run g st f _ t hstep
    exact absurd hs (by simp)
  | failed e1 f =>
    obtain ⟨_, hcase⟩ := Execute.step_failed Run g hw args st f hgood _ e1 hstep
    rcases hcase with ⟨_, _, ⟨hs, _⟩ | ⟨hs, _⟩⟩ | ⟨j1, e2, hs, _⟩
    · exact absurd hs (by simp)
    · exact absurd hs (by simp)
    · exact absurd hs (by simp)
  | panicked =>
    exfalso
    have hpos := Execute.pending_running Run g args st hgood j e he
    obtain ⟨r, tl, _, hpop⟩ := Execute.pop_eq st hpos
    simp only [Execute.step, if_pos hpos, hpop] at hstep
    split at hstep
    · exact absurd hstep (by simp)
    · split at hstep <;> exact absurd hstep (by simp)

end Graph

end ringchain

/-! ## Two runs of one graph -/

namespace ringchain

/-- The `Run` of an example node depends only on the content of its input. -/
theorem SampleNode.run_ext (n : SampleNode) (a b r : Args Bool)
    (hab : ∀ k, GoMap.lookup a k = GoMap.lookup b k)
    (hr : SampleNode.Run n a = RunResult.ok r) :
    ∃ r1, SampleNode.Run n b = RunResult.ok r1 ∧
      ∀ k, GoMap.lookup r k = GoMap.lookup r1 k := by
  cases n with
  | test name =>
    simp only [SampleNode.Run, RunResult.ok.injEq] at hr
    refine ⟨_, rfl, fun k => ?_⟩
    rw [← hr, GoMap.lookup_set, GoMap.lookup_set, hab k]
  | broken name => simp [SampleNode.Run] at hr
  | fixed out =>
    simp only [SampleNode.Run, RunResult.ok.injEq] at hr
    exact ⟨out, rfl, fun k => by rw [hr]⟩
  | nil => simp [SampleNode.Run] at hr

namespace Graph

variable {N V E : Type} [Inhabited N]

/-- The input with which the node of a recorded result was run: the initial input for a node
without predecessor; otherwise every direct predecessor has a recorded result, every entry
of the input is an entry of one of them, and every key of one of them is a key of the
input. -/
theorem Execute.Good_input (Run : N → Args V → RunResult V E) (g : Graph N)
    (args : Args V) (st : execState N V) (hgood : Execute.Good Run g args st)
    (u : String) (r : Args V) (hmem : (u, r) ∈ Event.recs st.trace) :
    ∃ a, Run (g.Node u).1 a = RunResult.ok r ∧
      ((∀ p, ¬ g.store.HasEdge p u) → a = args) ∧
      ((∃ p, g.store.HasEdge p u) →
        (∀ p, g.store.HasEdge p u → ∃ rp, (p, rp) ∈ Event.recs st.trace) ∧
        (∀ k v, GoMap.lookup a k = some v →
          ∃ p rp, g.store.HasEdge p u ∧ (p, rp) ∈ Event.recs st.trace ∧
            GoMap.lookup rp k = some v) ∧
        (∀ k p rp, g.store.HasEdge p u → (p, rp) ∈ Event.recs st.trace →
          GoMap.has rp k = true → GoMap.has a k = true)) := by
  obtain ⟨j, a, hsub, hrun⟩ := hgood.recorded u r hmem
  obtain ⟨pre, post, hsplit⟩ := Event.mem_subs_split _ _ _ _ hsub
  obtain ⟨hall, hroot, hmerge⟩ := hgood.order pre post u j a hsplit
  have hpre : ∀ q, q ∈ Event.recs pre → q ∈ Event.recs st.trace := by
    intro q hq
    rw [hsplit, Event.recs_append]
    exact List.mem_append_left _ hq
  refine ⟨a, hrun, hroot, fun hex => ⟨?_, ?_, ?_⟩⟩
  · intro p hp
    obtain ⟨⟨p1, rp⟩, hq, hfst⟩ := List.mem_map.mp (hall p hp)
    simp only at hfst
    subst hfst
    exact ⟨rp, hpre _ hq⟩
  · intro k v hv
    rw [hmerge hex k, lastWriter_eq_some_iff] at hv
    obtain ⟨l1, q, l2, hl, hq, _⟩ := hv
    have hqm : q ∈ (Event.recs pre).filter (fun r => decide (g.store.HasEdge r.1 u)) := by
      rw [hl]
      simp
    obtain ⟨hq1, hq2⟩ := List.mem_filter.mp hqm
    exact ⟨q.1, q.2, by simpa using hq2, hpre _ hq1, hq⟩
  · intro k p rp hp hrec hk
    obtain ⟨⟨p1, rp1⟩, hq, hfst⟩ := List.mem_map.mp (hall p hp)
    simp only at hfst
    subst hfst
    have h1 := (GoMap.mem_iff_lookup _ hgood.recNodup p1 rp1).mp (hpre _ hq)
    have h2 := (GoMap.mem_iff_lookup _ hgood.recNodup p1 rp).mp hrec
    rw [h1] at h2
    have heq : rp1 = rp := Option.some.inj h2
    subst heq
    unfold GoMap.has
    rw [hmerge hex k, lastWriter_isSome_iff]
    exact ⟨(p1, rp1), List.mem_filter.mpr ⟨hq, by simpa using hp⟩, hk⟩

/-- Two runs of a graph whose nodes depend only on the content of their input record, for
a node, results with the same content, when in the first run no two direct predecessors of
the node or of a node from which a path leads to it hold different values under one key. -/
theorem Execute.runs_agree (Run : N → Args V → RunResult V E) (g : Graph N) (hg : g.Built)
    (args : Args V)
    (hdet : ∀ n a b r, (∀ k, GoMap.lookup a k = GoMap.lookup b k) →
      Run n a = RunResult.ok r →
      ∃ r1, Run n b = RunResult.ok r1 ∧ ∀ k, GoMap.lookup r k = GoMap.lookup r1 k)
    (st1 st2 : execState N V) (hgood1 : Execute.Good Run g args st1)
    (hgood2 : Execute.Good Run g args st2) :
    ∀ u,
      (∀ w, (w = u ∨ g.store.Path w u) → ∀ p q rp rq k v v1,
        g.store.HasEdge p w → g.store.HasEdge q w →
        (p, rp) ∈ Event.recs st1.trace → (q, rq) ∈ Event.recs st1.trace →
        GoMap.lookup rp k = some v → GoMap.lookup rq k = some v1 → v = v1) →
      ∀ r1 r2, (u, r1) ∈ Event.recs st1.trace → (u, r2) ∈ Event.recs st2.trace →
        ∀ k, GoMap.lookup r1 k = GoMap.lookup r2 k := by
  have hacyc := (built_invariant g hg).2
  have key := memoryStore.no_closed_set g.store hacyc
    (fun u => ¬ ((∀ w, (w = u ∨ g.store.Path w u) → ∀ p q rp rq k v v1,
        g.store.HasEdge p w → g.store.HasEdge q w →
        (p, rp) ∈ Event.recs st1.trace → (q, rq) ∈ Event.recs st1.trace →
        GoMap.lookup rp k = some v → GoMap.lookup rq k = some v1 → v = v1) →
      ∀ r1 r2, (u, r1) ∈ Event.recs st1.trace → (u, r2) ∈ Event.recs st2.trace →
        ∀ k, GoMap.lookup r1 k = GoMap.lookup r2 k))
    (by
      intro u hu
      by_contra hnode
      apply hu
      intro _ r1 r2 h1 _
      exfalso
      obtain ⟨j, a, hs, _⟩ := hgood1.recorded u r1 h1
      exact hnode ((hgood1.cover u).mpr (Or.inr (List.mem_map.mpr ⟨_, hs, rfl⟩))))
    (by
      intro u hu
      by_contra hno
      apply hu
      intro hnc r1 r2 h1 h2
      have hpredQ : ∀ p, g.store.HasEdge p u →
          ∀ rp1 rp2, (p, rp1) ∈ Event.recs st1.trace → (p, rp2) ∈ Event.recs st2.trace →
            ∀ k, GoMap.lookup rp1 k = GoMap.lookup rp2 k := by
        intro p hp
        have hq : ¬ ¬ ((∀ w, (w = p ∨ g.store.Path w p) → ∀ p1 q rp rq k v v1,
            g.store.HasEdge p1 w → g.store.HasEdge q w →
            (p1, rp) ∈ Event.recs st1.trace → (q, rq) ∈ Event.recs st1.trace →
            GoMap.lookup rp k = some v → GoMap.lookup rq k = some v1 → v = v1) →
          ∀ r1 r2, (p, r1) ∈ Event.recs st1.trace → (p, r2) ∈ Event.recs st2.trace →
            ∀ k, GoMap.lookup r1 k = GoMap.lookup r2 k) :=
          fun hS => hno ⟨p, hS, hp⟩
        apply (not_not.mp hq)
        intro w hw
        apply hnc w
        rcases hw with hw | hw
        · rw [hw]
          exact Or.inr (Relation.TransGen.single hp)
        · exact Or.inr (Relation.TransGen.tail hw hp)
      obtain ⟨a1, hrun1, hroot1, hmerge1⟩ := Execute.Good_input Run g args st1 hgood1 u r1 h1
      obtain ⟨a2, hrun2, hroot2, hmerge2⟩ := Execute.Good_input Run g args st2 hgood2 u r2 h2
      have hin : ∀ k, GoMap.lookup a1 k = GoMap.lookup a2 k := by
        by_cases hex : ∃ p, g.store.HasEdge p u
        · obtain ⟨hall1, hfrom1, hhas1⟩ := hmerge1 hex
          obtain ⟨hall2, hfrom2, hhas2⟩ := hmerge2 hex
          have hnc0 := hnc u (Or.inl rfl)
          intro k
          have hiff : ∀ v, GoMap.lookup a1 k = some v ↔ GoMap.lookup a2 k = some v := by
            intro v
            constructor
            · intro hv
              obtain ⟨p, rp1, hp, hrp1, hk1⟩ := hfrom1 k v hv
              obtain ⟨rp2, hrp2⟩ := hall2 p hp
              have hk2 : GoMap.lookup rp2 k = some v := by
                rw [← hpredQ p hp rp1 rp2 hrp1 hrp2 k]
                exact hk1
              have hh : GoMap.has a2 k = true :=
                hhas2 k p rp2 hp hrp2 (by unfold GoMap.has; rw [hk2]; rfl)
              obtain ⟨v1, hv1⟩ := (GoMap.has_iff_exists _ _).mp hh
              obtain ⟨q, rq2, hq, hrq2, hkq2⟩ := hfrom2 k v1 hv1
              obtain ⟨rq1, hrq1⟩ := hall1 q hq
              have hkq1 : GoMap.lookup rq1 k = some v1 := by
                rw [hpredQ q hq rq1 rq2 hrq1 hrq2 k]
                exact hkq2
              have := hnc0 p q rp1 rq1 k v v1 hp hq hrp1 hrq1 hk1 hkq1
              rw [this]
              exact hv1
            · intro hv
              obtain ⟨q, rq2, hq, hrq2, hkq2⟩ := hfrom2 k v hv
              obtain ⟨rq1, hrq1⟩ := hall1 q hq
              have hkq1 : GoMap.lookup rq1 k = some v := by
                rw [hpredQ q hq rq1 rq2 hrq1 hrq2 k]
                exact hkq2
              have hh : GoMap.has a1 k = true :=
                hhas1 k q rq1 hq hrq1 (by unfold GoMap.has; rw [hkq1]; rfl)
              obtain ⟨v1, hv1⟩ := (GoMap.has_iff_exists _ _).mp hh
              obtain ⟨p, rp1, hp, hrp1, hk1⟩ := hfrom1 k v1 hv1
              have := hnc0 p q rp1 rq1 k v1 v hp hq hrp1 hrq1 hk1 hkq1
              rw [← this]
              exact hv1
          cases h1k : GoMap.lookup a1 k with
          | some v => exact ((hiff v).mp h1k).symm
          | none =>
            cases h2k : GoMap.lookup a2 k with
            | none => rfl
            | some v =>
              have := (hiff v).mpr h2k
              rw [h1k] at this
              exact absurd this (by simp)
        · have hr : ∀ p, ¬ g.store.HasEdge p u := fun p hp => hex ⟨p, hp⟩
          intro k
          rw [hroot1 hr, hroot2 hr]
      obtain ⟨r3, hrun3, heq3⟩ := hdet (g.Node u).1 a1 a2 r1 hin hrun1
      rw [hrun2] at hrun3
      simp only [RunResult.ok.injEq] at hrun3
      rw [hrun3]
      exact heq3)
  intro u
  exact not_not.mp (key u)

end Graph

end ringchain

/-! ## The claims about graph construction -/

namespace ringchain

open Relation

variable {N : Type} [Inhabited N]

/-- C1: after every sequence of `Graph.AddNode` and `Graph.AddEdge` calls on a new graph,
whatever each call returned, the stored edge relation is acyclic: no non-empty path of
stored edges leads from a node back to itself. -/
theorem built_graph_acyclic (calls : List (Graph.Call N)) :
    ((NewGraph : Graph N).run calls).store.Acyclic :=
  (Graph.built_invariant _ ⟨calls, rfl⟩).2

/-- C2: on a store with mirrored adjacency indices and two existing nodes, `CreatesCycle`
returns without error, and returns `true` exactly when the source equals the target or a
path of stored edges leads from the target to the source. -/
theorem createsCycle_iff (s : memoryStore N) (source target : String) (hsym : s.Symmetric)
    (hs : s.IsNode source) (ht : s.IsNode target) :
    ∃ b, s.CreatesCycle source target = (b, none) ∧
      (b = true ↔ source = target ∨ s.Path target source) := by
  obtain ⟨b, hb, hiff⟩ := memoryStore.CreatesCycle_of_nodes s source target hs ht
  refine ⟨b, hb, hiff.trans ?_⟩
  rw [memoryStore.inE_eq_hasEdge s hsym]
  constructor
  · rintro (h | h)
    · exact Or.inl h
    · rcases reflTransGen_iff_eq_or_transGen.mp h with h1 | h1
      · exact Or.inl h1
      · exact Or.inr h1
  · rintro (h | h)
    · exact Or.inl h
    · exact Or.inr h.to_reflTransGen

theorem createsCycle_iff_witness :
    chainGraph.store.Symmetric ∧ chainGraph.store.IsNode "3" ∧ chainGraph.store.IsNode "1" ∧
      ∃ b, chainGraph.store.CreatesCycle "3" "1" = (b, none) ∧
        (b = true ↔ "3" = "1" ∨ chainGraph.store.Path "1" "3") :=
  have hsym : chainGraph.store.Symmetric :=
    (Graph.built_invariant chainGraph ⟨_, rfl⟩).1
  ⟨hsym, by decide, by decide,
    createsCycle_iff chainGraph.store "3" "1" hsym (by decide) (by decide)⟩

end ringchain

namespace ringchain

variable {N : Type} [Inhabited N]

/-- C3: on a graph built through `AddNode` and `AddEdge`, `AddEdge(source, target)` returns
no error exactly when both endpoints exist, `Edge(source, target)` does not resolve, the
endpoints differ and no path of stored edges leads from the target to the source; a
successful call makes `Edge(source, target)` return `Edge{source, target}` and changes
neither the node table nor any other entry of the two edge indices. -/
theorem addEdge_succeeds_iff (g : Graph N) (hg : g.Built) (source target : String) :
    ((g.AddEdge source target).2 = none ↔
      ((g.Node source).2 = none ∧ (g.Node target).2 = none ∧
        (g.Edge source target).2 = some Error.ErrEdgeNotFound ∧ source ≠ target ∧
        ¬ g.store.Path target source)) ∧
    ((g.AddEdge source target).2 = none →
      (g.AddEdge source target).1.Edge source target
          = ({ SourceHash := source, TargetHash := target }, none) ∧
        (g.AddEdge source target).1.store.vertices = g.store.vertices ∧
        (∀ x y, ¬ (x = source ∧ y = target) →
          (g.AddEdge source target).1.Edge x y = g.Edge x y) ∧
        (∀ x y e, ¬ (x = source ∧ y = target) →
          ((g.AddEdge source target).1.store.inHolds y x e ↔ g.store.inHolds y x e))) := by
  have hs := (Graph.built_invariant g hg).1
  refine ⟨?_, ?_⟩
  · rw [Graph.AddEdge_ok_iff g hs]
    unfold Graph.Node
    rw [memoryStore.Node_err_none_iff, memoryStore.Node_err_none_iff, Graph.Edge_snd]
    constructor
    · rintro ⟨ha, hb, he, hab, hp⟩
      exact ⟨ha, hb, by rw [memoryStore.Edge_of_not_hasEdge g.store _ _ he], hab, hp⟩
    · rintro ⟨ha, hb, he, hab, hp⟩
      exact ⟨ha, hb, memoryStore.Edge_err_of_not_none g.store _ _ (by simp [he]), hab, hp⟩
  · intro hok
    rcases Graph.AddEdge_result g source target with ⟨_, h2⟩ | ⟨h, _⟩
    · exact absurd hok h2
    · rw [h]
      refine ⟨?_, rfl, ?_, ?_⟩
      · rw [Graph.Edge_eq_store]
        exact memoryStore.AddEdge_Edge_self g.store source target _
      · intro x y hxy
        rw [Graph.Edge_eq_store, Graph.Edge_eq_store]
        exact memoryStore.AddEdge_Edge_other g.store source target x y _ hxy
      · intro x y e hxy
        unfold memoryStore.inHolds
        rw [memoryStore.AddEdge_in]
        simp [hxy]

theorem addEdge_succeeds_iff_witness :
    chainGraph.Built ∧
      (((chainGraph.AddEdge "1" "3").2 = none ↔
        ((chainGraph.Node "1").2 = none ∧ (chainGraph.Node "3").2 = none ∧
          (chainGraph.Edge "1" "3").2 = some Error.ErrEdgeNotFound ∧ "1" ≠ "3" ∧
          ¬ chainGraph.store.Path "3" "1")) ∧
      ((chainGraph.AddEdge "1" "3").2 = none →
        (chainGraph.AddEdge "1" "3").1.Edge "1" "3"
            = ({ SourceHash := "1", TargetHash := "3" }, none) ∧
          (chainGraph.AddEdge "1" "3").1.store.vertices = chainGraph.store.vertices ∧
          (∀ x y, ¬ (x = "1" ∧ y = "3") →
            (chainGraph.AddEdge "1" "3").1.Edge x y = chainGraph.Edge x y) ∧
          (∀ x y e, ¬ (x = "1" ∧ y = "3") →
            ((chainGraph.AddEdge "1" "3").1.store.inHolds y x e
              ↔ chainGraph.store.inHolds y x e)))) :=
  ⟨⟨_, rfl⟩, addEdge_succeeds_iff chainGraph ⟨_, rfl⟩ "1" "3"⟩

/-- C4: `Graph.AddEdge` classifies its failure in a fixed order: a missing source gives an
error that wraps `ErrNodeNotFound` and names the source, also when the target is missing;
otherwise a missing target gives an error that wraps `ErrNodeNotFound` and names the
target; otherwise a resolving `Edge(source, target)` gives `ErrEdgeAlreadyExists`; otherwise
a positive `CreatesCycle` gives `ErrEdgeCreatesCycle`. -/
theorem addEdge_check_order (g : Graph N) (source target : String) :
    (¬ g.store.IsNode source →
      ∃ err, (g.AddEdge source target).2 = some err ∧
        errorsIs (some err) Error.ErrNodeNotFound = true ∧
        err.message = "source node " ++ source ++ ": " ++ "vertex not found") ∧
    (g.store.IsNode source → ¬ g.store.IsNode target →
      ∃ err, (g.AddEdge source target).2 = some err ∧
        errorsIs (some err) Error.ErrNodeNotFound = true ∧
        err.message = "target node " ++ target ++ ": " ++ "vertex not found") ∧
    (g.store.IsNode source → g.store.IsNode target → (g.Edge source target).2 = none →
      (g.AddEdge source target).2 = some Error.ErrEdgeAlreadyExists) ∧
    (g.store.IsNode source → g.store.IsNode target → (g.Edge source target).2 ≠ none →
      g.store.CreatesCycle source target = (true, none) →
      (g.AddEdge source target).2 = some Error.ErrEdgeCreatesCycle) := by
  refine ⟨?_, ?_, ?_, ?_⟩
  · intro ha
    rw [Graph.AddEdge_source_missing g source target ha]
    exact ⟨_, rfl, by simp [errorsIs, Error.isErr], rfl⟩
  · intro ha hb
    rw [Graph.AddEdge_target_missing g source target ha hb]
    exact ⟨_, rfl, by simp [errorsIs, Error.isErr], rfl⟩
  · intro ha hb he
    rw [Graph.Edge_snd, memoryStore.Edge_err_none_iff] at he
    rw [Graph.AddEdge_duplicate g source target ha hb he]
  · intro ha hb he hc
    rw [Graph.Edge_snd] at he
    rw [Graph.AddEdge_checked g source target ha hb
      (memoryStore.Edge_err_of_not_none g.store _ _ he) true hc]
    simp

theorem addEdge_check_order_witness :
    (∃ err, (chainGraph.AddEdge "8" "9").2 = some err ∧
        errorsIs (some err) Error.ErrNodeNotFound = true ∧
        err.message = "source node " ++ "8" ++ ": " ++ "vertex not found") ∧
    (∃ err, (chainGraph.AddEdge "1" "9").2 = some err ∧
        errorsIs (some err) Error.ErrNodeNotFound = true ∧
        err.message = "target node " ++ "9" ++ ": " ++ "vertex not found") ∧
    (chainGraph.AddEdge "1" "2").2 = some Error.ErrEdgeAlreadyExists ∧
    (chainGraph.AddEdge "3" "1").2 = some Error.ErrEdgeCreatesCycle :=
  ⟨(addEdge_check_order chainGraph "8" "9").1 (by decide),
   (addEdge_check_order chainGraph "1" "9").2.1 (by decide) (by decide),
   (addEdge_check_order chainGraph "1" "2").2.2.1 (by decide) (by decide) (by decide),
   (addEdge_check_order chainGraph "3" "1").2.2.2 (by decide) (by decide) (by decide)
     (by decide)⟩

/-- C5: a `Graph.AddEdge` call that returns an error leaves the store as it was: the node
table, the out-edge index and the in-edge index are unchanged. -/
theorem addEdge_error_unchanged (g : Graph N) (source target : String)
    (herr : (g.AddEdge source target).2 ≠ none) :
    (g.AddEdge source target).1.store.vertices = g.store.vertices ∧
      (g.AddEdge source target).1.store.outEdges = g.store.outEdges ∧
      (g.AddEdge source target).1.store.inEdges = g.store.inEdges := by
  rcases Graph.AddEdge_result g source target with ⟨h, _⟩ | ⟨h, _⟩
  · rw [h]
    exact ⟨rfl, rfl, rfl⟩
  · rw [h] at herr
    exact absurd rfl herr

theorem addEdge_error_unchanged_witness :
    (chainGraph.AddEdge "3" "1").2 ≠ none ∧
      (chainGraph.AddEdge "3" "1").1.store.vertices = chainGraph.store.vertices ∧
      (chainGraph.AddEdge "3" "1").1.store.outEdges = chainGraph.store.outEdges ∧
      (chainGraph.AddEdge "3" "1").1.store.inEdges = chainGraph.store.inEdges :=
  ⟨by decide, addEdge_error_unchanged chainGraph "3" "1" (by decide)⟩

/-- C6, as stated, fails: on a new graph the self-edge `AddEdge("a", "a")` fails with the
error wrapping `ErrNodeNotFound`, which is not `ErrEdgeCreatesCycle` and does not wrap it. -/
theorem self_edge_missing_node :
    ((NewGraph : Graph TestNode).AddEdge "a" "a").2
        = some (Error.wrap "source node a" Error.ErrNodeNotFound) ∧
      ((NewGraph : Graph TestNode).AddEdge "a" "a").2 ≠ some Error.ErrEdgeCreatesCycle ∧
      errorsIs ((NewGraph : Graph TestNode).AddEdge "a" "a").2 Error.ErrEdgeCreatesCycle
        = false := by
  decide

/-- C6, amended: on a graph built through `AddNode` and `AddEdge`, the self-edge
`AddEdge(x, x)` on an existing node `x` fails with `ErrEdgeCreatesCycle` and leaves the
graph as it was. -/
theorem self_edge_creates_cycle (g : Graph N) (hg : g.Built) (x : String)
    (hx : g.store.IsNode x) :
    g.AddEdge x x = (g, some Error.ErrEdgeCreatesCycle) := by
  have hacyc := (Graph.built_invariant g hg).2
  have he : ¬ g.store.HasEdge x x := fun h => hacyc x (Relation.TransGen.single h)
  obtain ⟨c, hc, hiff⟩ := memoryStore.CreatesCycle_of_nodes g.store x x hx hx
  have hct : c = true := hiff.mpr (Or.inl rfl)
  subst hct
  rw [Graph.AddEdge_checked g x x hx hx he true hc]
  simp

theorem self_edge_creates_cycle_witness :
    chainGraph.Built ∧ chainGraph.store.IsNode "2" ∧
      chainGraph.AddEdge "2" "2" = (chainGraph, some Error.ErrEdgeCreatesCycle) :=
  ⟨⟨_, rfl⟩, by decide, self_edge_creates_cycle chainGraph ⟨_, rfl⟩ "2" (by decide)⟩

end ringchain

namespace ringchain

variable {N : Type} [Inhabited N]

/-- C7: on a graph that already holds a node under `id`, `AddNode(id, n)` fails with
`ErrNodeAlreadyExists` for every node value `n`; afterwards `Node(id)` still returns the
node stored before and `ListNodes` returns the same identities. -/
theorem addNode_duplicate (g : Graph N) (id : String) (n : N) (h : (g.Node id).2 = none) :
    (g.AddNode id n).2 = some Error.ErrNodeAlreadyExists ∧
      (g.AddNode id n).1.Node id = g.Node id ∧
      (g.AddNode id n).1.store.ListNodes = g.store.ListNodes := by
  have hn : g.store.IsNode id := (memoryStore.Node_err_none_iff g.store id).mp h
  have hadd : g.AddNode id n = (g, some Error.ErrNodeAlreadyExists) := by
    rw [Graph.AddNode_eq]
    simp [memoryStore.AddNode, show GoMap.has g.store.vertices id = true from hn]
  rw [hadd]
  exact ⟨rfl, rfl, rfl⟩

theorem addNode_duplicate_witness :
    (chainGraph.Node "2").2 = none ∧
      (chainGraph.AddNode "2" (some "other")).2 = some Error.ErrNodeAlreadyExists ∧
      (chainGraph.AddNode "2" (some "other")).1.Node "2" = chainGraph.Node "2" ∧
      (chainGraph.AddNode "2" (some "other")).1.store.ListNodes = chainGraph.store.ListNodes :=
  ⟨by decide, addNode_duplicate chainGraph "2" (some "other") (by decide)⟩

/-- C8: `AddNode` calls with pairwise distinct identities on a new graph all succeed;
afterwards `Node(id)` returns the node value added under `id`, fails with
`ErrNodeNotFound` for every identity that was not added, and `ListNodes` returns the added
identities, each once, in some order. -/
theorem addNodes_distinct (l : List (String × N)) (hd : (l.map Prod.fst).Nodup) :
    ((NewGraph : Graph N).addNodes l).2 = List.replicate l.length none ∧
      (∀ id n, (id, n) ∈ l → ((NewGraph : Graph N).addNodes l).1.Node id = (n, none)) ∧
      (∀ id, id ∉ l.map Prod.fst →
        ((NewGraph : Graph N).addNodes l).1.Node id = (default, some Error.ErrNodeNotFound)) ∧
      ((NewGraph : Graph N).addNodes l).1.store.ListNodes.2 = none ∧
      List.Perm ((NewGraph : Graph N).addNodes l).1.store.ListNodes.1 (l.map Prod.fst) ∧
      ((NewGraph : Graph N).addNodes l).1.store.ListNodes.1.Nodup := by
  obtain ⟨herr, hv⟩ := Graph.addNodes_fresh l (NewGraph : Graph N)
    (by
      intro k _
      simp [NewGraph, newMemoryStore, GoMap.has, GoMap.lookup])
    hd
  have hv1 : ((NewGraph : Graph N).addNodes l).1.store.vertices = l := by
    rw [hv]
    simp [NewGraph, newMemoryStore]
  refine ⟨herr, ?_, ?_, rfl, ?_, ?_⟩
  · intro id n hmem
    simp [Graph.Node, memoryStore.Node, hv1, GoMap.lookup_of_mem_nodup l id n hd hmem]
  · intro id hid
    simp [Graph.Node, memoryStore.Node, hv1, GoMap.lookup_eq_none_of_not_mem l id hid]
  · simp only [memoryStore.ListNodes, hv1, GoMap.keys]
    exact List.Perm.refl _
  · simp only [memoryStore.ListNodes, hv1, GoMap.keys]
    exact hd

theorem addNodes_distinct_witness :
    ([("1", some "1"), ("2", some "2")].map Prod.fst).Nodup ∧
      ((NewGraph : Graph TestNode).addNodes [("1", some "1"), ("2", some "2")]).2
        = List.replicate 2 none ∧
      ((NewGraph : Graph TestNode).addNodes [("1", some "1"), ("2", some "2")]).1.Node "2"
        = (some "2", none) ∧
      ((NewGraph : Graph TestNode).addNodes [("1", some "1"), ("2", some "2")]).1.Node "3"
        = (none, some Error.ErrNodeNotFound) ∧
      List.Perm
        ((NewGraph : Graph TestNode).addNodes [("1", some "1"), ("2", some "2")]).1.store.ListNodes.1
        ["1", "2"] :=
  have h := addNodes_distinct ([("1", some "1"), ("2", some "2")] : List (String × TestNode))
    (by decide)
  ⟨by decide, h.1, h.2.1 "2" (some "2") (by decide), h.2.2.1 "3" (by decide), h.2.2.2.2.1⟩

end ringchain

namespace ringchain

variable {N : Type} [Inhabited N]

/-- C9: `RemoveNode(id)` fails with `ErrNodeNotFound` when `id` is not in the node table;
fails with `ErrNodeHasEdges` when `id` is a node with at least one incoming or outgoing
edge; and otherwise succeeds, after which `id` is not in `ListNodes`, `Node(id)` fails with
`ErrNodeNotFound`, and `id` has no entry in either adjacency index. -/
theorem removeNode_cases (s : memoryStore N) (id : String) :
    (¬ s.IsNode id → (s.RemoveNode id).2 = some Error.ErrNodeNotFound) ∧
    (s.IsNode id → (∃ o e, s.inHolds id o e ∨ s.outHolds id o e) →
      (s.RemoveNode id).2 = some Error.ErrNodeHasEdges) ∧
    (s.IsNode id → ¬ (∃ o e, s.inHolds id o e ∨ s.outHolds id o e) →
      (s.RemoveNode id).2 = none ∧
        id ∉ (s.RemoveNode id).1.ListNodes.1 ∧
        (s.RemoveNode id).1.Node id = (default, some Error.ErrNodeNotFound) ∧
        GoMap.has (s.RemoveNode id).1.inEdges id = false ∧
        GoMap.has (s.RemoveNode id).1.outEdges id = false) := by
  refine ⟨?_, ?_, ?_⟩
  · intro h
    have hv : GoMap.has s.vertices id = false := by simpa [memoryStore.IsNode] using h
    rw [memoryStore.RemoveNode_err]
    simp [hv]
  · rintro h ⟨o, e, he⟩
    have hv : GoMap.has s.vertices id = true := h
    rw [memoryStore.RemoveNode_err]
    simp only [hv, Bool.true_eq_false, if_false]
    rcases he with he | he
    · have hin : 0 < GoMap.len (GoMap.inner s.inEdges id) :=
        (memoryStore.exists_entry_iff s.inEdges id).mp ⟨o, e, he⟩
      simp [hin]
    · have hout : 0 < GoMap.len (GoMap.inner s.outEdges id) :=
        (memoryStore.exists_entry_iff s.outEdges id).mp ⟨o, e, he⟩
      simp only [hout, if_true]
      split <;> rfl
  · intro h hno
    have hv : GoMap.has s.vertices id = true := h
    have hin : ¬ 0 < GoMap.len (GoMap.inner s.inEdges id) := by
      intro hpos
      obtain ⟨o, e, he⟩ := (memoryStore.exists_entry_iff s.inEdges id).mpr hpos
      exact hno ⟨o, e, Or.inl he⟩
    have hout : ¬ 0 < GoMap.len (GoMap.inner s.outEdges id) := by
      intro hpos
      obtain ⟨o, e, he⟩ := (memoryStore.exists_entry_iff s.outEdges id).mpr hpos
      exact hno ⟨o, e, Or.inr he⟩
    obtain ⟨h1, h2, h3⟩ := memoryStore.RemoveNode_ok s id hin hout hv
    refine ⟨?_, ?_, ?_, h2, h3⟩
    · rw [memoryStore.RemoveNode_err]
      simp [hv, hin, hout]
    · simp only [memoryStore.ListNodes, h1]
      exact GoMap.not_mem_keys_delete s.vertices id
    · apply memoryStore.Node_of_not_isNode
      unfold memoryStore.IsNode
      rw [h1, GoMap.has, GoMap.lookup_delete_self]
      simp

end ringchain

namespace ringchain

variable {N : Type} [Inhabited N]

theorem removeNode_cases_witness :
    (chainStore.RemoveNode "9").2 = some Error.ErrNodeNotFound ∧
      (chainStore.RemoveNode "2").2 = some Error.ErrNodeHasEdges ∧
      ((chainStore.RemoveNode "4").2 = none ∧
        "4" ∉ (chainStore.RemoveNode "4").1.ListNodes.1 ∧
        (chainStore.RemoveNode "4").1.Node "4" = (default, some Error.ErrNodeNotFound) ∧
        GoMap.has (chainStore.RemoveNode "4").1.inEdges "4" = false ∧
        GoMap.has (chainStore.RemoveNode "4").1.outEdges "4" = false) :=
  ⟨(removeNode_cases chainStore "9").1 (by decide),
   (removeNode_cases chainStore "2").2.1 (by decide)
     ⟨"1", { SourceHash := "1", TargetHash := "2" }, Or.inl (by decide)⟩,
   (removeNode_cases chainStore "4").2.2 (by decide)
     (by
       rintro ⟨o, e, h | h⟩
       · exact absurd ((memoryStore.exists_entry_iff chainStore.inEdges "4").mp ⟨o, e, h⟩)
           (by decide)
       · exact absurd ((memoryStore.exists_entry_iff chainStore.outEdges "4").mp ⟨o, e, h⟩)
           (by decide))⟩

end ringchain

namespace ringchain

variable {N : Type}

/-- C10: in every state that a sequence of `AddNode`, `RemoveNode`, `AddEdge`, `UpdateEdge`
and `RemoveEdge` calls reaches from the empty store, no call having panicked, the two
adjacency indices mirror each other: `outEdges[s][t]` holds `e` exactly when
`inEdges[t][s]` holds `e`. -/
theorem indices_symmetric (calls : List (memoryStore.Call N)) :
    ∃ st, (newMemoryStore : memoryStore N).run calls = some st ∧
      ∀ s t e, GoMap.lookup (GoMap.inner st.outEdges s) t = some e
        ↔ GoMap.lookup (GoMap.inner st.inEdges t) s = some e := by
  obtain ⟨st, hrun, hsym⟩ :=
    memoryStore.run_symmetric calls (newMemoryStore : memoryStore N)
      memoryStore.newMemoryStore_symmetric
  exact ⟨st, hrun, hsym⟩

end ringchain

/-! ## The claims about the adjacency snapshots and `Execute` -/

namespace ringchain

variable {N : Type} [Inhabited N]

/-- C11: on a graph built through `AddNode` and `AddEdge`, `SuccessorMap` and
`PredecessorMap` return without error or panic; the keys of each map are the node
identities, each once, a node without neighbours mapping to the empty map; and
`successorMap[s][t]` holds `e` exactly when `predecessorMap[t][s]` holds `e`, which is
exactly when the edge `(s, t)` is stored with value `e`. -/
theorem successor_predecessor_inverse (g : Graph N) (hg : g.Built) :
    ∃ succ pred, g.SuccessorMap = some (succ, none) ∧ g.PredecessorMap = (pred, none) ∧
      List.Perm (GoMap.keys succ) g.store.ListNodes.1 ∧
      List.Perm (GoMap.keys pred) g.store.ListNodes.1 ∧
      (GoMap.keys succ).Nodup ∧ (GoMap.keys pred).Nodup ∧
      (∀ k, g.store.IsNode k → (∀ t, ¬ g.store.HasEdge k t) → GoMap.lookup succ k = some []) ∧
      (∀ k, g.store.IsNode k → (∀ s, ¬ g.store.HasEdge s k) → GoMap.lookup pred k = some []) ∧
      (∀ s t e, GoMap.lookup (GoMap.inner succ s) t = some e
        ↔ GoMap.lookup (GoMap.inner pred t) s = some e) ∧
      (∀ s t e, GoMap.lookup (GoMap.inner succ s) t = some e ↔ g.Edge s t = (e, none)) := by
  have hw := Graph.built_wellFormed g hg
  obtain ⟨succ, hs, hsk, hsl⟩ := Graph.SuccessorMap_spec g hw
  obtain ⟨pred, hp, hpk, hpl⟩ := Graph.PredecessorMap_spec g hw
  refine ⟨succ, pred, hs, hp, ?_, ?_, ?_, ?_, ?_, ?_, ?_, ?_⟩
  · rw [hsk]
    exact List.Perm.refl _
  · rw [hpk]
    exact List.Perm.refl _
  · rw [hsk]
    exact hw.1
  · rw [hpk]
    exact hw.1
  · intro k hk hno
    apply Graph.lookup_eq_nil_of_no_entry
    · rw [← GoMap.mem_keys_iff, hsk, GoMap.mem_keys_iff]
      exact hk
    · intro y
      rw [hsl]
      simp [hno y]
  · intro k hk hno
    apply Graph.lookup_eq_nil_of_no_entry
    · rw [← GoMap.mem_keys_iff, hpk, GoMap.mem_keys_iff]
      exact hk
    · intro y
      rw [hpl]
      simp [hno y]
  · intro s t e
    rw [hsl, hpl]
  · intro s t e
    rw [hsl, Graph.Edge_eq_store]
    constructor
    · intro h
      by_cases he : g.store.HasEdge s t
      · simp only [he, if_true, Option.some.injEq] at h
        apply memoryStore.Edge_of_outHolds
        exact (Graph.stored_edge_eq g hw s t e).mpr ⟨he, h.symm⟩
      · simp [he] at h
    · intro h
      have he : g.store.HasEdge s t := by
        apply (memoryStore.Edge_err_none_iff g.store s t).mp
        rw [h]
      obtain ⟨e1, he1⟩ := he
      rw [memoryStore.Edge_of_outHolds g.store s t e1 he1] at h
      simp only [Prod.mk.injEq, and_true] at h
      subst h
      have := (Graph.stored_edge_eq g hw s t e1).mp he1
      simp [this.1, ← this.2]

theorem successor_predecessor_inverse_witness :
    chainGraph.Built ∧
    ∃ succ pred, chainGraph.SuccessorMap = some (succ, none) ∧
      chainGraph.PredecessorMap = (pred, none) ∧
      List.Perm (GoMap.keys succ) chainGraph.store.ListNodes.1 ∧
      List.Perm (GoMap.keys pred) chainGraph.store.ListNodes.1 ∧
      (GoMap.keys succ).Nodup ∧ (GoMap.keys pred).Nodup ∧
      (∀ k, chainGraph.store.IsNode k → (∀ t, ¬ chainGraph.store.HasEdge k t) →
        GoMap.lookup succ k = some []) ∧
      (∀ k, chainGraph.store.IsNode k → (∀ s, ¬ chainGraph.store.HasEdge s k) →
        GoMap.lookup pred k = some []) ∧
      (∀ s t e, GoMap.lookup (GoMap.inner succ s) t = some e
        ↔ GoMap.lookup (GoMap.inner pred t) s = some e) ∧
      (∀ s t e, GoMap.lookup (GoMap.inner succ s) t = some e
        ↔ chainGraph.Edge s t = (e, none)) :=
  ⟨⟨_, rfl⟩, successor_predecessor_inverse chainGraph ⟨_, rfl⟩⟩

end ringchain

namespace ringchain

variable {N V E : Type} [Inhabited N]

/-- C12: on a graph built through `AddNode` and `AddEdge`, whenever `Execute` returns a
result table, under any schedule, every node has been submitted to the worker pool exactly
once (the submitted identities are the node identities, none twice), the job queue has
received exactly these jobs, the table has exactly one entry for each node identity, and the
entry of a node is the output that its `Run` returned on the input the node was submitted
with; on a graph with no node the table is empty. -/
theorem execute_runs_every_node_once (Run : N → Args V → RunResult V E) (g : Graph N)
    (hg : g.Built) (args : Args V) (opts : List (GraphExecuteOptions → GraphExecuteOptions))
    (sched : List Step) (tbl : GoMap String (Args V)) (fin : execState N V)
    (h : g.Execute Run args opts sched = Outcome.returned tbl fin) :
    List.Perm ((Event.subs fin.trace).map Prod.fst) g.store.ListNodes.1 ∧
      fin.pool.jobQueue = (Event.subs fin.trace).map
        (fun s => { Args := s.2.2, Node := (g.Node s.1).1, Result := s.2.1 }) ∧
      List.Perm (GoMap.keys tbl) g.store.ListNodes.1 ∧
      (∀ u j a, Event.submit u j a ∈ fin.trace →
        ∃ res, Run (g.Node u).1 a = RunResult.ok res ∧ GoMap.lookup tbl u = some res) ∧
      (g.store.ListNodes.1 = [] → tbl = []) ∧
      ((Event.subs fin.trace).map Prod.fst).Nodup ∧ (GoMap.keys tbl).Nodup := by
  have hw := Graph.built_wellFormed g hg
  obtain ⟨_, r2⟩ := Graph.Execute.run_reach Run g hg args opts (fun _ => True) sched
    (fun _ _ _ _ _ _ _ _ => trivial) (fun _ _ _ _ _ _ _ => trivial)
  rcases r2 (by rw [h]; simp) with hp | ⟨st0, s, _, hgood0, _, hs⟩
  · rw [h] at hp
    exact absurd hp (by simp)
  · rw [h] at hs
    obtain ⟨_, hrun, htbl, hfin⟩ := Graph.Execute.step_returned Run g st0 fin s tbl hs
    have hgood : Graph.Execute.Good Run g args fin := by
      rw [hfin]
      exact Graph.Execute.Inv_stop Run g args none [] "" [] st0 hgood0
    have hrunf : fin.pool.runningNodes = [] := by
      rw [hfin]
      exact hrun
    have htblf : tbl = Event.recs fin.trace := by
      rw [htbl, hgood0.results, hfin]
      simp only [Event.recs_snoc_stop]
    obtain ⟨_, hsubs, hrecs⟩ := Graph.Execute.Good_exit Run g hg args fin hgood hrunf
    refine ⟨hsubs, hgood.jobs, by rw [htblf]; exact hrecs, ?_, ?_, hgood.subNodup,
      by rw [htblf]; exact hgood.recNodup⟩
    · intro u j a hmem
      have hsub : (u, j, a) ∈ Event.subs fin.trace := (Event.mem_subs_iff _ _ _ _).mpr hmem
      have hu : u ∈ GoMap.keys (Event.recs fin.trace) := by
        apply hrecs.mem_iff.mpr
        apply hsubs.mem_iff.mp
        exact List.mem_map.mpr ⟨(u, j, a), hsub, rfl⟩
      obtain ⟨⟨u1, res⟩, hres, hfst⟩ := List.mem_map.mp hu
      simp only at hfst
      subst hfst
      obtain ⟨j1, a1, hja, hrun1⟩ := hgood.recorded u1 res hres
      have heq : (u1, j1, a1) = (u1, j, a) :=
        List.inj_on_of_nodup_map hgood.subNodup hja hsub rfl
      simp only [Prod.mk.injEq, true_and] at heq
      refine ⟨res, by rw [← heq.2]; exact hrun1, ?_⟩
      rw [htblf]
      exact (GoMap.mem_iff_lookup _ hgood.recNodup u1 res).mp hres
    · intro hnil
      have hk : GoMap.keys tbl = [] := by
        have := hrecs.length_eq
        rw [hnil] at this
        rw [htblf]
        exact List.length_eq_zero.mp this
      unfold GoMap.keys at hk
      exact List.map_eq_nil_iff.mp hk

/-- C12, on the chain `1 → 2` of test nodes. -/
theorem execute_runs_every_node_once_witness :
    simpleGraph.Built ∧
    ∃ fin, simpleGraph.Execute SampleNode.Run [] [] chainSchedule
        = Outcome.returned [("1", [("n_1", true)]), ("2", [("n_1", true), ("n_2", true)])] fin ∧
      List.Perm ((Event.subs fin.trace).map Prod.fst) simpleGraph.store.ListNodes.1 ∧
      List.Perm (GoMap.keys ([("1", [("n_1", true)]), ("2", [("n_1", true), ("n_2", true)])] :
        GoMap String (Args Bool))) simpleGraph.store.ListNodes.1 := by
  obtain ⟨fin, h⟩ := Outcome.results?_eq_some
    (simpleGraph.Execute SampleNode.Run [] [] chainSchedule)
    [("1", [("n_1", true)]), ("2", [("n_1", true), ("n_2", true)])] (by decide)
  have hthm := execute_runs_every_node_once SampleNode.Run simpleGraph ⟨_, rfl⟩ [] []
    chainSchedule _ fin h
  exact ⟨⟨_, rfl⟩, fin, h, hthm.1, hthm.2.2.1⟩

/-- C13: in every run of `Execute` on a graph built through `AddNode` and `AddEdge`, when the
coordinator submits a node, the result of each source of an edge into the node has been
written to the result table before. -/
theorem submit_after_predecessors (Run : N → Args V → RunResult V E) (g : Graph N)
    (hg : g.Built) (args : Args V) (opts : List (GraphExecuteOptions → GraphExecuteOptions))
    (sched : List Step) (fin : execState N V)
    (h : (g.Execute Run args opts sched).state? = some fin)
    (pre post : List (Event V)) (u : String) (j : Nat) (a : Args V)
    (hsplit : fin.trace = pre ++ Event.submit u j a :: post)
    (p : String) (hp : g.store.HasEdge p u) :
    ∃ res, Event.result p res ∈ pre := by
  obtain ⟨st0, hgood, ht, _⟩ := Graph.Execute.trace_good Run g hg args opts sched fin h
  have := (hgood.order pre post u j a (by rw [← ht]; exact hsplit)).1 p hp
  obtain ⟨⟨p1, res⟩, hmem, hfst⟩ := List.mem_map.mp this
  simp only at hfst
  subst hfst
  exact ⟨res, (Event.mem_recs_iff _ _ _).mp hmem⟩

/-- C13, on the chain `1 → 2` of test nodes. -/
theorem submit_after_predecessors_witness :
    simpleGraph.Built ∧ simpleGraph.store.HasEdge "1" "2" ∧
    ∃ fin : execState SampleNode Bool,
      (simpleGraph.Execute SampleNode.Run [] [] chainSchedule).state? = some fin ∧
      fin.trace = [Event.submit "1" 0 [], Event.result "1" [("n_1", true)]] ++
        Event.submit "2" 1 [("n_1", true)] ::
          [Event.result "2" [("n_1", true), ("n_2", true)], Event.stop, Event.wait] ∧
      ∃ res, Event.result "1" res
        ∈ [Event.submit "1" 0 ([] : Args Bool), Event.result "1" [("n_1", true)]] := by
  obtain ⟨fin, hfin, ht⟩ := Outcome.trace?_eq_some
    (simpleGraph.Execute SampleNode.Run [] [] chainSchedule)
    ([Event.submit "1" 0 [], Event.result "1" [("n_1", true)]] ++
        Event.submit "2" 1 [("n_1", true)] ::
          [Event.result "2" [("n_1", true), ("n_2", true)], Event.stop, Event.wait])
    (by decide)
  exact ⟨⟨_, rfl⟩, by decide, fin, hfin, ht,
    submit_after_predecessors SampleNode.Run simpleGraph ⟨_, rfl⟩ [] [] chainSchedule fin hfin
      _ _ "2" 1 _ ht "1" (by decide)⟩

/-- C14: in every run of `Execute` on a graph built through `AddNode` and `AddEdge`, the
input submitted with a node that has a predecessor is the merge of the results of its direct
predecessors in the order in which the coordinator recorded them: it has a key exactly when
the result of a predecessor has it, and it holds at a key the value of the last recorded
predecessor result that has the key. -/
theorem input_is_merge_of_predecessors (Run : N → Args V → RunResult V E) (g : Graph N)
    (hg : g.Built) (args : Args V) (opts : List (GraphExecuteOptions → GraphExecuteOptions))
    (sched : List Step) (fin : execState N V)
    (h : (g.Execute Run args opts sched).state? = some fin)
    (pre post : List (Event V)) (u : String) (j : Nat) (a : Args V)
    (hsplit : fin.trace = pre ++ Event.submit u j a :: post)
    (hpred : ∃ p, g.store.HasEdge p u) :
    (∀ k, GoMap.lookup a k
      = lastWriter ((Event.recs pre).filter (fun r => decide (g.store.HasEdge r.1 u))) k) ∧
    (∀ k, GoMap.has a k = true ↔
      ∃ p res, g.store.HasEdge p u ∧ Event.result p res ∈ pre ∧ GoMap.has res k = true) ∧
    (∀ k v, GoMap.lookup a k = some v ↔
      ∃ l1 p res l2, (Event.recs pre).filter (fun r => decide (g.store.HasEdge r.1 u))
          = l1 ++ (p, res) :: l2 ∧
        GoMap.lookup res k = some v ∧ ∀ q ∈ l2, GoMap.lookup q.2 k = none) := by
  obtain ⟨st0, hgood, ht, _⟩ := Graph.Execute.trace_good Run g hg args opts sched fin h
  have hlw := (hgood.order pre post u j a (by rw [← ht]; exact hsplit)).2.2 hpred
  refine ⟨hlw, ?_, ?_⟩
  · intro k
    unfold GoMap.has
    rw [hlw k, lastWriter_isSome_iff]
    constructor
    · rintro ⟨⟨p, res⟩, hmem, hk⟩
      obtain ⟨hmem1, hedge⟩ := List.mem_filter.mp hmem
      exact ⟨p, res, by simpa using hedge, (Event.mem_recs_iff _ _ _).mp hmem1, hk⟩
    · rintro ⟨p, res, hedge, hmem, hk⟩
      exact ⟨(p, res), List.mem_filter.mpr ⟨(Event.mem_recs_iff _ _ _).mpr hmem, by simpa using hedge⟩,
        hk⟩
  · intro k v
    rw [hlw k, lastWriter_eq_some_iff]
    constructor
    · rintro ⟨l1, ⟨p, res⟩, l2, heq, hk, hall⟩
      exact ⟨l1, p, res, l2, heq, hk, hall⟩
    · rintro ⟨l1, p, res, l2, heq, hk, hall⟩
      exact ⟨l1, (p, res), l2, heq, hk, hall⟩

/-- C14, on the diamond of test nodes when the result of `3` is received before that
of `2`. -/
theorem input_is_merge_of_predecessors_witness :
    diamondGraph.Built ∧ (∃ p, diamondGraph.store.HasEdge p "4") ∧
    ∃ fin : execState SampleNode Bool,
      (diamondGraph.Execute SampleNode.Run [] [] diamondScheduleSwapped).state? = some fin ∧
      fin.trace = [Event.submit "1" 0 [], Event.result "1" [("n_1", true)],
          Event.submit "2" 1 [("n_1", true)], Event.submit "3" 2 [("n_1", true)],
          Event.result "3" [("n_1", true), ("n_3", true)],
          Event.result "2" [("n_1", true), ("n_2", true)]] ++
        Event.submit "4" 3 [("n_1", true), ("n_3", true), ("n_2", true)] ::
          [Event.result "4" [("n_1", true), ("n_3", true), ("n_2", true), ("n_4", true)],
           Event.stop, Event.wait] ∧
      ∀ k, GoMap.has ([("n_1", true), ("n_3", true), ("n_2", true)] : Args Bool) k = true ↔
        ∃ p res, diamondGraph.store.HasEdge p "4" ∧
          Event.result p res ∈ [Event.submit "1" 0 [], Event.result "1" [("n_1", true)],
            Event.submit "2" 1 [("n_1", true)], Event.submit "3" 2 [("n_1", true)],
            Event.result "3" [("n_1", true), ("n_3", true)],
            Event.result "2" [("n_1", true), ("n_2", true)]] ∧
          GoMap.has res k = true := by
  obtain ⟨fin, hfin, ht⟩ := Outcome.trace?_eq_some
    (diamondGraph.Execute SampleNode.Run [] [] diamondScheduleSwapped)
    ([Event.submit "1" 0 [], Event.result "1" [("n_1", true)],
          Event.submit "2" 1 [("n_1", true)], Event.submit "3" 2 [("n_1", true)],
          Event.result "3" [("n_1", true), ("n_3", true)],
          Event.result "2" [("n_1", true), ("n_2", true)]] ++
        Event.submit "4" 3 [("n_1", true), ("n_3", true), ("n_2", true)] ::
          [Event.result "4" [("n_1", true), ("n_3", true), ("n_2", true), ("n_4", true)],
           Event.stop, Event.wait])
    (by decide)
  exact ⟨⟨_, rfl⟩, ⟨"2", by decide⟩, fin, hfin, ht,
    (input_is_merge_of_predecessors SampleNode.Run diamondGraph ⟨_, rfl⟩ [] []
      diamondScheduleSwapped fin hfin _ _ "4" 3 _ ht ⟨"2", by decide⟩).2.1⟩

/-- C15: in every run of `Execute` on a graph built through `AddNode` and `AddEdge`, a node
into which no edge leads is submitted with the initial input of the call: the job sent to the
job queue for it carries the node stored under its identity and the initial input. -/
theorem root_gets_initial_input (Run : N → Args V → RunResult V E) (g : Graph N)
    (hg : g.Built) (args : Args V) (opts : List (GraphExecuteOptions → GraphExecuteOptions))
    (sched : List Step) (fin : execState N V)
    (h : (g.Execute Run args opts sched).state? = some fin)
    (u : String) (j : Nat) (a : Args V) (hsub : Event.submit u j a ∈ fin.trace)
    (hroot : ∀ p, ¬ g.store.HasEdge p u) :
    a = args ∧
      fin.pool.jobQueue[j]? = some { Args := args, Node := (g.Node u).1, Result := j } := by
  obtain ⟨st0, hgood, ht, hjq⟩ := Graph.Execute.trace_good Run g hg args opts sched fin h
  have hmem : (u, j, a) ∈ Event.subs st0.trace := by
    rw [← ht]
    exact (Event.mem_subs_iff _ _ _ _).mpr hsub
  obtain ⟨pre, post, hsplit⟩ := Event.mem_subs_split _ _ _ _ hmem
  have ha : a = args := (hgood.order pre post u j a hsplit).2.1 hroot
  refine ⟨ha, ?_⟩
  rw [hjq, ← ha]
  exact Graph.Execute.Inv_job_at Run g args none [] "" [] st0 hgood u j a hmem

/-- C15, on the chain `1 → 2` of test nodes with an initial input. -/
theorem root_gets_initial_input_witness :
    simpleGraph.Built ∧ (∀ p, ¬ simpleGraph.store.HasEdge p "1") ∧
    ∃ fin : execState SampleNode Bool,
      (simpleGraph.Execute SampleNode.Run [("path", true)] [] chainSchedule).state?
        = some fin ∧
      Event.submit "1" 0 [("path", true)] ∈ fin.trace ∧
      fin.pool.jobQueue[0]?
        = some { Args := [("path", true)], Node := (simpleGraph.Node "1").1, Result := 0 } := by
  obtain ⟨fin, hfin, ht⟩ := Outcome.trace?_eq_some
    (simpleGraph.Execute SampleNode.Run [("path", true)] [] chainSchedule)
    [Event.submit "1" 0 [("path", true)], Event.result "1" [("path", true), ("n_1", true)],
      Event.submit "2" 1 [("path", true), ("n_1", true)],
      Event.result "2" [("path", true), ("n_1", true), ("n_2", true)], Event.stop, Event.wait]
    (by decide)
  have hsub : Event.submit "1" 0 [("path", true)] ∈ fin.trace := by
    rw [ht]
    decide
  have hroot := Graph.root_of_inner_nil simpleGraph ⟨_, rfl⟩ "1" (by decide)
  exact ⟨⟨_, rfl⟩, hroot, fin, hfin, hsub,
    (root_gets_initial_input SampleNode.Run simpleGraph ⟨_, rfl⟩ [("path", true)] []
      chainSchedule fin hfin "1" 0 _ hsub hroot).2⟩

/-- C16 (counterexample): on the chain `1 → 2` whose node `1` returns the map with the one
key `out`, `Execute` with the initial input that has the key `path` submits node `2` with
the input that has the key `out` only: the key `path` of the initial input is not in it. -/
theorem chain_input_lacks_initial_key :
    (fixedChain.Execute SampleNode.Run [("path", true)] [] chainSchedule).trace?
      = some [Event.submit "1" 0 [("path", true)], Event.result "1" [("out", true)],
          Event.submit "2" 1 [("out", true)],
          Event.result "2" [("out", true), ("n_2", true)], Event.stop, Event.wait] ∧
    GoMap.has ([("path", true)] : Args Bool) "path" = true ∧
    GoMap.has ([("out", true)] : Args Bool) "path" = false := by
  decide

/-- C16 (amended): in every run of `Execute` on the chain `x → y` of two nodes, for every
initial input and every `Run`, the input submitted with node `y` is what the `Run` of node
`x` returned on the initial input: it has the keys of that output with their values and no
other key, so it has a key of the initial input only if the output of node `x` has it. -/
theorem chain_input_is_first_output (Run : N → Args V → RunResult V E) (x y : String)
    (hxy : x ≠ y) (n1 n2 : N) (args : Args V)
    (opts : List (GraphExecuteOptions → GraphExecuteOptions)) (sched : List Step)
    (fin : execState N V)
    (h : ((Graph.chainOf x y n1 n2).Execute Run args opts sched).state? = some fin)
    (j : Nat) (a : Args V) (hsub : Event.submit y j a ∈ fin.trace) :
    ∃ res, Run n1 args = RunResult.ok res ∧
      (∀ k, GoMap.lookup a k = GoMap.lookup res k) ∧
      (∀ k, GoMap.has a k = true ↔ GoMap.has res k = true) := by
  obtain ⟨st0, hgood, ht, _⟩ := Graph.Execute.trace_good Run _
    (Graph.chainOf_built x y n1 n2) args opts sched fin h
  have hmem : (y, j, a) ∈ Event.subs st0.trace := by
    rw [← ht]
    exact (Event.mem_subs_iff _ _ _ _).mpr hsub
  obtain ⟨res, hrun, hk⟩ := Graph.Execute.chain_input Run x y n1 n2 hxy args st0 hgood j a hmem
  refine ⟨res, hrun, hk, fun k => ?_⟩
  unfold GoMap.has
  rw [hk k]

/-- C16 (amended), on the chain `1 → 2` with the initial input that has the key `path`. -/
theorem chain_input_is_first_output_witness :
    ("1" : String) ≠ "2" ∧
    ∃ fin : execState SampleNode Bool,
      ((Graph.chainOf "1" "2" (SampleNode.fixed [("out", true)]) (SampleNode.test "2")).Execute
        SampleNode.Run [("path", true)] [] chainSchedule).state? = some fin ∧
      Event.submit "2" 1 [("out", true)] ∈ fin.trace ∧
      ∃ res, SampleNode.Run (SampleNode.fixed [("out", true)]) [("path", true)]
          = RunResult.ok res ∧
        (∀ k, GoMap.lookup ([("out", true)] : Args Bool) k = GoMap.lookup res k) ∧
        (∀ k, GoMap.has ([("out", true)] : Args Bool) k = true ↔ GoMap.has res k = true) := by
  obtain ⟨fin, hfin, ht⟩ := Outcome.trace?_eq_some
    ((Graph.chainOf "1" "2" (SampleNode.fixed [("out", true)]) (SampleNode.test "2")).Execute
      SampleNode.Run [("path", true)] [] chainSchedule)
    [Event.submit "1" 0 [("path", true)], Event.result "1" [("out", true)],
      Event.submit "2" 1 [("out", true)],
      Event.result "2" [("out", true), ("n_2", true)], Event.stop, Event.wait] (by decide)
  have hsub : Event.submit "2" 1 [("out", true)] ∈ fin.trace := by
    rw [ht]
    decide
  exact ⟨by decide, fin, hfin, hsub,
    chain_input_is_first_output SampleNode.Run "1" "2" (by decide) _ _ _ [] chainSchedule fin
      hfin 1 _ hsub⟩

/-- C17: on a graph built through `AddNode` and `AddEdge` whose nodes all return a copy of
their input with the extra key `"n_" ++ name` set, whenever `Execute` returns a result table,
under any schedule, the table holds for each node a result that has the marker of the node
and of every node from which a path leads to it, and every key of that result is such a
marker or a key of the initial input (so with an empty initial input the keys of the result
are exactly those markers). -/
theorem marker_results_hold_ancestors (Run : N → Args V → RunResult V E) (g : Graph N)
    (hg : g.Built) (args : Args V) (name : N → String) (val : N → V)
    (hmark : ∀ u n, GoMap.lookup g.store.vertices u = some n →
      ∀ a, Run n a = RunResult.ok (GoMap.set a ("n_" ++ name n) (val n)))
    (opts : List (GraphExecuteOptions → GraphExecuteOptions))
    (sched : List Step) (tbl : GoMap String (Args V)) (fin : execState N V)
    (h : g.Execute Run args opts sched = Outcome.returned tbl fin) :
    ∀ u, g.store.IsNode u → ∃ res, GoMap.lookup tbl u = some res ∧
      (∀ x, (x = u ∨ g.store.Path x u) →
        GoMap.has res ("n_" ++ name (g.Node x).1) = true) ∧
      (∀ k, GoMap.has res k = true → GoMap.has args k = true ∨
        ∃ x, (x = u ∨ g.store.Path x u) ∧ k = "n_" ++ name (g.Node x).1) := by
  have hmark1 : ∀ u n, GoMap.lookup g.store.vertices u = some n →
      ∀ a, Run n a = RunResult.ok
        (GoMap.set a ("n_" ++ name (g.Node u).1) (val (g.Node u).1)) := by
    intro u n hn a
    have hN : (g.Node u).1 = n := by
      obtain ⟨n1, hn1, hN1⟩ := memoryStore.Node_of_isNode g.store u
        (by unfold memoryStore.IsNode GoMap.has; rw [hn]; rfl)
      rw [hn] at hn1
      show (g.store.Node u).1 = n
      rw [hN1]
      exact (Option.some.inj hn1).symm
    rw [hN]
    exact hmark u n hn a
  obtain ⟨_, r2⟩ := Graph.Execute.run_reach Run g hg args opts
    (fun st => ∀ u res, (u, res) ∈ Event.recs st.trace →
      (∀ x, (x = u ∨ g.store.Path x u) →
        GoMap.has res ("n_" ++ name (g.Node x).1) = true) ∧
      (∀ k, GoMap.has res k = true → GoMap.has args k = true ∨
        ∃ x, (x = u ∨ g.store.Path x u) ∧ k = "n_" ++ name (g.Node x).1)) sched
    (fun st _ hrec _ _ _ _ _ u res hmem => by rw [hrec] at hmem; exact absurd hmem (by simp))
    (fun st s st1 _ hgood hP hstep =>
      Graph.Execute.marker_step Run g hg args (fun x => "n_" ++ name (g.Node x).1)
        (fun x => val (g.Node x).1) hmark1 st st1 s hgood hP hstep)
  rcases r2 (by rw [h]; simp) with hp | ⟨st0, s, _, hgood0, hP, hs⟩
  · rw [h] at hp
    exact absurd hp (by simp)
  · rw [h] at hs
    obtain ⟨_, hrun, htbl, hfin⟩ := Graph.Execute.step_returned Run g st0 fin s tbl hs
    obtain ⟨_, _, hrecs⟩ := Graph.Execute.Good_exit Run g hg args st0 hgood0 hrun
    have htbl0 : tbl = Event.recs st0.trace := by rw [htbl, hgood0.results]
    intro u hu
    have hmem : u ∈ GoMap.keys (Event.recs st0.trace) :=
      hrecs.mem_iff.mpr ((GoMap.mem_keys_iff g.store.vertices u).mpr hu)
    obtain ⟨⟨u1, res⟩, hres, hfst⟩ := List.mem_map.mp hmem
    simp only at hfst
    subst hfst
    refine ⟨res, ?_, hP u1 res hres⟩
    rw [htbl0]
    exact (GoMap.mem_iff_lookup _ hgood0.recNodup u1 res).mp hres

/-- C17, on the diamond of test nodes when the result of `3` is received before that
of `2`: the result of node `4` has exactly the four markers. -/
theorem marker_results_hold_ancestors_witness :
    diamondGraph.Built ∧
    (∀ u n, GoMap.lookup diamondGraph.store.vertices u = some n →
      ∀ a, SampleNode.Run n a = RunResult.ok (GoMap.set a ("n_" ++ n.name) true)) ∧
    ∃ tbl fin, diamondGraph.Execute SampleNode.Run [] [] diamondScheduleSwapped
        = Outcome.returned tbl fin ∧
      GoMap.lookup tbl "4"
        = some [("n_1", true), ("n_3", true), ("n_2", true), ("n_4", true)] ∧
      ∀ u, diamondGraph.store.IsNode u → ∃ res, GoMap.lookup tbl u = some res ∧
        (∀ x, (x = u ∨ diamondGraph.store.Path x u) →
          GoMap.has res ("n_" ++ (diamondGraph.Node x).1.name) = true) ∧
        (∀ k, GoMap.has res k = true → GoMap.has ([] : Args Bool) k = true ∨
          ∃ x, (x = u ∨ diamondGraph.store.Path x u) ∧
            k = "n_" ++ (diamondGraph.Node x).1.name) := by
  have hall : ∀ p ∈ diamondGraph.store.vertices, p.2.isTest = true := by decide
  have hmark : ∀ u n, GoMap.lookup diamondGraph.store.vertices u = some n →
      ∀ a, SampleNode.Run n a = RunResult.ok (GoMap.set a ("n_" ++ n.name) true) :=
    fun u n hn a => SampleNode.run_test n (hall (u, n) (GoMap.lookup_some_mem _ _ _ hn)) a
  obtain ⟨fin, h⟩ := Outcome.results?_eq_some
    (diamondGraph.Execute SampleNode.Run [] [] diamondScheduleSwapped)
    [("1", [("n_1", true)]), ("3", [("n_1", true), ("n_3", true)]),
      ("2", [("n_1", true), ("n_2", true)]),
      ("4", [("n_1", true), ("n_3", true), ("n_2", true), ("n_4", true)])] (by decide)
  exact ⟨⟨_, rfl⟩, hmark, _, fin, h, by decide,
    marker_results_hold_ancestors SampleNode.Run diamondGraph ⟨_, rfl⟩ [] SampleNode.name
      (fun _ => true) hmark [] diamondScheduleSwapped _ fin h⟩

/-- C18: in a run of `Execute` on a graph built through `AddNode` and `AddEdge` under a
schedule in which the context is not cancelled: a result table is returned only when the
`Run` of every submitted job returned a result; an error is returned only together with no
table, and it is the error that the `Run` of a submitted job returned, as it was returned;
and while the error of a job is pending, the coordinator loop returns it when its `select`
takes the error case, cannot take the default case, and runs at most as many further
iterations as there are nodes whose result is not yet recorded. -/
theorem node_error_is_returned (Run : N → Args V → RunResult V E) (g : Graph N)
    (hg : g.Built) (args : Args V) (opts : List (GraphExecuteOptions → GraphExecuteOptions))
    (sched : List Step) (hnc : Step.cancel ∉ sched) :
    (∀ tbl fin, g.Execute Run args opts sched = Outcome.returned tbl fin →
      ∀ job ∈ fin.pool.jobQueue, ∃ res, Run job.Node job.Args = RunResult.ok res) ∧
    (∀ err fin, g.Execute Run args opts sched = Outcome.failed err fin →
      (g.Execute Run args opts sched).results? = none ∧
      ∃ (j : Nat) (job : nodeJob N V) (e : E), fin.pool.jobQueue[j]? = some job ∧
        Run job.Node job.Args = RunResult.error e ∧ err = ExecError.node e) ∧
    (∀ st j e, g.Execute Run args opts sched = Outcome.running st →
      Graph.Execute.errReady Run st j = some e →
      (∃ fin, g.Execute Run args opts (sched ++ [Step.poll (Choice.errChan j)])
        = Outcome.failed (ExecError.node e) fin) ∧
      g.Execute Run args opts (sched ++ [Step.poll Choice.default]) = Outcome.infeasible ∧
      ∀ more st2, Step.cancel ∉ more →
        g.Execute Run args opts (sched ++ more) = Outcome.running st2 →
        more.countP Step.isPoll + (Event.recs st.trace).length
          ≤ GoMap.len g.store.vertices) := by
  have hw := Graph.built_wellFormed g hg
  obtain ⟨r1, r2⟩ := Graph.Execute.run_uncancelled Run g hg args opts sched hnc
  refine ⟨?_, ?_, ?_⟩
  · intro tbl fin h
    obtain ⟨st0, hgood, hrun, _, hfin⟩ :=
      Graph.Execute.returned_good Run g hg args opts sched tbl fin h
    have := Graph.Execute.exit_jobs_ok Run g hg args st0 hgood hrun
    rw [hfin]
    exact this
  · intro err fin h
    refine ⟨by rw [h]; rfl, ?_⟩
    rcases r2 (by rw [h]; simp) with hp | ⟨st0, s, _, hgood0, hc0, hs⟩
    · rw [h] at hp
      exact absurd hp (by simp)
    · rw [h] at hs
      obtain ⟨hjq, hcase⟩ := Graph.Execute.step_failed Run g hw args st0 fin hgood0 s err hs
      rcases hcase with ⟨_, hc, _⟩ | ⟨j, e, _, he, herr, _, _⟩
      · rw [hc0] at hc
        exact absurd hc (by simp)
      · obtain ⟨_, job, hq, hr⟩ := (Graph.Execute.errReady_iff Run st0 j e).mp he
        exact ⟨j, job, e, by rw [hjq]; exact hq, hr, herr⟩
  · intro st j e h he
    obtain ⟨hgood, hc⟩ := r1 st h
    refine ⟨?_, ?_, ?_⟩
    · obtain ⟨fin, hfin⟩ := Graph.Execute.step_poll_err Run g args st hgood j e he
      refine ⟨fin, ?_⟩
      rw [Graph.Execute.run_append Run g hg args opts sched st h,
        Graph.Execute.loop_single Run g st _ (by rw [hfin]; simp), hfin]
    · have hd := Graph.Execute.step_poll_default Run g st j e he
      rw [Graph.Execute.run_append Run g hg args opts sched st h,
        Graph.Execute.loop_single Run g st _ (by rw [hd]; simp), hd]
    · intro more st2 hmore h2
      rw [Graph.Execute.run_append Run g hg args opts sched st h] at h2
      obtain ⟨hgood2, hlen⟩ :=
        Graph.Execute.pending_loop Run g hw args j e more hmore st st2 hgood he hc h2
      have := Graph.Execute.Good_recs_le Run g args st2 hgood2
      omega

/-- C18, on the graph of one failing node, after its job was taken and has failed. -/
theorem node_error_is_returned_witness :
    brokenGraph.Built ∧ Step.cancel ∉ [Step.take, Step.finish 0] ∧
    (brokenGraph.Execute SampleNode.Run [] []
      ([Step.take, Step.finish 0] ++ [Step.poll (Choice.errChan 0)])).error?
        = some (ExecError.node "node is broken.") ∧
    ∃ st, brokenGraph.Execute SampleNode.Run [] [] [Step.take, Step.finish 0]
        = Outcome.running st ∧
      Graph.Execute.errReady SampleNode.Run st 0 = some "node is broken." ∧
      (∃ fin, brokenGraph.Execute SampleNode.Run [] []
        ([Step.take, Step.finish 0] ++ [Step.poll (Choice.errChan 0)])
          = Outcome.failed (ExecError.node "node is broken.") fin) ∧
      brokenGraph.Execute SampleNode.Run [] []
        ([Step.take, Step.finish 0] ++ [Step.poll Choice.default]) = Outcome.infeasible := by
  obtain ⟨st, hst, he⟩ := Outcome.running?_map_eq_some
    (brokenGraph.Execute SampleNode.Run [] [] [Step.take, Step.finish 0])
    (fun st => Graph.Execute.errReady SampleNode.Run st 0) (some "node is broken.") (by decide)
  have h := (node_error_is_returned SampleNode.Run brokenGraph ⟨_, rfl⟩ [] []
    [Step.take, Step.finish 0] (by decide)).2.2 st 0 "node is broken." hst he
  exact ⟨⟨_, rfl⟩, by decide, by decide, st, hst, he, h.1, h.2.1⟩

/-- C19 (counterexample): on the graph of one failing node, after the job has failed and the
context was cancelled, both the cancellation and the error of the node are ready in the next
iteration of the coordinator loop, and `Execute` returns the error of the node when the
`select` takes the error case. -/
theorem cancel_has_no_priority :
    (brokenGraph.Execute SampleNode.Run [] [] raceSchedule).running?.map
        (fun st => (st.ctxDone, Graph.Execute.errReady SampleNode.Run st 0))
      = some (true, some "node is broken.") ∧
    (brokenGraph.Execute SampleNode.Run [] []
        (raceSchedule ++ [Step.poll (Choice.errChan 0)])).error?
      = some (ExecError.node "node is broken.") ∧
    (brokenGraph.Execute SampleNode.Run [] []
        (raceSchedule ++ [Step.poll (Choice.errChan 0)])).error?
      ≠ some ExecError.ctx := by
  decide

/-- C19 (amended): when in an iteration of the coordinator loop of `Execute`, on a graph
built through `AddNode` and `AddEdge`, both the cancellation of the context and the error of
a node are ready, the `select` takes one of its ready cases, none with priority. If it takes
the context case `Execute` returns the cancellation error, and if it takes the error case
`Execute` returns the error of the node, each with no result table. It cannot take the
default case. The result case is either not ready or taken: then `Execute` does not return in
this iteration, one more result is recorded and the loop goes on with the cancellation and
the error still ready. However the run goes on from there, it never returns a result table,
an error it returns is the cancellation error or the error of a node, and the loop runs at
most as many further iterations as there are nodes whose result is not yet recorded. -/
theorem cancel_or_node_error (Run : N → Args V → RunResult V E) (g : Graph N)
    (hg : g.Built) (args : Args V) (opts : List (GraphExecuteOptions → GraphExecuteOptions))
    (sched : List Step) (st : execState N V) (j : Nat) (e : E)
    (h : g.Execute Run args opts sched = Outcome.running st)
    (hc : st.ctxDone = true) (he : Graph.Execute.errReady Run st j = some e) :
    ((g.Execute Run args opts (sched ++ [Step.poll Choice.ctxDone])).error?
        = some ExecError.ctx ∧
      (g.Execute Run args opts (sched ++ [Step.poll Choice.ctxDone])).results? = none) ∧
    ((g.Execute Run args opts (sched ++ [Step.poll (Choice.errChan j)])).error?
        = some (ExecError.node e) ∧
      (g.Execute Run args opts (sched ++ [Step.poll (Choice.errChan j)])).results? = none) ∧
    g.Execute Run args opts (sched ++ [Step.poll Choice.default]) = Outcome.infeasible ∧
    (g.Execute Run args opts (sched ++ [Step.poll Choice.result]) = Outcome.infeasible ∨
      ∃ st1, g.Execute Run args opts (sched ++ [Step.poll Choice.result])
          = Outcome.running st1 ∧
        st1.ctxDone = true ∧ Graph.Execute.errReady Run st1 j = some e ∧
        (Event.recs st1.trace).length = (Event.recs st.trace).length + 1) ∧
    (∀ more : List Step,
      (g.Execute Run args opts (sched ++ more)).results? = none ∧
      (∀ err, (g.Execute Run args opts (sched ++ more)).error? = some err →
        err = ExecError.ctx ∨ ∃ e1, err = ExecError.node e1) ∧
      (∀ st2, g.Execute Run args opts (sched ++ more) = Outcome.running st2 →
        st2.ctxDone = true ∧ Graph.Execute.errReady Run st2 j = some e ∧
          more.countP Step.isPoll + (Event.recs st.trace).length
            ≤ GoMap.len g.store.vertices)) := by
  have hw := Graph.built_wellFormed g hg
  obtain ⟨r1, _⟩ := Graph.Execute.run_reach Run g hg args opts (fun _ => True) sched
    (fun _ _ _ _ _ _ _ _ => trivial) (fun _ _ _ _ _ _ _ => trivial)
  obtain ⟨hgood, _⟩ := r1 st h
  have hpos := Graph.Execute.pending_running Run g args st hgood j e he
  obtain ⟨fin1, hfin1⟩ := Graph.Execute.step_poll_ctx Run g st hpos hc
  obtain ⟨fin2, hfin2⟩ := Graph.Execute.step_poll_err Run g args st hgood j e he
  have hd := Graph.Execute.step_poll_default Run g st j e he
  refine ⟨?_, ?_, ?_, ?_, ?_⟩
  · rw [Graph.Execute.run_append Run g hg args opts sched st h,
      Graph.Execute.loop_single Run g st _ (by rw [hfin1]; simp), hfin1]
    exact ⟨rfl, rfl⟩
  · rw [Graph.Execute.run_append Run g hg args opts sched st h,
      Graph.Execute.loop_single Run g st _ (by rw [hfin2]; simp), hfin2]
    exact ⟨rfl, rfl⟩
  · rw [Graph.Execute.run_append Run g hg args opts sched st h,
      Graph.Execute.loop_single Run g st _ (by rw [hd]; simp), hd]
  · rw [Graph.Execute.run_append Run g hg args opts sched st h]
    rcases Graph.Execute.step_poll_result Run g hw args st hgood j e he with hinf | ⟨st1, hst1⟩
    · left
      rw [Graph.Execute.loop_single Run g st _ (by rw [hinf]; simp), hinf]
    · right
      have hloop : Graph.Execute.loop Run g st [Step.poll Choice.result]
          = Outcome.running st1 := by
        rw [Graph.Execute.loop_cons_running Run g st st1 _ [] hst1, Graph.Execute.loop_nil]
      obtain ⟨he1, hc1, hlen⟩ :=
        Graph.Execute.race_step Run g hw args st st1 hgood j e he hc _ hst1
      exact ⟨st1, hloop, hc1, he1, by simpa [Step.isPoll] using hlen⟩
  · intro more
    rw [Graph.Execute.run_append Run g hg args opts sched st h]
    obtain ⟨i1, i2, i3⟩ := Graph.Execute.race_loop Run g hw args j e more st hgood he hc
    refine ⟨?_, ?_, ?_⟩
    · cases ho : Graph.Execute.loop Run g st more with
      | returned t f => exact absurd ho (i2 t f)
      | running st2 => rfl
      | failed e1 f => rfl
      | infeasible => rfl
      | panicked => rfl
    · intro err herr
      cases ho : Graph.Execute.loop Run g st more with
      | returned t f => rw [ho] at herr; simp [Outcome.error?] at herr
      | running st2 => rw [ho] at herr; simp [Outcome.error?] at herr
      | infeasible => rw [ho] at herr; simp [Outcome.error?] at herr
      | panicked => rw [ho] at herr; simp [Outcome.error?] at herr
      | failed e1 f =>
        rw [ho] at herr
        simp only [Outcome.error?, Option.some.injEq] at herr
        rcases i3 e1 f ho with hctx | ⟨j1, e2, hnode, _⟩
        · exact Or.inl (by rw [← herr]; exact hctx)
        · exact Or.inr ⟨e2, by rw [← herr]; exact hnode⟩
    · intro st2 hloop
      obtain ⟨g2, e2, c2, l2⟩ := i1 st2 hloop
      have := Graph.Execute.Good_recs_le Run g args st2 g2
      exact ⟨c2, e2, by omega⟩

/-- C19 (amended), on the graph of a test node and a failing node after both jobs have
finished and the context was cancelled: the `select` can take the context case, the error
case or the result case. -/
theorem cancel_or_node_error_witness :
    raceGraph.Built ∧
    ∃ st, raceGraph.Execute SampleNode.Run [] [] twoJobsRaceSchedule = Outcome.running st ∧
      st.ctxDone = true ∧
      Graph.Execute.errReady SampleNode.Run st 1 = some "node is broken." ∧
      (raceGraph.Execute SampleNode.Run [] []
          (twoJobsRaceSchedule ++ [Step.poll Choice.ctxDone])).error? = some ExecError.ctx ∧
      (raceGraph.Execute SampleNode.Run [] []
          (twoJobsRaceSchedule ++ [Step.poll (Choice.errChan 1)])).error?
        = some (ExecError.node "node is broken.") ∧
      (∃ st1, raceGraph.Execute SampleNode.Run [] []
          (twoJobsRaceSchedule ++ [Step.poll Choice.result]) = Outcome.running st1 ∧
        st1.ctxDone = true ∧
        Graph.Execute.errReady SampleNode.Run st1 1 = some "node is broken.") := by
  obtain ⟨st, hst, hf⟩ := Outcome.running?_map_eq_some
    (raceGraph.Execute SampleNode.Run [] [] twoJobsRaceSchedule)
    (fun st => (st.ctxDone, Graph.Execute.errReady SampleNode.Run st 1))
    (true, some "node is broken.") (by decide)
  simp only [Prod.mk.injEq] at hf
  have h := cancel_or_node_error SampleNode.Run raceGraph ⟨_, rfl⟩ [] [] twoJobsRaceSchedule
    st 1 "node is broken." hst hf.1 hf.2
  have hres : raceGraph.Execute SampleNode.Run [] []
      (twoJobsRaceSchedule ++ [Step.poll Choice.result]) ≠ Outcome.infeasible := by
    intro hinf
    have hrun : (raceGraph.Execute SampleNode.Run [] []
        (twoJobsRaceSchedule ++ [Step.poll Choice.result])).running?.isSome = true := by
      decide
    rw [hinf] at hrun
    exact absurd hrun (by simp [Outcome.running?])
  rcases h.2.2.2.1 with hinf | ⟨st1, h1, h2, h3, _⟩
  · exact absurd hinf hres
  · exact ⟨⟨_, rfl⟩, st, hst, hf.1, hf.2, h.1.1, h.2.1.1, st1, h1, h2, h3⟩

/-- C20 (counterexample): on the diamond whose nodes `2` and `3` return the key `x` with
different values, two runs of `Execute` with the same initial input that receive the results
of `2` and `3` in different orders both return a table, and the results of node `4` in the
two tables hold different values at the key `x`. -/
theorem tables_differ_by_completion_order :
    (collideGraph.Execute SampleNode.Run [] [] diamondSchedule).results?
      = some [("1", [("n_1", true)]), ("2", [("x", true)]), ("3", [("x", false)]),
          ("4", [("x", false), ("n_4", true)])] ∧
    (collideGraph.Execute SampleNode.Run [] [] diamondScheduleSwapped).results?
      = some [("1", [("n_1", true)]), ("3", [("x", false)]), ("2", [("x", true)]),
          ("4", [("x", true), ("n_4", true)])] ∧
    GoMap.lookup ([("x", false), ("n_4", true)] : Args Bool) "x"
      ≠ GoMap.lookup ([("x", true), ("n_4", true)] : Args Bool) "x" := by
  decide

/-- C20 (amended): two runs of `Execute` on the same graph, built through `AddNode` and
`AddEdge`, with the same initial input and the same `Run`, that both return a table return
tables with the same key set, the node identities of the graph, and with the same result
for every node into which no edge leads, whatever the schedules. When the output of `Run`
depends only on the content of its input, as that of a function of a Go map does, the
results of a node in the two tables have the same content, key by key, provided that in the
first table no two direct predecessors of the node, or of a node from which a path leads to
it, hold different values under one key; this is so for every node of a graph in which no
node has two direct predecessors. -/
theorem tables_agree_on_keys (Run : N → Args V → RunResult V E) (g : Graph N)
    (hg : g.Built) (args : Args V)
    (opts1 opts2 : List (GraphExecuteOptions → GraphExecuteOptions))
    (sched1 sched2 : List Step) (tbl1 tbl2 : GoMap String (Args V))
    (fin1 fin2 : execState N V)
    (h1 : g.Execute Run args opts1 sched1 = Outcome.returned tbl1 fin1)
    (h2 : g.Execute Run args opts2 sched2 = Outcome.returned tbl2 fin2) :
    List.Perm (GoMap.keys tbl1) (GoMap.keys tbl2) ∧
      (∀ u, GoMap.has tbl1 u = true ↔ GoMap.has tbl2 u = true) ∧
      (∀ u, GoMap.has tbl1 u = true ↔ g.store.IsNode u) ∧
      (∀ u, (∀ p, ¬ g.store.HasEdge p u) → GoMap.lookup tbl1 u = GoMap.lookup tbl2 u) ∧
      ((∀ n a b r, (∀ k, GoMap.lookup a k = GoMap.lookup b k) →
          Run n a = RunResult.ok r →
          ∃ r1, Run n b = RunResult.ok r1 ∧ ∀ k, GoMap.lookup r k = GoMap.lookup r1 k) →
        ∀ u,
          (∀ w, (w = u ∨ g.store.Path w u) → ∀ p q rp rq k v v1,
            g.store.HasEdge p w → g.store.HasEdge q w →
            GoMap.lookup tbl1 p = some rp → GoMap.lookup tbl1 q = some rq →
            GoMap.lookup rp k = some v → GoMap.lookup rq k = some v1 → v = v1) →
          g.store.IsNode u →
          ∃ r1 r2, GoMap.lookup tbl1 u = some r1 ∧ GoMap.lookup tbl2 u = some r2 ∧
            ∀ k, GoMap.lookup r1 k = GoMap.lookup r2 k) ∧
      ((∀ n a b r, (∀ k, GoMap.lookup a k = GoMap.lookup b k) →
          Run n a = RunResult.ok r →
          ∃ r1, Run n b = RunResult.ok r1 ∧ ∀ k, GoMap.lookup r k = GoMap.lookup r1 k) →
        (∀ w p q, g.store.HasEdge p w → g.store.HasEdge q w → p = q) →
        ∀ u, g.store.IsNode u →
          ∃ r1 r2, GoMap.lookup tbl1 u = some r1 ∧ GoMap.lookup tbl2 u = some r2 ∧
            ∀ k, GoMap.lookup r1 k = GoMap.lookup r2 k) := by
  obtain ⟨st1, hgood1, hrun1, htbl1, _⟩ :=
    Graph.Execute.returned_good Run g hg args opts1 sched1 tbl1 fin1 h1
  obtain ⟨st2, hgood2, hrun2, htbl2, _⟩ :=
    Graph.Execute.returned_good Run g hg args opts2 sched2 tbl2 fin2 h2
  obtain ⟨_, _, hrecs1⟩ := Graph.Execute.Good_exit Run g hg args st1 hgood1 hrun1
  obtain ⟨_, _, hrecs2⟩ := Graph.Execute.Good_exit Run g hg args st2 hgood2 hrun2
  rw [← htbl1] at hrecs1
  rw [← htbl2] at hrecs2
  have hperm : List.Perm (GoMap.keys tbl1) (GoMap.keys tbl2) := hrecs1.trans hrecs2.symm
  have hhas : ∀ u, GoMap.has tbl1 u = true ↔ GoMap.has tbl2 u = true := by
    intro u
    rw [← GoMap.mem_keys_iff, ← GoMap.mem_keys_iff]
    exact hperm.mem_iff
  have hnode : ∀ u, GoMap.has tbl1 u = true ↔ g.store.IsNode u := by
    intro u
    rw [← GoMap.mem_keys_iff, hrecs1.mem_iff]
    exact GoMap.mem_keys_iff g.store.vertices u
  have hagree : (∀ n a b r, (∀ k, GoMap.lookup a k = GoMap.lookup b k) →
        Run n a = RunResult.ok r →
        ∃ r1, Run n b = RunResult.ok r1 ∧ ∀ k, GoMap.lookup r k = GoMap.lookup r1 k) →
      ∀ u,
        (∀ w, (w = u ∨ g.store.Path w u) → ∀ p q rp rq k v v1,
          g.store.HasEdge p w → g.store.HasEdge q w →
          GoMap.lookup tbl1 p = some rp → GoMap.lookup tbl1 q = some rq →
          GoMap.lookup rp k = some v → GoMap.lookup rq k = some v1 → v = v1) →
        g.store.IsNode u →
        ∃ r1 r2, GoMap.lookup tbl1 u = some r1 ∧ GoMap.lookup tbl2 u = some r2 ∧
          ∀ k, GoMap.lookup r1 k = GoMap.lookup r2 k := by
    intro hdet u hnc hu
    obtain ⟨r1, hl1⟩ := (GoMap.has_iff_exists _ _).mp ((hnode u).mpr hu)
    obtain ⟨r2, hl2⟩ := (GoMap.has_iff_exists _ _).mp ((hhas u).mp ((hnode u).mpr hu))
    refine ⟨r1, r2, hl1, hl2, ?_⟩
    have hn1 : (GoMap.keys tbl1).Nodup := by
      rw [htbl1]
      exact hgood1.recNodup
    apply Graph.Execute.runs_agree Run g hg args hdet st1 st2 hgood1 hgood2 u
    · intro w hw p q rp rq k v v1 hp hq hrp hrq hk hk1
      rw [← htbl1] at hrp hrq
      exact hnc w hw p q rp rq k v v1 hp hq
        ((GoMap.mem_iff_lookup _ hn1 p rp).mp hrp) ((GoMap.mem_iff_lookup _ hn1 q rq).mp hrq)
        hk hk1
    · rw [← htbl1]
      exact GoMap.lookup_some_mem _ _ _ hl1
    · rw [← htbl2]
      exact GoMap.lookup_some_mem _ _ _ hl2
  refine ⟨hperm, hhas, hnode, ?_, hagree, ?_⟩
  · intro u hroot
    cases hl1 : GoMap.lookup tbl1 u with
    | none =>
      cases hl2 : GoMap.lookup tbl2 u with
      | none => rfl
      | some r2 =>
        have : GoMap.has tbl1 u = true := (hhas u).mpr (by unfold GoMap.has; rw [hl2]; rfl)
        unfold GoMap.has at this
        rw [hl1] at this
        exact absurd this (by simp)
    | some r1 =>
      have hh2 : GoMap.has tbl2 u = true := (hhas u).mp (by unfold GoMap.has; rw [hl1]; rfl)
      obtain ⟨r2, hl2⟩ := (GoMap.has_iff_exists _ _).mp hh2
      rw [hl2]
      have hm1 : (u, r1) ∈ Event.recs st1.trace := by
        rw [← htbl1]
        exact GoMap.lookup_some_mem _ _ _ hl1
      have hm2 : (u, r2) ∈ Event.recs st2.trace := by
        rw [← htbl2]
        exact GoMap.lookup_some_mem _ _ _ hl2
      have e1 := Graph.Execute.Good_root_value Run g args st1 hgood1 u r1 hm1 hroot
      have e2 := Graph.Execute.Good_root_value Run g args st2 hgood2 u r2 hm2 hroot
      rw [e1] at e2
      simp only [RunResult.ok.injEq] at e2
      rw [e2]
  · intro hdet hone u hu
    apply hagree hdet u ?_ hu
    intro w _ p q rp rq k v v1 hp hq hrp hrq hk hk1
    have hpq := hone w p q hp hq
    subst hpq
    rw [hrp] at hrq
    have hr := Option.some.inj hrq
    subst hr
    rw [hk] at hk1
    exact Option.some.inj hk1

/-- C20 (amended), on the two runs of the diamond of test nodes that receive the results of
`2` and `3` in different orders: the results of node `4` are written in different orders and
have the same content. -/
theorem tables_agree_on_keys_witness :
    diamondGraph.Built ∧
    ∃ fin1 fin2,
      diamondGraph.Execute SampleNode.Run [] [] diamondSchedule
        = Outcome.returned
          [("1", [("n_1", true)]), ("2", [("n_1", true), ("n_2", true)]),
            ("3", [("n_1", true), ("n_3", true)]),
            ("4", [("n_1", true), ("n_2", true), ("n_3", true), ("n_4", true)])] fin1 ∧
      diamondGraph.Execute SampleNode.Run [] [] diamondScheduleSwapped
        = Outcome.returned
          [("1", [("n_1", true)]), ("3", [("n_1", true), ("n_3", true)]),
            ("2", [("n_1", true), ("n_2", true)]),
            ("4", [("n_1", true), ("n_3", true), ("n_2", true), ("n_4", true)])] fin2 ∧
      (∀ n a b r, (∀ k, GoMap.lookup a k = GoMap.lookup b k) →
        SampleNode.Run n a = RunResult.ok r →
        ∃ r1, SampleNode.Run n b = RunResult.ok r1 ∧
          ∀ k, GoMap.lookup r k = GoMap.lookup r1 k) ∧
      diamondGraph.store.IsNode "4" ∧
      ∀ k, GoMap.lookup
          ([("n_1", true), ("n_2", true), ("n_3", true), ("n_4", true)] : Args Bool) k
        = GoMap.lookup
          ([("n_1", true), ("n_3", true), ("n_2", true), ("n_4", true)] : Args Bool) k := by
  obtain ⟨fin1, h1⟩ := Outcome.results?_eq_some
    (diamondGraph.Execute SampleNode.Run [] [] diamondSchedule)
    [("1", [("n_1", true)]), ("2", [("n_1", true), ("n_2", true)]),
      ("3", [("n_1", true), ("n_3", true)]),
      ("4", [("n_1", true), ("n_2", true), ("n_3", true), ("n_4", true)])] (by decide)
  obtain ⟨fin2, h2⟩ := Outcome.results?_eq_some
    (diamondGraph.Execute SampleNode.Run [] [] diamondScheduleSwapped)
    [("1", [("n_1", true)]), ("3", [("n_1", true), ("n_3", true)]),
      ("2", [("n_1", true), ("n_2", true)]),
      ("4", [("n_1", true), ("n_3", true), ("n_2", true), ("n_4", true)])] (by decide)
  have hall : ∀ p ∈ ([("1", [("n_1", true)]), ("2", [("n_1", true), ("n_2", true)]),
      ("3", [("n_1", true), ("n_3", true)]),
      ("4", [("n_1", true), ("n_2", true), ("n_3", true), ("n_4", true)])] :
        GoMap String (Args Bool)), ∀ q ∈ p.2, q.2 = true := by
    decide
  have hval : ∀ p rp k v, GoMap.lookup ([("1", [("n_1", true)]),
      ("2", [("n_1", true), ("n_2", true)]), ("3", [("n_1", true), ("n_3", true)]),
      ("4", [("n_1", true), ("n_2", true), ("n_3", true), ("n_4", true)])] :
        GoMap String (Args Bool)) p = some rp → GoMap.lookup rp k = some v → v = true :=
    fun p rp k v hp hk =>
      hall (p, rp) (GoMap.lookup_some_mem _ _ _ hp) (k, v) (GoMap.lookup_some_mem _ _ _ hk)
  have h := (tables_agree_on_keys SampleNode.Run diamondGraph ⟨_, rfl⟩ [] [] []
    diamondSchedule diamondScheduleSwapped _ _ fin1 fin2 h1 h2).2.2.2.2.1
    SampleNode.run_ext "4"
    (fun w _ p q rp rq k v v1 _ _ hrp hrq hk hk1 => by
      rw [hval p rp k v hrp hk, hval q rq k v1 hrq hk1])
    (by decide)
  obtain ⟨r1, r2, hl1, hl2, heq⟩ := h
  have e1 : r1 = [("n_1", true), ("n_2", true), ("n_3", true), ("n_4", true)] := by
    have : GoMap.lookup ([("1", [("n_1", true)]), ("2", [("n_1", true), ("n_2", true)]),
      ("3", [("n_1", true), ("n_3", true)]),
      ("4", [("n_1", true), ("n_2", true), ("n_3", true), ("n_4", true)])] :
        GoMap String (Args Bool)) "4"
        = some [("n_1", true), ("n_2", true), ("n_3", true), ("n_4", true)] := by decide
    rw [this] at hl1
    exact (Option.some.inj hl1).symm
  have e2 : r2 = [("n_1", true), ("n_3", true), ("n_2", true), ("n_4", true)] := by
    have : GoMap.lookup ([("1", [("n_1", true)]), ("3", [("n_1", true), ("n_3", true)]),
      ("2", [("n_1", true), ("n_2", true)]),
      ("4", [("n_1", true), ("n_3", true), ("n_2", true), ("n_4", true)])] :
        GoMap String (Args Bool)) "4"
        = some [("n_1", true), ("n_3", true), ("n_2", true), ("n_4", true)] := by decide
    rw [this] at hl2
    exact (Option.some.inj hl2).symm
  rw [e1, e2] at heq
  exact ⟨⟨_, rfl⟩, fin1, fin2, h1, h2, SampleNode.run_ext, by decide, heq⟩

end ringchain

/-! ## The claims about cancellation, the store interface, the option constructors, the
blocks of a scroll, the job queue, the stack and termination -/

namespace ringchain

/-- C21: on the chain `1 → 2`, when the context is cancelled and the `select` of the first
iteration of the coordinator loop takes the context case, `Execute` returns the cancellation
error and no result table, and up to that return the coordinator has done the one submission
only: it has called neither `Stop` nor `Wait` on the worker pool. The run that leaves the
loop after the last result ends with the calls of `Stop` and `Wait`. -/
theorem cancel_returns_before_stop :
    (simpleGraph.Execute SampleNode.Run [] [] cancelSchedule).error? = some ExecError.ctx ∧
    (simpleGraph.Execute SampleNode.Run [] [] cancelSchedule).results? = none ∧
    (simpleGraph.Execute SampleNode.Run [] [] cancelSchedule).trace?
      = some [Event.submit "1" 0 []] ∧
    Event.stop ∉ ([Event.submit "1" 0 []] : List (Event Bool)) ∧
    Event.wait ∉ ([Event.submit "1" 0 []] : List (Event Bool)) ∧
    (simpleGraph.Execute SampleNode.Run [] [] chainSchedule).trace?.map (fun t => t.drop 4)
      = some [Event.stop, Event.wait] := by
  decide

/-- C22: `memoryStore.AddEdge` returns nil for every store and all arguments. On the new
store, which has no node, `AddEdge("a", "b", e)` returns nil and stores the edge, and the
same call once more returns nil again: neither `ErrNodeNotFound` nor `ErrEdgeAlreadyExists`
is ever returned. -/
theorem store_addEdge_never_fails :
    (∀ (N : Type) (s : memoryStore N) (a b : String) (e : Edge), (s.AddEdge a b e).2 = none) ∧
    ¬ (newMemoryStore : memoryStore TestNode).IsNode "a" ∧
    ¬ (newMemoryStore : memoryStore TestNode).IsNode "b" ∧
    ((newMemoryStore : memoryStore TestNode).AddEdge "a" "b"
      { SourceHash := "a", TargetHash := "b" }).2 = none ∧
    ((newMemoryStore : memoryStore TestNode).AddEdge "a" "b"
      { SourceHash := "a", TargetHash := "b" }).1.HasEdge "a" "b" ∧
    ((((newMemoryStore : memoryStore TestNode).AddEdge "a" "b"
      { SourceHash := "a", TargetHash := "b" }).1).AddEdge "a" "b"
      { SourceHash := "a", TargetHash := "b" }).2 = none :=
  ⟨fun _ _ _ _ _ => rfl, by decide, by decide, rfl, by decide, rfl⟩

/-- C23 (counterexample): after `AddEdge("a", "a", e)` alone on the new store, `Edge` with
the two arguments swapped, which is `Edge("a", "a")` again, returns `e` and does not fail
with `ErrEdgeNotFound`. -/
theorem edge_of_self_loop_found :
    ((newMemoryStore : memoryStore TestNode).AddEdge "a" "a"
      { SourceHash := "a", TargetHash := "a" }).1.Edge "a" "a"
      = ({ SourceHash := "a", TargetHash := "a" }, none) := by
  decide

/-- C23 (amended): for every store and every `s` and `t`, equal or not, `Edge(s, t)` fails
with `ErrEdgeNotFound` exactly when no edge from `s` to `t` is stored, and otherwise returns
the stored edge value with a nil error; after `AddEdge(s, t, e)` the call `Edge(s, t)`
returns `e`, and after `RemoveEdge(s, t)` the call `Edge(s, t)` fails with
`ErrEdgeNotFound`. For `s ≠ t`, after `AddEdge(s, t, e)` the call `Edge(t, s)` returns what
it returned before, so after `AddEdge(s, t, e)` alone on the new store it fails with
`ErrEdgeNotFound`. -/
theorem store_edge_lookup {N : Type} (st : memoryStore N) (s t : String) (e : Edge) :
    ((st.Edge s t).2 = some Error.ErrEdgeNotFound ↔ ¬ st.HasEdge s t) ∧
    (¬ st.HasEdge s t →
      st.Edge s t = ({ SourceHash := "", TargetHash := "" }, some Error.ErrEdgeNotFound)) ∧
    (∀ e1, st.outHolds s t e1 → st.Edge s t = (e1, none)) ∧
    (st.AddEdge s t e).1.Edge s t = (e, none) ∧
    (st.RemoveEdge s t).1.Edge s t
      = ({ SourceHash := "", TargetHash := "" }, some Error.ErrEdgeNotFound) ∧
    (s ≠ t →
      (st.AddEdge s t e).1.Edge t s = st.Edge t s ∧
      ((newMemoryStore : memoryStore N).AddEdge s t e).1.Edge t s
        = ({ SourceHash := "", TargetHash := "" }, some Error.ErrEdgeNotFound)) := by
  refine ⟨?_, ?_, ?_, ?_, ?_, ?_⟩
  · constructor
    · intro h hhas
      rw [(memoryStore.Edge_err_none_iff st s t).mpr hhas] at h
      exact absurd h (by simp)
    · intro h
      rw [memoryStore.Edge_of_not_hasEdge st s t h]
  · intro h
    exact memoryStore.Edge_of_not_hasEdge st s t h
  · intro e1 h1
    exact memoryStore.Edge_of_outHolds st s t e1 h1
  · rw [memoryStore.Edge_eq, memoryStore.AddEdge_out]
    simp
  · rw [memoryStore.Edge_eq, memoryStore.RemoveEdge_out]
    simp
  · intro hst
    have hts : ¬ (t = s ∧ s = t) := fun h => hst h.2
    constructor
    · rw [memoryStore.Edge_eq, memoryStore.AddEdge_out, if_neg hts, ← memoryStore.Edge_eq]
    · rw [memoryStore.Edge_eq, memoryStore.AddEdge_out, if_neg hts]
      rfl

/-- C23 (amended), for the edge from `a` to `b` added to the new store, found from `a` to `b`
and not from `b` to `a`, and for the edge from `a` to `a` added to the new store, found from
`a` to `a`. -/
theorem store_edge_lookup_witness :
    ("a" : String) ≠ "b" ∧
    ((newMemoryStore : memoryStore TestNode).AddEdge "a" "b"
      { SourceHash := "a", TargetHash := "b" }).1.Edge "a" "b"
      = ({ SourceHash := "a", TargetHash := "b" }, none) ∧
    ((newMemoryStore : memoryStore TestNode).AddEdge "a" "b"
      { SourceHash := "a", TargetHash := "b" }).1.Edge "b" "a"
      = ({ SourceHash := "", TargetHash := "" }, some Error.ErrEdgeNotFound) ∧
    ((newMemoryStore : memoryStore TestNode).AddEdge "a" "a"
      { SourceHash := "a", TargetHash := "a" }).1.Edge "a" "a"
      = ({ SourceHash := "a", TargetHash := "a" }, none) :=
  ⟨by decide,
    (store_edge_lookup (newMemoryStore : memoryStore TestNode) "a" "b"
      { SourceHash := "a", TargetHash := "b" }).2.2.2.1,
    ((store_edge_lookup (newMemoryStore : memoryStore TestNode) "a" "b"
      { SourceHash := "a", TargetHash := "b" }).2.2.2.2.2 (by decide)).2,
    (store_edge_lookup (newMemoryStore : memoryStore TestNode) "a" "a"
      { SourceHash := "a", TargetHash := "a" }).2.2.2.1⟩

end ringchain

namespace openai

/-- C24: each of the eleven option constructors, applied to the empty options, sets its own
field to the given value and leaves every other field nil; and the request body that
`ChatCompletionCreate` builds from the messages and that single option is the body built
without options, which carries the messages, the configured model and no optional field,
with that one field set to the value. -/
theorem single_option_sets_own_field (o : OpenAiImpl) (msgs : List Message) :
    OpenAiImpl.ChatCompletionCreate.reqBody o msgs []
      = { Messages := msgs, Model := o.gptModel, FrequencyPenalty := none, LogitBias := none,
          MaxToken := none, N := none, PresencyPenalty := none, ResponseFormat := none,
          Seed := none, Stop := none, Stream := none, Temperature := none, TopP := none,
          Tools := none, ToolChoice := none, User := none } ∧
    (∀ v, WithFrequencyPenalty v ChatCompletionOptions.zero
        = { ChatCompletionOptions.zero with frequencyPenalty := some v } ∧
      OpenAiImpl.ChatCompletionCreate.reqBody o msgs [WithFrequencyPenalty v]
        = { OpenAiImpl.ChatCompletionCreate.reqBody o msgs [] with
            FrequencyPenalty := some v }) ∧
    (∀ v, WithTools v ChatCompletionOptions.zero
        = { ChatCompletionOptions.zero with tools := some v } ∧
      OpenAiImpl.ChatCompletionCreate.reqBody o msgs [WithTools v]
        = { OpenAiImpl.ChatCompletionCreate.reqBody o msgs [] with Tools := some v }) ∧
    (∀ v, WithToolChoice v ChatCompletionOptions.zero
        = { ChatCompletionOptions.zero with toolChoice := some v } ∧
      OpenAiImpl.ChatCompletionCreate.reqBody o msgs [WithToolChoice v]
        = { OpenAiImpl.ChatCompletionCreate.reqBody o msgs [] with ToolChoice := some v }) ∧
    (∀ v, WithLogitBias v ChatCompletionOptions.zero
        = { ChatCompletionOptions.zero with logitBias := some v } ∧
      OpenAiImpl.ChatCompletionCreate.reqBody o msgs [WithLogitBias v]
        = { OpenAiImpl.ChatCompletionCreate.reqBody o msgs [] with LogitBias := some v }) ∧
    (∀ v, WithMaxToken v ChatCompletionOptions.zero
        = { ChatCompletionOptions.zero with maxToken := some v } ∧
      OpenAiImpl.ChatCompletionCreate.reqBody o msgs [WithMaxToken v]
        = { OpenAiImpl.ChatCompletionCreate.reqBody o msgs [] with MaxToken := some v }) ∧
    (∀ v, WithN v ChatCompletionOptions.zero
        = { ChatCompletionOptions.zero with n := some v } ∧
      OpenAiImpl.ChatCompletionCreate.reqBody o msgs [WithN v]
        = { OpenAiImpl.ChatCompletionCreate.reqBody o msgs [] with N := some v }) ∧
    (∀ v, WithPresencyPenalty v ChatCompletionOptions.zero
        = { ChatCompletionOptions.zero with presencyPenalty := some v } ∧
      OpenAiImpl.ChatCompletionCreate.reqBody o msgs [WithPresencyPenalty v]
        = { OpenAiImpl.ChatCompletionCreate.reqBody o msgs [] with
            PresencyPenalty := some v }) ∧
    (∀ v, WithStop v ChatCompletionOptions.zero
        = { ChatCompletionOptions.zero with stop := some v } ∧
      OpenAiImpl.ChatCompletionCreate.reqBody o msgs [WithStop v]
        = { OpenAiImpl.ChatCompletionCreate.reqBody o msgs [] with Stop := some v }) ∧
    (∀ v, WithTemperature v ChatCompletionOptions.zero
        = { ChatCompletionOptions.zero with temperature := some v } ∧
      OpenAiImpl.ChatCompletionCreate.reqBody o msgs [WithTemperature v]
        = { OpenAiImpl.ChatCompletionCreate.reqBody o msgs [] with Temperature := some v }) ∧
    (∀ v, WithTopP v ChatCompletionOptions.zero
        = { ChatCompletionOptions.zero with topP := some v } ∧
      OpenAiImpl.ChatCompletionCreate.reqBody o msgs [WithTopP v]
        = { OpenAiImpl.ChatCompletionCreate.reqBody o msgs [] with TopP := some v }) ∧
    (∀ v, WithUser v ChatCompletionOptions.zero
        = { ChatCompletionOptions.zero with user := some v } ∧
      OpenAiImpl.ChatCompletionCreate.reqBody o msgs [WithUser v]
        = { OpenAiImpl.ChatCompletionCreate.reqBody o msgs [] with User := some v }) :=
  ⟨rfl, fun _ => ⟨rfl, rfl⟩, fun _ => ⟨rfl, rfl⟩, fun _ => ⟨rfl, rfl⟩, fun _ => ⟨rfl, rfl⟩,
    fun _ => ⟨rfl, rfl⟩, fun _ => ⟨rfl, rfl⟩, fun _ => ⟨rfl, rfl⟩, fun _ => ⟨rfl, rfl⟩,
    fun _ => ⟨rfl, rfl⟩, fun _ => ⟨rfl, rfl⟩, fun _ => ⟨rfl, rfl⟩⟩

end openai

namespace scrolls

/-- C25 (counterexample): the text `[[#system~]]hi[[~/user]]` holds the opening and the
closing tag of no one role, so it has no block `[[#role~]]...[[~/role]]`; `ParseBlocks` on it
returns no error but one message, with the role `system` and the content `hi`. -/
theorem mismatched_tags_make_a_block :
    (∀ r ∈ roles, ¬ (List.IsInfix (openTag r) "[[#system~]]hi[[~/user]]".toList ∧
      List.IsInfix (closeTag r) "[[#system~]]hi[[~/user]]".toList)) ∧
    (ParseBlocks plainParse plainExecute
        { text := "[[#system~]]hi[[~/user]]", funcMap := () } ()).toOption
      = some [{ Content := some "hi", Role := "system", Name := none, ToolCalls := [],
                ToolCallId := "" }] := by
  decide

/-- C25 (amended): let the template of a scroll render to a text. `ParseBlocks` returns the
error that no match was found exactly when no opening tag `[[#r~]]` of the text is followed
by a closing tag `[[~/r1]]`, for roles `r` and `r1` among system, user and assistant that need
not be equal. When the text is a sequence of blocks, each an opening tag, a content that
holds no closing tag, and a closing tag of any of the three roles, with texts in front of
the blocks that hold no opening tag and a text behind the last block in which no opening tag
is followed by a closing tag, `ParseBlocks` returns one message for each block, in the order
of the blocks, with the role of the opening tag and the content without its leading and
trailing newlines; the texts outside the blocks do not show in the result. Every rendered
text is such a sequence of blocks, possibly of none. -/
theorem parseBlocks_reads_blocks {F T A E : Type} (tmplParse : F → String → Except E T)
    (tmplExecute : T → A → Except E String) (s : Scroll F) (args : A) (tmpl : T)
    (parsedText : String) (hparse : tmplParse s.funcMap s.text = Except.ok tmpl)
    (hexec : tmplExecute tmpl args = Except.ok parsedText) :
    (ParseBlocks tmplParse tmplExecute s args = Except.error Error.noMatches
      ↔ NoBlock parsedText.toList) ∧
    (∀ (blocks : List Block) (rest : List Char), blocks ≠ [] → (∀ b ∈ blocks, b.Proper) →
      NoBlock rest → parsedText.toList = blocks.flatMap Block.text ++ rest →
      ParseBlocks tmplParse tmplExecute s args
        = Except.ok (blocks.map (fun b => blockMessage b.role b.content))) ∧
    (∃ (blocks : List Block) (rest : List Char), (∀ b ∈ blocks, b.Proper) ∧ NoBlock rest ∧
      parsedText.toList = blocks.flatMap Block.text ++ rest) := by
  have hdef : ParseBlocks tmplParse tmplExecute s args
      = if (FindAllStringSubmatch parsedText).length < 1 then Except.error Error.noMatches
        else Except.ok ((FindAllStringSubmatch parsedText).map
          (fun m => blockMessage m.1 m.2)) := by
    simp only [ParseBlocks, hparse, hexec]
  refine ⟨?_, ?_, blocks_exist parsedText.toList⟩
  · rw [hdef, ← FindAllStringSubmatch_nil_iff]
    cases hf : FindAllStringSubmatch parsedText with
    | nil => simp
    | cons m ms => simp
  · intro blocks rest hne hb hrest htext
    have hfind : FindAllStringSubmatch parsedText
        = blocks.map (fun b => (b.role, b.content)) := by
      unfold FindAllStringSubmatch
      rw [htext]
      exact findAll_blocks blocks rest hb hrest _ (blocks_length_le blocks rest)
    rw [hdef, hfind]
    have hlen : ¬ (blocks.map (fun b => (b.role, b.content))).length < 1 := by
      cases blocks with
      | nil => exact absurd rfl hne
      | cons b bs => simp
    rw [if_neg hlen, List.map_map]
    rfl

/-- C25 (amended), on a text of two blocks with text in front of, between and behind
them, the second block closed by the tag of another role. -/
theorem parseBlocks_reads_blocks_witness :
    plainParse () "x[[#system~]]\nhi\n[[~/system]] y [[#user~]]a[[~/assistant]]zz"
      = Except.ok "x[[#system~]]\nhi\n[[~/system]] y [[#user~]]a[[~/assistant]]zz" ∧
    plainExecute "x[[#system~]]\nhi\n[[~/system]] y [[#user~]]a[[~/assistant]]zz" ()
      = Except.ok "x[[#system~]]\nhi\n[[~/system]] y [[#user~]]a[[~/assistant]]zz" ∧
    ParseBlocks plainParse plainExecute
        { text := "x[[#system~]]\nhi\n[[~/system]] y [[#user~]]a[[~/assistant]]zz",
          funcMap := () } ()
      = Except.ok [{ Content := some "hi", Role := "system", Name := none, ToolCalls := [],
                     ToolCallId := "" },
                   { Content := some "a", Role := "user", Name := none, ToolCalls := [],
                     ToolCallId := "" }] :=
  ⟨rfl, rfl,
    (parseBlocks_reads_blocks plainParse plainExecute
      { text := "x[[#system~]]\nhi\n[[~/system]] y [[#user~]]a[[~/assistant]]zz",
        funcMap := () } () _ _ rfl rfl).2.1
      [{ gap := ['x'], role := "system", content := ['\n', 'h', 'i', '\n'],
         closeRole := "system" },
       { gap := [' ', 'y', ' '], role := "user", content := ['a'], closeRole := "assistant" }]
      ['z', 'z'] (by simp)
      (by
        intro b hb
        simp only [List.mem_cons, List.mem_singleton, List.not_mem_nil, or_false] at hb
        rcases hb with hb | hb
        · subst hb
          exact ⟨by decide, by decide, by decide, by decide⟩
        · subst hb
          exact ⟨by decide, by decide, by decide, by decide⟩)
      ((findMatch_none_iff _).mp (by decide)) (by decide)⟩

end scrolls

namespace ringchain

variable {N V E : Type} [Inhabited N]

/-- C26: in every state of every run of `Execute` on a graph built through `AddNode` and
`AddEdge`, the capacity of the job queue is the node count, which is the length of
`ListNodes`; the number of jobs submitted so far is at most that capacity; and every
submission found fewer jobs submitted before it than the capacity, so the queue had room
for it even if no worker had taken any job. -/
theorem submissions_within_capacity (Run : N → Args V → RunResult V E) (g : Graph N)
    (hg : g.Built) (args : Args V) (opts : List (GraphExecuteOptions → GraphExecuteOptions))
    (sched : List Step) (fin : execState N V)
    (h : (g.Execute Run args opts sched).state? = some fin) :
    fin.pool.queueSize = g.store.NodeCount.1 ∧
      g.store.NodeCount.1 = g.store.ListNodes.1.length ∧
      fin.pool.jobQueue.length ≤ fin.pool.queueSize ∧
      (∀ u j a, Event.submit u j a ∈ fin.trace →
        j < fin.pool.jobQueue.length ∧ j < fin.pool.queueSize) := by
  have hcap := Graph.Execute.state_capacity Run g hg args opts sched fin h
  obtain ⟨st0, hgood, ht, hjq⟩ := Graph.Execute.trace_good Run g hg args opts sched fin h
  obtain ⟨hle, hlen, hid⟩ := Graph.Execute.Good_subs_le Run g args st0 hgood
  have hjlen : fin.pool.jobQueue.length = (Event.subs st0.trace).length := by
    rw [hjq, hlen]
  refine ⟨hcap, by simp [memoryStore.NodeCount, memoryStore.ListNodes, GoMap.len, GoMap.keys],
    by rw [hjlen, hcap]; exact hle, ?_⟩
  intro u j a hsub
  have hmem : (u, j, a) ∈ Event.subs st0.trace := by
    rw [← ht]
    exact (Event.mem_subs_iff _ _ _ _).mpr hsub
  have hj := hid u j a hmem
  exact ⟨by rw [hjlen]; exact hj, by rw [hcap]; exact lt_of_lt_of_le hj hle⟩

/-- C26, on the diamond of test nodes before any worker has taken a job and after the full
run. -/
theorem submissions_within_capacity_witness :
    diamondGraph.Built ∧
    ∃ fin : execState SampleNode Bool,
      (diamondGraph.Execute SampleNode.Run [] [] diamondSchedule).state? = some fin ∧
      fin.pool.queueSize = 4 ∧ fin.pool.jobQueue.length ≤ fin.pool.queueSize ∧
      Event.submit "4" 3 [("n_1", true), ("n_2", true), ("n_3", true)] ∈ fin.trace ∧
      3 < fin.pool.queueSize := by
  obtain ⟨fin, hfin, ht⟩ := Outcome.trace?_eq_some
    (diamondGraph.Execute SampleNode.Run [] [] diamondSchedule)
    [Event.submit "1" 0 [], Event.result "1" [("n_1", true)],
      Event.submit "2" 1 [("n_1", true)], Event.submit "3" 2 [("n_1", true)],
      Event.result "2" [("n_1", true), ("n_2", true)],
      Event.result "3" [("n_1", true), ("n_3", true)],
      Event.submit "4" 3 [("n_1", true), ("n_2", true), ("n_3", true)],
      Event.result "4" [("n_1", true), ("n_2", true), ("n_3", true), ("n_4", true)],
      Event.stop, Event.wait] (by decide)
  have hsub : Event.submit "4" 3 [("n_1", true), ("n_2", true), ("n_3", true)] ∈ fin.trace := by
    rw [ht]
    decide
  have hthm := submissions_within_capacity SampleNode.Run diamondGraph ⟨_, rfl⟩ [] []
    diamondSchedule fin hfin
  have h4 : diamondGraph.store.NodeCount.1 = 4 := by decide
  exact ⟨⟨_, rfl⟩, fin, hfin, by rw [hthm.1, h4], hthm.2.2.1, hsub,
    (hthm.2.2.2 "4" 3 _ hsub).2⟩

end ringchain

namespace ringchain

/-- C27: `pop` after `push` returns the pushed element and leaves the elements as they were
before the push, and `pop` on the new stack reports false; but after `push("a")`,
`push("a")`, `pop()` the element `a` is still in the element list and no longer in the
registry. -/
theorem registry_forgets_duplicate :
    (∀ (s : stack String) (t : String),
      ((s.push t).pop).2 = (t, true) ∧ ((s.push t).pop).1.elements = s.elements) ∧
    ((stack.newStack : stack String).pop).2.2 = false ∧
    ((((stack.newStack : stack String).push "a").push "a").pop).2 = ("a", true) ∧
    "a" ∈ ((((stack.newStack : stack String).push "a").push "a").pop).1.elements ∧
    GoMap.has ((((stack.newStack : stack String).push "a").push "a").pop).1.registry "a"
      = false := by
  refine ⟨?_, by decide, by decide, by decide, by decide⟩
  intro s t
  have ht : (s.push t).top = (t, true) := by
    simp [stack.top, stack.isEmpty, stack.push]
  constructor
  · unfold stack.pop
    rw [ht]
  · unfold stack.pop
    rw [ht]
    simp [stack.push]

/-- C28: for every store, whatever its edge indices hold, and every pair of identities, the
loop of `CreatesCycle` ends within one plus the number of stored in-edges iterations: run
with that many iterations or more it returns a value, the same for every such number. -/
theorem createsCycle_loop_terminates {N : Type} (s : memoryStore N) (source target : String) :
    memoryStore.CreatesCycle.bound s = 1 + memoryStore.inEdgeCount s.inEdges ∧
    ∃ b, ∀ fuel, memoryStore.CreatesCycle.bound s ≤ fuel →
      memoryStore.CreatesCycle.loop s.inEdges target fuel
        (stack.push stack.newStack source) [] = some b := by
  refine ⟨rfl, ?_⟩
  have hspec : ∀ fuel, memoryStore.CreatesCycle.bound s ≤ fuel →
      ∃ b, memoryStore.CreatesCycle.loop s.inEdges target fuel
          (stack.push stack.newStack source) [] = some b ∧
        (b = true ↔ ∃ x, (x ∈ (stack.push stack.newStack source).elements ∨
            GoMap.has ([] : GoMap String Unit) x = true) ∧
          Relation.ReflTransGen (memoryStore.InE s.inEdges) target x) := by
    intro fuel hfuel
    apply memoryStore.loop_spec s.inEdges target fuel (stack.push stack.newStack source) []
    · simp [GoMap.has, GoMap.lookup]
    · intro v p hv
      simp [GoMap.has, GoMap.lookup] at hv
    · rw [memoryStore.pending_nil]
      simp only [stack.push, stack.newStack, List.nil_append, List.length_singleton]
      simpa [memoryStore.CreatesCycle.bound] using hfuel
  obtain ⟨b, _, hb⟩ := hspec _ (le_refl _)
  refine ⟨b, fun fuel hfuel => ?_⟩
  obtain ⟨b1, h1, hb1⟩ := hspec fuel hfuel
  rw [h1]
  congr 1
  exact Bool.eq_iff_iff.mpr (hb1.trans hb.symm)

/-- C29: in the store reached by `staleEntryCalls`, where node `k` has an edge to `b` and an
empty entry in the in-edge index, `RemoveNode("k")` fails with `ErrNodeHasEdges` and has
deleted that entry: the in-edge index after the failed call is not the one before it. -/
theorem removeNode_failure_drops_entry :
    (memoryStore.run newMemoryStore staleEntryCalls).map
        (fun s => ((s.RemoveNode "k").2, GoMap.has s.inEdges "k",
          GoMap.has (s.RemoveNode "k").1.inEdges "k",
          decide ((s.RemoveNode "k").1.inEdges = s.inEdges)))
      = some (some Error.ErrNodeHasEdges, true, false, false) := by
  decide

end ringchain

namespace ringchain

variable {N : Type} [Inhabited N]

/-- C30: in every graph built through `AddNode` and `AddEdge`, the value stored under
`outEdges[s][t]` is `Edge{SourceHash: s, TargetHash: t}` and `s` and `t` are nodes; every
edge that `ListEdges` returns is stored under its own endpoints, which `ListNodes` returns;
so `SuccessorMap` returns a map (it never assigns into a nil inner map), and the keys of the
map that `PredecessorMap` returns are exactly the nodes. -/
theorem stored_edges_closed (g : Graph N) (hg : g.Built) :
    (∀ s t e, g.store.outHolds s t e →
      e = { SourceHash := s, TargetHash := t } ∧ g.store.IsNode s ∧ g.store.IsNode t) ∧
    (∀ e ∈ g.store.ListEdges.1,
      g.store.outHolds e.SourceHash e.TargetHash e ∧
        e.SourceHash ∈ g.store.ListNodes.1 ∧ e.TargetHash ∈ g.store.ListNodes.1) ∧
    (∃ succ, g.SuccessorMap = some (succ, none) ∧
      ∀ u, GoMap.has succ u = true ↔ g.store.IsNode u) ∧
    (∃ pred, g.PredecessorMap = (pred, none) ∧
      ∀ u, GoMap.has pred u = true ↔ g.store.IsNode u) := by
  have hw := Graph.built_wellFormed g hg
  refine ⟨hw.2.2.2, ?_, ?_, ?_⟩
  · intro e he
    have hmem : ({ SourceHash := e.SourceHash, TargetHash := e.TargetHash } : Edge)
        ∈ g.store.ListEdges.1 := he
    obtain ⟨e1, he1⟩ := (Graph.mem_ListEdges g hw _ _).mp hmem
    obtain ⟨heq, hs, ht⟩ := hw.2.2.2 _ _ e1 he1
    have hee : e1 = e := heq
    rw [hee] at he1
    exact ⟨he1, (GoMap.mem_keys_iff _ _).mpr hs, (GoMap.mem_keys_iff _ _).mpr ht⟩
  · obtain ⟨succ, hs, hk, _⟩ := Graph.SuccessorMap_spec g hw
    refine ⟨succ, hs, fun u => ?_⟩
    rw [← GoMap.mem_keys_iff, hk, GoMap.mem_keys_iff]
    rfl
  · obtain ⟨pred, hp, hk, _⟩ := Graph.PredecessorMap_spec g hw
    refine ⟨pred, hp, fun u => ?_⟩
    rw [← GoMap.mem_keys_iff, hk, GoMap.mem_keys_iff]
    rfl

/-- C30, on the chain `1 → 2 → 3`. -/
theorem stored_edges_closed_witness :
    chainGraph.Built ∧
    (∀ s t e, chainGraph.store.outHolds s t e →
      e = { SourceHash := s, TargetHash := t } ∧ chainGraph.store.IsNode s ∧
        chainGraph.store.IsNode t) ∧
    (∃ succ, chainGraph.SuccessorMap = some (succ, none) ∧
      ∀ u, GoMap.has succ u = true ↔ chainGraph.store.IsNode u) :=
  ⟨⟨_, rfl⟩, (stored_edges_closed chainGraph ⟨_, rfl⟩).1,
    (stored_edges_closed chainGraph ⟨_, rfl⟩).2.2.1⟩

end ringchain
